import Mathlib

/-!
# esniper: a verification development

Shallow embedding of parts of the esniper sources (auctionfile.c,
auctioninfo.c, auction.c, history.c, html.c, http.c, util.c) together with
theorems about them.

Conventions of the embedding:

* a C string (`char *`) is a `List Char`, one `Char` per byte, the end of the
  list standing for the terminating NUL; a nullable pointer is an `Option`;
* `int`, `long` and `time_t` values are `Int`; `long` and `time_t` are taken to
  be 64 bits wide. Where the sources add or multiply values read from a page
  (`getSeconds`) the result is reduced with `wrapLong`; conversions to `int`
  go through `toInt`, and the clock arithmetic of `watch` stays far inside the
  range and is left in `Int`;
* the end time `start + remain` of `parseBidHistoryInternal` is handed to
  `localtime` and the result of that to `strftime`, unchecked: where the sum
  is not a value of `time_t`, or `localtime` returns `NULL`, the behaviour is
  undefined (`setEndTime`); which times `localtime` can break down is a
  parameter of the parse (`ParseEnv.localtime`);
* a value of type `double` is the rational number (`ℚ`) that it stands for.
  The arithmetic is that of IEEE 754 binary64 with rounding to nearest, every
  operation being rounded to `double` (`FLT_EVAL_METHOD` 0, no fused
  multiply-add): a literal, the result of `atof` and the result of `+`, `-`
  and `*` are the `double` nearest to the exact value (`roundDouble`);
  comparisons are exact. The range of the exponent is not bounded above:
  numbers beyond 1.8e308, which the program would hold as infinity, are
  outside the embedding;
* the growing buffers of buffer.h (`addchar`, `term`) are lists, and `resize`
  is taken to succeed. A move of the buffer by `resize` is not followed: in
  `getNonTag` the pointer `cp = &buf[amp]` is taken before `term` and read
  after it, which is the same memory as long as `term` does not have to
  resize, that is, unless the text read so far is a whole multiple of 1024
  bytes long;
* of `bugReport` only one effect is followed, where the parser reads it: at
  the point where a price text cannot be converted, `bugReport` has called
  `getPageInfo`, and with it `getNonTag`, whose static buffer the price text
  lives in (`bugReportLine`);
* of `sortAuctions` the purge loop that follows the sort is embedded
  (`purgeAuctions`), together with the comparison function of the sort
  (`compareAuctionInfo`); the clock gives the value of `time(NULL)` for each
  pass of the loop;
* `readAuctionFile` is given the bytes of the file, or nothing when the file
  cannot be opened; the byte that `getc` returned last is kept at the head of
  the bytes still to be read, and the number of auction lines is taken to fit
  an `int`.
-/

namespace Esniper

/-! ## Data model (auctioninfo.h) -/

/-- A C string: the bytes before the terminating NUL. -/
abbrev CStr := List Char

/-- The enumeration `enum auctionErrorCode` of auctioninfo.h. -/
inductive AuctionErrorCode
  | ae_none
  | ae_baditem
  | ae_notitle
  | ae_noprice
  | ae_convprice
  | ae_noquantity
  | ae_notime
  | ae_badtime
  | ae_nohighbid
  | ae_curlerror
  | ae_bidprice
  | ae_biduiid
  | ae_badpass
  | ae_outbid
  | ae_reservenotmet
  | ae_ended
  | ae_duplicate
  | ae_toomany
  | ae_unavailable
  | ae_login
  | ae_buyerblockpref
  | ae_buyerblockprefdoesnotshiptolocation
  | ae_buyerblockprefnolinkedpaypalaccount
  | ae_highbidder
  | ae_mustsignin
  | ae_cannotbid
  | ae_dutchsamebidquantity
  | ae_captcha
  | ae_cancelled
  | ae_bidassistant
  | ae_buyerblockprefitemcountlimitexceeded
  | ae_bidgreaterthanbin_binblock
  | ae_alert
  | ae_buyerrequirements
  | ae_unknown
  deriving DecidableEq, Repr

open AuctionErrorCode

set_option maxRecDepth 1000000

set_option maxHeartbeats 1000000

/-- The record `auctionInfo` of auctioninfo.h. -/
structure AuctionInfo where
  /-- auction number -/
  auction : CStr
  /-- auction title -/
  title : Option CStr
  /-- price you want to bid -/
  bidPriceStr : Option CStr
  /-- price you want to bid (converted to double) -/
  bidPrice : ℚ
  /-- remaining seconds -/
  remain : Int
  /-- remaining time string, from ebay -/
  remainRaw : Option CStr
  /-- end time as calculated from remaining seconds -/
  endTime : Int
  /-- latency from HTTP request to first page data -/
  latency : Int
  /-- bid history query -/
  query : Option CStr
  /-- bid uiid -/
  biduiid : Option CStr
  /-- number of items available -/
  quantity : Int
  /-- number of items currently bid on -/
  quantityBid : Int
  /-- number of bids made -/
  bids : Int
  /-- current price -/
  price : ℚ
  /-- shipping cost -/
  shipping : Option CStr
  /-- currency used in auction -/
  currency : Option CStr
  /-- result code from bid (-1 = no bid yet, 0 = success, 1 = error) -/
  bidResult : Int
  /-- auction has reserve and it has not been met -/
  reserve : Int
  /-- number won (-1 = no clue) -/
  won : Int
  /-- number currently winning (-1 = no clue) -/
  winning : Int
  /-- error encountered while parsing -/
  auctionError : AuctionErrorCode
  /-- details of error -/
  auctionErrorDetail : Option CStr
  deriving DecidableEq

/-! ## Floating point -/

/-- Rounding to the nearest whole number, a tie going to the even one. -/
def roundHalfEven (q : ℚ) : Int :=
  if q - ⌊q⌋ < 1 / 2 then ⌊q⌋
  else if 1 / 2 < q - ⌊q⌋ then ⌊q⌋ + 1
  else if ⌊q⌋ % 2 = 0 then ⌊q⌋ else ⌊q⌋ + 1

/-- The number of times that `n` can be halved before it is less than 2, that
is the exponent of its leading bit; `fuel` bounds the number of steps. -/
def halvings : Nat → Nat → Nat
  | 0, _ => 0
  | fuel + 1, n => if n < 2 then 0 else halvings fuel (n / 2) + 1

/-- The exponent of the leading bit of `x`: the whole number `e` with
`2^e ≤ |x| < 2^(e+1)`, for `x` other than 0. -/
def binaryExponent (x : ℚ) : Int :=
  let d : Int := (halvings x.num.natAbs x.num.natAbs : Int) - (halvings x.den x.den : Int)
  if (2 : ℚ) ^ d ≤ |x| then d else d - 1

/-- The exponent of the unit in the last place of the `double` nearest to `x`:
53 significant bits, the least exponent being that of the subnormal numbers. -/
def ulpExponent (x : ℚ) : Int := max (binaryExponent x - 52) (-1074)

/-- The `double` nearest to `x` (IEEE 754 binary64, rounding to nearest, a tie
going to the even significand): the value of a literal of type `double` and
the result of every operation on values of type `double`. -/
def roundDouble (x : ℚ) : ℚ := (roundHalfEven (x / 2 ^ ulpExponent x) : ℚ) * 2 ^ ulpExponent x

/-- The sum `x + y` of two values of type `double`. -/
def doubleAdd (x y : ℚ) : ℚ := roundDouble (x + y)

/-- The difference `x - y` of two values of type `double`. -/
def doubleSub (x y : ℚ) : ℚ := roundDouble (x - y)

/-- An array of `double` with the given initialisers. -/
def doubleTable (table : List ℚ) : List ℚ := table.map roundDouble

/-! ## Bid increments (auctioninfo.c) -/

/-- Australia. First number is the threshold for the next increment range,
second is the increment. -/
def AUIncrements : List ℚ :=
  doubleTable
    [1.00, 0.05, 5.00, 0.25, 25.00, 0.50, 100.00, 1.00, 250.00, 2.50,
     500.00, 5.00, 1000.00, 10.00, 2500.00, 25.00, 5000.00, 50.00, -1.00, 100.00]

/-- Austria, Belgium, France, Germany, Italy, Netherlands, Spain. -/
def EURIncrements : List ℚ :=
  doubleTable
    [50.00, 0.50, 500.00, 1.00, 1000.00, 5.00, 5000.00, 10.00, -1.00, 50.00]

/-- Canada. -/
def CADIncrements : List ℚ :=
  doubleTable
    [1.00, 0.05, 5.00, 0.25, 25.00, 0.50, 100.00, 1.00, -1.00, 2.50]

/-- China. -/
def RMBIncrements : List ℚ :=
  doubleTable
    [1.01, 0.05, 5.01, 0.20, 15.01, 0.50, 60.01, 1.00, 150.01, 2.00,
     300.01, 5.00, 600.01, 10.00, 1500.01, 20.00, 3000.01, 50.00, -1.00, 100.00]

/-- Hong Kong. -/
def HKDIncrements : List ℚ := doubleTable [-1.00, 0.01]

/-- Singapore. -/
def SGDIncrements : List ℚ := doubleTable [-1.00, 0.01]

/-- Switzerland. -/
def CHFIncrements : List ℚ :=
  doubleTable
    [50.00, 0.50, 500.00, 1.00, 1000.00, 5.00, 5000.00, 10.00, -1.00, 50.00]

/-- Taiwan. -/
def NTIncrements : List ℚ :=
  doubleTable
    [501.00, 15.00, 2501.00, 30.00, 5001.00, 50.00, 25001.00, 100.00, -1.00, 200.00]

/-- Ireland, Sweden, UK. -/
def GBPIncrements : List ℚ :=
  doubleTable
    [1.01, 0.05, 5.01, 0.20, 15.01, 0.50, 60.01, 1.00, 150.01, 2.00,
     300.01, 5.00, 600.01, 10.00, 1500.01, 20.00, 3000.01, 50.00, -1.00, 100.00]

/-- New Zealand, US. -/
def USIncrements : List ℚ :=
  doubleTable
    [1.00, 0.05, 5.00, 0.25, 25.00, 0.50, 100.00, 1.00, 250.00, 2.50,
     500.00, 5.00, 1000.00, 10.00, 2500.00, 25.00, 5000.00, 50.00, -1.00, 100.00]

/-- Unknown currency. Increment 0.01, just to be on the safe side. -/
def defaultIncrements : List ℚ := doubleTable [-1.00, 0.01]

/-- The function `getIncrements`: the table for the currency of the record
(the US table when the currency is not known yet). -/
def getIncrements (aip : AuctionInfo) : List ℚ :=
  match aip.currency with
  | none => USIncrements
  | some currency =>
    match currency.head? with
    | some 'A' =>
      if currency = "AU".toList then AUIncrements else defaultIncrements
    | some 'C' =>
      if currency = "C".toList then CADIncrements
      else if currency = "CHF".toList then CHFIncrements
      else defaultIncrements
    | some 'E' =>
      if currency = "EUR".toList then EURIncrements else defaultIncrements
    | some 'G' =>
      if currency = "GBP".toList then GBPIncrements else defaultIncrements
    | some 'H' =>
      if currency = "HKD".toList then HKDIncrements else defaultIncrements
    | some 'N' =>
      if currency = "NT".toList then NTIncrements else defaultIncrements
    | some 'R' =>
      if currency = "RMB".toList then RMBIncrements else defaultIncrements
    | some 'S' =>
      if currency = "SGD".toList then SGDIncrements else defaultIncrements
    | some 'U' =>
      if currency = "US".toList then USIncrements else defaultIncrements
    | _ => defaultIncrements

/-- The lookup loop of `isValidBidPrice`,
`for (i = 0; increments[i] > 0; i += 2) if (price < increments[i]) break;`
followed by `increment = increments[i+1]`, run on the part of the array that
starts at index `i`. A table that ends without a sentinel gives 0. -/
def lookupIncrement : List ℚ → ℚ → ℚ
  | t :: inc :: rest, price =>
    if 0 < t then
      if price < t then inc else lookupIncrement rest price
    else inc
  | _, _ => 0

/-- The tolerance `EPSILON` of `isValidBidPrice`: `static double EPSILON =
0.0001`. -/
def EPSILON : ℚ := roundDouble 0.0001

/-- The increment that `isValidBidPrice` adds to the current price. -/
def bidIncrement (aip : AuctionInfo) : ℚ :=
  if aip.quantityBid = aip.quantity ∧ aip.winning = 0 then
    lookupIncrement (getIncrements aip) aip.price
  else 0.0

/-- The function `isValidBidPrice`: determine if the bid price is valid,
`return aip->bidPrice >= (aip->price + increment - EPSILON)`. -/
def isValidBidPrice (aip : AuctionInfo) : Bool :=
  decide (aip.bidPrice ≥ doubleSub (doubleAdd aip.price (bidIncrement aip)) EPSILON)

/-- The record built by `newAuctionInfo`, given the fixed-up price text and
its numeric value. -/
def newAuctionInfoWith (auction : CStr) (bidPriceStr : Option CStr) (bidPrice : ℚ) :
    AuctionInfo :=
  { auction := auction, title := none, bidPriceStr := bidPriceStr, bidPrice := bidPrice,
    remain := 0, remainRaw := none, endTime := 0, latency := 0, query := none,
    biduiid := none, quantity := 0, quantityBid := 0, bids := 0, price := 0,
    shipping := none, currency := none, bidResult := -1, reserve := 0, won := -1,
    winning := 0, auctionError := ae_none, auctionErrorDetail := none }

/-! ### The words of the specification about increment tables -/

/-- The (threshold, increment) pairs of a table. -/
def tableEntries : List ℚ → List (ℚ × ℚ)
  | t :: inc :: rest => (t, inc) :: tableEntries rest
  | _ => []

/-- The finite thresholds of a table with their increments: the entries before
the sentinel. -/
def finiteEntries (table : List ℚ) : List (ℚ × ℚ) :=
  (tableEntries table).takeWhile (fun e => decide (0 < e.1))

/-- The increment paired with the sentinel threshold: the default above all
finite thresholds. -/
def sentinelIncrement (table : List ℚ) : ℚ :=
  match (tableEntries table).dropWhile (fun e => decide (0 < e.1)) with
  | e :: _ => e.2
  | [] => 0

/-- The lookup in the words of the specification: the increment associated
with the first threshold strictly greater than the price, and the sentinel
default when there is none. -/
def specIncrement (table : List ℚ) (price : ℚ) : ℚ :=
  match (finiteEntries table).find? (fun e => decide (price < e.1)) with
  | some e => e.2
  | none => sentinelIncrement table

/-- The tables that have a currency code, and the default table. -/
def incrementTables : List (List ℚ) :=
  [AUIncrements, EURIncrements, CADIncrements, RMBIncrements, HKDIncrements,
   SGDIncrements, CHFIncrements, NTIncrements, GBPIncrements, USIncrements,
   defaultIncrements]

/-- A table whose last pair is the sentinel and whose increments ascend. -/
def ascendingTable : List ℚ → Bool
  | [t, _] => decide (t ≤ 0)
  | t :: inc :: t2 :: inc2 :: rest =>
    decide (0 < t) && decide (inc ≤ inc2) && ascendingTable (t2 :: inc2 :: rest)
  | _ => false

/-- A table of decimal numbers that ends with the sentinel -1, whose
thresholds before it are at least 0.001 and whose increments grow by more than
a thousandth from one pair to the next. -/
def SeparatedTable : List ℚ → Prop
  | [t, inc] => t = -1 ∧ 0 ≤ inc
  | t :: inc :: t2 :: inc2 :: rest =>
    1 / 1000 ≤ t ∧ 0 ≤ inc ∧ inc * (1001 / 1000) + 1 / 1000 ≤ inc2 ∧
      SeparatedTable (t2 :: inc2 :: rest)
  | _ => False

/-- A record on which the user is the high bidder: US currency, current price
10.00, bid price 10.20. -/
def winningRecord : AuctionInfo :=
  { newAuctionInfoWith "1".toList (some "10.20".toList) (roundDouble 10.20) with
    currency := some "US".toList, price := 10.00, quantity := 1, quantityBid := 1,
    winning := 1 }

/-- A record in US currency with one item, on which one bid was made: the
current price and the bid price are the values of type `double` of the given
decimal numbers. -/
def pricedRecord (price bidPrice : ℚ) (winning : Int) : AuctionInfo :=
  { newAuctionInfoWith "1".toList none (roundDouble bidPrice) with
    currency := some "US".toList, price := roundDouble price, quantity := 1, quantityBid := 1,
    winning := winning }

/-- The increment of `isValidBidPrice` in words: the one that the table of the
record's currency associates with the first threshold strictly greater than
the price (the sentinel's above all thresholds) when `quantityBid = quantity`
and `winning = 0`, and 0 otherwise. -/
def guardedIncrement (aip : AuctionInfo) : ℚ :=
  if aip.quantityBid = aip.quantity ∧ aip.winning = 0 then
    specIncrement (getIncrements aip) aip.price
  else 0

/-! ## C library functions -/

/-- The constant `LONG_MIN` for a 64-bit `long`. -/
def LONG_MIN : Int := -(2 ^ 63)

/-- The constant `LONG_MAX` for a 64-bit `long`. -/
def LONG_MAX : Int := 2 ^ 63 - 1

/-- The function `isspace` in the C locale. -/
def isspace (c : Char) : Bool :=
  c = ' ' || c = '\t' || c = '\n' || c = '\x0b' || c = '\x0c' || c = '\r'

/-- The function `isdigit`. -/
def isdigit (c : Char) : Bool := decide ('0' ≤ c) && decide (c ≤ '9')

/-- The function `isalpha` in the C locale. -/
def isalpha (c : Char) : Bool :=
  (decide ('a' ≤ c) && decide (c ≤ 'z')) || (decide ('A' ≤ c) && decide (c ≤ 'Z'))

/-- The test `strncmp(s, t, n) == 0`: the first `n` bytes of both strings, or
the whole strings when they are shorter, are the same. -/
def strncmpEq (s t : CStr) (n : Nat) : Bool := decide (s.take n = t.take n)

/-- The function `strstr`: the part of `hay` that begins at the first
occurrence of `needle`, or `none`. -/
def strstr : CStr → CStr → Option CStr
  | [], needle => if needle = [] then some [] else none
  | c :: hay, needle =>
    if strncmpEq (c :: hay) needle needle.length then some (c :: hay) else strstr hay needle

/-- Two's complement reduction of a value to a 64-bit `long`. -/
def wrapLong (x : Int) : Int := (x + 2 ^ 63) % 2 ^ 64 - 2 ^ 63

/-- The digits read by `strtol`: the value of the leading run of decimal
digits, on top of `acc`, and the text after the run. -/
def strtolDigits : CStr → Nat → Nat × CStr
  | [], acc => (acc, [])
  | c :: cs, acc =>
    if isdigit c then strtolDigits cs (acc * 10 + (c.toNat - '0'.toNat)) else (acc, c :: cs)

/-- The optional sign read by `strtol`: whether it is a minus, and the text
after it. -/
def strtolSign (t : CStr) : Bool × CStr :=
  match t with
  | '-' :: r => (true, r)
  | '+' :: r => (false, r)
  | _ => (false, t)

/-- The function `strtol(s, &end, 10)`: skips white space, takes an optional
sign and a run of digits; the value is clamped to the range of `long`. Without
a digit the value is 0 and `end` is `s`. -/
def strtol (s : CStr) : Int × CStr :=
  let signed := strtolSign (s.dropWhile isspace)
  match signed.2 with
  | [] => (0, s)
  | c :: _ =>
    if isdigit c then
      let digits := strtolDigits signed.2 0
      let x : Int := if signed.1 then -(digits.1 : Int) else (digits.1 : Int)
      (if x > LONG_MAX then LONG_MAX else if x < LONG_MIN then LONG_MIN else x, digits.2)
    else (0, s)

/-! ## Remaining time (history.c) -/

/-- The `while (*timestr)` loop of `getSeconds`, run for at most `fuel`
passes; `none` when the fuel does not suffice. -/
def getSecondsLoop : Nat → CStr → Int → Option Int
  | 0, _, _ => none
  | fuel + 1, timestr, accum =>
    if timestr = [] then some accum
    else
      let (num, timestr) := strtol timestr
      let timestr := timestr.dropWhile isspace
      if strncmpEq timestr "sec".toList 3 then some (wrapLong (accum + num))
      else
        let next : Option Int :=
          if strncmpEq timestr "min".toList 3 then some (wrapLong (accum + wrapLong (num * 60)))
          else if strncmpEq timestr "hour".toList 4 then
            some (wrapLong (accum + wrapLong (num * 3600)))
          else if strncmpEq timestr "day".toList 3 then
            some (wrapLong (accum + wrapLong (num * 86400)))
          else none
        match next with
        | none => some (-1)
        | some accum =>
          getSecondsLoop fuel (timestr.dropWhile (fun c => !isdigit c)) accum

/-- The function `getSeconds`; `none` would mean that the loop does not end
within `length + 1` passes (it always does: `getSeconds_isSome`). -/
def getSeconds (timestr : CStr) : Option Int :=
  -- skip leading space
  let timestr := timestr.dropWhile isspace
  if timestr = [] ∨ strncmpEq timestr "--".toList 2 then some 1
  else if (strstr timestr "ended".toList).isSome then some 0
  else getSecondsLoop (timestr.length + 1) timestr 0

/-! ## Price text (util.c) -/

/-- The byte `price[i]` of a string of length `len`: the terminating NUL at
`i = len`. -/
def byteAt (price : CStr) (i : Nat) : Char := price.getD i '\x00'

/-- The loop `for (; start < len && isalpha(price[start]); ++start) ;` of
`priceFixup`, with `fuel` passes left; gives the final `start`. -/
def skipAlpha (price : CStr) (len : Nat) : Nat → Nat → Nat
  | 0, start => start
  | fuel + 1, start =>
    if start < len ∧ isalpha (byteAt price start) then skipAlpha price len fuel (start + 1)
    else start

/-- The loop `for (; start < len && !isdigit(price[start]) && price[start] != ','
&& price[start] != '.'; ++start) ;` of `priceFixup`. -/
def skipToNumber (price : CStr) (len : Nat) : Nat → Nat → Nat
  | 0, start => start
  | fuel + 1, start =>
    if start < len ∧ !isdigit (byteAt price start) ∧ byteAt price start ≠ ','
        ∧ byteAt price start ≠ '.' then
      skipToNumber price len fuel (start + 1)
    else start

/-- The loop `for (i = start; i < len; ++i)` of `priceFixup` that finds the
end of the number and counts its separators; gives `(i, count)`. -/
def scanNumber (price : CStr) (len : Nat) : Nat → Nat → Nat → Nat × Nat
  | 0, i, count => (i, count)
  | fuel + 1, i, count =>
    if i < len then
      if isdigit (byteAt price i) then scanNumber price len fuel (i + 1) count
      else if byteAt price i = ',' ∨ byteAt price i = '.' then
        scanNumber price len fuel (i + 1) (count + 1)
      else (i, count)
    else (i, count)

/-- The loop `for (j = 0, i = start; i < end; ++i)` of `priceFixup`, which
rewrites the buffer in place; `count` is a `size_t`. Gives the buffer and the
final `j`. -/
def copyNumber (end_ : Nat) : Nat → CStr → Nat → Nat → Nat → CStr × Nat
  | 0, price, _, j, _ => (price, j)
  | fuel + 1, price, i, j, count =>
    if i < end_ then
      if byteAt price i = ',' ∨ byteAt price i = '.' then
        let count := (count + 2 ^ 64 - 1) % 2 ^ 64
        if count = 0 then copyNumber end_ fuel (price.set j '.') (i + 1) (j + 1) count
        else copyNumber end_ fuel price (i + 1) j count
      else copyNumber end_ fuel (price.set j (byteAt price i)) (i + 1) (j + 1) count
    else (price, j)

/-- The function `priceFixup`: fixup a price to something that `atof` and eBay
will accept. Gives the text left in the buffer `price` and the record. -/
def priceFixup (price : Option CStr) (aip : Option AuctionInfo) :
    Option CStr × Option AuctionInfo :=
  match price with
  | none => (none, aip)
  | some price =>
    let len := price.length
    let found : Nat × Option AuctionInfo :=
      match aip with
      | some a =>
        if a.currency = none then
          let start := skipAlpha price len len 0
          -- price[start] = 0; currency = myStrdup(price); price[start] = tmp
          (start, some { a with currency := some (price.take start) })
        else (0, aip)
      | none => (0, aip)
    let start := skipToNumber price len (len - found.1) found.1
    let (end_, count) := scanNumber price len (len - start) start 0
    let (buf, j) := copyNumber end_ (end_ - start) price start 0 count
    -- price[j] = 0
    (some (buf.take j), found.2)

/-! ### The words of the specification about price text -/

/-- A separator of a price text. -/
def isSeparator (c : Char) : Bool := c = ',' || c = '.'

/-- The maximal leading alphabetic run of a text. -/
def leadingAlpha (text : CStr) : CStr := text.takeWhile isalpha

/-- A digit or a separator. -/
def isNumberChar (c : Char) : Bool := isdigit c || isSeparator c

/-- The first run of digits, commas and dots of a text. -/
def firstNumberRun (text : CStr) : CStr :=
  (text.dropWhile (fun c => !isNumberChar c)).takeWhile isNumberChar

/-- A run with every separator removed except the last one, which becomes a
dot. -/
def keepLastSeparator : CStr → CStr
  | [] => []
  | c :: cs =>
    if isSeparator c then
      if cs.any isSeparator then keepLastSeparator cs else '.' :: keepLastSeparator cs
    else c :: keepLastSeparator cs

/-! ## Error state (auctioninfo.c) -/

/-- The function `resetAuctionError`: reset parse error code. -/
def resetAuctionError (aip : AuctionInfo) : AuctionInfo :=
  { aip with auctionError := ae_none, auctionErrorDetail := none }

/-- The function `auctionError`: set parse error; returns 1 and the record. -/
def auctionError (aip : AuctionInfo) (pe : AuctionErrorCode) (details : Option CStr) :
    Int × AuctionInfo :=
  let aip := resetAuctionError aip
  let aip := { aip with auctionError := pe }
  match details with
  | some d => (1, { aip with auctionErrorDetail := some d })
  | none => (1, aip)

/-! ## Configuration (esniper.h) -/

/-- The fields of `option_t` that the embedded code reads. -/
structure Options where
  /-- the configured user name -/
  username : CStr
  /-- seconds before the end of the auction at which to bid -/
  bidtime : Int
  /-- number of items wanted -/
  quantity : Int
  /-- debug logging flag -/
  debug : Int

/-! ## The watch loop (auction.c) -/

/-- The variable `defaultLoginInterval`: ebay login interval. -/
def defaultLoginInterval : Int := 12 * 60 * 60

/-- Conversion to `unsigned int` (32 bits). -/
def toUnsignedInt (x : Int) : Int := x % 2 ^ 32

/-- The sleep schedule of `watch`: the value given to `sleepTime` for a
remaining time `remain`, so we get updates once a day, then at 2 hours,
1 hour, 5 minutes, 2 minutes. -/
def sleepSchedule (remain : Int) : Int :=
  if remain ≤ 150 then toUnsignedInt remain
  else if remain < 720 then toUnsignedInt (toUnsignedInt remain - 120)
  else if remain < 3900 then toUnsignedInt (toUnsignedInt remain - 600)
  else if remain < 10800 then toUnsignedInt (toUnsignedInt remain - 3600)
  else if remain < 97200 then toUnsignedInt (toUnsignedInt remain - 7200)
  else 86400

/-- The collaborators of `watch`: the clock, the timed sleep and the functions
of auction.c that talk to the network, acting on a world state `W`. Each
function returns the C return value, the record as it leaves it, and the new
world. -/
structure Collaborators (W : Type) where
  /-- the call `time(NULL)` -/
  time : W → Int × W
  /-- the call `getInfoTiming(aip, &timeToFirstByte)`: return value, the value
  left in `timeToFirstByte` (0 when it is not set) and the record -/
  getInfoTiming : AuctionInfo → W → (Int × Int × AuctionInfo) × W
  /-- the call `getInfo(aip)` -/
  getInfo : AuctionInfo → W → (Int × AuctionInfo) × W
  /-- the call `ebayLogin(aip, interval)` -/
  ebayLogin : AuctionInfo → Int → W → (Int × AuctionInfo) × W
  /-- the call `forceEbayLogin(aip)` -/
  forceEbayLogin : AuctionInfo → W → (Int × AuctionInfo) × W
  /-- the call `preBid(aip)` -/
  preBid : AuctionInfo → W → (Int × AuctionInfo) × W
  /-- the call `sleep(seconds)` -/
  sleep : Int → W → W

/-- The macro `newRemain(aip)`:
`aip->endTime - time(NULL) - aip->latency - options.bidtime`. -/
def newRemain {W : Type} (env : Collaborators W) (opts : Options) (aip : AuctionInfo)
    (w : W) : Int × W :=
  let (now, w) := env.time w
  (aip.endTime - now - aip.latency - opts.bidtime, w)

/-- The local variables of `watch` that live across iterations. -/
structure WatchState where
  /-- the variable `errorCount` -/
  errorCount : Int
  /-- the variable `remain`, `LONG_MIN` before the first successful fetch -/
  remain : Int
  /-- the variable `sleepTime` -/
  sleepTime : Int
  deriving DecidableEq

/-- The initial values of the local variables of `watch`. -/
def WatchState.init : WatchState := { errorCount := 0, remain := LONG_MIN, sleepTime := 0 }

/-- The first-time retry loop of `watch`:
`for (j = 0; ret && j < 3 && aip->auctionError == ae_notitle; ++j) ret = getInfo(aip);`
with `n` the number of values of `j` still to come. -/
def firstTimeRetries {W : Type} (env : Collaborators W) :
    Nat → Int → AuctionInfo → W → Int × AuctionInfo × W
  | 0, ret, aip, w => (ret, aip, w)
  | n + 1, ret, aip, w =>
    if ret ≠ 0 ∧ aip.auctionError = ae_notitle then
      let ((ret, aip), w) := env.getInfo aip w
      firstTimeRetries env n ret aip w
    else (ret, aip, w)

/-- The bid-key loop of `watch`: up to five calls of `preBid`, with `n` the
number of values of `i` still to come. -/
def preBidLoop {W : Type} (env : Collaborators W) : Nat → AuctionInfo → W → AuctionInfo × W
  | 0, aip, w => (aip, w)
  | n + 1, aip, w =>
    let ((r, aip), w) := env.preBid aip w
    if r = 0 ∨ aip.auctionError = ae_biduiid then (aip, w)
    else if aip.auctionError = ae_mustsignin then
      let ((r2, aip), w) := env.forceEbayLogin aip w
      if r2 ≠ 0 then (aip, w) else preBidLoop env n aip w
    else preBidLoop env n aip w

/-- What one pass through the body of the `for (;;)` loop of `watch` does. -/
inductive WatchStep (W : Type) where
  /-- the function returns with this value -/
  | returned (ret : Int) (aip : AuctionInfo) (w : W)
  /-- the loop goes on, by `continue` or by reaching the end of the body -/
  | again (st : WatchState) (aip : AuctionInfo) (w : W)

/-- The end of the loop body of `watch`, from `remain = newRemain(aip)` after
the bid-key block: leave the loop when it is time, else sleep and look again. -/
def watchSleep {W : Type} (env : Collaborators W) (opts : Options) (st : WatchState)
    (aip : AuctionInfo) (w : W) : WatchStep W :=
  let (remain, w) := newRemain env opts aip w
  let st : WatchState := { st with remain := remain }
  -- it is time
  if remain ≤ 0 then .returned 0 aip w
  else
    let st : WatchState := { st with sleepTime := sleepSchedule remain }
    let w := env.sleep st.sleepTime w
    let (remain, w) := newRemain env opts aip w
    let st : WatchState := { st with remain := remain }
    if remain ≤ 0 then .returned 0 aip w
    else .again st aip w

/-- The bid-key block of the loop body of `watch` and what follows it: if we
are less than two minutes away, get bid key. -/
def watchBidKey {W : Type} (env : Collaborators W) (opts : Options) (st : WatchState)
    (aip : AuctionInfo) (w : W) : WatchStep W :=
  if st.remain ≤ 150 ∧ aip.biduiid = none ∧ aip.auctionError = ae_none then
    let (aip, w) := preBidLoop env 5 aip w
    if aip.auctionError ≠ ae_none ∧ aip.auctionError ≠ ae_highbidder then
      .returned 1 aip w
    else watchSleep env opts st aip w
  else watchSleep env opts st aip w

/-- The part of the loop body of `watch` from `Check login when we are close
to bidding` to the end. -/
def watchTail {W : Type} (env : Collaborators W) (opts : Options) (st : WatchState)
    (aip : AuctionInfo) (w : W) : WatchStep W :=
  if st.remain ≤ 300 then
    let ((r, aip), w) := env.ebayLogin aip (defaultLoginInterval - 600) w
    if r ≠ 0 then .returned 1 aip w
    else
      let (remain, w) := newRemain env opts aip w
      watchBidKey env opts { st with remain := remain } aip w
  else watchBidKey env opts st aip w

/-- The statement `log(("ERROR %d!!!\n", ++errorCount));` with the macro
`#define log(x) if (!options.debug) ; else dlog x` of esniper.h expanded: the
argument list, and with it `++errorCount`, is evaluated in the `else` branch
only. -/
def logErrorCount (opts : Options) (errorCount : Int) : Int :=
  if opts.debug = 0 then errorCount else errorCount + 1

/-- One pass through the body of the `for (;;)` loop of `watch`. -/
def watchBody {W : Type} (env : Collaborators W) (opts : Options) (st : WatchState)
    (aip : AuctionInfo) (w : W) : WatchStep W :=
  let (start, w) := env.time w
  let ((ret, timeToFirstByte, aip), w) := env.getInfoTiming aip w
  let (end_, w) := env.time w
  let timeToFirstByte := if timeToFirstByte = 0 then end_ else timeToFirstByte
  let tmpLatency := timeToFirstByte - start
  let aip : AuctionInfo :=
    if 0 ≤ tmpLatency ∧ tmpLatency < 600 then { aip with latency := tmpLatency } else aip
  if ret ≠ 0 then
    -- Fatal error?  We allow up to 50 errors, then quit.
    -- eBay "unavailable" does not count towards the total.
    if aip.auctionError = ae_unavailable then
      let (remain, w) := if st.remain ≥ 0 then newRemain env opts aip w else (st.remain, w)
      let st : WatchState := { st with remain := remain }
      if remain = LONG_MIN ∨ remain > 86400 then
        let st : WatchState := { st with sleepTime := 3600 }
        let w := env.sleep st.sleepTime w
        .again st aip w
      else watchTail env opts st aip w
    else if st.remain = LONG_MIN then
      -- first time through?  Give it 3 chances then make the error fatal.
      let (ret, aip, w) := firstTimeRetries env 3 ret aip w
      if ret ≠ 0 then .returned 1 aip w
      else
        let (remain, w) := newRemain env opts aip w
        watchTail env opts { st with remain := remain } aip w
    else
      -- non-fatal error
      let st : WatchState := { st with errorCount := logErrorCount opts st.errorCount }
      if st.errorCount > 50 then
        let (r, aip) := auctionError aip ae_toomany none
        .returned r aip w
      else
        let (remain, w) := newRemain env opts aip w
        watchTail env opts { st with remain := remain } aip w
  else if ¬ isValidBidPrice aip then
    let (r, aip) := auctionError aip ae_bidprice none
    .returned r aip w
  else
    let (remain, w) := newRemain env opts aip w
    watchTail env opts { st with remain := remain } aip w

/-- The `for (;;)` loop of `watch`, run for at most `fuel` passes: `inl` is the
return of the function, `inr` the state in which pass `fuel + 1` would begin. -/
def watchLoop {W : Type} (env : Collaborators W) (opts : Options) :
    Nat → WatchState → AuctionInfo → W → (Int × AuctionInfo × W) ⊕ (WatchState × AuctionInfo × W)
  | 0, st, aip, w => .inr (st, aip, w)
  | fuel + 1, st, aip, w =>
    match watchBody env opts st aip w with
    | .returned ret aip w => .inl (ret, aip, w)
    | .again st aip w => watchLoop env opts fuel st aip w

/-- The function `watch`: watch auction until it is time to bid, run for at
most `fuel` passes of its loop. -/
def watch {W : Type} (env : Collaborators W) (opts : Options) (fuel : Nat)
    (aip : AuctionInfo) (w : W) :
    (Int × AuctionInfo × W) ⊕ (WatchState × AuctionInfo × W) :=
  watchLoop env opts fuel WatchState.init aip w

/-! ### The outage scenario -/

/-- World of the outage scenario: the clock and the number of fetches made. -/
structure OutageWorld where
  /-- seconds since the start of the run -/
  clock : Int
  /-- fetches made so far -/
  fetches : Nat
  deriving DecidableEq

/-- Collaborators of the outage scenario: the first fetch succeeds and finds an
auction that ends at second 8640000 (100 days after the start); every later
fetch fails with a connection error. Sleeping moves the clock forward by the
time slept, logging in succeeds. -/
def outageEnv : Collaborators OutageWorld where
  time := fun w => (w.clock, w)
  getInfoTiming := fun aip w =>
    if w.fetches = 0 then
      ((0, w.clock, { resetAuctionError aip with
          endTime := 8640000, remain := 8640000 - w.clock, price := 1.00, quantity := 1,
          quantityBid := 1, bids := 1, currency := some "US".toList }),
        { w with fetches := w.fetches + 1 })
    else
      (((auctionError aip ae_curlerror none).1, 0, (auctionError aip ae_curlerror none).2),
        { w with fetches := w.fetches + 1 })
  getInfo := fun aip w => (auctionError aip ae_curlerror none, w)
  ebayLogin := fun aip _ w => ((0, aip), w)
  forceEbayLogin := fun aip w => ((0, aip), w)
  preBid := fun aip w => ((0, aip), w)
  sleep := fun n w => { w with clock := w.clock + n }

/-- Configuration of the outage scenario, with the given debug flag. -/
def outageOptions (debug : Int) : Options :=
  { username := "user".toList, bidtime := 10, quantity := 1, debug := debug }

/-- The record of the outage scenario: auction 1 with a bid of 20.00. -/
def outageRecord : AuctionInfo := newAuctionInfoWith "1".toList (some "20.00".toList) 20.00

/-- The world at the start of the outage scenario. -/
def outageStart : OutageWorld := { clock := 0, fetches := 0 }

/-- The return value and error kind with which `watch` returned, if it did. -/
def watchReturned {W : Type} (r : (Int × AuctionInfo × W) ⊕ (WatchState × AuctionInfo × W)) :
    Option (Int × AuctionErrorCode) :=
  match r with
  | .inl (ret, aip, _) => some (ret, aip.auctionError)
  | .inr _ => none

/-- The error counter with which `watch` is still looping, if it is. -/
def watchCounting {W : Type} (r : (Int × AuctionInfo × W) ⊕ (WatchState × AuctionInfo × W)) :
    Option Int :=
  match r with
  | .inl _ => none
  | .inr (st, _, _) => some st.errorCount

/-- Invariant of the outage scenario: the states between two passes, after the first
fetch: the auction ends at 8640000 and is at least two days away. -/
def OutageRunning (st : WatchState) (aip : AuctionInfo) (w : OutageWorld) : Prop :=
  st.remain ≠ LONG_MIN ∧ aip.endTime = 8640000 ∧ aip.latency = 0 ∧ w.fetches ≠ 0 ∧
    0 ≤ w.clock

/-- The loop goes on, in a state that satisfies `P`. -/
def goesOn {W : Type} (P : WatchState → AuctionInfo → W → Prop) : WatchStep W → Prop
  | .again st aip w => P st aip w
  | .returned _ _ _ => False

/-! ### The words of the specification about duration texts -/

/-- The value of a decimal numeral. -/
def decimalValue (digits : CStr) : Nat :=
  digits.foldl (fun acc c => acc * 10 + (c.toNat - '0'.toNat)) 0

/-- A decimal numeral: a non-empty run of digits. -/
def isNumeral (digits : CStr) : Prop := digits ≠ [] ∧ ∀ c ∈ digits, isdigit c = true

/-- The units of a duration text above the second. -/
inductive TimeUnit
  | day
  | hour
  | min
  deriving DecidableEq

/-- The name of a unit. -/
def TimeUnit.name : TimeUnit → CStr
  | .day => "day".toList
  | .hour => "hour".toList
  | .min => "min".toList

/-- The seconds in a unit. -/
def TimeUnit.seconds : TimeUnit → Int
  | .day => 86400
  | .hour => 3600
  | .min => 60

/-- A token `<n> <unit>` of a duration text: a decimal numeral, one blank and
the unit name, in the singular or with a plural `s`. -/
structure DurationToken where
  /-- the numeral `n` -/
  digits : CStr
  /-- the unit -/
  unit : TimeUnit
  /-- whether the unit name has a plural `s` -/
  plural : Bool

/-- The text of a token. -/
def DurationToken.text (t : DurationToken) : CStr :=
  t.digits ++ ' ' :: (t.unit.name ++ if t.plural then ['s'] else [])

/-- The text of a token `<n> sec`, in the singular or with a plural `s`. -/
def secondsText (sec : CStr × Bool) : CStr :=
  sec.1 ++ ' ' :: ("sec".toList ++ if sec.2 then ['s'] else [])

/-- Texts joined by single blanks. -/
def joinBlank : List CStr → CStr
  | [] => []
  | [a] => a
  | a :: b :: rest => a ++ ' ' :: joinBlank (b :: rest)

/-- The duration text made of the tokens `toks` and of an optional last token
`<n> sec`. -/
def durationText (toks : List DurationToken) (sec : Option (CStr × Bool)) : CStr :=
  joinBlank (toks.map DurationToken.text ++ (sec.map secondsText).toList)

/-- The seconds that the tokens of a duration text add up to. -/
def durationTotal (toks : List DurationToken) (sec : Option (CStr × Bool)) : Int :=
  (toks.map (fun t => (decimalValue t.digits : Int) * t.unit.seconds)).sum
    + ((sec.map (fun s => (decimalValue s.1 : Int))).getD 0)

/-- The texts of the tokens of a duration text. -/
def tokenTexts (toks : List DurationToken) (sec : Option (CStr × Bool)) : List CStr :=
  toks.map DurationToken.text ++ (sec.map secondsText).toList

/-- A text in which a number is followed by something that is not a unit:
a numeral, white space, and a rest that begins with none of `sec`, `min`,
`hour`, `day`, nor with white space or a digit. -/
structure BadUnit (digits ws bad : CStr) : Prop where
  /-- the number -/
  numeral : isNumeral digits
  /-- the white space after it -/
  blank : ∀ c ∈ ws, isspace c = true
  /-- the rest is the next token -/
  token : ∀ c ∈ bad.head?, isspace c = false ∧ isdigit c = false
  /-- which does not begin with `sec` -/
  notSec : ¬ "sec".toList <+: bad
  /-- nor with `min` -/
  notMin : ¬ "min".toList <+: bad
  /-- nor with `hour` -/
  notHour : ¬ "hour".toList <+: bad
  /-- nor with `day` -/
  notDay : ¬ "day".toList <+: bad

/-- The number of separators of a text. -/
def countSeparators (run : CStr) : Nat := run.countP isSeparator

/-- The text that the copy loop of `priceFixup` produces from the part `run`
of the buffer that it reads, with `count` separators still to come. -/
def copySpec : CStr → Nat → CStr
  | [], _ => []
  | c :: rest, count =>
    if isSeparator c then
      if (count + 2 ^ 64 - 1) % 2 ^ 64 = 0 then '.' :: copySpec rest ((count + 2 ^ 64 - 1) % 2 ^ 64)
      else copySpec rest ((count + 2 ^ 64 - 1) % 2 ^ 64)
    else c :: copySpec rest count

/-! ## Memory buffers (http.c) -/

/-- The record `memBuf_t` of http.h: `memory` holds the `size` bytes of the
document (a NUL follows them), `readptr` is the offset of the read pointer. -/
structure MemBuf where
  /-- the bytes of the document -/
  memory : CStr
  /-- offset of the read pointer from the start of `memory` -/
  readptr : Nat
  /-- time at which the first byte arrived -/
  timeToFirstByte : Int
  deriving DecidableEq

/-- The C string that starts a run of bytes: the bytes before the first NUL. -/
def cstring (bytes : CStr) : CStr := bytes.takeWhile (fun c => c ≠ '\x00')

/-- The bytes from the read pointer to the end of the document. -/
def MemBuf.unread (mp : MemBuf) : CStr := mp.memory.drop mp.readptr

/-- The buffer with the read pointer moved to where `rest` remains unread. -/
def MemBuf.seek (mp : MemBuf) (rest : CStr) : MemBuf :=
  { mp with readptr := mp.memory.length - rest.length }

/-- The function `memEof`. -/
def memEof (mp : MemBuf) : Bool :=
  decide (mp.memory.length = 0) || decide (mp.readptr = mp.memory.length)

/-- The function `memGetc`: the next byte, or `none` for `EOF`. -/
def memGetc (mp : MemBuf) : Option Char × MemBuf :=
  if memEof mp then (none, mp)
  else (some (byteAt mp.memory mp.readptr), { mp with readptr := mp.readptr + 1 })

/-- The function `memUngetc`. -/
def memUngetc (mp : MemBuf) : MemBuf :=
  if mp.readptr > 0 then { mp with readptr := mp.readptr - 1 } else mp

/-- The function `memReset`. -/
def memReset (mp : MemBuf) : MemBuf := { mp with readptr := 0 }

/-- The function `memSkip`, which moves the read pointer by one byte whatever
`n` is. -/
def memSkip (mp : MemBuf) (_n : Int) : MemBuf := { mp with readptr := mp.readptr + 1 }

/-- The function `strchr` for a character other than NUL. -/
def strchr : CStr → Char → Option CStr
  | [], _ => none
  | a :: s, c => if a = c then some (a :: s) else strchr s c

/-- The function `memStr`: whether `s` was found, and the buffer with the read
pointer moved to the match. -/
def memStr (mp : MemBuf) (s : CStr) : Bool × MemBuf :=
  match strstr (cstring mp.unread) s with
  | some found =>
    (true, { mp with readptr := mp.readptr + ((cstring mp.unread).length - found.length) })
  | none => (false, mp)

/-- The function `memChr`. -/
def memChr (mp : MemBuf) (c : Char) : Bool × MemBuf :=
  match strchr (cstring mp.unread) c with
  | some found =>
    (true, { mp with readptr := mp.readptr + ((cstring mp.unread).length - found.length) })
  | none => (false, mp)

/-- The function `strToMemBuf` (the time stamp it takes from the clock is not
modelled). -/
def strToMemBuf (s : CStr) : MemBuf := { memory := s, readptr := 0, timeToFirstByte := 0 }

/-! ## The tokenizer (html.c) -/

/-- The loop `while ((c = memGetc(mp)) != EOF && c != '<') ;` of `getTag` on
the unread bytes: the bytes after the first `<`, or `none` at `EOF`. -/
def getTagOpen : CStr → Option CStr
  | [] => none
  | c :: rest => if c = '<' then some rest else getTagOpen rest

/-- The string that `getTag` and `getNonTag` return at the end of the input:
`count ? buf : NULL`. -/
def bufOrNull (buf : CStr) : Option CStr := if buf.length ≠ 0 then some (cstring buf) else none

/-- The comment loop of `getTag`, on the unread bytes and the buffer: the
string returned and the bytes left unread. -/
def getTagComment : CStr → CStr → Option CStr × CStr
  | [], buf => (bufOrNull buf, [])
  | c :: rest, buf =>
    if c = '>' ∧ buf.getLast? = some '-' ∧ buf.dropLast.getLast? = some '-' then
      (some (cstring buf), rest)
    else if isspace c = true ∧ buf.getLast? = some ' ' then getTagComment rest buf
    else getTagComment rest (buf ++ [c])

/-- The loop of `getTag` for a tag that is not a comment, on the unread bytes,
the buffer and the flag `inStr`. -/
def getTagBody : CStr → CStr → Bool → Option CStr × CStr
  | [], buf, _ => (bufOrNull buf, [])
  | c :: rest, buf, inStr =>
    if c = '\\' then
      match rest with
      | [] => (some (cstring (buf ++ [c])), [])
      | c2 :: rest2 => getTagBody rest2 (buf ++ [c, c2]) inStr
    else if c = '>' then
      if inStr then getTagBody rest (buf ++ [c]) inStr else (some (cstring buf), rest)
    else if c = ' ' ∨ c = '\n' ∨ c = '\r' ∨ c = '\t' ∨ c = '\x0b' then
      if inStr then getTagBody rest (buf ++ [c]) inStr
      else if buf.length > 0 ∧ buf.getLast? ≠ some ' ' then getTagBody rest (buf ++ [' ']) inStr
      else getTagBody rest buf inStr
    else if c = '"' then getTagBody rest (buf ++ [c]) (!inStr)
    else getTagBody rest (buf ++ [c]) inStr

/-- The part of `getTag` after the `<`: first char, check for comment. -/
def getTagAfterOpen : CStr → Option CStr × CStr
  | [] => (none, [])
  | c :: rest =>
    if c = '>' then (some [], rest)
    else if c = '!' then
      match rest with
      | [] => (some (cstring [c]), [])
      | c2 :: rest2 =>
        if c2 = '>' then (some (cstring [c]), rest2)
        else if c2 = '-' then
          match rest2 with
          | [] => (some (cstring [c, c2]), [])
          | c3 :: rest3 =>
            if c3 = '>' then (some (cstring [c, c2]), rest3)
            else getTagComment rest3 [c, c2, c3]
        else getTagBody rest2 [c, c2] false
    else getTagBody rest [c] false

/-- The function `getTag`: get next tag text, or `none` for `NULL`. -/
def getTag (mp : MemBuf) : Option CStr × MemBuf :=
  if memEof mp then (none, mp)
  else
    match getTagOpen mp.unread with
    | none => (none, mp.seek [])
    | some rest =>
      let r := getTagAfterOpen rest
      (r.1, mp.seek r.2)

/-- The value `(char)atoi(s)`, as a byte. -/
def atoiChar (s : CStr) : Char := Char.ofNat ((strtol s).1 % 256).toNat

/-- The text that `getNonTag` returns: the buffer without a trailing blank, or
`NULL` when it is empty. -/
def trimmedOrNull (buf : CStr) : Option CStr :=
  bufOrNull (if buf.getLast? = some ' ' then buf.dropLast else buf)

/-- The case `';'` of `getNonTag` when an ampersand is pending at `amp`: the
buffer after the entity between `amp` and the end is decoded. -/
def decodeEntity (buf : CStr) (amp : Nat) : CStr :=
  let cp := cstring (buf.drop amp)
  if cp.head? = some '#' then (buf.take amp).set (amp - 1) (atoiChar (cp.drop 1))
  else if cp = "amp".toList then buf.take amp
  else if cp = "gt".toList then (buf.take amp).set (amp - 1) '>'
  else if cp = "lt".toList then (buf.take amp).set (amp - 1) '<'
  else if cp = "nbsp".toList then
    -- buf[amp-1] = ' '; count = amp; if (count && buf[count-1] == ' ') --count;
    ((buf.take amp).set (amp - 1) ' ').dropLast
  else if cp = "quot".toList then (buf.take amp).set (amp - 1) '&'
  else buf ++ [';']

/-- The loop of `getNonTag`, with the buffer and the position `amp`; `fuel`
bounds the number of bytes read (each pass reads at least one). -/
def getNonTagLoop : Nat → MemBuf → CStr → Nat → Option CStr × MemBuf
  | 0, mp, buf, _ => (trimmedOrNull buf, mp)
  | fuel + 1, mp, buf, amp =>
    match memGetc mp with
    | (none, mp) => (trimmedOrNull buf, mp)
    | (some c, mp) =>
      if c = '<' then
        let mp := memUngetc mp
        if buf.length ≠ 0 then
          (some (cstring (if buf.getLast? = some ' ' then buf.dropLast else buf)), mp)
        else getNonTagLoop fuel (getTag mp).2 buf amp
      else if c = ' ' ∨ c = '\n' ∨ c = '\r' ∨ c = '\t' ∨ c = '\x0b' ∨ c = Char.ofNat 0x82
          ∨ c = Char.ofNat 0xC2 ∨ c = Char.ofNat 0xC3 ∨ c = Char.ofNat 0xA0 then
        if buf.length ≠ 0 ∧ buf.getLast? ≠ some ' ' then getNonTagLoop fuel mp (buf ++ [' ']) amp
        else getNonTagLoop fuel mp buf amp
      else if c = ';' then
        if amp > 0 then getNonTagLoop fuel mp (decodeEntity buf amp) 0
        else getNonTagLoop fuel mp (buf ++ [c]) amp
      else if c = '&' then getNonTagLoop fuel mp (buf ++ [c]) (buf.length + 1)
      else getNonTagLoop fuel mp (buf ++ [c]) amp

/-- The function `getNonTag`: get next non-tag text, or `none` for `NULL`. -/
def getNonTag (mp : MemBuf) : Option CStr × MemBuf :=
  if memEof mp then (none, mp)
  else getNonTagLoop (mp.unread.length + 1) mp [] 0

/-- The function `getNthNonTagFromString`. -/
def getNthNonTagFromString (s : CStr) (n : Nat) : Option CStr :=
  (getNonTag ((fun mp => (getNonTag mp).2)^[n - 1] (strToMemBuf s))).1

/-- The function `getNonTagFromString`. -/
def getNonTagFromString (s : CStr) : Option CStr := (getNonTag (strToMemBuf s)).1

/-- Conversion of a `long` to `int` (32 bits, two's complement). -/
def toInt (x : Int) : Int := (x + 2 ^ 31) % 2 ^ 32 - 2 ^ 31

/-- The function `atoi`. -/
def atoi (s : CStr) : Int := toInt (strtol s).1

/-- The function `getIntFromString`; `none` when `atoi` is given `NULL`. -/
def getIntFromString (s : CStr) : Option Int := (getNonTagFromString s).map atoi

/-- The test `!strncmp(cp, name, n) && (isspace(cp[n]) || cp[n] == 0)` with
`n` the length of `name`: the tag `cp` has the name `name`. -/
def tagNamed (cp name : CStr) : Bool :=
  strncmpEq cp name name.length
    && (isspace (byteAt cp name.length) || byteAt cp name.length = '\x00')

/-- The function `getTableStart`: search for next table tag; whether one was
found and the buffer. `fuel` bounds the number of tags read. -/
def getTableStartLoop : Nat → MemBuf → Bool × MemBuf
  | 0, mp => (false, mp)
  | fuel + 1, mp =>
    match getTag mp with
    | (none, mp) => (false, mp)
    | (some cp, mp) =>
      if tagNamed cp "table".toList then (true, mp) else getTableStartLoop fuel mp

/-- The function `getTableStart`. -/
def getTableStart (mp : MemBuf) : Bool × MemBuf :=
  getTableStartLoop (mp.unread.length + 1) mp

/-- The loop `for (end = mp->readptr - 1; *end != '<'; --end) ;` of
`getTableCell`: the offset of the last `<` at or before offset `e`. -/
def scanBackOpen (memory : CStr) : Nat → Nat
  | 0 => 0
  | e + 1 => if byteAt memory (e + 1) = '<' then e + 1 else scanBackOpen memory e

/-- The loop of `getTableCell`, with the variables `nesting` and `start`;
`fuel` bounds the number of tags read. Gives the cell, or `none` for `NULL`. -/
def getTableCellLoop : Nat → MemBuf → Int → Nat → Option CStr × MemBuf
  | 0, mp, _, _ => (none, mp)
  | fuel + 1, mp, nesting, start =>
    match getTag mp with
    | (none, mp) => (none, mp)
    | (some cp, mp) =>
      if nesting = 1 ∧ (tagNamed cp "td".toList ∨ tagNamed cp "th".toList) then
        -- found <td>, now must find </td>
        getTableCellLoop fuel mp nesting mp.readptr
      else if nesting = 1 ∧ (cp = "/td".toList ∨ cp = "/th".toList) then
        -- end of this item
        let end_ := scanBackOpen mp.memory (mp.readptr - 1)
        (some (cstring ((mp.memory.drop start).take (end_ - start))), mp)
      else if nesting = 1 ∧ cp = "/tr".toList then (none, mp)
      else if cp = "/table".toList then
        if nesting - 1 = 0 then (none, mp) else getTableCellLoop fuel mp (nesting - 1) start
      else if tagNamed cp "table".toList then getTableCellLoop fuel mp (nesting + 1) start
      else getTableCellLoop fuel mp nesting start

/-- The function `getTableCell`: search for next table item. -/
def getTableCell (mp : MemBuf) : Option CStr × MemBuf :=
  getTableCellLoop (mp.unread.length + 1) mp 1 mp.readptr

/-- The loop of `getTableRow`, with the cells found so far; `fuel` bounds the
number of cells read. -/
def getTableRowLoop : Nat → MemBuf → List CStr → List CStr × MemBuf
  | 0, mp, cells => (cells, mp)
  | fuel + 1, mp, cells =>
    match getTableCell mp with
    | (none, mp) => (cells, mp)
    | (some cp, mp) => getTableRowLoop fuel mp (cells ++ [cp])

/-- The function `getTableRow`: the cells of the next row, or `none` for
`NULL`, which is returned when no cell comes before the end of the row. -/
def getTableRow (mp : MemBuf) : Option (List CStr) × MemBuf :=
  match getTableCell mp with
  | (none, mp) => (none, mp)
  | (some cp, mp1) =>
    let r := getTableRowLoop (mp1.unread.length + 1) mp1 [cp]
    (some r.1, r.2)

/-- The function `numColumns`. -/
def numColumns (row : Option (List CStr)) : Int :=
  match row with
  | none => -1
  | some cells => cells.length

/-! ## C library functions on text -/

/-- The function `tolower` in the C locale. -/
def tolower (c : Char) : Char :=
  if 'A' ≤ c ∧ c ≤ 'Z' then Char.ofNat (c.toNat + 32) else c

/-- The test `strcasecmp(s, t) == 0`. -/
def strcasecmpEq (s t : CStr) : Bool := decide (s.map tolower = t.map tolower)

/-- The test `strncasecmp(s, t, n) == 0`. -/
def strncasecmpEq (s t : CStr) (n : Nat) : Bool :=
  decide ((s.take n).map tolower = (t.take n).map tolower)

/-- The function `atof` on the texts that `priceFixup` leaves: digits with at
most one dot. The result is the `double` nearest to the decimal number. -/
def atof (s : CStr) : ℚ :=
  let fraction : CStr :=
    if (s.dropWhile isdigit).head? = some '.' then ((s.dropWhile isdigit).drop 1).takeWhile isdigit
    else []
  roundDouble
    ((decimalValue (s.takeWhile isdigit) : ℚ) + (decimalValue fraction : ℚ) / 10 ^ fraction.length)

/-- The tokens that successive calls of `strtok(s, "_")` return, with `cur`
the token being read. -/
def strtokTokens : CStr → CStr → List CStr
  | [], cur => if cur = [] then [] else [cur]
  | c :: s, cur =>
    if c = '_' then
      if cur = [] then strtokTokens s [] else cur :: strtokTokens s []
    else strtokTokens s (cur ++ [c])

/-! ## Page identity (auction.c, html.c) -/

/-- The record `pageInfo_t`. -/
structure PageInfo where
  /-- the page name -/
  pageName : Option CStr
  /-- the page id -/
  pageId : Option CStr
  /-- the source id -/
  srcId : Option CStr
  deriving DecidableEq

/-- What a function that may dereference a null pointer does: it gives a
value, or its behaviour is undefined. -/
inductive Defined (α : Type) where
  /-- the function gives this value -/
  | value (a : α)
  /-- a null pointer is dereferenced -/
  | undefined

/-- The constant `PAGENAME`. -/
def PAGENAME : CStr := "var pageName = \"".toList

/-- The constant `PAGEID`. -/
def PAGEID : CStr := "Page id: ".toList

/-- The constant `SRCID`. -/
def SRCID : CStr := "srcId: ".toList

/-- The function `getPageNameInternal`, given the text from the marker on. -/
def getPageNameInternal (s : CStr) : Option CStr :=
  let pagename := s.drop PAGENAME.length
  match strchr pagename '"' with
  | none => none
  | some quote => some (pagename.take (pagename.length - quote.length))

/-- The function `getIdInternal`, given the text from the marker on and the
length of the marker: the test `!*dash` dereferences the result of `strchr`,
which is null when no dash follows. -/
def getIdInternal (s : CStr) (len : Nat) : Defined (Option CStr) :=
  let id := s.drop len
  match strchr id '-' with
  | none => .undefined
  | some dash => .value (some (id.take (id.length - dash.length)))

/-- The variables of the loop of `getPageInfo`. -/
structure PageScan where
  /-- the fields found so far -/
  p : PageInfo
  /-- the flag `needPageName` -/
  needPageName : Bool
  /-- the flag `needPageId` -/
  needPageId : Bool
  /-- the flag `needSrcId` -/
  needSrcId : Bool
  /-- the counter `needMore` -/
  needMore : Nat
  /-- the text of the title tag -/
  title : Option CStr

/-- The loop `while (needMore && (line = getTag(mp)))` of `getPageInfo`;
`fuel` bounds the number of tags read. -/
def getPageInfoLoop : Nat → MemBuf → PageScan → Defined (PageScan × MemBuf)
  | 0, mp, sc => .value (sc, mp)
  | fuel + 1, mp, sc =>
    if sc.needMore = 0 then .value (sc, mp)
    else
      match getTag mp with
      | (none, mp) => .value (sc, mp)
      | (some line, mp) =>
        if strcasecmpEq line "title".toList then
          let r := getNonTag mp
          match r.1 with
          | some text => getPageInfoLoop fuel r.2 { sc with title := some text }
          | none => getPageInfoLoop fuel r.2 sc
        else if ¬ strncmpEq line "!--".toList 3 then getPageInfoLoop fuel mp sc
        else if sc.needPageName ∧ (strstr line PAGENAME).isSome then
          match getPageNameInternal ((strstr line PAGENAME).getD []) with
          | some name =>
            getPageInfoLoop fuel mp { sc with
              needMore := sc.needMore - 1, needPageName := false,
              p := { sc.p with pageName := some name } }
          | none => getPageInfoLoop fuel mp sc
        else if sc.needPageId ∧ (strstr line PAGEID).isSome then
          match getIdInternal ((strstr line PAGEID).getD []) PAGEID.length with
          | .undefined => .undefined
          | .value (some id) =>
            getPageInfoLoop fuel mp { sc with
              needMore := sc.needMore - 1, needPageId := false,
              p := { sc.p with pageId := some id } }
          | .value none => getPageInfoLoop fuel mp sc
        else if sc.needSrcId ∧ (strstr line SRCID).isSome then
          match getIdInternal ((strstr line SRCID).getD []) SRCID.length with
          | .undefined => .undefined
          | .value (some id) =>
            getPageInfoLoop fuel mp { sc with
              needMore := sc.needMore - 1, needSrcId := false,
              p := { sc.p with srcId := some id } }
          | .value none => getPageInfoLoop fuel mp sc
        else getPageInfoLoop fuel mp sc

/-- The function `getPageInfo`: get page info, including pagename variable,
page id and srcid comments; `none` for `NULL`. The read pointer is reset. -/
def getPageInfo (mp : MemBuf) : Defined (Option PageInfo × MemBuf) :=
  let mp := memReset mp
  match getPageInfoLoop (mp.memory.length + 1) mp
      { p := { pageName := none, pageId := none, srcId := none }, needPageName := true,
        needPageId := true, needSrcId := true, needMore := 3, title := none } with
  | .undefined => .undefined
  | .value (sc, mp) =>
    let sc : PageScan :=
      if sc.needPageName ∧ sc.title.isSome then
        { sc with p := { sc.p with pageName := sc.title }, needPageName := false,
                  needMore := sc.needMore - 1, title := none }
      else sc
    let mp := memReset mp
    if sc.needMore = 3 then .value (none, mp) else .value (some sc.p, mp)

/-- The text that the static buffer of `getNonTag` holds after a call on `mp`,
`text` being what it held before: the text returned; the empty text when the
call comes to the end of the document without any text (`term` with `count`
0); `text` when the call returns at once because nothing is left to read. -/
def nonTagBuffer (mp : MemBuf) (text : Option CStr) : Option CStr :=
  if memEof mp then text else some ((getNonTag mp).1.getD [])

/-- The loop `while (needMore && (line = getTag(mp)))` of `getPageInfo` once
more, followed for the static buffer of `getNonTag`, which holds `text` at the
start: each call of `getNonTag` after a `title` tag leaves its text there. -/
def getPageInfoLine : Nat → MemBuf → PageScan → Option CStr → Defined (Option CStr)
  | 0, _, _, text => .value text
  | fuel + 1, mp, sc, text =>
    if sc.needMore = 0 then .value text
    else
      match getTag mp with
      | (none, _) => .value text
      | (some line, mp) =>
        if strcasecmpEq line "title".toList then
          let r := getNonTag mp
          match r.1 with
          | some title => getPageInfoLine fuel r.2 { sc with title := some title }
              (nonTagBuffer mp text)
          | none => getPageInfoLine fuel r.2 sc (nonTagBuffer mp text)
        else if ¬ strncmpEq line "!--".toList 3 then getPageInfoLine fuel mp sc text
        else if sc.needPageName ∧ (strstr line PAGENAME).isSome then
          match getPageNameInternal ((strstr line PAGENAME).getD []) with
          | some name =>
            getPageInfoLine fuel mp { sc with
              needMore := sc.needMore - 1, needPageName := false,
              p := { sc.p with pageName := some name } } text
          | none => getPageInfoLine fuel mp sc text
        else if sc.needPageId ∧ (strstr line PAGEID).isSome then
          match getIdInternal ((strstr line PAGEID).getD []) PAGEID.length with
          | .undefined => .undefined
          | .value (some id) =>
            getPageInfoLine fuel mp { sc with
              needMore := sc.needMore - 1, needPageId := false,
              p := { sc.p with pageId := some id } } text
          | .value none => getPageInfoLine fuel mp sc text
        else if sc.needSrcId ∧ (strstr line SRCID).isSome then
          match getIdInternal ((strstr line SRCID).getD []) SRCID.length with
          | .undefined => .undefined
          | .value (some id) =>
            getPageInfoLine fuel mp { sc with
              needMore := sc.needMore - 1, needSrcId := false,
              p := { sc.p with srcId := some id } } text
          | .value none => getPageInfoLine fuel mp sc text
        else getPageInfoLine fuel mp sc text

/-- What the call `bugReport(…, mp, …)` leaves at `line`, a pointer into the
static buffer of `getNonTag` that holds `text`: `bugReport` calls
`getPageInfo(mp)`, which reads the page from its start and calls `getNonTag`
after every `title` tag. The buffer is taken to stay where it is (`resize`
moves it only when a text outgrows it). -/
def bugReportLine (mp : MemBuf) (text : Option CStr) : Defined (Option CStr) :=
  getPageInfoLine ((memReset mp).memory.length + 1) (memReset mp)
    { p := { pageName := none, pageId := none, srcId := none }, needPageName := true,
      needPageId := true, needSrcId := true, needMore := 3, title := none } text

/-! ## The bid history page (history.c) -/

/-- The constant `PRIVATE`. -/
def PRIVATE : CStr := "private auction - bidders' identities protected".toList

/-- The constant `VIEWBIDS`. -/
def VIEWBIDS : Int := 1

/-- The constant `VIEWTRANSACTIONS`. -/
def VIEWTRANSACTIONS : Int := 2

/-- The constant `STATE_ACTIVE`. -/
def STATE_ACTIVE : Int := 1

/-- The constant `STATE_CLOSED`. -/
def STATE_CLOSED : Int := 2

/-- The constant `RESULT_HIGH_BIDDER`. -/
def RESULT_HIGH_BIDDER : Int := 1

/-- The constant `RESULT_NONE`. -/
def RESULT_NONE : Int := 2

/-- The constant `RESULT_OUTBID`. -/
def RESULT_OUTBID : Int := 3

/-- What the parser reads besides the document and the record. -/
structure ParseEnv where
  /-- the configuration -/
  options : Options
  /-- the value of `time(NULL)` during the parse -/
  now : Int
  /-- whether `strtol` sets `errno` to `EINVAL` when it finds no digits (it
  does in some C libraries, not in glibc) -/
  einval : Bool
  /-- whether `localtime` can break the time down; it returns `NULL` when it
  cannot (for a time whose year does not fit an `int`) -/
  localtime : Int → Bool

/-- What a part of `parseBidHistoryInternal` does: it goes on to the next
part, or the function returns, or its behaviour is undefined. -/
inductive Parse (α : Type) where
  /-- go on -/
  | next (a : α)
  /-- the function returns `ret` -/
  | returned (ret : Int) (aip : AuctionInfo) (mp : MemBuf)
  /-- a null pointer is dereferenced, freed memory is read, or the sum for
  the end time overflows -/
  | undefined

/-- One part after another. -/
def Parse.andThen {α β : Type} (x : Parse α) (f : α → Parse β) : Parse β :=
  match x with
  | .next a => f a
  | .returned ret aip mp => .returned ret aip mp
  | .undefined => .undefined

/-- The return `return auctionError(aip, pe, details)`. -/
def parseError {α : Type} (aip : AuctionInfo) (mp : MemBuf) (pe : AuctionErrorCode)
    (details : Option CStr) : Parse α :=
  .returned (auctionError aip pe details).1 (auctionError aip pe details).2 mp

/-- The function `checkPageType`: the return value and the record. The case
`STATE_ACTIVE` has no `break` after its inner `switch`, so control goes on
into the case `STATE_CLOSED`. -/
def checkPageType (aip : AuctionInfo) (pageType auctionState auctionResult : Int) :
    Int × AuctionInfo :=
  let closed (aip : AuctionInfo) : Int × AuctionInfo :=
    if auctionResult = RESULT_HIGH_BIDDER then
      (0, { aip with quantityBid := 1, winning := 1, won := 1, quantity := 1 })
    else if auctionResult = RESULT_NONE ∨ auctionResult = RESULT_OUTBID then
      (0, { aip with quantityBid := 0, winning := 0, won := 0, quantity := 0 })
    else (-1, aip)
  if pageType = 0 ∨ auctionState = 0 ∨ auctionResult = 0 then (-1, aip)
  else if pageType = VIEWBIDS then
    if auctionState = STATE_ACTIVE then
      if auctionResult = RESULT_HIGH_BIDDER then
        closed { aip with quantityBid := 1, winning := 1, won := 0, quantity := 0 }
      else if auctionResult = RESULT_NONE then
        (-1, { aip with quantityBid := 0, winning := 0, won := 0, quantity := 0 })
      else (-1, aip)
    else if auctionState = STATE_CLOSED then closed aip
    else (-1, aip)
  else (-1, aip)

/-- The loop `while ((line = getNonTag(mp)))` that looks for `Bid History` or
`Unknown Item`; `fuel` bounds the number of texts read. -/
def findBidHistory : Nat → MemBuf → AuctionInfo → Parse MemBuf
  | 0, mp, _ => .next mp
  | fuel + 1, mp, aip =>
    match getNonTag mp with
    | (none, mp) => .next mp
    | (some line, mp) =>
      if line = "Bid History".toList then .next mp
      else if line = "Unknown Item".toList then parseError aip mp ae_baditem none
      else findBidHistory fuel mp aip

/-- The state and result decoded from the tokens of a page name
`PageViewBids_<state>_<result>`. -/
def decodePageName (pageName : CStr) : Int × Int :=
  match strtokTokens pageName [] with
  | _ :: token :: rest =>
    let auctionState : Int :=
      if token = "Active".toList then STATE_ACTIVE
      else if token ≠ "Closed".toList then STATE_CLOSED
      else 0
    match rest with
    | token :: _ =>
      (auctionState,
        if token = "None".toList then RESULT_NONE
        else if token = "HighBidder".toList then RESULT_HIGH_BIDDER
        else if token = "Outbid".toList then RESULT_OUTBID
        else 0)
    | [] => (auctionState, 0)
  | _ => (0, 0)

/-- The first part of `parseBidHistoryInternal`: the kind of page. Gives
`pageType`, `auctionState`, `auctionResult` and the buffer. -/
def parsePageType (pp : PageInfo) (mp : MemBuf) (aip : AuctionInfo) :
    Parse (Int × Int × Int × MemBuf) :=
  if pp.srcId = some "Captcha.xsl".toList
      ∨ (∃ n ∈ pp.pageName, strncmpEq n "Security Measure".toList 16 = true) then
    parseError aip mp ae_captcha none
  else
    match pp.pageName with
    | none => parseError aip mp ae_notitle none
    | some name =>
      if strncmpEq name "PageViewBids".toList 12 then
        -- bid history or expired/bad auction number
        (findBidHistory (mp.unread.length + 1) mp aip).andThen fun mp =>
          .next (VIEWBIDS, (decodePageName name).1, (decodePageName name).2, mp)
      else if strncmpEq name "PageViewTransactions".toList 20 then
        -- transaction history -- buy it now only
        .next (VIEWTRANSACTIONS, 0, 0, mp)
      else if name = "PageSignIn".toList then parseError aip mp ae_mustsignin none
      else parseError aip mp ae_notitle none

/-- The search `memStr(mp, a) || memStr(mp, b) || memStr(mp, c)`. -/
def memStr3 (mp : MemBuf) (a b c : CStr) : Bool × MemBuf :=
  if (memStr mp a).1 then memStr mp a
  else if (memStr mp b).1 then memStr mp b
  else memStr mp c

/-- The text after a label: `memChr(mp, '>'); memSkip(mp, 1);` and two calls
of `getNonTag`, the second of which gives the text. -/
def labelledText (mp : MemBuf) : Option CStr × MemBuf :=
  let mp := memSkip (memChr mp '>').2 1
  getNonTag (getNonTag mp).2

/-- The part `Auction number` of `parseBidHistoryInternal`. -/
def parseItemNumber (mp : MemBuf) (aip : AuctionInfo) (debugMode : Bool) :
    Parse (MemBuf × AuctionInfo) :=
  let mp := memReset mp
  let found := memStr3 mp "\"BHCtBidLabel\"".toList "\"vizItemNum\"".toList
    "\"BHitemNo\"".toList
  if found.1 then
    match labelledText found.2 with
    | (none, mp) => parseError aip mp ae_baditem none
    | (some line, mp) =>
      if debugMode then .next (mp, { aip with auction := line })
      else if aip.auction ≠ line then parseError aip mp ae_baditem none
      else .next (mp, aip)
  else parseError aip found.2 ae_baditem none

/-- The part `Auction title` of `parseBidHistoryInternal`. -/
def parseTitle (mp : MemBuf) (aip : AuctionInfo) : Parse (MemBuf × AuctionInfo) :=
  let mp := memReset mp
  let found := memStr3 mp "\"itemTitle\"".toList "\"BHitemTitle\"".toList
    "\"BHitemDesc\"".toList
  if found.1 then
    match labelledText found.2 with
    | (none, mp) => parseError aip mp ae_baditem none
    | (some line, mp) => .next (mp, { aip with title := some line })
  else parseError aip found.2 ae_baditem none

/-- The constant `PRICE`. -/
def PRICE : Nat := 1

/-- The constant `QUANTITY`. -/
def QUANTITY : Nat := 2

/-- The constant `SHIPPING`. -/
def SHIPPING : Nat := 4

/-- The constant `EVERYTHING`. -/
def EVERYTHING : Nat := PRICE ||| QUANTITY ||| SHIPPING

/-- The loop `while (got != EVERYTHING && memStr(mp, "\"BHCtBid\""))` of
`parseBidHistoryInternal`: price, shipping, quantity. `fuel` bounds the number
of labels read. -/
def parsePriceLoop : Nat → MemBuf → AuctionInfo → Nat → Parse (MemBuf × AuctionInfo)
  | 0, mp, aip, _ => .next (mp, aip)
  | fuel + 1, mp, aip, got =>
    if got = EVERYTHING then .next (mp, aip)
    else
      let found := memStr mp "\"BHCtBid\"".toList
      if ¬ found.1 then .next (found.2, aip)
      else
        let mp := memSkip (memChr found.2 '>').2 1
        match getNonTag mp with
        | (none, _) => .undefined
        | (some line, mp) =>
          if strcasecmpEq line "Current bid:".toList ∨ strcasecmpEq line "Winning bid:".toList
              ∨ strcasecmpEq line "Your maximum bid:".toList
              ∨ strcasecmpEq line "price:".toList then
            match getNonTag mp with
            | (none, mp) => parseError aip mp ae_noprice none
            | (some line, mp) =>
              let fixed := priceFixup (some line) (some aip)
              let aip : AuctionInfo := { fixed.2.getD aip with price := atof (fixed.1.getD []) }
              if aip.price < roundDouble 0.01 then
                -- `line` is read after `bugReport` has run
                match bugReportLine mp fixed.1 with
                | .undefined => .undefined
                | .value line => parseError aip mp ae_convprice line
              else
                -- reserve not met?
                match getNonTag mp with
                | (none, _) => .undefined
                | (some line, mp2) =>
                  if strcasecmpEq line "Reserve not met".toList then
                    parsePriceLoop fuel mp2 { aip with reserve := 1 } (got ||| PRICE)
                  else
                    parsePriceLoop fuel { mp2 with readptr := mp.readptr }
                      { aip with reserve := 0 } (got ||| PRICE)
          else if strcasecmpEq line "Quantity:".toList then
            match getNonTag mp with
            | (none, mp) => parseError aip mp ae_noquantity none
            | (some line, mp) =>
              if isdigit (byteAt line 0) then
                let aip : AuctionInfo := { aip with quantity := toInt (strtol line).1 }
                if aip.quantity < 0 then parseError aip mp ae_noquantity none
                else parsePriceLoop fuel mp aip (got ||| QUANTITY)
              else parsePriceLoop fuel mp { aip with quantity := 1 } (got ||| QUANTITY)
          else if strcasecmpEq line "Shipping:".toList then
            match getNonTag mp with
            | (none, mp) => parsePriceLoop fuel mp aip (got ||| SHIPPING)
            | (some line, mp) =>
              parsePriceLoop fuel mp { aip with shipping := some line } (got ||| SHIPPING)
          else parsePriceLoop fuel mp aip got

/-- The part `price, shipping, quantity` of `parseBidHistoryInternal`. -/
def parsePrice (mp : MemBuf) (aip : AuctionInfo) : Parse (MemBuf × AuctionInfo) :=
  let mp := memReset mp
  -- If quantity not found, assume 1
  parsePriceLoop (mp.memory.length + 1) mp { aip with quantity := 1 } 0

/-- The end time that `parseBidHistoryInternal` computes once `remain` is
known, with the formatted output that follows: `start + remain` when `remain`
is not 0, which is then handed to `localtime` and the result of that to
`strftime`, unchecked; and 0 when `remain` is 0. The behaviour is undefined
when the sum is not a value of `time_t` (a signed overflow) and when
`localtime` returns `NULL`, which `strftime` dereferences. -/
def setEndTime (env : ParseEnv) (mp : MemBuf) (aip : AuctionInfo) (start : Int) :
    Parse (MemBuf × AuctionInfo) :=
  if aip.remain ≠ 0 then
    -- aip->endTime = start + aip->remain
    if LONG_MIN ≤ start + aip.remain ∧ start + aip.remain ≤ LONG_MAX then
      -- tmPtr = localtime(&(aip->endTime)); strftime(timestr, 20, ..., tmPtr)
      if env.localtime (start + aip.remain) then
        .next (mp, { aip with endTime := start + aip.remain })
      else .undefined
    else .undefined
  else .next (mp, { aip with endTime := aip.remain })

/-- What the part `Time Left` of `parseBidHistoryInternal` finds on the page. -/
inductive TimeLeftText where
  /-- the quantity is 0 or the page says `Time Ended:` -/
  | ended (mp : MemBuf)
  /-- the text after the marker `timeLeft` -/
  | text (raw : CStr) (mp : MemBuf)
  /-- no text follows the marker `timeLeft`: `strcasecmp` is given `NULL` -/
  | null
  /-- there is no marker `timeLeft` -/
  | missing (mp : MemBuf)

/-- The text that the part `Time Left` of `parseBidHistoryInternal` reads. -/
def timeLeftText (mp : MemBuf) (aip : AuctionInfo) : TimeLeftText :=
  let mp := memReset mp
  if aip.quantity = 0 then .ended mp
  else if (memStr mp "Time Ended:".toList).1 then .ended (memStr mp "Time Ended:".toList).2
  else
    let mp := (memStr mp "Time Ended:".toList).2
    if (memStr mp "timeLeft".toList).1 then
      match getNonTag (memSkip (memChr (memStr mp "timeLeft".toList).2 '>').2 1) with
      | (none, _) => .null
      | (some raw, mp) => .text raw mp
    else .missing (memStr mp "timeLeft".toList).2

/-- The remaining time for the text after the marker `timeLeft`: the record
with `remainRaw` and `remain` set. -/
def setRemain (aip : AuctionInfo) (raw : CStr) : AuctionInfo :=
  -- Duration may follow Time left: time left must be empty
  let raw : CStr := if strcasecmpEq raw "Duration:".toList then [] else raw
  if strcasecmpEq raw "Refresh".toList then { aip with remainRaw := some [], remain := 1 }
  else if strncasecmpEq raw "undefined".toList 9 then
    { aip with remainRaw := some raw, remain := 1 }
  else { aip with remainRaw := some raw, remain := (getSeconds raw).getD 0 }

/-- The part `Time Left` of `parseBidHistoryInternal`, with the computation of
the end time that follows it. -/
def parseTimeLeft (env : ParseEnv) (mp : MemBuf) (aip : AuctionInfo) (start : Int) :
    Parse (MemBuf × AuctionInfo) :=
  match timeLeftText mp aip with
  | .ended mp => setEndTime env mp { aip with remainRaw := some "--".toList, remain := 0 } start
  | .text raw mp =>
    if (setRemain aip raw).remain < 0 then
      parseError (setRemain aip raw) mp ae_badtime (setRemain aip raw).remainRaw
    else setEndTime env mp (setRemain aip raw) start
  | .null => .undefined
  | .missing mp => parseError aip mp ae_notime none

/-- The part `bid history` of `parseBidHistoryInternal`, which reads the
label `Total Bids:`; with no bids the function returns 0 at once. -/
def parseTotalBids (env : ParseEnv) (mp : MemBuf) (aip : AuctionInfo) :
    Parse (MemBuf × AuctionInfo) :=
  let mp := memReset mp
  let aip : AuctionInfo := { aip with bids := -1 }
  if (memStr mp "Total Bids:".toList).1 then
    match getNonTag (getNonTag (memStr mp "Total Bids:".toList).2).2 with
    | (none, mp) => .next (mp, aip)
    | (some line, mp) =>
      let bids := toInt (strtol line).1
      let noDigits : Bool := decide ((strtol line).2 = line)
      if bids < 0 ∨ (bids = 0 ∧ env.einval = true ∧ noDigits = true) then
        .next (mp, { aip with bids := -1 })
      else if bids = 0 then
        .returned 0 { aip with bids := bids, quantityBid := 0, price := 0 } mp
      else .next (mp, { aip with bids := bids })
  else .next ((memStr mp "Total Bids:".toList).2, aip)

/-- The loop `while (!foundHeader && getTableStart(mp))` of
`parseBidHistoryInternal`: find bid history table. Gives `foundHeader` and the
buffer; `fuel` bounds the number of tables tried. -/
def findBidTable : Nat → MemBuf → Bool × MemBuf
  | 0, mp => (false, mp)
  | fuel + 1, mp =>
    let started := getTableStart mp
    if ¬ started.1 then (false, started.2)
    else
      let row := getTableRow started.2
      let foundHeader : Bool :=
        if numColumns row.1 ≥ 5 then
          match getNonTagFromString ((row.1.getD []).getD 1 []) with
          | some header =>
            strncmpEq header "Bidder".toList 6 || strncmpEq header "User ID".toList 7
          | none => false
        else false
      if foundHeader then (true, row.2)
      else findBidTable fuel { row.2 with readptr := started.2.readptr }

/-- The loop `while ((row = getTableRow(mp)))` that skips over initial
single-column rows: the first row that does not have one column, or `none`. -/
def skipSingleColumnRows : Nat → MemBuf → Option (List CStr) × MemBuf
  | 0, mp => (none, mp)
  | fuel + 1, mp =>
    match getTableRow mp with
    | (none, mp) => (none, mp)
    | (some row, mp) =>
      if numColumns (some row) ≠ 1 then (some row, mp) else skipSingleColumnRows fuel mp

/-- The loop `for (; row; row = getTableRow(mp))` of the purchase table: find
your purchase, count number of purchases. -/
def countPurchases (env : ParseEnv) :
    Nat → Option (List CStr) → MemBuf → AuctionInfo → Parse (MemBuf × AuctionInfo)
  | 0, _, mp, aip => .next (mp, aip)
  | _ + 1, none, mp, aip => .next (mp, aip)
  | fuel + 1, some row, mp, aip =>
    if numColumns (some row) = 6 then
      match getIntFromString (row.getD 3 []), getNonTagFromString (row.getD 1 []) with
      | some quantity, some bidder =>
        let aip : AuctionInfo :=
          { aip with bids := aip.bids + 1, quantityBid := aip.quantityBid + quantity }
        let aip : AuctionInfo :=
          if strcasecmpEq bidder env.options.username then
            { aip with won := quantity, winning := quantity }
          else aip
        countPurchases env fuel (getTableRow mp).1 (getTableRow mp).2 aip
      | _, _ => .undefined
    else countPurchases env fuel (getTableRow mp).1 (getTableRow mp).2 aip

/-- The loop `for (aip->bids = 1; !foundStartPrice && (row = getTableRow(mp)); )`
that counts the bids; gives the count and the buffer. -/
def countBids : Nat → MemBuf → Int → Defined (Int × MemBuf)
  | 0, mp, bids => .value (bids, mp)
  | fuel + 1, mp, bids =>
    match getTableRow mp with
    | (none, mp) => .value (bids, mp)
    | (some row, mp) =>
      if numColumns (some row) = 5 then
        match getNonTagFromString (row.getD 1 []) with
        | none => .undefined
        | some bidder =>
          if bidder = "Starting Price".toList then .value (bids, mp)
          else countBids fuel mp (bids + 1)
      else countBids fuel mp bids

/-- The case of a single auction with bids (`case 5`, also reached from `case
6` on a bid history page) of `parseBidHistoryInternal`. When the price cannot
be converted and `checkPageType` does not accept the page, the source frees
`currently` and then passes it to `auctionError`, which copies it: the
behaviour is undefined. -/
def parseSingleAuction (env : ParseEnv) (row : List CStr) (mp : MemBuf) (aip : AuctionInfo)
    (pageType auctionState auctionResult : Int) : Parse (MemBuf × AuctionInfo × Int) :=
  match getNonTagFromString (row.getD 1 []) with
  | none => .undefined
  | some winner0 =>
    let winner : Option CStr :=
      if strcasecmpEq winner0 "Member Id:".toList then getNthNonTagFromString (row.getD 1 []) 2
      else some winner0
    let aip : AuctionInfo := { aip with quantityBid := 1 }
    -- current price
    match getNonTagFromString (row.getD 2 []) with
    | none => .undefined
    | some currently =>
      let fixed := priceFixup (some currently) (some aip)
      let aip : AuctionInfo := { fixed.2.getD aip with price := atof (fixed.1.getD []) }
      if aip.price < roundDouble 0.01 then
        if (checkPageType aip pageType auctionState auctionResult).1 = 0 then
          .next (mp, (checkPageType aip pageType auctionState auctionResult).2, 0)
        else
          -- `currently` was freed above: `auctionError` copies freed memory
          .undefined
      else
        match winner with
        | none => .undefined
        | some winner =>
          -- winning user
          let winner : CStr :=
            if winner = PRIVATE then
              if aip.price ≤ aip.bidPrice ∧
                  (aip.bidResult = 0 ∨
                    (aip.bidResult = -1 ∧ aip.endTime - env.now < env.options.bidtime)) then
                env.options.username
              else "[private]".toList
            else winner
          -- count bids
          let counted : Defined (Int × MemBuf) :=
            if aip.bids < 0 then countBids (mp.unread.length + 1) mp 1 else .value (aip.bids, mp)
          match counted with
          | .undefined => .undefined
          | .value (bids, mp) =>
            let aip : AuctionInfo := { aip with bids := bids }
            let winning : Int :=
              if ¬ strcasecmpEq winner env.options.username then 0
              else if aip.reserve ≠ 0 then 0
              else 1
            let aip : AuctionInfo := { aip with winning := winning }
            .next (mp, if aip.remain = 0 then { aip with won := winning } else aip, 0)

/-- The part `Determine high bidder` of `parseBidHistoryInternal`; gives the
return value `ret`. -/
def parseBidTable (env : ParseEnv) (mp : MemBuf) (aip : AuctionInfo)
    (pageType auctionState auctionResult : Int) : Parse (MemBuf × AuctionInfo × Int) :=
  let mp := memReset mp
  let table := findBidTable (mp.memory.length + 1) mp
  if ¬ table.1 then parseError aip table.2 ae_nohighbid none
  else
    -- skip over initial single-column rows
    let skipped := skipSingleColumnRows (table.2.unread.length + 1) table.2
    let mp := skipped.2
    let fallback (aip : AuctionInfo) : Parse (MemBuf × AuctionInfo × Int) :=
      if (checkPageType aip pageType auctionState auctionResult).1 ≠ 0 then
        .next (mp,
          (auctionError (checkPageType aip pageType auctionState auctionResult).2
            ae_nohighbid none).2,
          (auctionError (checkPageType aip pageType auctionState auctionResult).2
            ae_nohighbid none).1)
      else .next (mp, (checkPageType aip pageType auctionState auctionResult).2, 0)
    -- roll through table
    match skipped.1 with
    | none => fallback aip
    | some row =>
      if numColumns (some row) = 2 then
        -- auction with no bids
        match getNonTagFromString (row.getD 1 []) with
        | none => .undefined
        | some s =>
          if s = "No bids have been placed.".toList
              ∨ s = "No purchases have been made.".toList then
            .next (mp, { aip with quantityBid := 0, bids := 0, price := 0 }, 0)
          else fallback aip
      else if numColumns (some row) = 6 ∧ pageType ≠ VIEWBIDS then
        -- purchase
        (countPurchases env (mp.unread.length + 2) (some row) mp
            { aip with bids := 0, quantityBid := 0, won := 0, winning := 0 }).andThen
          fun r => .next (r.1, r.2, 0)
      else if numColumns (some row) = 6 ∨ numColumns (some row) = 5 then
        parseSingleAuction env row mp aip pageType auctionState auctionResult
      else fallback aip

/-- The parts of `parseBidHistoryInternal` before `Time Left`: kind of page,
auction number, title, price. Gives `pageType`, `auctionState`,
`auctionResult`, the buffer and the record. -/
def parseBeforeTime (pp : PageInfo) (mp : MemBuf) (aip : AuctionInfo) (debugMode : Bool) :
    Parse ((Int × Int × Int) × MemBuf × AuctionInfo) :=
  (parsePageType pp mp aip).andThen fun page =>
  (parseItemNumber page.2.2.2 aip debugMode).andThen fun r =>
  (parseTitle r.1 r.2).andThen fun r =>
  (parsePrice r.1 r.2).andThen fun r =>
  .next ((page.1, page.2.1, page.2.2.1), r.1, r.2)

/-- The parts of `parseBidHistoryInternal` from `Time Left` on. -/
def parseFromTime (env : ParseEnv) (start : Int)
    (x : (Int × Int × Int) × MemBuf × AuctionInfo) : Parse (MemBuf × AuctionInfo × Int) :=
  (parseTimeLeft env x.2.1 x.2.2 start).andThen fun r =>
  (parseTotalBids env r.1 r.2).andThen fun r =>
  parseBidTable env r.1 r.2 x.1.1 x.1.2.1 x.1.2.2

/-- The function `parseBidHistoryInternal`. -/
def parseBidHistoryInternal (env : ParseEnv) (pp : PageInfo) (mp : MemBuf) (aip : AuctionInfo)
    (start : Int) (debugMode : Bool) : Parse (MemBuf × AuctionInfo × Int) :=
  (parseBeforeTime pp mp aip debugMode).andThen (parseFromTime env start)

/-- What a call of `parseBidHistory` does: it returns a value and leaves the
record and the buffer, or its behaviour is undefined. -/
inductive ParseResult where
  /-- the call returns `ret` -/
  | returned (ret : Int) (aip : AuctionInfo) (mp : MemBuf)
  /-- a null pointer is dereferenced, freed memory is read, or the sum for
  the end time overflows -/
  | undefined

/-- The function `parseBidHistory` (the out-parameter `timeToFirstByte`,
which receives `mp->timeToFirstByte`, is left to the caller). -/
def parseBidHistory (env : ParseEnv) (mp : MemBuf) (aip : AuctionInfo) (start : Int)
    (debugMode : Bool) : ParseResult :=
  let aip := resetAuctionError aip
  match getPageInfo mp with
  | .undefined => .undefined
  | .value (some pp, mp) =>
    match parseBidHistoryInternal env pp mp aip start debugMode with
    | .next (mp, aip, ret) => .returned ret aip mp
    | .returned ret aip mp => .returned ret aip mp
    | .undefined => .undefined
  | .value (none, mp) =>
    .returned (auctionError aip ae_notitle none).1 (auctionError aip ae_notitle none).2 mp

/-- The value that a call of `parseBidHistory` returns, if it returns. -/
def ParseResult.ret : ParseResult → Option Int
  | .returned ret _ _ => some ret
  | .undefined => none

/-- The record that a call of `parseBidHistory` leaves, if it returns. -/
def ParseResult.record : ParseResult → Option AuctionInfo
  | .returned _ aip _ => some aip
  | .undefined => none

/-- What holds of the result of a part of the parser: `N` of the value with
which it goes on, `R` of the return value and record with which it returns. -/
def Parse.sat {α : Type} (x : Parse α) (N : α → Prop) (R : Int → AuctionInfo → Prop) : Prop :=
  match x with
  | .next a => N a
  | .returned ret aip _ => R ret aip
  | .undefined => True

/-- The end time of a record is the one computed from `start` and `remain`. -/
def EndTimeSet (start : Int) (aip : AuctionInfo) : Prop :=
  aip.endTime = if aip.remain ≠ 0 then start + aip.remain else 0

/-- Two records have the same remaining time and end time. -/
def SameTime (a b : AuctionInfo) : Prop := b.remain = a.remain ∧ b.endTime = a.endTime

/-- A bid history page of an auction that has ended, with no bids. -/
def endedPage : MemBuf :=
  strToMemBuf ("<!-- var pageName = \"PageViewBids\"; --><p>Bid History</p>"
    ++ "<a class=\"vizItemNum\">Item number:</a><b>1</b>"
    ++ "<a class=\"itemTitle\">Title:</a><b>T</b>"
    ++ "Time Ended:<i>Total Bids:</i><b>0</b>").toList

/-- A bid history page with no bids that states the time left as `text`. -/
def timeLeftPage (text : String) : MemBuf :=
  strToMemBuf ("<!-- var pageName = \"PageViewBids\"; --><p>Bid History</p>"
    ++ "<a class=\"vizItemNum\">Item number:</a><b>1</b>"
    ++ "<a class=\"itemTitle\">Title:</a><b>T</b>"
    ++ "<i id=\"timeLeft\">" ++ text ++ "</i><i>Total Bids:</i><b>0</b>").toList

/-- The environment of the example parses; `localtime` is that of glibc for
the time zone UTC, which breaks down the times of the years -2147481748 to
2147485547. -/
def exampleEnv : ParseEnv :=
  { options := { username := "user".toList, bidtime := 10, quantity := 1, debug := 0 },
    now := 5000, einval := false,
    localtime := fun t => decide (-67768040609740800 ≤ t ∧ t ≤ 67768036191676799) }

/-- The record of the example parses: auction 1 with a bid of 20.00. -/
def exampleRecord : AuctionInfo := newAuctionInfoWith "1".toList (some "20.00".toList) 20.00

/-! ## Bid results (auction.c) -/

/-- The assignment `return aip->bidResult = auctionError(aip, pe, NULL)`. -/
def bidError (aip : AuctionInfo) (pe : AuctionErrorCode) : Int × AuctionInfo :=
  ((auctionError aip pe none).1,
    { (auctionError aip pe none).2 with bidResult := (auctionError aip pe none).1 })

/-- The function `acceptBid`: handle all known AcceptBid pages. Gives -1 if
the page is not recognized, 0 if the bid is accepted, 1 if it is not. The
first statement, `strcmp(pagename, "Bid confirmation")`, reads `pagename`
before the test `!pagename`. -/
def acceptBid (pagename : Option CStr) (aip : AuctionInfo) : Defined (Int × AuctionInfo) :=
  match pagename with
  | none => .undefined
  | some pagename =>
    if pagename = "Bid confirmation".toList then .value (0, { aip with bidResult := 0 })
    else if ¬ strncmpEq pagename "AcceptBid_".toList 10 then .value (-1, aip)
    else
      let pagename := pagename.drop 10
      if strncmpEq pagename "HighBidder".toList 10 then .value (0, { aip with bidResult := 0 })
      else if strncmpEq pagename "Outbid".toList 6 then .value (bidError aip ae_outbid)
      else if strncmpEq pagename "ReserveNotMet".toList 13 then
        .value (bidError aip ae_reservenotmet)
      -- unknown AcceptBid page
      else .value (-1, aip)

/-- The part of `makeBidError` after the prefix `MakeBidError` of the page
name. -/
def makeBidErrorSuffix (pagename : CStr) (aip : AuctionInfo) : Int × AuctionInfo :=
  if pagename = [] ∨ strcasecmpEq pagename "AuctionEnded".toList then bidError aip ae_ended
  else if strcasecmpEq pagename "AuctionEnded_BINblock".toList
      ∨ strcasecmpEq pagename "AuctionEnded_BINblock ".toList then bidError aip ae_cancelled
  else if strcasecmpEq pagename "Password".toList then bidError aip ae_badpass
  else if strcasecmpEq pagename "MinBid".toList then bidError aip ae_bidprice
  else if strcasecmpEq pagename "BuyerBlockPref".toList then bidError aip ae_buyerblockpref
  else if strcasecmpEq pagename "BuyerBlockPrefDoesNotShipToLocation".toList then
    bidError aip ae_buyerblockprefdoesnotshiptolocation
  else if strcasecmpEq pagename "BuyerBlockPrefNoLinkedPaypalAccount".toList then
    bidError aip ae_buyerblockprefnolinkedpaypalaccount
  else if strcasecmpEq pagename "HighBidder".toList then bidError aip ae_highbidder
  else if strcasecmpEq pagename "CannotBidOnItem".toList then bidError aip ae_cannotbid
  else if strcasecmpEq pagename "DutchSameBidQuantity".toList then
    bidError aip ae_dutchsamebidquantity
  else if strcasecmpEq pagename "BuyerBlockPrefItemCountLimitExceeded".toList then
    bidError aip ae_buyerblockprefitemcountlimitexceeded
  else if strcasecmpEq pagename "BidGreaterThanBin_BINblock".toList then
    bidError aip ae_bidgreaterthanbin_binblock
  -- unknown MakeBidError page
  else (-1, aip)

/-- The function `makeBidError`: handle all known MakeBidError pages. Gives
-1 if the page is not recognized, 0 if the bid is accepted, 1 if it is not. -/
def makeBidError (pageInfo : PageInfo) (aip : AuctionInfo) : Int × AuctionInfo :=
  match pageInfo.pageName with
  | none =>
    match pageInfo.srcId with
    | some srcId => if strcasecmpEq srcId "ViewItem".toList then bidError aip ae_ended else (-1, aip)
    | none => (-1, aip)
  | some pagename =>
    if strcasecmpEq pagename "Place bid".toList then bidError aip ae_outbid
    else if strcasecmpEq pagename "eBay Alerts".toList then bidError aip ae_alert
    else if strcasecmpEq pagename "Buyer Requirements".toList then
      bidError aip ae_buyerrequirements
    else if strcasecmpEq pagename "PageSignIn".toList then bidError aip ae_mustsignin
    else if strncasecmpEq pagename "BidManager".toList 10
        ∨ strncasecmpEq pagename "BidAssistant".toList 12 then bidError aip ae_bidassistant
    else if ¬ strncasecmpEq pagename "MakeBidError".toList 12 then (-1, aip)
    else makeBidErrorSuffix (pagename.drop 12) aip

/-- The function `parseBid`: parse bid result. Gives the return value, the
record and the buffer; the page information is read through the pointer that
`getPageInfo` returns, which is null for a page without any. -/
def parseBid (mp : MemBuf) (aip : AuctionInfo) : Defined (Int × AuctionInfo × MemBuf) :=
  match getPageInfo mp with
  | .undefined => .undefined
  | .value (none, _) => .undefined
  | .value (some pageInfo, mp) =>
    let aip : AuctionInfo := { aip with bidResult := -1 }
    match acceptBid pageInfo.pageName aip with
    | .undefined => .undefined
    | .value (ret, aip1) =>
      if ret ≥ 0 then .value (ret, aip1, mp)
      else if (makeBidError pageInfo aip1).1 ≥ 0 then
        .value ((makeBidError pageInfo aip1).1, (makeBidError pageInfo aip1).2, mp)
      -- prevent another bid
      else .value (0, (makeBidError pageInfo aip1).2, mp)

/-- A bid result page that carries a source id and neither a page name nor a
title. -/
def viewItemPage : MemBuf := strToMemBuf "<html><!--srcId: ViewItem--><body></body></html>".toList

/-- A bid history page named `name` of an ended auction whose bid table has a
row of three columns, which the parser cannot dispatch. -/
def fallbackPage (name : String) : MemBuf :=
  strToMemBuf ("<!-- var pageName = \"" ++ name ++ "\"; --><p>Bid History</p>"
    ++ "<a class=\"vizItemNum\">Item number:</a><b>1</b>"
    ++ "<a class=\"itemTitle\">Title:</a><b>T</b>Time Ended:"
    ++ "<table><tr><td></td><td>Bidder</td><td>Bid Amount</td><td>Bid Time</td><td></td></tr>"
    ++ "<tr><td></td><td>x</td><td>y</td></tr></table>").toList

/-! ## Sign-in and pre-bid requests (auction.c) -/

/-- The string options of `option_t` that the requests of auction.c read. -/
structure RequestOptions where
  /-- the option `prebidHost` -/
  prebidHost : CStr
  /-- the option `loginHost` -/
  loginHost : CStr
  /-- the option `usernameEscape`: the user name, escaped for a URL -/
  usernameEscape : CStr

/-- What the request functions of auction.c call outside of it, as functions
of the state `W` of the world. -/
structure Network (W : Type) where
  /-- the call `time(NULL)` -/
  time : W → Int × W
  /-- the calls `cleanupCurlStuff(); initCurlStuff()`: the value of the latter -/
  initCurlStuff : W → Int × W
  /-- the call `httpGet(url, logUrl)`: the answer, `none` for `NULL` -/
  httpGet : CStr → W → Option MemBuf × W
  /-- the call `httpError(aip)` -/
  httpError : AuctionInfo → W → (Int × AuctionInfo) × W
  /-- the call `getPassword()` -/
  getPassword : W → CStr × W

/-- What a request function leaves: its return value, the record, the
variable `loginTime`, the URLs it has requested with `httpGet`, in order, and
the state of the world. -/
structure Requested (W : Type) where
  /-- the return value -/
  ret : Int
  /-- the record -/
  aip : AuctionInfo
  /-- the variable `loginTime`: time of last login -/
  loginTime : Int
  /-- the URLs requested -/
  requests : List CStr
  /-- the state of the world -/
  world : W

/-- The format `LOGIN_1_URL` with its argument. -/
def LOGIN_1_URL (host : CStr) : CStr :=
  "https://".toList ++ host ++ "/ws/eBayISAPI.dll?SignIn".toList

/-- The format `LOGIN_2_URL` with its arguments. -/
def LOGIN_2_URL (host userid pass : CStr) : CStr :=
  "https://".toList ++ host ++ "/ws/eBayISAPI.dll?SignInWelcome&userid=".toList ++ userid
    ++ "&pass=".toList ++ pass ++ "&keepMeSignInOption=1".toList

/-- The part of `ebayLogin` that reads the answer to the second request: the
return value, the record and whether `loginTime` is to be set. -/
def loginAnswer (mp : MemBuf) (aip : AuctionInfo) : Defined (Int × AuctionInfo × Bool) :=
  match getPageInfo mp with
  | .undefined => .undefined
  | .value (some pp, _) =>
    if pp.srcId = some "SignInAlertSupressor".toList
        ∨ (∃ n ∈ pp.pageName, strncasecmpEq n "MyeBay".toList 6 = true
            ∨ strncasecmpEq n "My eBay".toList 7 = true) then
      .value (0, aip, true)
    else if pp.pageName = some "Welcome to eBay".toList
        ∨ pp.pageName = some "Welcome to eBay - Sign in - Error".toList then
      .value ((auctionError aip ae_badpass none).1, (auctionError aip ae_badpass none).2, false)
    else if pp.pageName = some "PageSignIn".toList then
      .value ((auctionError aip ae_login none).1, (auctionError aip ae_login none).2, false)
    else if pp.srcId = some "Captcha.xsl".toList then
      .value ((auctionError aip ae_captcha none).1, (auctionError aip ae_captcha none).2, false)
    else
      .value ((auctionError aip ae_login none).1, (auctionError aip ae_login none).2, false)
  | .value (none, _) =>
    .value ((auctionError aip ae_login none).1, (auctionError aip ae_login none).2, false)

/-- The part of `ebayLogin` after the test of the login interval: the two
sign-in requests and the reading of the answer. -/
def signIn {W : Type} (net : Network W) (opts : RequestOptions) (loginTime : Int)
    (aip : AuctionInfo) (w : W) : Defined (Requested W) :=
  let init := net.initCurlStuff w
  if init.1 ≠ 0 then
    .value { ret := (auctionError aip ae_unknown none).1,
             aip := (auctionError aip ae_unknown none).2,
             loginTime := loginTime, requests := [], world := init.2 }
  else
    let url1 := LOGIN_1_URL opts.loginHost
    match net.httpGet url1 init.2 with
    | (none, w) =>
      .value { ret := (net.httpError aip w).1.1, aip := (net.httpError aip w).1.2,
               loginTime := loginTime, requests := [url1], world := (net.httpError aip w).2 }
    | (some _, w) =>
      let password := net.getPassword w
      let url2 := LOGIN_2_URL opts.loginHost opts.usernameEscape password.1
      match net.httpGet url2 password.2 with
      | (none, w) =>
        .value { ret := (net.httpError aip w).1.1, aip := (net.httpError aip w).1.2,
                 loginTime := loginTime, requests := [url1, url2],
                 world := (net.httpError aip w).2 }
      | (some mp, w) =>
        match loginAnswer mp aip with
        | .undefined => .undefined
        | .value (ret, aip, true) =>
          .value { ret := ret, aip := aip, loginTime := (net.time w).1,
                   requests := [url1, url2], world := (net.time w).2 }
        | .value (ret, aip, false) =>
          .value { ret := ret, aip := aip, loginTime := loginTime,
                   requests := [url1, url2], world := w }

/-- The function `ebayLogin`: make sure login has been done within the given
interval. Returns 0 on success, 1 on failure. -/
def ebayLogin {W : Type} (net : Network W) (opts : RequestOptions) (loginTime : Int)
    (aip : AuctionInfo) (interval : Int) (w : W) : Defined (Requested W) :=
  if loginTime > 0 then
    -- default: 12 hours
    let interval := if interval = 0 then defaultLoginInterval else interval
    if (net.time w).1 - loginTime ≤ interval then
      .value { ret := 0, aip := aip, loginTime := loginTime, requests := [],
               world := (net.time w).2 }
    else signIn net opts loginTime aip (net.time w).2
  else signIn net opts loginTime aip w

/-- The function `getQuantity`: calculate quantity to bid on. If it is a
dutch auction, never bid on more than 1 less item than what is available. -/
def getQuantity (want available : Int) : Int :=
  if want = 1 ∨ available = 1 then 1
  else if available > want then want
  else available - 1

/-- The text that `sprintf` writes for `%d`. -/
def formatInt (n : Int) : CStr :=
  if n < 0 then '-' :: Nat.toDigits 10 n.natAbs else Nat.toDigits 10 n.natAbs

/-- The format `PRE_BID_URL` with its arguments. -/
def PRE_BID_URL (host item maxbid quant : CStr) : CStr :=
  "http://".toList ++ host
    ++ "/ws/eBayISAPI.dll?MfcISAPICommand=MakeBid&fb=2&co_partner_id=&item=".toList ++ item
    ++ "&maxbid=".toList ++ maxbid ++ "&quant=".toList ++ quant

/-- The function `preBid`: get bid key. Returns 0 on success, 1 on failure.
The function `parsePreBid`, which reads the answer, is a parameter. -/
def preBid {W : Type} (net : Network W) (parsePreBid : MemBuf → AuctionInfo → Int × AuctionInfo)
    (options : Options) (opts : RequestOptions) (loginTime : Int) (aip : AuctionInfo) (w : W) :
    Defined (Requested W) :=
  let quantity := getQuantity options.quantity aip.quantity
  match ebayLogin net opts loginTime aip 0 w with
  | .undefined => .undefined
  | .value login =>
    if login.ret ≠ 0 then .value { login with ret := 1 }
    else
      match login.aip.bidPriceStr with
      | none => .undefined
      | some bidPriceStr =>
        let quantityStr := formatInt quantity
        let url := PRE_BID_URL opts.prebidHost login.aip.auction bidPriceStr quantityStr
        match net.httpGet url login.world with
        | (none, w) =>
          .value { ret := (net.httpError login.aip w).1.1, aip := (net.httpError login.aip w).1.2,
                   loginTime := login.loginTime, requests := login.requests ++ [url],
                   world := (net.httpError login.aip w).2 }
        | (some mp, w) =>
          .value { ret := (parsePreBid mp login.aip).1, aip := (parsePreBid mp login.aip).2,
                   loginTime := login.loginTime, requests := login.requests ++ [url],
                   world := w }

/-- The default values of the string options, for the user `user`. -/
def defaultRequestOptions : RequestOptions :=
  { prebidHost := "offer.ebay.com".toList, loginHost := "signin.ebay.com".toList,
    usernameEscape := "user".toList }

/-- A network without connection, whose world is the clock: every request
fails and `httpError` reports it. -/
def offlineNetwork : Network Int :=
  { time := fun w => (w, w),
    initCurlStuff := fun w => (0, w),
    httpGet := fun _ w => (none, w),
    httpError := fun aip w => (auctionError aip ae_curlerror none, w),
    getPassword := fun w => ([], w) }

/-- The requests that a call made, if it returned. -/
def Defined.requests {W : Type} : Defined (Requested W) → Option (List CStr)
  | .value r => some r.requests
  | .undefined => none

/-- The value that a call returned, if it returned. -/
def Defined.returnValue {W : Type} : Defined (Requested W) → Option Int
  | .value r => some r.ret
  | .undefined => none

/-! ### The words of the specification about the ledger -/

/-- The rows of the ledger that follow the read pointer: what successive
calls of `getTableRow` give until the first `NULL`; `fuel` bounds the number of
rows. -/
def tableRows : Nat → MemBuf → List (List CStr)
  | 0, _ => []
  | fuel + 1, mp =>
    match getTableRow mp with
    | (none, _) => []
    | (some row, mp) => row :: tableRows fuel mp

/-- The row is a 5-column row whose bidder name is `Starting Price`. -/
def isStartingPriceRow (row : List CStr) : Bool :=
  decide (numColumns (some row) = 5)
    && decide (getNonTagFromString (row.getD 1 []) = some "Starting Price".toList)

/-- The number of 5-column rows that precede the first `Starting Price` row
(all 5-column rows when there is none). -/
def rowsBeforeStartingPrice (rows : List (List CStr)) : Nat :=
  ((rows.takeWhile (fun row => !isStartingPriceRow row)).filter
    (fun row => decide (numColumns (some row) = 5))).length

/-- A ledger row with the bidder name `Starting Price`. -/
def startingPriceRow : List CStr :=
  ["".toList, "Starting Price".toList, "1.00".toList, "Jan-01-10".toList, "".toList]

/-- A ledger row with a bid of 3.00 by `joe`. -/
def bidRow : List CStr :=
  ["".toList, "joe".toList, "3.00".toList, "Jan-02-10".toList, "".toList]

/-- The rest of a ledger after its first row: a bid by `ann`, the
`Starting Price` row and the end of the table. -/
def ledgerRest : MemBuf :=
  strToMemBuf ("<tr><td></td><td>ann</td><td>2.00</td><td>Jan-01-10</td><td></td></tr>"
    ++ "<tr><td></td><td>Starting Price</td><td>1.00</td><td>Jan-01-10</td><td></td></tr>"
    ++ "</table>").toList

/-- A transaction history page of an ended buy-it-now offer of which `joe`
has bought two items. -/
def purchasePage : MemBuf :=
  strToMemBuf ("<!-- var pageName = \"PageViewTransactions\"; -->"
    ++ "<a class=\"vizItemNum\">Item number:</a><b>1</b>"
    ++ "<a class=\"itemTitle\">Title:</a><b>T</b>Time Ended:"
    ++ "<table><tr><td></td><td>User ID</td><td>Price</td><td>Qty</td><td>Date</td><td></td></tr>"
    ++ "<tr><td></td><td>joe</td><td>5.00</td><td>2</td><td>Jan-02-10</td><td></td></tr>"
    ++ "</table>").toList

/-- A bid history page that states the quantity 0 and has one bid, by `joe`. -/
def soldOutPage : MemBuf :=
  strToMemBuf ("<!-- var pageName = \"PageViewBids\"; --><p>Bid History</p>"
    ++ "<a class=\"vizItemNum\">Item number:</a><b>1</b>"
    ++ "<a class=\"itemTitle\">Title:</a><b>T</b>"
    ++ "<a class=\"BHCtBid\">Quantity:</a><b>0</b>"
    ++ "<table><tr><td></td><td>Bidder</td><td>Bid Amount</td><td>Bid Time</td><td></td></tr>"
    ++ "<tr><td></td><td>joe</td><td>3.00</td><td>Jan-02-10</td><td></td></tr>"
    ++ "</table>").toList

/-- What `quantityBid <= quantity` rests on after a parse of a bid history
page: the quantity is not negative and `quantityBid` is 0 or 1. -/
def QuantityBidSet (aip : AuctionInfo) : Prop :=
  0 ≤ aip.quantity ∧ (aip.quantityBid = 0 ∨ aip.quantityBid = 1)

/-- The record with which the parser of `soldOutPage` reaches the bid table. -/
def soldOutRecord : AuctionInfo :=
  { exampleRecord with
    title := some "T".toList, quantity := 0, remainRaw := some "--".toList, remain := 0,
    endTime := 0, bids := -1 }

/-! ## Two parses side by side -/

/-- Two runs of the parser, one that takes the record from `a` to `a1` and one
that takes it from `b` to `b1`, treat the field `f` alike: both leave it as it
was, or both leave the same value in it. -/
def InStep {α : Type} (f : AuctionInfo → α) (a a1 b b1 : AuctionInfo) : Prop :=
  (f a1 = f a ∧ f b1 = f b) ∨ f a1 = f b1

/-- Two runs of the parser treat every field alike. For the currency, which
`priceFixup` sets only when the record has none: a currency that is set is
kept, and equal currencies stay equal. -/
structure InStepAll (a a1 b b1 : AuctionInfo) : Prop where
  /-- the field `auction` -/
  auction : InStep (fun r => r.auction) a a1 b b1
  /-- the field `title` -/
  title : InStep (fun r => r.title) a a1 b b1
  /-- the field `bidPriceStr` -/
  bidPriceStr : InStep (fun r => r.bidPriceStr) a a1 b b1
  /-- the field `bidPrice` -/
  bidPrice : InStep (fun r => r.bidPrice) a a1 b b1
  /-- the field `remain` -/
  remain : InStep (fun r => r.remain) a a1 b b1
  /-- the field `remainRaw` -/
  remainRaw : InStep (fun r => r.remainRaw) a a1 b b1
  /-- the field `endTime` -/
  endTime : InStep (fun r => r.endTime) a a1 b b1
  /-- the field `latency` -/
  latency : InStep (fun r => r.latency) a a1 b b1
  /-- the field `query` -/
  query : InStep (fun r => r.query) a a1 b b1
  /-- the field `biduiid` -/
  biduiid : InStep (fun r => r.biduiid) a a1 b b1
  /-- the field `quantity` -/
  quantity : InStep (fun r => r.quantity) a a1 b b1
  /-- the field `quantityBid` -/
  quantityBid : InStep (fun r => r.quantityBid) a a1 b b1
  /-- the field `bids` -/
  bids : InStep (fun r => r.bids) a a1 b b1
  /-- the field `price` -/
  price : InStep (fun r => r.price) a a1 b b1
  /-- the field `shipping` -/
  shipping : InStep (fun r => r.shipping) a a1 b b1
  /-- the field `bidResult` -/
  bidResult : InStep (fun r => r.bidResult) a a1 b b1
  /-- the field `reserve` -/
  reserve : InStep (fun r => r.reserve) a a1 b b1
  /-- the field `won` -/
  won : InStep (fun r => r.won) a a1 b b1
  /-- the field `winning` -/
  winning : InStep (fun r => r.winning) a a1 b b1
  /-- the field `auctionError` -/
  auctionError : InStep (fun r => r.auctionError) a a1 b b1
  /-- the field `auctionErrorDetail` -/
  auctionErrorDetail : InStep (fun r => r.auctionErrorDetail) a a1 b b1
  /-- equal currencies stay equal -/
  currency : a.currency = b.currency → a1.currency = b1.currency
  /-- the first run keeps a currency that is set -/
  currencyKept : a.currency ≠ none → a1.currency = a.currency
  /-- the second run keeps a currency that is set -/
  currencyKept2 : b.currency ≠ none → b1.currency = b.currency

/-- The text that `priceFixup` leaves in the buffer, which does not depend on
the record. -/
def fixedText (price : CStr) : Option CStr := (priceFixup (some price) none).1

/-- The currency that `priceFixup` leaves in a record with the currency
`currency`. -/
def fixedCurrency (price : CStr) (currency : Option CStr) : Option CStr :=
  if currency = none then some (price.take (skipAlpha price price.length price.length 0))
  else currency

/-- The buffer `mp1` holds the document of `mp`: only the read pointer may
differ. -/
def SameDoc (mp mp1 : MemBuf) : Prop :=
  mp1.memory = mp.memory ∧ mp1.timeToFirstByte = mp.timeToFirstByte

/-- What holds of the value of a function that may dereference a null
pointer, when it gives one. -/
def Defined.sat {α : Type} (x : Defined α) (P : α → Prop) : Prop :=
  match x with
  | .value a => P a
  | .undefined => True

/-- Two runs of a part of the parser end alike: both go on, with values
related by `N`, or both return the same value and buffer, with records related
by `R`, or both dereference a null pointer. -/
inductive Sim2 {α : Type} (N : α → α → Prop) (R : AuctionInfo → AuctionInfo → Prop) :
    Parse α → Parse α → Prop
  /-- both go on -/
  | next {r1 r2 : α} (h : N r1 r2) : Sim2 N R (.next r1) (.next r2)
  /-- both return -/
  | returned {ret : Int} {a1 b1 : AuctionInfo} {mp : MemBuf} (h : R a1 b1) :
      Sim2 N R (.returned ret a1 mp) (.returned ret b1 mp)
  /-- both dereference a null pointer -/
  | undefined : Sim2 N R .undefined .undefined

/-- A bid history page that states the current bid as `US $0.00`; `head` is
put before the comment with the page name. -/
def zeroPricePage (head : String) : MemBuf :=
  strToMemBuf (head ++ "<!-- var pageName = \"PageViewBids\"; --><p>Bid History</p>"
    ++ "<a class=\"vizItemNum\">Item number:</a><b>1</b>"
    ++ "<a class=\"itemTitle\">Title:</a><b>T</b>"
    ++ "<i id=\"BHCtBid\">Current bid:</i><b>US $0.00</b>").toList

/-- A row of the bid table that states the price as `free`. -/
def freeRow : List CStr :=
  ["".toList, "joe".toList, "free".toList, "Jan-02-10".toList, "".toList]

/-! ## Sorting and purging the batch (auctioninfo.c) -/

/-- What the loop `get rid of obvious cases` of `sortAuctions` decides about
an entry. -/
inductive PurgeVerdict
  /-- the next entry has the same auction number: `ae_duplicate` -/
  | duplicate
  /-- `aip->won > 0`: the quantity is reduced -/
  | won
  /-- the entry has an error or has ended -/
  | dead
  /-- the bid price is not valid: `ae_bidprice` -/
  | bidprice
  /-- `continue`: the entry stays -/
  | keep
  deriving DecidableEq, Repr

/-- The test `(i + 1) < numAuctions && !strcmp(aip->auction,
auctions[i+1]->auction)`, with `next` the entry `auctions[i+1]` (`none` when
`i + 1 = numAuctions`). -/
def sameAuction (aip : AuctionInfo) : Option AuctionInfo → Bool
  | none => false
  | some next => decide (aip.auction = next.auction)

/-- The chain of tests of the loop `get rid of obvious cases` of
`sortAuctions` for the entry `aip`, with `next` the entry `auctions[i+1]`
(`none` when `i + 1 = numAuctions`) and `now` the value of `time(NULL)`. -/
def purgeVerdict (aip : AuctionInfo) (next : Option AuctionInfo) (now : Int) : PurgeVerdict :=
  if sameAuction aip next then .duplicate
  else if aip.won > 0 then .won
  else if aip.auctionError ≠ ae_none ∨ aip.endTime ≤ now then .dead
  else if ¬ isValidBidPrice aip then .bidprice
  else .keep

/-- The loop `get rid of obvious cases` of `sortAuctions` from entry `i` on:
the entries of the array afterwards (`none` for an entry that was freed and set
to `NULL`), the quantity and the number of entries removed (`sawError`).
`clock i` is the value of `time(NULL)` in pass `i`. -/
def purgeLoop (clock : Nat → Int) :
    Nat → List AuctionInfo → Int → List (Option AuctionInfo) × Int × Int
  | _, [], quantity => ([], quantity, 0)
  | i, aip :: rest, quantity =>
    match purgeVerdict aip rest.head? (clock i) with
    | .keep =>
      let r := purgeLoop clock (i + 1) rest quantity
      (some aip :: r.1, r.2.1, r.2.2)
    | .won =>
      let r := purgeLoop clock (i + 1) rest (toInt (quantity - aip.won))
      (none :: r.1, r.2.1, r.2.2 + 1)
    | _ =>
      let r := purgeLoop clock (i + 1) rest quantity
      (none :: r.1, r.2.1, r.2.2 + 1)

/-- The part of `sortAuctions` after the sort: get rid of obvious cases,
eliminate dead auctions. Gives the return value (the new `numAuctions`), the
entries left in the array and the quantity. -/
def purgeAuctions (clock : Nat → Int) (auctions : List AuctionInfo) (quantity : Int) :
    Int × List AuctionInfo × Int :=
  let r := purgeLoop clock 0 auctions quantity
  if r.2.2 ≠ 0 then ((auctions.length : Int) - r.2.2, r.1.filterMap id, r.2.1)
  else ((auctions.length : Int), auctions, r.2.1)

/-! ### Example batches -/

/-- An entry for auction 1 with a bid of 10.00. -/
def twinFirst : AuctionInfo :=
  { newAuctionInfoWith "1".toList (some "10.00".toList) 10 with endTime := 2000, price := 1 }

/-- An entry for auction 1 with a bid of 20.00. -/
def twinSecond : AuctionInfo :=
  { newAuctionInfoWith "1".toList (some "20.00".toList) 20 with endTime := 2000, price := 1 }

/-- An entry for an auction that has ended and of which 2 items were won. -/
def wonEntry : AuctionInfo :=
  { newAuctionInfoWith "7".toList (some "10.00".toList) 10 with endTime := 500, won := 2 }

/-- The sum of the `won` amounts of the entries that have won something and
are not directly followed by an entry with the same auction number. -/
def wonTotal : List AuctionInfo → Int
  | [] => 0
  | aip :: rest =>
    (if sameAuction aip rest.head? = false ∧ aip.won > 0 then aip.won else 0) + wonTotal rest

/-- A row of a table without cells, followed by a row with one cell. -/
def emptyRowTable : MemBuf := strToMemBuf "<tr></tr><tr><td>x</td></tr></table>".toList

/-! ### The words of the specification about nested tables -/

/-- The bytes that `getNonTag` takes for white space: blank, line feed,
carriage return, tab, vertical tab and the bytes 0x82, 0xC2, 0xC3, 0xA0. -/
def isBlankByte (c : Char) : Bool :=
  c = ' ' || c = '\n' || c = '\r' || c = '\t' || c = '\x0b' || c = Char.ofNat 0x82
    || c = Char.ofNat 0xC2 || c = Char.ofNat 0xC3 || c = Char.ofNat 0xA0

/-- A byte of a word: no white space, none of `<` and `&`, not NUL. -/
def isWordByte (c : Char) : Bool :=
  !isBlankByte c && decide (c ≠ '<') && decide (c ≠ '&') && decide (c ≠ '\x00')

/-- The text has no two adjacent blanks. -/
def Collapsed (s : CStr) : Prop := s.Chain' (fun a b => ¬ (a = ' ' ∧ b = ' '))

/-- The text has no leading blank, no trailing blank and no two adjacent
blanks. -/
def Trimmed (s : CStr) : Prop := s.head? ≠ some ' ' ∧ s.getLast? ≠ some ' ' ∧ Collapsed s

/-- The document has no numeric entity: no `&` is directly followed by `#`. -/
def NoNumericEntity (memory : CStr) : Prop :=
  ∀ i : Nat, byteAt memory i = '&' → byteAt memory (i + 1) ≠ '#'

/-- The buffer of `getNonTag` has no leading blank, no two adjacent blanks and
no NUL. -/
def TidyBuf (buf : CStr) : Prop := buf.head? ≠ some ' ' ∧ Collapsed buf ∧ '\x00' ∉ buf

/-- The variable `amp` of `getNonTag` is 0 or marks the place after an `&` in
the buffer, where no `#` follows; when nothing follows yet, the `&` is the byte
that was read last. -/
def AmpInv (mp : MemBuf) (buf : CStr) (amp : Nat) : Prop :=
  amp = 0 ∨ ∃ pre name : CStr, buf = pre ++ '&' :: name ∧ amp = pre.length + 1 ∧
    name.head? ≠ some '#' ∧
    (name = [] → 0 < mp.readptr ∧ byteAt mp.memory (mp.readptr - 1) = '&')

/-! ### Loops over the tokens of a document -/

/-- The function `newAuctionInfo`. -/
def newAuctionInfo (auction : CStr) (bidPriceStr : Option CStr) : AuctionInfo :=
  newAuctionInfoWith auction (priceFixup bidPriceStr none).1
    (match (priceFixup bidPriceStr none).1 with
     | some s => atof s
     | none => -1)

/-- The test `isspace(c) && c != '\n' && c != '\r'` of `readAuctionFile`. -/
def isLineBlank (c : Char) : Bool := isspace c && c != '\n' && c != '\r'

/-- The test `isdigit(c) || c == '.' || c == ','` of `readAuctionFile`. -/
def isPriceChar (c : Char) : Bool := isdigit c || c = '.' || c = ','

/-- The function `skipline` of util.c: skip rest of line, up to newline. Given
the bytes left in the file, gives the byte that is returned followed by the
bytes then left in the file, and `[]` when `EOF` is returned. -/
def skipline (fp : CStr) : CStr := fp.dropWhile (fun c => c != '\n' && c != '\r')

/-- The test `c == EOF || c == '\n' || c == '\r'`, for the byte `c` at the
head of `cur` (`EOF` when `cur` is empty). -/
def atLineEnd : CStr → Bool
  | [] => true
  | c :: _ => c = '\n' || c = '\r'

/-- The statements
`while (isspace(c) && c != '\n' && c != '\r') c = getc(fp);`
`if (c == '#') c = skipline(fp);` of `readAuctionFile`, for the byte `c` at the
head of `cur` followed by the bytes left in the file. -/
def skipBlanksAndComment (cur : CStr) : CStr :=
  match cur.dropWhile isLineBlank with
  | [] => []
  | c :: fp => if c = '#' then skipline fp else c :: fp

/-- The branch `else if (isdigit(c))` of the loop of `readAuctionFile`, for
the first byte `c` of the auction number and the bytes `fp` left in the file:
the byte `c` at the end of the branch followed by the bytes left in the file,
the buffer, and `numAuctions`. -/
def readAuctionLine (c : Char) (fp buf : CStr) (numAuctions : Int) : CStr × CStr × Int :=
  -- get auction number
  let buf := buf ++ c :: fp.takeWhile isdigit
  let cur := skipBlanksAndComment (fp.dropWhile isdigit)
  if atLineEnd cur then
    -- no price: use price of previous auction
    (cur, buf ++ ['\n'], if numAuctions + 1 = 1 then -1 else numAuctions + 1)
  else
    -- get price
    let buf := buf ++ ' ' :: cur.takeWhile isPriceChar
    let cur := skipBlanksAndComment (cur.dropWhile isPriceChar)
    (cur, buf ++ ['\n'], if atLineEnd cur then numAuctions + 1 else -1)

/-- The loop `while (numAuctions != -1 && (c = getc(fp)) != EOF)` of
`readAuctionFile`, on the bytes left in the file: the buffer and `numAuctions`
at its end. `fuel` bounds the number of passes (each reads at least one
byte); the number of auction lines is taken to fit an `int`. -/
def readAuctionLines : Nat → CStr → CStr → Int → CStr × Int
  | 0, _, buf, numAuctions => (buf, numAuctions)
  | fuel + 1, fp, buf, numAuctions =>
    if numAuctions = -1 then (buf, numAuctions)
    else
      match fp with
      | [] => (buf, numAuctions)
      | c :: fp =>
        if isspace c then readAuctionLines fuel fp buf numAuctions
        else if c = '#' ∨ isalpha c then
          -- skip comments and anything starting with a letter
          match skipline fp with
          | [] => (buf, numAuctions)
          | _ :: fp => readAuctionLines fuel fp buf numAuctions
        else if isdigit c then
          match readAuctionLine c fp buf numAuctions with
          | ([], buf, numAuctions) => (buf, numAuctions)
          | (_ :: fp, buf, numAuctions) => readAuctionLines fuel fp buf numAuctions
        else
          -- invalid auction line: the loop ends with `numAuctions = -1`
          (buf, -1)

/-- The loop `for (i = 0, j = 0; i < numAuctions; ++i, ++j)` of
`readAuctionFile`, with `n` passes to go, on the buffer from `buf[j]` on and
the records built so far. It is undefined when it reads beyond the buffer or
takes the price of the record before the first. -/
def buildAuctions : Nat → CStr → List AuctionInfo → Defined (List AuctionInfo)
  | 0, _, built => .value built
  | n + 1, buf, built =>
    let auction := buf.takeWhile (fun c => !isspace c)
    match buf.dropWhile (fun c => !isspace c) with
    | [] => .undefined
    | c :: rest =>
      if c = '\n' then
        match built.getLast? with
        | none => .undefined
        | some previous =>
          buildAuctions n rest (built ++ [newAuctionInfo auction previous.bidPriceStr])
      else
        match rest.dropWhile (fun c => c != '\n') with
        | [] => .undefined
        | _ :: rest1 =>
          buildAuctions n rest1
            (built ++ [newAuctionInfo auction (some (rest.takeWhile (fun c => c != '\n')))])

/-- The function `readAuctionFile`: read a file listing auctions to watch,
given the bytes of the file (`none` when it cannot be opened). Gives the
return value, the number of auctions to watch, and the records built. -/
def readAuctionFile (file : Option CStr) : Defined (Int × List AuctionInfo) :=
  match file with
  | none => .value (-1, [])
  | some fp =>
    let r := readAuctionLines (fp.length + 1) fp [] 0
    if r.2 > 0 then
      match buildAuctions r.2.toNat r.1 [] with
      | .undefined => .undefined
      | .value auctions => .value (r.2, auctions)
    else .value (r.2, [])

/-! ### The words of the specification about the auction file -/

/-- The lines of a file: the texts between its line ends (`\n` or `\r`). -/
def fileLines : CStr → List CStr
  | [] => [[]]
  | c :: rest =>
    if c = '\n' ∨ c = '\r' then [] :: fileLines rest
    else
      match fileLines rest with
      | line :: lines => (c :: line) :: lines
      | [] => [[c]]

/-- What a line of an auction file is. -/
inductive LineKind where
  /-- a blank line, a comment, or a line that starts with a letter (taken for
  a configuration option) -/
  | skipped
  /-- an auction line: the auction number and the price, if one is stated -/
  | auction (id : CStr) (price : Option CStr)
  /-- a malformed line -/
  | invalid
  deriving DecidableEq

/-- The kind of a line: after leading white space, a line that is empty or
starts with `#` or a letter is skipped; a line that starts with a digit is an
auction line, whose number is its leading digits; what follows the number and
white space is nothing or a `#` comment (no price), or the price, a run of
digits, `.` and `,`, after which only white space and a `#` comment may
follow; every other line is malformed. -/
def classifyLine (line : CStr) : LineKind :=
  match line.dropWhile isspace with
  | [] => .skipped
  | c :: rest =>
    if c = '#' ∨ isalpha c then .skipped
    else if isdigit c then
      match ((c :: rest).dropWhile isdigit).dropWhile isspace with
      | [] => .auction ((c :: rest).takeWhile isdigit) none
      | d :: rest1 =>
        if d = '#' then .auction ((c :: rest).takeWhile isdigit) none
        else
          match ((d :: rest1).dropWhile isPriceChar).dropWhile isspace with
          | [] =>
            .auction ((c :: rest).takeWhile isdigit) (some ((d :: rest1).takeWhile isPriceChar))
          | e :: _ =>
            if e = '#' then
              .auction ((c :: rest).takeWhile isdigit)
                (some ((d :: rest1).takeWhile isPriceChar))
            else .invalid
    else .invalid

/-- The auction lines of a file, given its lines and the auction lines `acc`
found before; `none` when a line is malformed or the first auction line states
no price. -/
def parseLines (acc : List (CStr × Option CStr)) :
    List CStr → Option (List (CStr × Option CStr))
  | [] => some acc
  | line :: lines =>
    match classifyLine line with
    | .skipped => parseLines acc lines
    | .invalid => none
    | .auction id price =>
      if price = none ∧ acc = [] then none else parseLines (acc ++ [(id, price)]) lines

/-- The auction lines with the price that each one uses: its own, or the
price of the nearest preceding line that states one (`last`, for the lines
before). -/
def inheritPrices : Option CStr → List (CStr × Option CStr) → List (CStr × Option CStr)
  | _, [] => []
  | _, (id, some price) :: lines => (id, some price) :: inheritPrices (some price) lines
  | last, (id, none) :: lines => (id, last) :: inheritPrices last lines

/-- The text that `readAuctionFile` keeps of the auction lines: one line for
each, with the number, and a blank and the price if one is stated. -/
def encodeLines : List (CStr × Option CStr) → CStr
  | [] => []
  | (id, none) :: lines => id ++ '\n' :: encodeLines lines
  | (id, some price) :: lines => id ++ ' ' :: price ++ '\n' :: encodeLines lines

/-- An auction file with comments, an option, and auction lines with and
without a price. -/
def exampleAuctionFile : CStr :=
  "# my auctions\nseconds = 10\n\n  1234 5.50 # first\r\n1235\n1236 # same price\n1237 1,000.50\n1238".toList

/-! ## The auction file, line by line -/

/-- A text without line ends. -/
def NoLineEnd (x : CStr) : Prop := ∀ c ∈ x, c ≠ '\n' ∧ c ≠ '\r'

/-- Nothing, or a text that starts with a line end. -/
def EndsLine (sfx : CStr) : Prop := ∀ c ∈ sfx.head?, c = '\n' ∨ c = '\r'

/-- An auction line as `classifyLine` gives it: the number is a run of digits
that is not empty, and the price, if there is one, a run of digits, `.` and `,`
that is not empty. -/
def WellFormedLine (l : CStr × Option CStr) : Prop :=
  l.1 ≠ [] ∧ (∀ c ∈ l.1, isdigit c = true) ∧
    ∀ p, l.2 = some p → p ≠ [] ∧ ∀ c ∈ p, isPriceChar c = true

/-! ## Matching input (auction.c) -/

/-- The loop of `match` on the unread bytes, with `cursor` the offset of the
pointer `cursor` into `str`: the bytes left unread when `str` was matched,
`none` at `EOF`. The bytes of `str` are taken to be ASCII. With an empty `str`
a NUL byte of the input equals `*cursor`, and `*++cursor` then reads the byte
after the terminating NUL. -/
def matchLoop (str : CStr) : CStr → Nat → Defined (Option CStr)
  | [], _ => .value none
  | c :: rest, cursor =>
    if tolower c = byteAt str cursor then
      if cursor + 1 = str.length then .value (some rest)
      else if cursor + 1 < str.length then matchLoop str rest (cursor + 1)
      else .undefined
    else if c ≠ '\n' ∧ c ≠ '\r' then matchLoop str rest 0
    else matchLoop str rest cursor

/-- The function `match` of auction.c (a reserved word here): attempt to match
some input, neglecting case, ignoring `\r` and `\n`; returns 0 on success, -1
on failure. -/
def matchStr (mp : MemBuf) (str : CStr) : Defined (Int × MemBuf) :=
  match matchLoop str mp.unread 0 with
  | .undefined => .undefined
  | .value (some rest) => .value (0, mp.seek rest)
  | .value none => .value (-1, mp.seek [])

/-! ### The words of the specification about matching -/

/-- A text with CR and LF left out and upper-case letters made lower-case. -/
def foldInput (input : CStr) : CStr :=
  (input.filter (fun c => decide (c ≠ '\n' ∧ c ≠ '\r'))).map tolower

/-- Whether `s` occurs in `input` as a substring under case-insensitive
comparison with CR and LF characters ignored. -/
def occursFolded (s input : CStr) : Bool := decide (s <:+: foldInput input)

/-- A page that ends inside a comment with a source id. -/
def openCommentPage : MemBuf := strToMemBuf "<p>x</p><!--srcId: ViewItem".toList

/-- A page with a complete comment with a source id. -/
def closedCommentPage : MemBuf := strToMemBuf "<p>x</p><!--srcId: ViewItem-->".toList

/-! # Theorems -/

/-! ## Floating point -/

theorem roundHalfEven_eq (q : ℚ) (m : Int) (h : |q - m| < 1 / 2) : roundHalfEven q = m := by
  rw [abs_lt] at h
  unfold roundHalfEven
  by_cases hm : (m : ℚ) ≤ q
  · have hf : ⌊q⌋ = m := by
      rw [Int.floor_eq_iff]
      constructor
      · exact hm
      · linarith [h.2]
    rw [hf, if_pos (by linarith [h.2])]
  · have hf : ⌊q⌋ = m - 1 := by
      rw [Int.floor_eq_iff]
      push_cast
      constructor
      · linarith [h.1]
      · push_neg at hm; linarith
    rw [hf]
    push_cast
    rw [if_neg (by linarith [h.1]), if_pos (by linarith [h.1])]
    ring

theorem roundHalfEven_intCast (m : Int) : roundHalfEven (m : ℚ) = m :=
  roundHalfEven_eq _ m (by simp)

theorem roundHalfEven_near (q : ℚ) : |(roundHalfEven q : ℚ) - q| ≤ 1 / 2 := by
  have h1 := Int.floor_le q
  have h2 := Int.lt_floor_add_one q
  unfold roundHalfEven
  rw [abs_le]
  split_ifs with ha hb hc
  · constructor <;> linarith
  · push_cast; constructor <;> linarith
  · push_neg at ha hb; constructor <;> linarith
  · push_neg at ha hb; push_cast; constructor <;> linarith

theorem halvings_spec : ∀ (fuel n : Nat), n ≤ fuel → 0 < n →
    2 ^ halvings fuel n ≤ n ∧ n < 2 ^ (halvings fuel n + 1)
  | 0, n, h, hn => by omega
  | fuel + 1, n, h, hn => by
    rw [halvings]
    split
    · rename_i h2
      simp only [pow_zero, zero_add, pow_one]
      omega
    · rename_i h2
      have ih := halvings_spec fuel (n / 2) (by omega) (by omega)
      simp only [Nat.pow_succ] at ih ⊢
      generalize 2 ^ halvings fuel (n / 2) = K at ih ⊢
      omega

/-- The exponent of the leading bit: `2^e ≤ |x| < 2^(e+1)`. -/
theorem binaryExponent_spec (x : ℚ) (hx : x ≠ 0) :
    (2 : ℚ) ^ binaryExponent x ≤ |x| ∧ |x| < (2 : ℚ) ^ (binaryExponent x + 1) := by
  have hp : 0 < x.num.natAbs := Int.natAbs_pos.mpr (Rat.num_ne_zero.mpr hx)
  have hq : 0 < x.den := x.den_pos
  obtain ⟨a1, a2⟩ := halvings_spec _ _ (le_refl _) hp
  obtain ⟨b1, b2⟩ := halvings_spec _ _ (le_refl _) hq
  have habs : |x| = (x.num.natAbs : ℚ) / (x.den : ℚ) := by
    rw [Rat.abs_def, Rat.divInt_eq_div]
    push_cast [Nat.cast_natAbs]
    rfl
  have hP : (0 : ℚ) < (x.num.natAbs : ℚ) := by exact_mod_cast hp
  have hQ : (0 : ℚ) < (x.den : ℚ) := by exact_mod_cast hq
  have A1 : (2 : ℚ) ^ halvings x.num.natAbs x.num.natAbs ≤ (x.num.natAbs : ℚ) := by
    exact_mod_cast a1
  have A2 : (x.num.natAbs : ℚ) < (2 : ℚ) ^ halvings x.num.natAbs x.num.natAbs * 2 := by
    rw [← pow_succ]
    exact_mod_cast a2
  have B1 : (2 : ℚ) ^ halvings x.den x.den ≤ (x.den : ℚ) := by exact_mod_cast b1
  have B2 : (x.den : ℚ) < (2 : ℚ) ^ halvings x.den x.den * 2 := by
    rw [← pow_succ]
    exact_mod_cast b2
  have hd : (2 : ℚ) ^ ((halvings x.num.natAbs x.num.natAbs : Int) - (halvings x.den x.den : Int))
      = (2 : ℚ) ^ halvings x.num.natAbs x.num.natAbs / (2 : ℚ) ^ halvings x.den x.den := by
    rw [zpow_sub₀ (by norm_num), zpow_natCast, zpow_natCast]
  have hA : (0 : ℚ) < (2 : ℚ) ^ halvings x.num.natAbs x.num.natAbs := by positivity
  have hB : (0 : ℚ) < (2 : ℚ) ^ halvings x.den x.den := by positivity
  unfold binaryExponent
  simp only []
  split
  · rename_i h
    refine ⟨h, ?_⟩
    rw [zpow_add_one₀ (by norm_num), hd, habs, div_mul_eq_mul_div, div_lt_div_iff₀ hQ hB]
    nlinarith
  · rename_i h
    rw [sub_add_cancel]
    refine ⟨?_, lt_of_not_le h⟩
    rw [zpow_sub_one₀ (by norm_num), hd, habs, ← div_eq_mul_inv, div_div, div_le_div_iff₀ (by positivity) hQ]
    nlinarith

theorem binaryExponent_eq (x : ℚ) (e : Int) (h1 : (2 : ℚ) ^ e ≤ |x|)
    (h2 : |x| < (2 : ℚ) ^ (e + 1)) : binaryExponent x = e := by
  have hx : x ≠ 0 := by
    rintro rfl
    rw [abs_zero] at h1
    exact absurd h1 (not_le.mpr (zpow_pos (by norm_num) _))
  obtain ⟨s1, s2⟩ := binaryExponent_spec x hx
  have l1 : (2 : ℚ) ^ binaryExponent x < 2 ^ (e + 1) := lt_of_le_of_lt s1 h2
  have l2 : (2 : ℚ) ^ e < 2 ^ (binaryExponent x + 1) := lt_of_le_of_lt h1 s2
  rw [zpow_lt_zpow_iff_right₀ (by norm_num)] at l1 l2
  omega

theorem ulpExponent_eq (x : ℚ) (e : Int) (he : -1074 ≤ e) (h1 : (2 : ℚ) ^ (e + 52) ≤ |x|)
    (h2 : |x| < (2 : ℚ) ^ (e + 53)) : ulpExponent x = e := by
  have hl : binaryExponent x = e + 52 :=
    binaryExponent_eq x (e + 52) h1 (by rw [show e + 52 + 1 = e + 53 by ring]; exact h2)
  unfold ulpExponent
  rw [hl]
  omega

/-- Evaluation of `roundDouble` -/
theorem roundDouble_eq (x : ℚ) (m e : Int) (he : -1074 ≤ e) (h1 : (2 : ℚ) ^ (e + 52) ≤ |x|)
    (h2 : |x| < (2 : ℚ) ^ (e + 53)) (hm : |x / 2 ^ e - m| < 1 / 2) :
    roundDouble x = m * 2 ^ e := by
  unfold roundDouble
  rw [ulpExponent_eq x e he h1 h2, roundHalfEven_eq _ m hm]

theorem roundDouble_eq_pos (x : ℚ) (m e : Int) (he : -1074 ≤ e) (h1 : (2 : ℚ) ^ (e + 52) ≤ x)
    (h2 : x < (2 : ℚ) ^ (e + 53)) (hlo : (m : ℚ) - 1 / 2 < x / 2 ^ e)
    (hhi : x / 2 ^ e < (m : ℚ) + 1 / 2) : roundDouble x = m * 2 ^ e := by
  have hpos : 0 < x := lt_of_lt_of_le (zpow_pos (by norm_num) _) h1
  refine roundDouble_eq x m e he ?_ ?_ ?_
  · rwa [abs_of_pos hpos]
  · rwa [abs_of_pos hpos]
  · rw [abs_lt]; constructor <;> linarith

theorem roundDouble_zero : roundDouble 0 = 0 := by
  simp [roundDouble, roundHalfEven]

theorem roundDouble_of_multiple (x : ℚ) (m : Int) (h : x = m * 2 ^ ulpExponent x) :
    roundDouble x = x := by
  have hq : x / 2 ^ ulpExponent x = m := by
    rw [div_eq_iff (zpow_ne_zero _ (by norm_num))]
    exact h
  unfold roundDouble
  rw [hq, roundHalfEven_intCast, ← h]

/-- A whole number below 2^53 is a `double`. -/
theorem roundDouble_intCast (n : Int) (h : |n| < 2 ^ 53) : roundDouble (n : ℚ) = n := by
  by_cases h0 : n = 0
  · subst h0
    simpa using roundDouble_zero
  have hne : (n : ℚ) ≠ 0 := by exact_mod_cast h0
  have habs : |(n : ℚ)| < (2 : ℚ) ^ (53 : Int) := by
    have : ((|n| : Int) : ℚ) < ((2 ^ 53 : Int) : ℚ) := by exact_mod_cast h
    rw [Int.cast_abs] at this
    norm_num at this ⊢
    exact this
  have hone : (2 : ℚ) ^ (0 : Int) ≤ |(n : ℚ)| := by
    rw [zpow_zero, ← Int.cast_abs]
    have : (1 : Int) ≤ |n| := Int.one_le_abs h0
    exact_mod_cast this
  obtain ⟨s1, s2⟩ := binaryExponent_spec (n : ℚ) hne
  have hl1 : binaryExponent (n : ℚ) < 53 := by
    have := lt_of_le_of_lt s1 habs
    rwa [zpow_lt_zpow_iff_right₀ (by norm_num)] at this
  have hl0 : 0 ≤ binaryExponent (n : ℚ) := by
    have := lt_of_le_of_lt hone s2
    rw [zpow_lt_zpow_iff_right₀ (by norm_num)] at this
    omega
  have hk : ulpExponent (n : ℚ) = -((52 - binaryExponent (n : ℚ)).toNat : Int) := by
    unfold ulpExponent
    rw [Int.toNat_of_nonneg (by omega)]
    omega
  refine roundDouble_of_multiple _ (n * 2 ^ (52 - binaryExponent (n : ℚ)).toNat) ?_
  rw [hk, zpow_neg, zpow_natCast]
  push_cast
  field_simp

theorem roundDouble_near (x : ℚ) :
    |roundDouble x - x| ≤ 2 ^ ulpExponent x / 2 := by
  have hk : (0 : ℚ) < 2 ^ ulpExponent x := zpow_pos (by norm_num) _
  have h := roundHalfEven_near (x / 2 ^ ulpExponent x)
  have e : roundDouble x - x
      = ((roundHalfEven (x / 2 ^ ulpExponent x) : ℚ) - x / 2 ^ ulpExponent x)
        * 2 ^ ulpExponent x := by
    unfold roundDouble
    field_simp
  rw [e, abs_mul, abs_of_pos hk]
  calc |(roundHalfEven (x / 2 ^ ulpExponent x) : ℚ) - x / 2 ^ ulpExponent x| * 2 ^ ulpExponent x
      ≤ 1 / 2 * 2 ^ ulpExponent x := mul_le_mul_of_nonneg_right h hk.le
    _ = 2 ^ ulpExponent x / 2 := by ring

/-- The rounding error of `roundDouble`: at most half a unit in the last
place. -/
theorem roundDouble_error (x : ℚ) :
    |roundDouble x - x| ≤ |x| / 2 ^ 53 + 1 / 2 ^ 1075 := by
  by_cases h0 : x = 0
  · subst h0
    rw [roundDouble_zero]
    norm_num
  have hlog : (2 : ℚ) ^ binaryExponent x ≤ |x| := (binaryExponent_spec x h0).1
  have hk : (2 : ℚ) ^ ulpExponent x ≤ |x| / 2 ^ 52 + 1 / 2 ^ 1074 := by
    unfold ulpExponent
    rcases le_total (binaryExponent x - 52) (-1074) with h | h
    · rw [max_eq_right h]
      have : (2 : ℚ) ^ (-1074 : Int) = 1 / 2 ^ 1074 := by
        rw [zpow_neg, one_div]; norm_cast
      rw [this]
      have : 0 ≤ |x| / 2 ^ 52 := by positivity
      linarith
    · rw [max_eq_left h, zpow_sub₀ (by norm_num)]
      have h52 : (2 : ℚ) ^ (52 : Int) = 2 ^ 52 := by norm_cast
      rw [h52]
      have : (2 : ℚ) ^ binaryExponent x / 2 ^ 52 ≤ |x| / 2 ^ 52 :=
        div_le_div_of_nonneg_right hlog (by positivity)
      have : (0 : ℚ) ≤ 1 / 2 ^ 1074 := by positivity
      linarith
  have := roundDouble_near x
  calc |roundDouble x - x| ≤ 2 ^ ulpExponent x / 2 := this
    _ ≤ (|x| / 2 ^ 53 + 1 / 2 ^ 1075) := by
      have e : (|x| / 2 ^ 52 + 1 / 2 ^ 1074) / 2 = |x| / 2 ^ 53 + 1 / 2 ^ 1075 := by ring
      linarith

theorem roundDouble_val (x y : ℚ) (m e : Int) (he : -1074 ≤ e) (h1 : (2 : ℚ) ^ (e + 52) ≤ x)
    (h2 : x < (2 : ℚ) ^ (e + 53)) (hlo : (m : ℚ) - 1 / 2 < x / 2 ^ e)
    (hhi : x / 2 ^ e < (m : ℚ) + 1 / 2) (hy : (m : ℚ) * 2 ^ e = y) : roundDouble x = y := by
  rw [roundDouble_eq_pos x m e he h1 h2 hlo hhi, hy]

/-- A natural number below 2^53 is a `double`. -/
theorem roundDouble_ofNat (n : Nat) (h : n < 2 ^ 53) : roundDouble (n : ℚ) = n := by
  have := roundDouble_intCast (n : Int) (by rw [abs_of_nonneg (by positivity)]; exact_mod_cast h)
  simpa using this

theorem roundDouble_one : roundDouble 1 = 1 := by
  simpa using roundDouble_ofNat 1 (by norm_num)

theorem roundDouble_numeral (n : Nat) [n.AtLeastTwo] (h : n < 2 ^ 53) :
    roundDouble (OfNat.ofNat n) = OfNat.ofNat n := by
  have := roundDouble_ofNat n h
  simpa using this

theorem roundDouble_bounds (x : ℚ) :
    x - (|x| / 2 ^ 53 + 1 / 2 ^ 60) ≤ roundDouble x ∧
      roundDouble x ≤ x + (|x| / 2 ^ 53 + 1 / 2 ^ 60) := by
  have he := roundDouble_error x
  rw [abs_le] at he
  have ht : (1 : ℚ) / 2 ^ 1075 ≤ 1 / 2 ^ 60 :=
    one_div_le_one_div_of_le (by positivity) (pow_le_pow_right₀ (by norm_num) (by norm_num))
  constructor <;> linarith [he.1, he.2]

/-! ### The values of some numbers and sums in `double` -/

theorem roundDouble_epsilon : roundDouble (1 / 10000) = 7378697629483821 / 73786976294838206464 :=
  roundDouble_val _ _ 7378697629483821 (-66) (by norm_num) (by norm_num) (by norm_num) (by norm_num)
    (by norm_num) (by norm_num)

theorem roundDouble_cent : roundDouble (1 / 100) = 5764607523034235 / 576460752303423488 :=
  roundDouble_val _ _ 5764607523034235 (-59) (by norm_num) (by norm_num) (by norm_num) (by norm_num)
    (by norm_num) (by norm_num)

theorem roundDouble_p08 : roundDouble (2 / 25) = 5764607523034235 / 72057594037927936 :=
  roundDouble_val _ _ 5764607523034235 (-56) (by norm_num) (by norm_num) (by norm_num) (by norm_num)
    (by norm_num) (by norm_num)

theorem roundDouble_b1299 : roundDouble (1299 / 10000) = 4680140732763419 / 36028797018963968 :=
  roundDouble_val _ _ 4680140732763419 (-55) (by norm_num) (by norm_num) (by norm_num) (by norm_num)
    (by norm_num) (by norm_num)

theorem roundDouble_i05 : roundDouble (1 / 20) = 3602879701896397 / 72057594037927936 :=
  roundDouble_val _ _ 7205759403792794 (-57) (by norm_num) (by norm_num) (by norm_num) (by norm_num)
    (by norm_num) (by norm_num)

theorem roundDouble_s13 : roundDouble (1170935903116329 / 9007199254740992) = 1170935903116329 / 9007199254740992 :=
  roundDouble_val _ _ 4683743612465316 (-55) (by norm_num) (by norm_num) (by norm_num) (by norm_num)
    (by norm_num) (by norm_num)

theorem roundDouble_t1299 : roundDouble (9584928220699483347 / 73786976294838206464) = 1170035183190855 / 9007199254740992 :=
  roundDouble_val _ _ 4680140732763420 (-55) (by norm_num) (by norm_num) (by norm_num) (by norm_num)
    (by norm_num) (by norm_num)

theorem roundDouble_b0599 : roundDouble (599 / 10000) = 8632499765743767 / 144115188075855872 :=
  roundDouble_val _ _ 8632499765743767 (-57) (by norm_num) (by norm_num) (by norm_num) (by norm_num)
    (by norm_num) (by norm_num)

theorem roundDouble_s06 : roundDouble (34587645138205411 / 576460752303423488) = 8646911284551353 / 144115188075855872 :=
  roundDouble_val _ _ 8646911284551353 (-57) (by norm_num) (by norm_num) (by norm_num) (by norm_num)
    (by norm_num) (by norm_num)

theorem roundDouble_t0599 : roundDouble (4419839880060808915 / 73786976294838206464) = 8632499765743767 / 144115188075855872 :=
  roundDouble_val _ _ 8632499765743767 (-57) (by norm_num) (by norm_num) (by norm_num) (by norm_num)
    (by norm_num) (by norm_num)

theorem roundDouble_b1020 : roundDouble (51 / 5) = 2871044762448691 / 281474976710656 :=
  roundDouble_val _ _ 5742089524897382 (-49) (by norm_num) (by norm_num) (by norm_num) (by norm_num)
    (by norm_num) (by norm_num)

theorem roundDouble_t10 : roundDouble (737862384250752580819 / 73786976294838206464) = 2814721619608889 / 281474976710656 :=
  roundDouble_val _ _ 5629443239217778 (-49) (by norm_num) (by norm_num) (by norm_num) (by norm_num)
    (by norm_num) (by norm_num)

theorem roundDouble_p13 : roundDouble (13 / 100) = 1170935903116329 / 9007199254740992 :=
  roundDouble_val _ _ 4683743612465316 (-55) (by norm_num) (by norm_num) (by norm_num) (by norm_num)
    (by norm_num) (by norm_num)

theorem roundDouble_again13 : roundDouble (1170935903116329 / 9007199254740992) = 1170935903116329 / 9007199254740992 :=
  roundDouble_val _ _ 4683743612465316 (-55) (by norm_num) (by norm_num) (by norm_num) (by norm_num)
    (by norm_num) (by norm_num)

theorem roundDouble_p04 : roundDouble (1 / 25) = 5764607523034235 / 144115188075855872 :=
  roundDouble_val _ _ 5764607523034235 (-57) (by norm_num) (by norm_num) (by norm_num) (by norm_num)
    (by norm_num) (by norm_num)

theorem roundDouble_again04 : roundDouble (5764607523034235 / 144115188075855872) = 5764607523034235 / 144115188075855872 :=
  roundDouble_val _ _ 5764607523034235 (-57) (by norm_num) (by norm_num) (by norm_num) (by norm_num)
    (by norm_num) (by norm_num)

theorem roundDouble_b0399 : roundDouble (399 / 10000) = 5750196004226649 / 144115188075855872 :=
  roundDouble_val _ _ 5750196004226649 (-57) (by norm_num) (by norm_num) (by norm_num) (by norm_num)
    (by norm_num) (by norm_num)

theorem roundDouble_t04 : roundDouble (2944100354164044499 / 73786976294838206464) = 5750196004226649 / 144115188075855872 :=
  roundDouble_val _ _ 5750196004226649 (-57) (by norm_num) (by norm_num) (by norm_num) (by norm_num)
    (by norm_num) (by norm_num)

theorem roundDouble_t125 : roundDouble (92226341670918274259 / 73786976294838206464) = 5629049174250383 / 4503599627370496 :=
  roundDouble_val _ _ 5629049174250383 (-52) (by norm_num) (by norm_num) (by norm_num) (by norm_num)
    (by norm_num) (by norm_num)

theorem EPSILON_eq : EPSILON = 7378697629483821 / 73786976294838206464 := by
  unfold EPSILON
  rw [show (0.0001 : ℚ) = 1 / 10000 from by norm_num]
  exact roundDouble_epsilon

/-- The threshold `s - EPSILON` of `isValidBidPrice`, computed in `double`,
lies between `s - 0.0002` and `s`, for `s` from 0 to 10^11. -/
theorem threshold_bounds (s : ℚ) (h0 : 0 ≤ s) (h1 : s ≤ 100000000000) :
    s - 0.0002 ≤ doubleSub (roundDouble s) EPSILON ∧ doubleSub (roundDouble s) EPSILON ≤ s := by
  have hs := roundDouble_bounds s
  rw [abs_of_nonneg h0] at hs
  have hdiv : s / 2 ^ 53 ≤ s := div_le_self h0 (by norm_num)
  have hdiv0 : 0 ≤ s / 2 ^ 53 := by positivity
  have hx : |roundDouble s - EPSILON| ≤ s + s / 2 ^ 53 + 1 / 2 ^ 60 + EPSILON := by
    rw [EPSILON_eq, abs_le]
    norm_num at hs ⊢
    constructor <;> linarith [hs.1, hs.2]
  have hd := roundDouble_bounds (roundDouble s - EPSILON)
  have hx2 : |roundDouble s - EPSILON| / 2 ^ 53
      ≤ (s + s / 2 ^ 53 + 1 / 2 ^ 60 + EPSILON) / 2 ^ 53 :=
    div_le_div_of_nonneg_right hx (by positivity)
  have hdiv2 : s / 2 ^ 53 / 2 ^ 53 ≤ s / 2 ^ 53 := div_le_self hdiv0 (by norm_num)
  unfold doubleSub
  rw [EPSILON_eq] at hx2 hd ⊢
  have h53 : s / 2 ^ 53 ≤ 100000000000 / 2 ^ 53 := div_le_div_of_nonneg_right h1 (by positivity)
  norm_num at hs hd hx2 h53 hdiv2 ⊢
  constructor <;> linarith [hs.1, hs.2, hd.1, hd.2]

/-! ## Bid increments -/

theorem lookupIncrement_eq_spec : ∀ (table : List ℚ) (price : ℚ),
    lookupIncrement table price = specIncrement table price
  | [], _ => by simp [lookupIncrement, specIncrement, finiteEntries, tableEntries, sentinelIncrement]
  | [_], _ => by simp [lookupIncrement, specIncrement, finiteEntries, tableEntries, sentinelIncrement]
  | t :: inc :: rest, price => by
    have ih := lookupIncrement_eq_spec rest price
    by_cases ht : 0 < t
    · by_cases hp : price < t
      · simp [lookupIncrement, specIncrement, finiteEntries, tableEntries, ht, hp]
      · simp only [specIncrement, finiteEntries, sentinelIncrement] at ih
        simp [lookupIncrement, specIncrement, finiteEntries, tableEntries, ht, hp,
          sentinelIncrement, ih]
    · simp [lookupIncrement, specIncrement, finiteEntries, tableEntries, ht, sentinelIncrement]

theorem lookupIncrement_ge_first : ∀ (t inc : ℚ) (rest : List ℚ) (price : ℚ),
    ascendingTable (t :: inc :: rest) = true → inc ≤ lookupIncrement (t :: inc :: rest) price
  | t, inc, [], price => by
    intro h
    simp only [ascendingTable, decide_eq_true_eq] at h
    simp [lookupIncrement, not_lt.mpr h]
  | t, inc, [_], price => by simp [ascendingTable]
  | t, inc, t2 :: inc2 :: rest, price => by
    intro h
    simp only [ascendingTable, Bool.and_eq_true, decide_eq_true_eq] at h
    obtain ⟨⟨ht, hinc⟩, hrest⟩ := h
    have ih := lookupIncrement_ge_first t2 inc2 rest price hrest
    rw [lookupIncrement]
    simp only [ht, if_true]
    split
    · exact le_refl _
    · exact le_trans hinc ih

theorem lookupIncrement_cons (t inc : ℚ) (rest : List ℚ) (p : ℚ) (ht : 0 < t) :
    lookupIncrement (t :: inc :: rest) p = if p < t then inc else lookupIncrement rest p := by
  rw [lookupIncrement]
  simp only [ht, if_true]

theorem lookupIncrement_mono_of_ascending : ∀ (table : List ℚ) (p q : ℚ),
    ascendingTable table = true → p ≤ q → lookupIncrement table p ≤ lookupIncrement table q
  | [], _, _ => by simp [ascendingTable]
  | [_], _, _ => by simp [ascendingTable]
  | [t, inc], p, q => by
    intro h _
    simp only [ascendingTable, decide_eq_true_eq] at h
    simp [lookupIncrement, not_lt.mpr h]
  | [_, _, _], _, _ => by simp [ascendingTable]
  | t :: inc :: t2 :: inc2 :: rest, p, q => by
    intro h hpq
    have h0 := h
    simp only [ascendingTable, Bool.and_eq_true, decide_eq_true_eq] at h
    obtain ⟨⟨ht, hinc⟩, hrest⟩ := h
    have ih := lookupIncrement_mono_of_ascending (t2 :: inc2 :: rest) p q hrest hpq
    have hge := lookupIncrement_ge_first t2 inc2 rest q hrest
    rw [lookupIncrement_cons t inc _ p ht, lookupIncrement_cons t inc _ q ht]
    by_cases hp : p < t
    · by_cases hq : q < t
      · simp [hp, hq]
      · simp only [hp, hq, if_true, if_false]
        exact le_trans hinc hge
    · have hq : ¬ q < t := fun hq => hp (lt_of_le_of_lt hpq hq)
      simp only [hp, hq, if_false]
      exact ih

theorem roundDouble_pos (x : ℚ) (h : 1 / 1000 ≤ x) : 0 < roundDouble x := by
  have hb := (roundDouble_bounds x).1
  rw [abs_of_nonneg (by linarith)] at hb
  norm_num at hb
  linarith

theorem roundDouble_le_of_separated (a b : ℚ) (ha : 0 ≤ a)
    (h : a * (1001 / 1000) + 1 / 1000 ≤ b) : roundDouble a ≤ roundDouble b := by
  have h1 := (roundDouble_bounds a).2
  have h2 := (roundDouble_bounds b).1
  rw [abs_of_nonneg ha] at h1
  rw [abs_of_nonneg (by linarith)] at h2
  norm_num at h1 h2
  linarith

theorem roundDouble_neg_one : roundDouble (-1) = -1 := by
  simpa using roundDouble_intCast (-1) (by decide)

/-- Rounding the numbers of a table to `double` keeps the order of its
increments. -/
theorem ascendingTable_of_separated : ∀ table : List ℚ, SeparatedTable table →
    ascendingTable (doubleTable table) = true
  | [], h => absurd h (by simp [SeparatedTable])
  | [_], h => absurd h (by simp [SeparatedTable])
  | [t, inc], h => by
    simp only [SeparatedTable] at h
    simp [doubleTable, ascendingTable, h.1, roundDouble_neg_one]
  | [_, _, _], h => absurd h (by simp [SeparatedTable])
  | t :: inc :: t2 :: inc2 :: rest, h => by
    simp only [SeparatedTable] at h
    have ih := ascendingTable_of_separated (t2 :: inc2 :: rest) h.2.2.2
    simp only [doubleTable, List.map_cons, ascendingTable, Bool.and_eq_true,
      decide_eq_true_eq] at ih ⊢
    exact ⟨⟨roundDouble_pos _ h.1, roundDouble_le_of_separated _ _ h.2.1 h.2.2.1⟩, ih⟩

theorem sentinel_of_separated : ∀ table : List ℚ, SeparatedTable table →
    (-1, sentinelIncrement (doubleTable table)) ∈ tableEntries (doubleTable table)
  | [], h => absurd h (by simp [SeparatedTable])
  | [_], h => absurd h (by simp [SeparatedTable])
  | [t, inc], h => by
    simp only [SeparatedTable] at h
    simp only [doubleTable, List.map_cons, List.map_nil, sentinelIncrement, tableEntries, h.1,
      roundDouble_neg_one]
    rw [List.dropWhile_cons_of_neg (by norm_num)]
    exact List.mem_singleton.mpr rfl
  | [_, _, _], h => absurd h (by simp [SeparatedTable])
  | t :: inc :: t2 :: inc2 :: rest, h => by
    simp only [SeparatedTable] at h
    have ih := sentinel_of_separated (t2 :: inc2 :: rest) h.2.2.2
    have hpos := roundDouble_pos _ h.1
    have hs : sentinelIncrement (doubleTable (t :: inc :: t2 :: inc2 :: rest))
        = sentinelIncrement (doubleTable (t2 :: inc2 :: rest)) := by
      simp only [sentinelIncrement, doubleTable, List.map_cons, tableEntries]
      rw [List.dropWhile_cons_of_pos (by simpa using hpos)]
    rw [hs]
    simp only [doubleTable, List.map_cons, tableEntries] at ih ⊢
    exact List.mem_cons_of_mem _ ih

theorem incrementTables_separated : ∀ table ∈ incrementTables,
    ∃ numbers, table = doubleTable numbers ∧ SeparatedTable numbers := by
  intro table h
  simp only [incrementTables, List.mem_cons, List.mem_singleton, List.not_mem_nil, or_false] at h
  rcases h with h | h | h | h | h | h | h | h | h | h | h <;> subst h <;>
    exact ⟨_, rfl, by norm_num [SeparatedTable]⟩

theorem incrementTables_ascending : ∀ table ∈ incrementTables,
    ascendingTable table = true := by
  intro table h
  obtain ⟨numbers, rfl, hs⟩ := incrementTables_separated table h
  exact ascendingTable_of_separated numbers hs

theorem incrementTables_sentinel : ∀ table ∈ incrementTables,
    (-1, sentinelIncrement table) ∈ tableEntries table := by
  intro table h
  obtain ⟨numbers, rfl, hs⟩ := incrementTables_separated table h
  exact sentinel_of_separated numbers hs

theorem specIncrement_above (table : List ℚ) (p : ℚ)
    (h : ∀ e ∈ finiteEntries table, e.1 ≤ p) : specIncrement table p = sentinelIncrement table := by
  unfold specIncrement
  have : (finiteEntries table).find? (fun e => decide (p < e.1)) = none := by
    rw [List.find?_eq_none]
    intro e he
    simpa using h e he
  rw [this]

/-- C10: in every currency increment table (AU, EUR, C, RMB, HKD, SGD, CHF, NT,
GBP, US and the default) the increment selected by the lookup loop does not
decrease when the price increases, a price at or above every finite threshold
selects the increment of the sentinel, and that increment is the one paired
with the threshold -1. -/
theorem increment_lookup_monotone (table : List ℚ) (htable : table ∈ incrementTables)
    (p q : ℚ) (hpq : p ≤ q) :
    lookupIncrement table p ≤ lookupIncrement table q ∧
    ((∀ e ∈ finiteEntries table, e.1 ≤ p) →
      lookupIncrement table p = sentinelIncrement table) ∧
    (-1, sentinelIncrement table) ∈ tableEntries table :=
  ⟨lookupIncrement_mono_of_ascending table p q (incrementTables_ascending table htable) hpq,
   fun h => (lookupIncrement_eq_spec table p).trans (specIncrement_above table p h),
   incrementTables_sentinel table htable⟩

/-- C10 at the US table with prices 3 and 7000. -/
theorem increment_lookup_monotone_witness :
    USIncrements ∈ incrementTables ∧ (3 : ℚ) ≤ 7000 ∧
    lookupIncrement USIncrements 3 ≤ lookupIncrement USIncrements 7000 ∧
    ((∀ e ∈ finiteEntries USIncrements, e.1 ≤ 3) →
      lookupIncrement USIncrements 3 = sentinelIncrement USIncrements) ∧
    (-1, sentinelIncrement USIncrements) ∈ tableEntries USIncrements :=
  ⟨by simp [incrementTables], by norm_num,
   increment_lookup_monotone USIncrements (by simp [incrementTables]) 3 7000 (by norm_num)⟩

theorem bidIncrement_eq (aip : AuctionInfo) : bidIncrement aip = guardedIncrement aip := by
  unfold bidIncrement guardedIncrement
  rw [lookupIncrement_eq_spec]
  norm_num

theorem isValidBidPrice_eq (aip : AuctionInfo) :
    isValidBidPrice aip = true ↔
      aip.bidPrice ≥ doubleSub (roundDouble (aip.price + bidIncrement aip)) EPSILON := by
  simp only [isValidBidPrice, doubleAdd, decide_eq_true_eq]

/-- A bid of at least the price and the increment is valid, and a valid bid
is at least the price and the increment less 0.0002, for sums up to 10^11. -/
theorem isValidBidPrice_bounds (aip : AuctionInfo) (h0 : 0 ≤ aip.price + bidIncrement aip)
    (h1 : aip.price + bidIncrement aip ≤ 100000000000) :
    (aip.bidPrice ≥ aip.price + bidIncrement aip → isValidBidPrice aip = true) ∧
    (isValidBidPrice aip = true → aip.bidPrice ≥ aip.price + bidIncrement aip - 0.0002) := by
  have hb := threshold_bounds _ h0 h1
  rw [isValidBidPrice_eq]
  constructor
  · intro h
    exact le_trans hb.2 h
  · intro h
    exact le_trans hb.1 h

theorem lookupIncrement_us_cents (price : ℚ) (h : price < 1) :
    lookupIncrement USIncrements price = 3602879701896397 / 72057594037927936 := by
  norm_num [doubleTable, USIncrements, lookupIncrement, roundDouble_one, roundDouble_i05, h]

theorem lookupIncrement_us_tens (price : ℚ) (h5 : 5 ≤ price) (h : price < 25) :
    lookupIncrement USIncrements price = 1 / 2 := by
  have e1 : roundDouble 5 = 5 := roundDouble_numeral 5 (by norm_num)
  have e2 : roundDouble 25 = 25 := roundDouble_numeral 25 (by norm_num)
  have e3 : roundDouble (1 / 2) = 1 / 2 :=
    roundDouble_val _ _ 4503599627370496 (-53) (by norm_num) (by norm_num) (by norm_num)
      (by norm_num) (by norm_num) (by norm_num)
  have h1 : ¬ price < 1 := by linarith
  have h2 : ¬ price < 5 := by linarith
  norm_num [doubleTable, USIncrements, lookupIncrement, roundDouble_one, e1, e2, e3, h1, h2, h]

theorem pricedRecord_increment (price bidPrice : ℚ) (h : roundDouble price < 1) :
    bidIncrement (pricedRecord price bidPrice 0) = 3602879701896397 / 72057594037927936 := by
  have hg : getIncrements (pricedRecord price bidPrice 0) = USIncrements := by
    simp [getIncrements, pricedRecord, newAuctionInfoWith]
  unfold bidIncrement
  rw [hg, if_pos (by simp [pricedRecord, newAuctionInfoWith])]
  exact lookupIncrement_us_cents _ h

/-- C1, counterexample: (a) on a record where the user is the high bidder the
bid 10.20 is accepted at price 10.00, although the table increment for that
price is 0.50; (b) with the price 0.08, for which the US table gives the
increment 0.05, and the bid 0.1299, the decimal numbers satisfy
`bid >= price + increment - 0.0001`, yet `isValidBidPrice` returns false: the
sum formed in `double` is 0.12990000000000002, the bid 0.1299 in `double` is
less; (c) with the price 0.01 and the bid 0.0599, `isValidBidPrice` returns
true, although the bid price that the record holds is less than the price and
the increment that it holds, less 0.0001. -/
theorem isValidBidPrice_counterexample :
    (isValidBidPrice winningRecord = true ∧
      ¬ (winningRecord.bidPrice ≥ winningRecord.price
          + lookupIncrement (getIncrements winningRecord) winningRecord.price - 0.0001)) ∧
    (isValidBidPrice (pricedRecord 0.08 0.1299 0) = false ∧
      bidIncrement (pricedRecord 0.08 0.1299 0) = roundDouble 0.05 ∧
      (0.1299 : ℚ) ≥ 0.08 + 0.05 - 0.0001) ∧
    (isValidBidPrice (pricedRecord 0.01 0.0599 0) = true ∧
      ¬ ((pricedRecord 0.01 0.0599 0).bidPrice ≥ (pricedRecord 0.01 0.0599 0).price
          + lookupIncrement (getIncrements (pricedRecord 0.01 0.0599 0))
              (pricedRecord 0.01 0.0599 0).price
          - 0.0001)) := by
  have e10 : roundDouble 10 = 10 := roundDouble_numeral 10 (by norm_num)
  refine ⟨⟨?_, ?_⟩, ⟨?_, ?_, ?_⟩, ⟨?_, ?_⟩⟩
  · rw [isValidBidPrice_eq]
    have hb : bidIncrement winningRecord = 0 := by
      norm_num [bidIncrement, winningRecord, newAuctionInfoWith]
    rw [hb, doubleSub, EPSILON_eq]
    norm_num [winningRecord, newAuctionInfoWith, e10, roundDouble_t10, roundDouble_b1020]
  · have hg : getIncrements winningRecord = USIncrements := by
      simp [getIncrements, winningRecord, newAuctionInfoWith]
    rw [hg, show winningRecord.price = 10 from by norm_num [winningRecord, newAuctionInfoWith],
      lookupIncrement_us_tens 10 (by norm_num) (by norm_num)]
    norm_num [winningRecord, newAuctionInfoWith, roundDouble_b1020]
  · have hv : ¬ isValidBidPrice (pricedRecord 0.08 0.1299 0) = true := by
      rw [isValidBidPrice_eq,
        pricedRecord_increment 0.08 0.1299 (by norm_num [roundDouble_p08]), doubleSub, EPSILON_eq]
      norm_num [pricedRecord, newAuctionInfoWith, roundDouble_p08, roundDouble_b1299,
        roundDouble_s13, roundDouble_t1299]
    simpa using hv
  · rw [pricedRecord_increment 0.08 0.1299 (by norm_num [roundDouble_p08])]
    norm_num [roundDouble_i05]
  · norm_num
  · rw [isValidBidPrice_eq,
      pricedRecord_increment 0.01 0.0599 (by norm_num [roundDouble_cent]), doubleSub, EPSILON_eq]
    norm_num [pricedRecord, newAuctionInfoWith, roundDouble_cent, roundDouble_b0599,
      roundDouble_s06, roundDouble_t0599]
  · have hg : getIncrements (pricedRecord 0.01 0.0599 0) = USIncrements := by
      simp [getIncrements, pricedRecord, newAuctionInfoWith]
    rw [hg, lookupIncrement_us_cents _
      (by norm_num [pricedRecord, newAuctionInfoWith, roundDouble_cent])]
    norm_num [pricedRecord, newAuctionInfoWith, roundDouble_cent, roundDouble_b0599]

/-- C1, amended: `isValidBidPrice` returns true exactly when `bidPrice` is at
least the value that the arithmetic of `double` gives for
`price + increment - 0.0001` (the sum rounded to `double`, then the difference
of that and the `double` nearest to 0.0001 rounded to `double`), where the
increment is the one that the table of the record's currency associates with
the first threshold strictly greater than the price (the sentinel's above all
thresholds) when `quantityBid = quantity` and `winning = 0`, and is 0
otherwise. For a sum `price + increment` from 0 to 10^11, a bid of at least
`price + increment` is valid and a valid bid is at least
`price + increment - 0.0002`. -/
theorem isValidBidPrice_iff (aip : AuctionInfo) :
    (isValidBidPrice aip = true ↔
      aip.bidPrice ≥ doubleSub (doubleAdd aip.price
        (if aip.quantityBid = aip.quantity ∧ aip.winning = 0 then
          specIncrement (getIncrements aip) aip.price else 0))
        (roundDouble 0.0001)) ∧
    (0 ≤ aip.price + guardedIncrement aip → aip.price + guardedIncrement aip ≤ 100000000000 →
      (aip.bidPrice ≥ aip.price + guardedIncrement aip → isValidBidPrice aip = true) ∧
      (isValidBidPrice aip = true →
        aip.bidPrice ≥ aip.price + guardedIncrement aip - 0.0002)) := by
  constructor
  · rw [isValidBidPrice_eq, bidIncrement_eq]
    rfl
  · intro h0 h1
    rw [← bidIncrement_eq] at h0 h1 ⊢
    exact isValidBidPrice_bounds aip h0 h1

/-! ## The sleep schedule of the watch loop -/

/-- C2: for every remaining time `R > 0` the sleep time of the watch loop is
`R` when `R <= 150`, `R - 120` when `150 < R < 720`, `R - 600` when
`720 <= R < 3900`, `R - 3600` when `3900 <= R < 10800`, `R - 7200` when
`10800 <= R < 97200`, and 86400 otherwise. -/
theorem sleepSchedule_tiers (R : Int) (hR : 0 < R) :
    sleepSchedule R =
      if R ≤ 150 then R
      else if R < 720 then R - 120
      else if R < 3900 then R - 600
      else if R < 10800 then R - 3600
      else if R < 97200 then R - 7200
      else 86400 := by
  unfold sleepSchedule toUnsignedInt
  split_ifs <;> omega

/-- C2 at `R = 800`. -/
theorem sleepSchedule_tiers_witness :
    (0 : Int) < 800 ∧ sleepSchedule 800 =
      if (800 : Int) ≤ 150 then 800
      else if (800 : Int) < 720 then 800 - 120
      else if (800 : Int) < 3900 then 800 - 600
      else if (800 : Int) < 10800 then 800 - 3600
      else if (800 : Int) < 97200 then 800 - 7200
      else 86400 :=
  ⟨by decide, sleepSchedule_tiers 800 (by decide)⟩

/-- C3, counterexample: with `R = 5000` the sleep is not 4400 seconds. -/
theorem sleepSchedule_5000_counterexample : sleepSchedule 5000 ≠ 4400 := by
  decide

/-- C3, amended: with `R = 5000` the sleep is 1400 seconds (the `R - 3600`
tier, since `3900 <= 5000 < 10800`), and with `R = 200000` it is 86400. -/
theorem sleepSchedule_examples : sleepSchedule 5000 = 1400 ∧ sleepSchedule 200000 = 86400 := by
  decide

/-! ## The watch loop during an outage -/

/-- A bid of 20 at the price 1 is valid, when the table is that of the US. -/
theorem isValidBidPrice_twenty (aip : AuctionInfo) (hbid : aip.bidPrice = 20)
    (hprice : aip.price = 1) (hg : getIncrements aip = USIncrements) :
    isValidBidPrice aip = true := by
  have e5 : roundDouble 5 = 5 := roundDouble_numeral 5 (by norm_num)
  have e4 : roundDouble (1 / 4) = 1 / 4 :=
    roundDouble_val _ _ 4503599627370496 (-54) (by norm_num) (by norm_num) (by norm_num)
      (by norm_num) (by norm_num) (by norm_num)
  have hb : bidIncrement aip = 1 / 4 ∨ bidIncrement aip = 0 := by
    unfold bidIncrement
    split
    · left
      rw [hg, hprice]
      norm_num [doubleTable, USIncrements, lookupIncrement, roundDouble_one, e5, e4]
    · right
      norm_num
  rcases hb with hb | hb <;>
    (refine (isValidBidPrice_bounds aip ?_ ?_).1 ?_ <;> rw [hb, hprice] <;> norm_num [hbid])

/-- A bid of 20 on an auction in US currency at the price 1 is valid. -/
theorem isValidBidPrice_outage (aip : AuctionInfo) (hbid : aip.bidPrice = 20)
    (hprice : aip.price = 1) (hcur : aip.currency = some ['U', 'S']) :
    isValidBidPrice aip = true :=
  isValidBidPrice_twenty aip hbid hprice (by simp [getIncrements, hcur])

theorem outage_first_pass (d : Int) :
    goesOn (fun st aip w => st.errorCount = 0 ∧ OutageRunning st aip w ∧ w.clock = 86400 ∧ w.fetches = 1)
      (watchBody outageEnv (outageOptions d) WatchState.init outageRecord outageStart) := by
  norm_num [watchBody, outageEnv, outageStart, outageRecord, newAuctionInfoWith, WatchState.init, resetAuctionError, isValidBidPrice_outage, newRemain, outageOptions, watchTail, watchBidKey, watchSleep, sleepSchedule, goesOn, OutageRunning, LONG_MIN]

theorem outage_failing_pass (d : Int) (st : WatchState) (aip : AuctionInfo) (w : OutageWorld)
    (h : OutageRunning st aip w) (hc : w.clock ≤ 8000000)
    (hcount : logErrorCount (outageOptions d) st.errorCount ≤ 50) :
    goesOn (fun st' aip' w' => st'.errorCount = logErrorCount (outageOptions d) st.errorCount ∧
        OutageRunning st' aip' w' ∧ w'.clock = w.clock + 86400 ∧ w'.fetches = w.fetches + 1)
      (watchBody outageEnv (outageOptions d) st aip w) := by
  obtain ⟨h1, h2, h3, h4, h5⟩ := h
  have e1 : ¬ (8640000 - w.clock - 10 ≤ 300) := by omega
  have e2 : sleepSchedule (8640000 - w.clock - 10) = 86400 := by
    unfold sleepSchedule
    split_ifs <;> first | rfl | omega
  have e3 : ¬ (8640000 ≤ 10 + w.clock) := by omega
  have e4 : ¬ (8640000 ≤ 10 + (w.clock + 86400)) := by omega
  have hmin : LONG_MIN = -9223372036854775808 := by norm_num [LONG_MIN]
  have hbid : (outageOptions d).bidtime = 10 := rfl
  simp [watchBody, outageEnv, h4, auctionError, resetAuctionError, h1, not_lt.mpr hcount,
    newRemain, watchTail, watchBidKey, watchSleep, h2, h3, e1, e2, e3, e4, goesOn,
    OutageRunning, hbid, h5]
  rw [hmin]
  omega

theorem outage_last_pass (st : WatchState) (aip : AuctionInfo) (w : OutageWorld)
    (h : OutageRunning st aip w) (hcount : st.errorCount = 50) :
    watchBody outageEnv (outageOptions 1) st aip w =
      .returned 1 (auctionError (auctionError aip ae_curlerror none).2 ae_toomany none).2
        { w with fetches := w.fetches + 1 } := by
  obtain ⟨h1, h2, h3, h4, h5⟩ := h
  simp [watchBody, outageEnv, h4, auctionError, resetAuctionError, h1, hcount, logErrorCount,
    outageOptions, h3]

theorem outage_passes (d : Int) : ∀ (k : Nat) (st : WatchState) (aip : AuctionInfo)
    (w : OutageWorld), OutageRunning st aip w → w.clock + 86400 * k ≤ 8086400 →
    st.errorCount + k * (if d = 0 then 0 else 1) ≤ 50 →
    ∃ st' aip' w', watchLoop outageEnv (outageOptions d) k st aip w = .inr (st', aip', w') ∧
      st'.errorCount = st.errorCount + k * (if d = 0 then 0 else 1) ∧ OutageRunning st' aip' w'
  | 0, st, aip, w, h, _, _ => ⟨st, aip, w, rfl, by simp, h⟩
  | k + 1, st, aip, w, h, hc, hcount => by
    have hlog : logErrorCount (outageOptions d) st.errorCount
        = st.errorCount + (if d = 0 then 0 else 1) := by
      simp only [logErrorCount, outageOptions]
      split <;> simp
    have hstep := outage_failing_pass d st aip w h (by push_cast at hc; omega)
      (by rw [hlog]; push_cast at hcount; split at hcount <;> simp_all; omega)
    rw [watchLoop]
    cases hb : watchBody outageEnv (outageOptions d) st aip w with
    | returned r a w1 => rw [hb] at hstep; exact hstep.elim
    | again st1 aip1 w1 =>
      rw [hb] at hstep
      obtain ⟨hs1, hs2, hs3, _⟩ := hstep
      obtain ⟨st', aip', w', hl, he, hr⟩ := outage_passes d k st1 aip1 w1 hs2
        (by rw [hs3]; push_cast at hc; omega)
        (by rw [hs1, hlog]; push_cast at hcount; split at hcount <;> simp_all; omega)
      refine ⟨st', aip', w', hl, ?_, hr⟩
      rw [he, hs1, hlog]
      push_cast
      ring

theorem watchLoop_add {W : Type} (env : Collaborators W) (opts : Options) :
    ∀ (a b : Nat) (st : WatchState) (aip : AuctionInfo) (w : W),
    watchLoop env opts (a + b) st aip w =
      match watchLoop env opts a st aip w with
      | .inl r => .inl r
      | .inr (st1, aip1, w1) => watchLoop env opts b st1 aip1 w1
  | 0, b, st, aip, w => by simp [watchLoop]
  | a + 1, b, st, aip, w => by
    rw [show a + 1 + b = (a + b) + 1 by omega, watchLoop, watchLoop]
    cases watchBody env opts st aip w with
    | returned r a1 w1 => rfl
    | again st1 aip1 w1 => exact watchLoop_add env opts a b st1 aip1 w1

/-- C4, evaluated at the failing input: in the outage scenario without debug
logging, `watch` is still looping after 90 passes (one successful fetch and 89
failed ones) with its error counter at 0; with debug logging the same
scenario ends at pass 52, the 51st failure, with return value 1 and the
too-many-errors kind. -/
theorem watch_counts_errors_only_with_debug :
    watchCounting (watch outageEnv (outageOptions 0) 90 outageRecord outageStart) = some 0 ∧
    watchReturned (watch outageEnv (outageOptions 1) 52 outageRecord outageStart)
      = some (1, ae_toomany) := by
  constructor
  · have h1 := outage_first_pass 0
    rw [watch, show (90 : Nat) = 89 + 1 from rfl, watchLoop]
    cases hb : watchBody outageEnv (outageOptions 0) WatchState.init outageRecord outageStart with
    | returned r a w1 => rw [hb] at h1; exact h1.elim
    | again st1 aip1 w1 =>
      rw [hb] at h1
      obtain ⟨hs1, hs2, hs3, _⟩ := h1
      obtain ⟨st', aip', w', hl, he, _⟩ := outage_passes 0 89 st1 aip1 w1 hs2
        (by rw [hs3]; norm_num) (by rw [hs1]; norm_num)
      simp only [hl, watchCounting, he, hs1]
      norm_num
  · have h1 := outage_first_pass 1
    rw [watch, show (52 : Nat) = 51 + 1 from rfl, watchLoop]
    cases hb : watchBody outageEnv (outageOptions 1) WatchState.init outageRecord outageStart with
    | returned r a w1 => rw [hb] at h1; exact h1.elim
    | again st1 aip1 w1 =>
      rw [hb] at h1
      obtain ⟨hs1, hs2, hs3, _⟩ := h1
      obtain ⟨st', aip', w', hl, he, hr⟩ := outage_passes 1 50 st1 aip1 w1 hs2
        (by rw [hs3]; norm_num) (by rw [hs1]; norm_num)
      have hlast := outage_last_pass st' aip' w' hr (by rw [he, hs1]; norm_num)
      show watchReturned (watchLoop outageEnv (outageOptions 1) (50 + 1) st1 aip1 w1) = _
      rw [watchLoop_add, hl]
      simp only [watchLoop, hlast, watchReturned, auctionError, resetAuctionError]

/-! ## Remaining time -/

theorem strncmpEq_length_iff (s needle : CStr) :
    strncmpEq s needle needle.length = true ↔ needle <+: s := by
  simp only [strncmpEq, decide_eq_true_eq, List.take_length]
  rw [List.prefix_iff_eq_take]
  exact eq_comm

theorem strstr_isSome_iff : ∀ (hay needle : CStr),
    (strstr hay needle).isSome = true ↔ needle <:+: hay
  | [], needle => by
    by_cases h : needle = [] <;> simp [strstr, h]
  | c :: hay, needle => by
    rw [strstr]
    by_cases h : strncmpEq (c :: hay) needle needle.length = true
    · simp only [h, if_true, Option.isSome_some, true_iff]
      exact ((strncmpEq_length_iff _ _).mp h).isInfix
    · simp only [h, if_false, Bool.false_eq_true]
      rw [strstr_isSome_iff hay needle, List.infix_cons_iff]
      rw [strncmpEq_length_iff] at h
      simp [h]

theorem infix_dropWhile_isspace (needle : CStr) (c : Char) (hc : isspace c = false) :
    ∀ (t : CStr), (c :: needle) <:+: t → (c :: needle) <:+: t.dropWhile isspace
  | [], h => by simp at h
  | a :: t, h => by
    by_cases ha : isspace a = true
    · rw [List.dropWhile_cons_of_pos ha]
      rw [List.infix_cons_iff] at h
      rcases h with h | h
      · rw [List.cons_prefix_cons] at h
        rw [h.1, ha] at hc
        exact absurd hc (by decide)
      · exact infix_dropWhile_isspace needle c hc t h
    · rw [List.dropWhile_cons_of_neg ha]
      exact h

/-- C7, counterexample: a text that contains `ended` but starts with `--` gives
1, not 0. -/
theorem getSeconds_ended_counterexample :
    "ended".toList <:+: "--ended".toList ∧ getSeconds "--ended".toList = some 1 := by
  constructor
  · exact ⟨"--".toList, [], by decide⟩
  · decide

/-- C7, amended: for every duration text that contains the substring `ended`
and, after its leading white space, does not start with `--`, `getSeconds`
returns 0. -/
theorem getSeconds_ended (timestr : CStr) (hended : "ended".toList <:+: timestr)
    (hdash : ¬ "--".toList <+: timestr.dropWhile isspace) :
    getSeconds timestr = some 0 := by
  have h1 : "ended".toList <:+: timestr.dropWhile isspace :=
    infix_dropWhile_isspace "nded".toList (Char.ofNat 101) (by decide) timestr hended
  have h2 : timestr.dropWhile isspace ≠ [] := by
    intro h
    rw [h] at h1
    simp at h1
  have h3 : strncmpEq (timestr.dropWhile isspace) "--".toList 2 = false := by
    rw [← Bool.not_eq_true]
    exact fun h => hdash ((strncmpEq_length_iff _ "--".toList).mp h)
  have h4 : (strstr (timestr.dropWhile isspace) "ended".toList).isSome = true :=
    (strstr_isSome_iff _ _).mpr h1
  simp only [getSeconds, h2, false_or, h3, Bool.false_eq_true, if_false, h4, if_true]

/-- C7 at the text `auction has ended`. -/
theorem getSeconds_ended_witness :
    "ended".toList <:+: "auction has ended".toList ∧
    ¬ "--".toList <+: "auction has ended".toList.dropWhile isspace ∧
    getSeconds "auction has ended".toList = some 0 :=
  ⟨⟨"auction has ".toList, [], by decide⟩, by decide,
   getSeconds_ended "auction has ended".toList ⟨"auction has ".toList, [], by decide⟩ (by decide)⟩

theorem isdigit_iff (c : Char) : isdigit c = true ↔ 48 ≤ c.toNat ∧ c.toNat ≤ 57 := by
  simp only [isdigit, Bool.and_eq_true, decide_eq_true_eq, Char.le_def]
  rfl

theorem isdigit_cases (c : Char) (h : isdigit c = true) :
    c ∈ ['0', '1', '2', '3', '4', '5', '6', '7', '8', '9'] := by
  rw [isdigit_iff] at h
  obtain ⟨h1, h2⟩ := h
  have hc : c = Char.ofNat c.toNat := (Char.ofNat_toNat c).symm
  rw [hc]
  generalize c.toNat = n at h1 h2
  interval_cases n <;> decide

theorem isdigit_not_isspace (c : Char) (h : isdigit c = true) : isspace c = false := by
  have := isdigit_cases c h
  simp only [List.mem_cons, List.mem_singleton, List.not_mem_nil, or_false] at this
  rcases this with h | h | h | h | h | h | h | h | h | h <;> subst h <;> decide

theorem strtolDigits_append : ∀ (ds rest : CStr) (acc : Nat),
    (∀ c ∈ ds, isdigit c = true) → (∀ c ∈ rest.head?, isdigit c = false) →
    strtolDigits (ds ++ rest) acc
      = (ds.foldl (fun acc c => acc * 10 + (c.toNat - '0'.toNat)) acc, rest)
  | [], [], acc, _, _ => by simp [strtolDigits]
  | [], c :: rest, acc, _, h => by
    have := h c (by simp)
    simp [strtolDigits, this]
  | d :: ds, rest, acc, hd, h => by
    have h1 := hd d (by simp)
    have ih := strtolDigits_append ds rest (acc * 10 + (d.toNat - '0'.toNat))
      (fun c hc => hd c (by simp [hc])) h
    simp only [List.cons_append, strtolDigits, h1, if_true, List.foldl_cons]
    exact ih

theorem strtol_numeral (ds rest : CStr) (hds : isNumeral ds)
    (hrest : ∀ c ∈ rest.head?, isdigit c = false) (hfit : (decimalValue ds : Int) ≤ LONG_MAX) :
    strtol (ds ++ rest) = ((decimalValue ds : Int), rest) := by
  obtain ⟨hne, hall⟩ := hds
  cases ds with
  | nil => exact absurd rfl hne
  | cons d ds =>
    have hd := hall d (by simp)
    have hsp := isdigit_not_isspace d hd
    have hdig := strtolDigits_append (d :: ds) rest 0 hall hrest
    have hm : d ≠ '-' := by rintro rfl; exact absurd hd (by decide)
    have hp : d ≠ '+' := by rintro rfl; exact absurd hd (by decide)
    have hmin : ¬ ((decimalValue (d :: ds) : Int) < LONG_MIN) := by
      have : (0 : Int) ≤ decimalValue (d :: ds) := Int.natCast_nonneg _
      unfold LONG_MIN
      omega
    have hsign : strtolSign (d :: (ds ++ rest)) = (false, d :: (ds ++ rest)) := by
      unfold strtolSign
      split
      · rename_i heq; exact absurd (List.head_eq_of_cons_eq heq) hm
      · rename_i heq; exact absurd (List.head_eq_of_cons_eq heq) hp
      · rfl
    unfold strtol
    simp only [List.cons_append, List.dropWhile_cons_of_neg (by simp [hsp] : ¬ isspace d = true),
      hsign, hd, if_true]
    rw [← List.cons_append, hdig]
    simp only [Bool.false_eq_true, if_false, decimalValue] at hfit hmin ⊢
    simp only [gt_iff_lt, not_lt.mpr hfit, hmin, if_false]

theorem wrapLong_id (x : Int) (h1 : LONG_MIN ≤ x) (h2 : x ≤ LONG_MAX) : wrapLong x = x := by
  unfold LONG_MIN at h1
  unfold LONG_MAX at h2
  unfold wrapLong
  omega

theorem joinBlank_cons (a : CStr) (l : List CStr) :
    joinBlank (a :: l) = a ++ (if l = [] then [] else ' ' :: joinBlank l) := by
  cases l <;> simp [joinBlank]

theorem tokenTexts_head_digit (toks : List DurationToken) (sec : Option (CStr × Bool))
    (hwf : ∀ t ∈ toks, isNumeral t.digits) (hsec : ∀ s ∈ sec, isNumeral s.1)
    (hne : tokenTexts toks sec ≠ []) :
    ∃ d rest, joinBlank (tokenTexts toks sec) = d :: rest ∧ isdigit d = true := by
  have key : ∀ (ds tl : CStr) (l : List CStr), isNumeral ds →
      ∃ d rest, joinBlank ((ds ++ tl) :: l) = d :: rest ∧ isdigit d = true := by
    intro ds tl l hds
    obtain ⟨hne, hall⟩ := hds
    cases ds with
    | nil => exact absurd rfl hne
    | cons d ds =>
      exact ⟨d, _, by rw [joinBlank_cons]; simp only [List.cons_append]; rfl,
        hall d (by simp)⟩
  cases toks with
  | nil =>
    cases sec with
    | none => simp [tokenTexts] at hne
    | some s =>
      simp only [tokenTexts, List.map_nil, Option.map_some', Option.toList_some, List.nil_append,
        secondsText]
      exact key s.1 _ [] (hsec s rfl)
  | cons t ts =>
    simp only [tokenTexts, List.map_cons, List.cons_append, DurationToken.text]
    exact key t.digits _ _ (hwf t (by simp))

theorem dropWhile_nondigit_of_digit (d : Char) (rest : CStr) (h : isdigit d = true) :
    (d :: rest).dropWhile (fun c => !isdigit c) = d :: rest := by
  simp [List.dropWhile, h]

theorem getSecondsLoop_token (fuel : Nat) (t : DurationToken) (tail : CStr) (accum : Int)
    (hwf : isNumeral t.digits) (h0 : 0 ≤ accum)
    (hfit : accum + (decimalValue t.digits : Int) * t.unit.seconds ≤ LONG_MAX) :
    getSecondsLoop (fuel + 1) (t.text ++ tail) accum
      = getSecondsLoop fuel (tail.dropWhile (fun c => !isdigit c))
          (accum + (decimalValue t.digits : Int) * t.unit.seconds) := by
  have hv0 : (0 : Int) ≤ decimalValue t.digits := Int.natCast_nonneg _
  have hpos : (1 : Int) ≤ t.unit.seconds := by cases t.unit <;> decide
  have hle : (decimalValue t.digits : Int) ≤ (decimalValue t.digits : Int) * t.unit.seconds :=
    le_mul_of_one_le_right hv0 hpos
  have hmin : LONG_MIN ≤ 0 := by decide
  have hstr := strtol_numeral t.digits (' ' :: (t.unit.name ++ (if t.plural then ['s'] else []) ++ tail))
    hwf (by simp; decide) (by omega)
  have hne : t.text ++ tail ≠ [] := by
    obtain ⟨h, _⟩ := hwf
    simp [DurationToken.text, h]
  have htext : t.text ++ tail
      = t.digits ++ ' ' :: (t.unit.name ++ (if t.plural then ['s'] else []) ++ tail) := by
    simp [DurationToken.text]
  rw [getSecondsLoop]
  simp only [hne, if_false]
  rw [htext, hstr]
  have hw1 : wrapLong ((decimalValue t.digits : Int) * t.unit.seconds)
      = (decimalValue t.digits : Int) * t.unit.seconds :=
    wrapLong_id _ (by omega) (by omega)
  have hw2 : wrapLong (accum + (decimalValue t.digits : Int) * t.unit.seconds)
      = accum + (decimalValue t.digits : Int) * t.unit.seconds :=
    wrapLong_id _ (by omega) hfit
  cases hu : t.unit <;> cases hp : t.plural <;>
    simp [hu, TimeUnit.name, TimeUnit.seconds, strncmpEq, isspace, isdigit, List.dropWhile] <;>
    simp only [hu, TimeUnit.seconds] at hw1 hw2 <;>
    rw [hw1, hw2]

theorem getSecondsLoop_seconds (fuel : Nat) (sec : CStr × Bool) (accum : Int)
    (hwf : isNumeral sec.1) (h0 : 0 ≤ accum)
    (hfit : accum + (decimalValue sec.1 : Int) ≤ LONG_MAX) :
    getSecondsLoop (fuel + 1) (secondsText sec) accum
      = some (accum + (decimalValue sec.1 : Int)) := by
  have hv0 : (0 : Int) ≤ decimalValue sec.1 := Int.natCast_nonneg _
  have hmin : LONG_MIN ≤ 0 := by decide
  have hstr := strtol_numeral sec.1 (' ' :: ("sec".toList ++ if sec.2 then ['s'] else []))
    hwf (by simp; decide) (by omega)
  have hne : secondsText sec ≠ [] := by
    obtain ⟨h, _⟩ := hwf
    simp [secondsText, h]
  rw [getSecondsLoop]
  simp only [hne, if_false]
  rw [secondsText, hstr]
  have hw : wrapLong (accum + (decimalValue sec.1 : Int)) = accum + (decimalValue sec.1 : Int) :=
    wrapLong_id _ (by omega) hfit
  cases hp : sec.2 <;> simp [strncmpEq, isspace, List.dropWhile, hw]

theorem durationTotal_cons (t : DurationToken) (ts : List DurationToken)
    (sec : Option (CStr × Bool)) :
    durationTotal (t :: ts) sec
      = (decimalValue t.digits : Int) * t.unit.seconds + durationTotal ts sec := by
  simp only [durationTotal, List.map_cons, List.sum_cons]
  ring

theorem durationTotal_nonneg : ∀ (toks : List DurationToken) (sec : Option (CStr × Bool)),
    0 ≤ durationTotal toks sec
  | [], none => by simp [durationTotal]
  | [], some s => by simp [durationTotal]
  | t :: ts, sec => by
    rw [durationTotal_cons]
    have h1 := durationTotal_nonneg ts sec
    have h2 : (0 : Int) ≤ (decimalValue t.digits : Int) * t.unit.seconds :=
      mul_nonneg (Int.natCast_nonneg _) (by cases t.unit <;> decide)
    omega

theorem getSecondsLoop_tokens : ∀ (toks : List DurationToken) (sec : Option (CStr × Bool))
    (fuel : Nat) (accum : Int), (∀ t ∈ toks, isNumeral t.digits) → (∀ s ∈ sec, isNumeral s.1) →
    toks.length + 2 ≤ fuel → 0 ≤ accum → accum + durationTotal toks sec ≤ LONG_MAX →
    getSecondsLoop fuel (joinBlank (tokenTexts toks sec)) accum
      = some (accum + durationTotal toks sec)
  | [], none, fuel + 1, accum, _, _, _, _, _ => by
    simp [tokenTexts, joinBlank, getSecondsLoop, durationTotal]
  | [], some s, fuel + 1, accum, _, hsec, _, h0, hfit => by
    have := getSecondsLoop_seconds fuel s accum (hsec s rfl) h0 (by simpa [durationTotal] using hfit)
    simpa [tokenTexts, joinBlank, durationTotal] using this
  | t :: ts, sec, fuel + 1, accum, hwf, hsec, hfuel, h0, hfit => by
    have hwt := hwf t (by simp)
    have hwts : ∀ t' ∈ ts, isNumeral t'.digits := fun t' h => hwf t' (by simp [h])
    rw [durationTotal_cons] at hfit ⊢
    have hrest := durationTotal_nonneg ts sec
    have hv : (0 : Int) ≤ (decimalValue t.digits : Int) * t.unit.seconds :=
      mul_nonneg (Int.natCast_nonneg _) (by cases t.unit <;> decide)
    have ih := getSecondsLoop_tokens ts sec fuel
      (accum + (decimalValue t.digits : Int) * t.unit.seconds) hwts hsec
      (by simp only [List.length_cons] at hfuel; omega) (by omega) (by omega)
    have htexts : tokenTexts (t :: ts) sec = t.text :: tokenTexts ts sec := by
      simp [tokenTexts]
    rw [htexts, joinBlank_cons, getSecondsLoop_token fuel t _ accum hwt h0 (by omega)]
    by_cases hnil : tokenTexts ts sec = []
    · rw [hnil] at ih
      simp only [hnil, if_true, List.dropWhile_nil]
      rw [show ([] : CStr) = joinBlank [] from rfl, ih]
      congr 1
      ring
    · obtain ⟨d, rest, hd, hdig⟩ := tokenTexts_head_digit ts sec hwts hsec hnil
      simp only [hnil, if_false]
      rw [List.dropWhile_cons_of_pos (by decide), hd, dropWhile_nondigit_of_digit d rest hdig,
        ← hd, ih]
      congr 1
      ring

theorem strstr_cons_ne (c : Char) (l needle : CStr) (x : Char) (hx : c ≠ x) :
    strstr (c :: l) (x :: needle) = strstr l (x :: needle) := by
  have : strncmpEq (c :: l) (x :: needle) (x :: needle).length = false := by
    simp [strncmpEq, hx]
  rw [strstr, this]
  rfl

theorem strstr_digits_append (needle : CStr) (x : Char) (hx : isdigit x = false) :
    ∀ (ds rest : CStr), (∀ c ∈ ds, isdigit c = true) →
    strstr (ds ++ rest) (x :: needle) = strstr rest (x :: needle)
  | [], rest, _ => rfl
  | d :: ds, rest, h => by
    have hd := h d (by simp)
    have hne : d ≠ x := by rintro rfl; rw [hd] at hx; exact absurd hx (by decide)
    rw [List.cons_append, strstr_cons_ne d _ needle x hne]
    exact strstr_digits_append needle x hx ds rest (fun c hc => h c (by simp [hc]))

theorem strstr_ended_token (t : DurationToken) (tail : CStr) (hwf : isNumeral t.digits) :
    strstr (t.text ++ tail) "ended".toList = strstr tail "ended".toList := by
  have h := strstr_digits_append "nded".toList 'e' (by decide) t.digits
    (' ' :: (t.unit.name ++ (if t.plural then ['s'] else []) ++ tail)) hwf.2
  have htext : t.text ++ tail
      = t.digits ++ ' ' :: (t.unit.name ++ (if t.plural then ['s'] else []) ++ tail) := by
    simp [DurationToken.text]
  rw [htext]
  show strstr _ ('e' :: "nded".toList) = strstr _ ('e' :: "nded".toList)
  rw [h]
  cases t.unit <;> cases t.plural <;>
    simp [TimeUnit.name, strstr_cons_ne]

theorem strstr_ended_seconds (sec : CStr × Bool) (hwf : isNumeral sec.1) :
    strstr (secondsText sec) "ended".toList = none := by
  have h := strstr_digits_append "nded".toList 'e' (by decide) sec.1
    (' ' :: ("sec".toList ++ if sec.2 then ['s'] else [])) hwf.2
  rw [secondsText]
  show strstr _ ('e' :: "nded".toList) = none
  rw [h]
  cases sec.2 <;> simp [strstr, strncmpEq]

theorem strstr_ended_tokens : ∀ (toks : List DurationToken) (sec : Option (CStr × Bool)),
    (∀ t ∈ toks, isNumeral t.digits) → (∀ s ∈ sec, isNumeral s.1) →
    strstr (joinBlank (tokenTexts toks sec)) "ended".toList = none
  | [], none, _, _ => by simp [tokenTexts, joinBlank, strstr]
  | [], some s, _, hsec => by
    simpa [tokenTexts, joinBlank] using strstr_ended_seconds s (hsec s rfl)
  | t :: ts, sec, hwf, hsec => by
    have ih := strstr_ended_tokens ts sec (fun t' h => hwf t' (by simp [h])) hsec
    have htexts : tokenTexts (t :: ts) sec = t.text :: tokenTexts ts sec := by
      simp [tokenTexts]
    rw [htexts, joinBlank_cons, strstr_ended_token t _ (hwf t (by simp))]
    by_cases hnil : tokenTexts ts sec = []
    · simp [hnil, strstr]
    · simp only [hnil, if_false]
      show strstr _ ('e' :: "nded".toList) = none
      rw [strstr_cons_ne ' ' _ _ 'e' (by decide)]
      exact ih

theorem tokenTexts_length (toks : List DurationToken) (sec : Option (CStr × Bool)) :
    2 * toks.length ≤ (joinBlank (tokenTexts toks sec)).length := by
  induction toks with
  | nil => simp
  | cons t ts ih =>
    have htexts : tokenTexts (t :: ts) sec = t.text :: tokenTexts ts sec := by
      simp [tokenTexts]
    have hname : 3 ≤ t.unit.name.length := by cases t.unit <;> decide
    rw [htexts, joinBlank_cons]
    by_cases hnil : tokenTexts ts sec = []
    · rw [hnil] at ih
      simp only [joinBlank, List.length_nil, Nat.le_zero] at ih
      simp only [hnil, if_true, List.append_nil, List.length_cons, DurationToken.text,
        List.length_append]
      omega
    · simp only [hnil, if_false, List.length_append, List.length_cons, DurationToken.text]
      omega

theorem getSeconds_durationText (toks : List DurationToken) (sec : Option (CStr × Bool))
    (hwf : ∀ t ∈ toks, isNumeral t.digits) (hsec : ∀ s ∈ sec, isNumeral s.1)
    (hne : toks ≠ [] ∨ sec.isSome = true) (hfit : durationTotal toks sec ≤ LONG_MAX) :
    getSeconds (durationText toks sec) = some (durationTotal toks sec) := by
  have hnil : tokenTexts toks sec ≠ [] := by
    rcases hne with h | h
    · cases toks with
      | nil => exact absurd rfl h
      | cons t ts => simp [tokenTexts]
    · cases sec with
      | none => simp at h
      | some s => simp [tokenTexts]
  obtain ⟨d, rest, hd, hdig⟩ := tokenTexts_head_digit toks sec hwf hsec hnil
  have hended := strstr_ended_tokens toks sec hwf hsec
  have hloop := getSecondsLoop_tokens toks sec ((joinBlank (tokenTexts toks sec)).length + 1) 0
    hwf hsec ?_ (le_refl 0) (by simpa using hfit)
  · have hsp := isdigit_not_isspace d hdig
    have hdash : d ≠ '-' := by rintro rfl; exact absurd hdig (by decide)
    have hdrop : (d :: rest).dropWhile isspace = d :: rest := by
      simp [List.dropWhile, hsp]
    rw [hd] at hended hloop
    unfold getSeconds durationText
    rw [← tokenTexts, hd]
    simp only [hdrop]
    have h1 : strncmpEq (d :: rest) "--".toList 2 = false := by
      simp [strncmpEq, hdash]
    simp only [h1, hended, Option.isSome_none, Bool.false_eq_true, if_false, List.cons_ne_nil,
      false_or, reduceCtorEq]
    simpa using hloop
  · have := tokenTexts_length toks sec
    have hpos : 0 < (joinBlank (tokenTexts toks sec)).length := by
      rw [hd]; simp
    omega

/-- C6, counterexample: the single token `9223372036854775808 sec` does not
give 9223372036854775808 seconds, `strtol` clamps the number to `LONG_MAX`. -/
theorem getSeconds_clamps_counterexample :
    isNumeral "9223372036854775808".toList ∧
    getSeconds (durationText [] (some ("9223372036854775808".toList, false)))
      = some 9223372036854775807 ∧
    durationTotal [] (some ("9223372036854775808".toList, false)) = 9223372036854775808 := by
  refine ⟨⟨by decide, by decide⟩, by decide, by decide⟩

/-- C6, amended: for every non-empty sequence of `<n> <unit>` tokens with
decimal numerals `n` and units drawn from day, hour, min (optionally ending
with one `<n> sec` token) whose total is at most `LONG_MAX`, `getSeconds`
returns the sum of `n*86400`, `n*3600`, `n*60` and `n*1` respectively; in
particular `1 day 2 hours` gives 93600, `45 min` gives 2700, `30 sec` gives 30,
and both `--` and the empty text give 1. -/
theorem getSeconds_duration_tokens (toks : List DurationToken) (sec : Option (CStr × Bool))
    (hwf : ∀ t ∈ toks, isNumeral t.digits) (hsec : ∀ s ∈ sec, isNumeral s.1)
    (hne : toks ≠ [] ∨ sec.isSome = true) (hfit : durationTotal toks sec ≤ LONG_MAX) :
    getSeconds (durationText toks sec) = some (durationTotal toks sec) ∧
    getSeconds "1 day 2 hours".toList = some 93600 ∧
    getSeconds "45 min".toList = some 2700 ∧
    getSeconds "30 sec".toList = some 30 ∧
    getSeconds "--".toList = some 1 ∧
    getSeconds [] = some 1 :=
  ⟨getSeconds_durationText toks sec hwf hsec hne hfit, by decide, by decide, by decide,
    by decide, by decide⟩

/-- C6 at the tokens `3 days 4 hours 5 mins 6 secs`. -/
theorem getSeconds_duration_tokens_witness :
    durationText [⟨"3".toList, .day, true⟩, ⟨"4".toList, .hour, true⟩, ⟨"5".toList, .min, true⟩]
        (some ("6".toList, true)) = "3 days 4 hours 5 mins 6 secs".toList ∧
    durationTotal [⟨"3".toList, .day, true⟩, ⟨"4".toList, .hour, true⟩, ⟨"5".toList, .min, true⟩]
        (some ("6".toList, true)) = 273906 ∧
    getSeconds (durationText
        [⟨"3".toList, .day, true⟩, ⟨"4".toList, .hour, true⟩, ⟨"5".toList, .min, true⟩]
        (some ("6".toList, true)))
      = some (durationTotal
        [⟨"3".toList, .day, true⟩, ⟨"4".toList, .hour, true⟩, ⟨"5".toList, .min, true⟩]
        (some ("6".toList, true))) :=
  ⟨by decide, by decide,
   (getSeconds_duration_tokens
      [⟨"3".toList, .day, true⟩, ⟨"4".toList, .hour, true⟩, ⟨"5".toList, .min, true⟩]
      (some ("6".toList, true))
      (by simp [isNumeral, isdigit]) (by simp [isNumeral, isdigit]) (by simp) (by decide)).1⟩

theorem strtolDigits_snd : ∀ (l : CStr) (acc : Nat),
    (strtolDigits l acc).2 = l.dropWhile isdigit
  | [], _ => rfl
  | c :: l, acc => by
    by_cases h : isdigit c = true
    · simp only [strtolDigits, h, if_true, List.dropWhile_cons_of_pos]
      exact strtolDigits_snd l _
    · simp only [strtolDigits, h, if_false, Bool.false_eq_true]
      rw [List.dropWhile_cons_of_neg h]

theorem dropWhile_append_stop (f : Char → Bool) (d : Char) (r : CStr) (hd : f d = false) :
    ∀ (p : CStr), (p ++ d :: r).dropWhile f = p.dropWhile f ++ d :: r
  | [] => by simp [List.dropWhile, hd]
  | c :: p => by
    by_cases h : f c = true
    · simp only [List.cons_append, List.dropWhile_cons_of_pos h]
      exact dropWhile_append_stop f d r hd p
    · simp only [List.cons_append, List.dropWhile_cons_of_neg h]

theorem dropWhile_append_cases (f : Char → Bool) (D : CStr) :
    ∀ (p : CStr), (p ++ D).dropWhile f = D.dropWhile f ∨
      ∃ p1, p1 <:+ p ∧ p1 ≠ [] ∧ (p ++ D).dropWhile f = p1 ++ D
  | [] => Or.inl rfl
  | c :: p => by
    by_cases h : f c = true
    · simp only [List.cons_append, List.dropWhile_cons_of_pos h]
      rcases dropWhile_append_cases f D p with h1 | ⟨p1, h1, h2, h3⟩
      · exact Or.inl h1
      · exact Or.inr ⟨p1, h1.trans (List.suffix_cons c p), h2, h3⟩
    · simp only [List.cons_append, List.dropWhile_cons_of_neg h]
      exact Or.inr ⟨c :: p, List.suffix_refl _, by simp, rfl⟩

theorem strtolSign_suffix (q : CStr) (d : Char) (r : CStr) (hd : isdigit d = true) :
    ∃ q', q' <:+ q ∧ (strtolSign (q ++ d :: r)).2 = q' ++ d :: r := by
  cases q with
  | nil =>
    refine ⟨[], List.suffix_refl _, ?_⟩
    have hm : d ≠ '-' := by rintro rfl; exact absurd hd (by decide)
    have hp : d ≠ '+' := by rintro rfl; exact absurd hd (by decide)
    unfold strtolSign
    split
    · rename_i heq; exact absurd (List.head_eq_of_cons_eq heq) hm
    · rename_i heq; exact absurd (List.head_eq_of_cons_eq heq) hp
    · rfl
  | cons c q =>
    unfold strtolSign
    split
    · rename_i r' heq
      simp only [List.cons_append, List.cons.injEq] at heq
      exact ⟨q, List.suffix_cons c q, by simp [heq.2]⟩
    · rename_i r' heq
      simp only [List.cons_append, List.cons.injEq] at heq
      exact ⟨q, List.suffix_cons c q, by simp [heq.2]⟩
    · exact ⟨c :: q, List.suffix_refl _, rfl⟩

theorem strtol_snd (s : CStr) :
    (strtol s).2 = s ∨
      ∃ c u, (strtolSign (s.dropWhile isspace)).2 = c :: u ∧ isdigit c = true ∧
        (strtol s).2 = (c :: u).dropWhile isdigit := by
  unfold strtol
  simp only []
  split
  · exact Or.inl rfl
  · rename_i c u heq
    by_cases hc : isdigit c = true
    · refine Or.inr ⟨c, u, heq, hc, ?_⟩
      simp only [hc, if_true, heq]
      exact strtolDigits_snd _ _
    · simp only [hc, if_false, Bool.false_eq_true]
      exact Or.inl trivial

theorem BadUnit.head {digits ws bad : CStr} (h : BadUnit digits ws bad) :
    ∃ d r, digits ++ (ws ++ bad) = d :: r ∧ isdigit d = true := by
  obtain ⟨hne, hall⟩ := h.numeral
  cases digits with
  | nil => exact absurd rfl hne
  | cons d ds => exact ⟨d, _, rfl, hall d (by simp)⟩

theorem BadUnit.tail_head {digits ws bad : CStr} (h : BadUnit digits ws bad) :
    ∀ c ∈ (ws ++ bad).head?, isdigit c = false := by
  intro c hc
  cases ws with
  | nil => exact (h.token c (by simpa using hc)).2
  | cons a ws =>
    simp only [List.cons_append, List.head?_cons, Option.mem_def, Option.some.injEq] at hc
    subst hc
    have := h.blank a (by simp)
    by_contra hd
    rw [Bool.not_eq_false] at hd
    rw [isdigit_not_isspace a hd] at this
    exact absurd this (by decide)

theorem BadUnit.dropWhile_isdigit {digits ws bad : CStr} (h : BadUnit digits ws bad) :
    (digits ++ (ws ++ bad)).dropWhile isdigit = ws ++ bad := by
  have := strtolDigits_append digits (ws ++ bad) 0 h.numeral.2 h.tail_head
  rw [← strtolDigits_snd _ 0, this]

theorem strtol_before_badUnit {digits ws bad : CStr} (h : BadUnit digits ws bad) (p : CStr) :
    (strtol (p ++ (digits ++ (ws ++ bad)))).2 = ws ++ bad ∨
      ∃ p1, p1 <:+ p ∧ (strtol (p ++ (digits ++ (ws ++ bad)))).2 = p1 ++ (digits ++ (ws ++ bad)) := by
  obtain ⟨d, r, hD, hd⟩ := h.head
  have hdrop := h.dropWhile_isdigit
  rw [hD] at hdrop ⊢
  rcases strtol_snd (p ++ d :: r) with h1 | ⟨c, u, h1, h2, h3⟩
  · exact Or.inr ⟨p, List.suffix_refl _, h1⟩
  · rw [dropWhile_append_stop isspace d r (isdigit_not_isspace d hd)] at h1
    obtain ⟨q', hq', hs⟩ := strtolSign_suffix (p.dropWhile isspace) d r hd
    rw [hs] at h1
    rw [h3, ← h1]
    rcases dropWhile_append_cases isdigit (d :: r) q' with h4 | ⟨p1, h4, _, h5⟩
    · exact Or.inl (h4.trans hdrop)
    · exact Or.inr ⟨p1, (h4.trans hq').trans (List.dropWhile_suffix _), h5⟩

theorem getSecondsLoop_succ (fuel : Nat) (s : CStr) (accum : Int) (hs : s ≠ []) :
    getSecondsLoop (fuel + 1) s accum =
      if strncmpEq ((strtol s).2.dropWhile isspace) "sec".toList 3 = true then
        some (wrapLong (accum + (strtol s).1))
      else if strncmpEq ((strtol s).2.dropWhile isspace) "min".toList 3 = true then
        getSecondsLoop fuel (((strtol s).2.dropWhile isspace).dropWhile (fun c => !isdigit c))
          (wrapLong (accum + wrapLong ((strtol s).1 * 60)))
      else if strncmpEq ((strtol s).2.dropWhile isspace) "hour".toList 4 = true then
        getSecondsLoop fuel (((strtol s).2.dropWhile isspace).dropWhile (fun c => !isdigit c))
          (wrapLong (accum + wrapLong ((strtol s).1 * 3600)))
      else if strncmpEq ((strtol s).2.dropWhile isspace) "day".toList 3 = true then
        getSecondsLoop fuel (((strtol s).2.dropWhile isspace).dropWhile (fun c => !isdigit c))
          (wrapLong (accum + wrapLong ((strtol s).1 * 86400)))
      else some (-1) := by
  rw [getSecondsLoop]
  simp only [hs, if_false]
  split_ifs <;> rfl

theorem prefix_before_digit (x p : CStr) (d : Char) (r : CStr) (hx : ∀ c ∈ x, isdigit c = false)
    (hd : isdigit d = true) (h : x <+: p ++ d :: r) : x <+: p := by
  rcases Nat.lt_or_ge p.length x.length with hlt | hge
  · exfalso
    have h1 : p ++ [d] <+: x := by
      have h2 : p ++ [d] <+: p ++ d :: r := by
        rw [List.prefix_append_right_inj]
        exact ⟨r, rfl⟩
      exact List.prefix_of_prefix_length_le h2 h (by simp; omega)
    have h3 : d ∈ x := h1.subset (by simp)
    rw [hx d h3] at hd
    exact absurd hd (by decide)
  · exact List.prefix_of_prefix_length_le h (List.prefix_append p (d :: r)) hge

theorem dropWhile_nondigit_progress (x p : CStr) (d : Char) (r : CStr)
    (hx : ∀ c ∈ x, isdigit c = false) (hx0 : x ≠ []) (hd : isdigit d = true)
    (h : x <+: p ++ d :: r) :
    ∃ p3, p3 <:+ p ∧ p3.length < p.length ∧
      (p ++ d :: r).dropWhile (fun c => !isdigit c) = p3 ++ d :: r := by
  have hp := prefix_before_digit x p d r hx hd h
  rw [dropWhile_append_stop (fun c => !isdigit c) d r (by simp [hd])]
  refine ⟨p.dropWhile (fun c => !isdigit c), List.dropWhile_suffix _, ?_, rfl⟩
  cases x with
  | nil => exact absurd rfl hx0
  | cons a x =>
    cases p with
    | nil => simp at hp
    | cons c p =>
      rw [List.cons_prefix_cons] at hp
      have hc : isdigit c = false := by rw [← hp.1]; exact hx a (by simp)
      rw [List.dropWhile_cons_of_pos (by simp [hc])]
      exact Nat.lt_succ_of_le (List.dropWhile_suffix _).length_le

theorem strncmpEq_sec (s : CStr) : strncmpEq s "sec".toList 3 = true ↔ "sec".toList <+: s :=
  strncmpEq_length_iff s "sec".toList

theorem strncmpEq_min (s : CStr) : strncmpEq s "min".toList 3 = true ↔ "min".toList <+: s :=
  strncmpEq_length_iff s "min".toList

theorem strncmpEq_hour (s : CStr) : strncmpEq s "hour".toList 4 = true ↔ "hour".toList <+: s :=
  strncmpEq_length_iff s "hour".toList

theorem strncmpEq_day (s : CStr) : strncmpEq s "day".toList 3 = true ↔ "day".toList <+: s :=
  strncmpEq_length_iff s "day".toList

theorem BadUnit.dropWhile_isspace {digits ws bad : CStr} (h : BadUnit digits ws bad) :
    (ws ++ bad).dropWhile isspace = bad := by
  have hbad : bad.dropWhile isspace = bad := by
    cases hb : bad with
    | nil => rfl
    | cons b bs =>
      have := (h.token b (by simp [hb])).1
      rw [List.dropWhile_cons_of_neg (by simp [this])]
  have hws := h.blank
  clear h
  induction ws with
  | nil => exact hbad
  | cons a ws ih =>
    rw [List.cons_append, List.dropWhile_cons_of_pos (hws a (by simp))]
    exact ih (fun c hc => hws c (by simp [hc]))

theorem getSecondsLoop_badUnit_pass {digits ws bad : CStr} (h : BadUnit digits ws bad)
    (p : CStr) (accum : Int) (fuel : Nat) (hsec : ¬ "sec".toList <:+: p) :
    getSecondsLoop (fuel + 1) (p ++ (digits ++ (ws ++ bad))) accum = some (-1) ∨
      ∃ p3 accum', p3 <:+ p ∧ p3.length < p.length ∧
        getSecondsLoop (fuel + 1) (p ++ (digits ++ (ws ++ bad))) accum
          = getSecondsLoop fuel (p3 ++ (digits ++ (ws ++ bad))) accum' := by
  obtain ⟨d, r, hD, hd⟩ := h.head
  have hne : p ++ (digits ++ (ws ++ bad)) ≠ [] := by simp [hD]
  rw [getSecondsLoop_succ _ _ _ hne]
  rcases strtol_before_badUnit h p with h1 | ⟨p1, hp1, h1⟩
  · left
    rw [h1, h.dropWhile_isspace]
    have e1 : ¬ strncmpEq bad "sec".toList 3 = true := fun e => h.notSec ((strncmpEq_sec _).mp e)
    have e2 : ¬ strncmpEq bad "min".toList 3 = true := fun e => h.notMin ((strncmpEq_min _).mp e)
    have e3 : ¬ strncmpEq bad "hour".toList 4 = true :=
      fun e => h.notHour ((strncmpEq_hour _).mp e)
    have e4 : ¬ strncmpEq bad "day".toList 3 = true := fun e => h.notDay ((strncmpEq_day _).mp e)
    simp only [e1, e2, e3, e4, Bool.false_eq_true, if_false]
  · rw [h1, hD, dropWhile_append_stop isspace d r (isdigit_not_isspace d hd)]
    have hp2 : p1.dropWhile isspace <:+ p := (List.dropWhile_suffix _).trans hp1
    have e1 : ¬ strncmpEq (p1.dropWhile isspace ++ d :: r) "sec".toList 3 = true := by
      intro e
      have := prefix_before_digit _ _ d r (by decide) hd ((strncmpEq_sec _).mp e)
      exact hsec (this.isInfix.trans hp2.isInfix)
    have next : ∀ x : CStr, (∀ c ∈ x, isdigit c = false) → x ≠ [] →
        x <+: p1.dropWhile isspace ++ d :: r → ∀ a : Int,
        ∃ p3 accum', p3 <:+ p ∧ p3.length < p.length ∧
          getSecondsLoop fuel ((p1.dropWhile isspace ++ d :: r).dropWhile (fun c => !isdigit c)) a
            = getSecondsLoop fuel (p3 ++ d :: r) accum' := by
      intro x hx hx0 hpre a
      obtain ⟨p3, h3, h4, h5⟩ := dropWhile_nondigit_progress x _ d r hx hx0 hd hpre
      exact ⟨p3, a, h3.trans hp2, lt_of_lt_of_le h4 hp2.length_le, by rw [h5]⟩
    simp only [e1, Bool.false_eq_true, if_false]
    by_cases e2 : strncmpEq (p1.dropWhile isspace ++ d :: r) "min".toList 3 = true
    · simp only [e2, if_true]
      exact Or.inr (next _ (by decide) (by decide) ((strncmpEq_min _).mp e2) _)
    · simp only [e2, Bool.false_eq_true, if_false]
      by_cases e3 : strncmpEq (p1.dropWhile isspace ++ d :: r) "hour".toList 4 = true
      · simp only [e3, if_true]
        exact Or.inr (next _ (by decide) (by decide) ((strncmpEq_hour _).mp e3) _)
      · simp only [e3, Bool.false_eq_true, if_false]
        by_cases e4 : strncmpEq (p1.dropWhile isspace ++ d :: r) "day".toList 3 = true
        · simp only [e4, if_true]
          exact Or.inr (next _ (by decide) (by decide) ((strncmpEq_day _).mp e4) _)
        · simp only [e4, Bool.false_eq_true, if_false]
          exact Or.inl trivial

theorem getSecondsLoop_badUnit {digits ws bad : CStr} (h : BadUnit digits ws bad) :
    ∀ (fuel : Nat) (p : CStr) (accum : Int), ¬ "sec".toList <:+: p → p.length + 1 ≤ fuel →
    getSecondsLoop fuel (p ++ (digits ++ (ws ++ bad))) accum = some (-1)
  | 0, p, _, _, hfuel => by omega
  | fuel + 1, p, accum, hsec, hfuel => by
    rcases getSecondsLoop_badUnit_pass h p accum fuel hsec with h1 | ⟨p3, accum', h3, h4, h5⟩
    · exact h1
    · rw [h5]
      exact getSecondsLoop_badUnit h fuel p3 accum'
        (fun hs => hsec (hs.trans h3.isInfix)) (by omega)

/-- A number followed by something that is not a unit, with no `sec` before
it, makes `getSeconds` return -1. -/
theorem getSeconds_badUnit (pre digits ws bad : CStr) (h : BadUnit digits ws bad)
    (hsec : ¬ "sec".toList <:+: pre)
    (hdash : ¬ "--".toList <+: (pre ++ (digits ++ (ws ++ bad))).dropWhile isspace)
    (hended : ¬ "ended".toList <:+: pre ++ (digits ++ (ws ++ bad))) :
    getSeconds (pre ++ (digits ++ (ws ++ bad))) = some (-1) := by
  obtain ⟨d, r, hD, hd⟩ := h.head
  have hdrop : (pre ++ (digits ++ (ws ++ bad))).dropWhile isspace
      = pre.dropWhile isspace ++ (digits ++ (ws ++ bad)) := by
    rw [hD]
    exact dropWhile_append_stop isspace d r (isdigit_not_isspace d hd) pre
  have hsuf : pre.dropWhile isspace ++ (digits ++ (ws ++ bad)) <:+ pre ++ (digits ++ (ws ++ bad)) := by
    rw [← hdrop]
    exact List.dropWhile_suffix _
  unfold getSeconds
  simp only []
  rw [hdrop] at hdash ⊢
  have h1 : pre.dropWhile isspace ++ (digits ++ (ws ++ bad)) ≠ [] := by simp [hD]
  have h2 : strncmpEq (pre.dropWhile isspace ++ (digits ++ (ws ++ bad))) "--".toList 2 = false := by
    rw [← Bool.not_eq_true]
    exact fun e => hdash ((strncmpEq_length_iff _ "--".toList).mp e)
  have h3 : (strstr (pre.dropWhile isspace ++ (digits ++ (ws ++ bad))) "ended".toList).isSome = false := by
    rw [← Bool.not_eq_true, strstr_isSome_iff]
    exact fun e => hended (e.trans hsuf.isInfix)
  simp only [h1, h2, h3, false_or, Bool.false_eq_true, if_false]
  exact getSecondsLoop_badUnit h _ _ 0
    (fun hs => hsec (hs.trans (List.dropWhile_suffix _).isInfix)) (by simp)

theorem strtolSign_snd_suffix (t : CStr) : (strtolSign t).2 <:+ t := by
  unfold strtolSign
  split
  · exact List.suffix_cons _ _
  · exact List.suffix_cons _ _
  · exact List.suffix_refl _

theorem strtol_snd_suffix (s : CStr) : (strtol s).2 <:+ s := by
  rcases strtol_snd s with h | ⟨c, u, h1, _, h3⟩
  · rw [h]
  · rw [h3, ← h1]
    exact (List.dropWhile_suffix _).trans
      ((strtolSign_snd_suffix _).trans (List.dropWhile_suffix _))

theorem dropWhile_nondigit_lt (x s : CStr) (hx : ∀ c ∈ x, isdigit c = false) (hx0 : x ≠ [])
    (h : x <+: s) : (s.dropWhile (fun c => !isdigit c)).length < s.length := by
  cases x with
  | nil => exact absurd rfl hx0
  | cons a x =>
    cases s with
    | nil => simp at h
    | cons c s =>
      rw [List.cons_prefix_cons] at h
      have hc : isdigit c = false := by rw [← h.1]; exact hx a (by simp)
      rw [List.dropWhile_cons_of_pos (by simp [hc])]
      exact Nat.lt_succ_of_le (List.dropWhile_suffix _).length_le

theorem getSecondsLoop_isSome : ∀ (fuel : Nat) (s : CStr) (accum : Int), s.length < fuel →
    (getSecondsLoop fuel s accum).isSome = true
  | 0, _, _, h => by omega
  | fuel + 1, s, accum, h => by
    by_cases hs : s = []
    · simp [getSecondsLoop, hs]
    · rw [getSecondsLoop_succ _ _ _ hs]
      have hle : ((strtol s).2.dropWhile isspace).length ≤ s.length :=
        ((List.dropWhile_suffix _).trans (strtol_snd_suffix s)).length_le
      have next : ∀ x : CStr, (∀ c ∈ x, isdigit c = false) → x ≠ [] →
          x <+: (strtol s).2.dropWhile isspace → ∀ a : Int,
          (getSecondsLoop fuel (((strtol s).2.dropWhile isspace).dropWhile
            (fun c => !isdigit c)) a).isSome = true := by
        intro x hx hx0 hpre a
        have := dropWhile_nondigit_lt x _ hx hx0 hpre
        exact getSecondsLoop_isSome fuel _ a (by omega)
      split_ifs with e1 e2 e3 e4
      · rfl
      · exact next _ (by decide) (by decide) ((strncmpEq_min _).mp e2) _
      · exact next _ (by decide) (by decide) ((strncmpEq_hour _).mp e3) _
      · exact next _ (by decide) (by decide) ((strncmpEq_day _).mp e4) _
      · rfl

/-- The loop of `getSeconds` ends within the fuel it is given: `getSeconds`
returns a value on every text. -/
theorem getSeconds_isSome (timestr : CStr) : (getSeconds timestr).isSome = true := by
  unfold getSeconds
  simp only []
  split_ifs
  · rfl
  · rfl
  · exact getSecondsLoop_isSome _ _ _ (Nat.lt_succ_self _)

/-! ## Price text -/

theorem drop_eq_byteAt_cons (price : CStr) (i : Nat) (h : i < price.length) :
    price.drop i = byteAt price i :: price.drop (i + 1) := by
  rw [List.drop_eq_getElem_cons h]
  simp [byteAt, List.getD_eq_getElem?_getD, List.getElem?_eq_getElem h]

theorem skipAlpha_eq (price : CStr) : ∀ (fuel start : Nat), price.length ≤ start + fuel →
    skipAlpha price price.length fuel start
      = start + ((price.drop start).takeWhile isalpha).length
  | 0, start, h => by
    simp [skipAlpha, List.drop_eq_nil_of_le (by omega : price.length ≤ start)]
  | fuel + 1, start, h => by
    rw [skipAlpha]
    by_cases hlt : start < price.length
    · rw [drop_eq_byteAt_cons price start hlt]
      by_cases hc : isalpha (byteAt price start) = true
      · simp only [hlt, hc, and_self, if_true, List.takeWhile_cons_of_pos, List.length_cons]
        rw [skipAlpha_eq price fuel (start + 1) (by omega)]
        omega
      · simp [hlt, hc]
    · simp [hlt, List.drop_eq_nil_of_le (by omega : price.length ≤ start)]

theorem skipToNumber_eq (price : CStr) : ∀ (fuel start : Nat), price.length ≤ start + fuel →
    skipToNumber price price.length fuel start
      = start + ((price.drop start).takeWhile (fun c => !isNumberChar c)).length
  | 0, start, h => by
    simp [skipToNumber, List.drop_eq_nil_of_le (by omega : price.length ≤ start)]
  | fuel + 1, start, h => by
    rw [skipToNumber]
    by_cases hlt : start < price.length
    · rw [drop_eq_byteAt_cons price start hlt]
      by_cases hc : isNumberChar (byteAt price start) = true
      · have hc' : ¬ ((!isdigit (byteAt price start)) = true ∧ byteAt price start ≠ ','
            ∧ byteAt price start ≠ '.') := by
          simp only [isNumberChar, isSeparator, Bool.or_eq_true, decide_eq_true_eq] at hc
          simp only [Bool.not_eq_true', ne_eq, not_and, not_not]
          intro h1
          rw [h1] at hc
          rcases hc with hc | hc | hc
          · exact absurd hc (by decide)
          · exact fun h2 => absurd hc h2
          · exact fun _ => hc
        rw [if_neg (fun h => hc' h.2)]
        simp [List.takeWhile_cons, hc]
      · have hc' : (!isdigit (byteAt price start)) = true ∧ byteAt price start ≠ ','
            ∧ byteAt price start ≠ '.' := by
          simp only [isNumberChar, isSeparator, Bool.or_eq_true, decide_eq_true_eq, not_or] at hc
          simpa using hc
        rw [if_pos ⟨hlt, hc'⟩, skipToNumber_eq price fuel (start + 1) (by omega)]
        have hc2 : isNumberChar (byteAt price start) = false := by simpa using hc
        simp only [List.takeWhile_cons, hc2, Bool.not_false, if_true, List.length_cons]
        omega
    · simp [hlt, List.drop_eq_nil_of_le (by omega : price.length ≤ start)]

theorem scanNumber_eq (price : CStr) : ∀ (fuel i count : Nat), price.length ≤ i + fuel →
    scanNumber price price.length fuel i count
      = (i + ((price.drop i).takeWhile isNumberChar).length,
         count + countSeparators ((price.drop i).takeWhile isNumberChar))
  | 0, i, count, h => by
    simp [scanNumber, List.drop_eq_nil_of_le (by omega : price.length ≤ i), countSeparators]
  | fuel + 1, i, count, h => by
    rw [scanNumber]
    by_cases hlt : i < price.length
    · rw [drop_eq_byteAt_cons price i hlt]
      simp only [hlt, if_true]
      by_cases hd : isdigit (byteAt price i) = true
      · have hs : isSeparator (byteAt price i) = false := by
          have := isdigit_cases _ hd
          simp only [List.mem_cons, List.mem_singleton, List.not_mem_nil, or_false] at this
          rcases this with h | h | h | h | h | h | h | h | h | h <;> rw [h] <;> decide
        simp only [hd, if_true, List.takeWhile_cons, isNumberChar, Bool.true_or, List.length_cons,
          countSeparators, List.countP_cons, hs]
        rw [scanNumber_eq price fuel (i + 1) count (by omega)]
        simp only [countSeparators, isNumberChar, Prod.mk.injEq]
        constructor
        · omega
        · simp
      · by_cases hs : isSeparator (byteAt price i) = true
        · have hs' : byteAt price i = ',' ∨ byteAt price i = '.' := by
            simpa [isSeparator] using hs
          simp only [hd, hs', if_true, List.takeWhile_cons, isNumberChar, hs, Bool.or_true,
            List.length_cons, countSeparators, List.countP_cons, Bool.false_eq_true, if_false]
          rw [scanNumber_eq price fuel (i + 1) (count + 1) (by omega)]
          simp only [countSeparators, isNumberChar, Prod.mk.injEq]
          constructor <;> omega
        · have hs' : ¬ (byteAt price i = ',' ∨ byteAt price i = '.') := by
            simpa [isSeparator] using hs
          simp [hd, hs', List.takeWhile_cons, isNumberChar, hs, countSeparators]
    · simp [hlt, List.drop_eq_nil_of_le (by omega : price.length ≤ i), countSeparators]

theorem take_succ_set (buf : CStr) (j : Nat) (c : Char) (h : j < buf.length) :
    (buf.set j c).take (j + 1) = buf.take j ++ [c] := by
  have h1 : (buf.set j c).take j = buf.take j := by
    apply List.ext_getElem?
    intro i
    rw [List.getElem?_take, List.getElem?_take]
    split
    · rw [List.getElem?_set_ne (by omega)]
    · rfl
  rw [List.take_succ, h1]
  simp [List.getElem?_set_self, h]

theorem copyNumber_take (end_ : Nat) : ∀ (fuel : Nat) (buf : CStr) (i j count : Nat),
    j ≤ i → i + fuel = end_ → end_ ≤ buf.length →
    (copyNumber end_ fuel buf i j count).1.take (copyNumber end_ fuel buf i j count).2
      = buf.take j ++ copySpec ((buf.drop i).take fuel) count
  | 0, buf, i, j, count, _, _, _ => by simp [copyNumber, copySpec]
  | fuel + 1, buf, i, j, count, hji, hend, hlen => by
    have hi : i < end_ := by omega
    have hil : i < buf.length := by omega
    have hdrop := drop_eq_byteAt_cons buf i hil
    rw [copyNumber, hdrop, List.take_succ_cons, copySpec]
    simp only [hi, if_true]
    have hset : ∀ c : Char, ((buf.set j c).drop (i + 1)).take fuel = (buf.drop (i + 1)).take fuel := by
      intro c
      rw [List.drop_set_of_lt c buf (by omega : j < i + 1)]
    by_cases hs : isSeparator (byteAt buf i) = true
    · have hs' : byteAt buf i = ',' ∨ byteAt buf i = '.' := by simpa [isSeparator] using hs
      simp only [hs', hs, if_true]
      by_cases hc : (count + 2 ^ 64 - 1) % 2 ^ 64 = 0
      · simp only [hc, if_true]
        rw [copyNumber_take end_ fuel (buf.set j '.') (i + 1) (j + 1) 0 (by omega) (by omega)
          (by simpa using hlen), hset, take_succ_set buf j '.' (by omega)]
        simp
      · simp only [hc, if_false]
        exact copyNumber_take end_ fuel buf (i + 1) j _ (by omega) (by omega) hlen
    · have hs' : ¬ (byteAt buf i = ',' ∨ byteAt buf i = '.') := by simpa [isSeparator] using hs
      simp only [hs', hs, if_false, Bool.false_eq_true]
      rw [copyNumber_take end_ fuel (buf.set j (byteAt buf i)) (i + 1) (j + 1) count (by omega)
        (by omega) (by simpa using hlen), hset, take_succ_set buf j _ (by omega)]
      simp

theorem copySpec_eq_keepLastSeparator : ∀ (run : CStr), countSeparators run < 2 ^ 64 →
    copySpec run (countSeparators run) = keepLastSeparator run
  | [], _ => rfl
  | c :: rest, h => by
    have hcount : countSeparators (c :: rest)
        = countSeparators rest + (if isSeparator c = true then 1 else 0) := by
      simp [countSeparators, List.countP_cons]
    rw [hcount] at h
    have ih := copySpec_eq_keepLastSeparator rest (by omega)
    rw [copySpec, keepLastSeparator, hcount]
    by_cases hs : isSeparator c = true
    · simp only [hs, if_true] at h ⊢
      have e : (countSeparators rest + 1 + 2 ^ 64 - 1) % 2 ^ 64 = countSeparators rest := by
        omega
      rw [e, ih]
      have hany : rest.any isSeparator = true ↔ ¬ countSeparators rest = 0 := by
        rw [countSeparators, List.countP_eq_zero, List.any_eq_true]
        push_neg
        rfl
      by_cases h0 : countSeparators rest = 0
      · have : ¬ rest.any isSeparator = true := fun h1 => (hany.mp h1) h0
        simp [h0, this]
      · have : rest.any isSeparator = true := hany.mpr h0
        simp [h0, this]
    · simp only [hs, if_false, Bool.false_eq_true, Nat.add_zero]
      rw [ih]

theorem take_length_takeWhile (p : Char → Bool) (l : CStr) :
    l.take (l.takeWhile p).length = l.takeWhile p := by
  have h := List.takeWhile_append_dropWhile p l
  calc l.take (l.takeWhile p).length
      = (l.takeWhile p ++ l.dropWhile p).take (l.takeWhile p).length := by rw [h]
    _ = l.takeWhile p := List.take_left' rfl

theorem drop_length_takeWhile (p : Char → Bool) (l : CStr) :
    l.drop (l.takeWhile p).length = l.dropWhile p := by
  have h := List.takeWhile_append_dropWhile p l
  calc l.drop (l.takeWhile p).length
      = (l.takeWhile p ++ l.dropWhile p).drop (l.takeWhile p).length := by rw [h]
    _ = l.dropWhile p := List.drop_left' rfl

theorem dropWhile_dropWhile_of_imp (p q : Char → Bool) (hpq : ∀ c, p c = true → q c = true) :
    ∀ (l : CStr), (l.dropWhile p).dropWhile q = l.dropWhile q
  | [] => rfl
  | c :: l => by
    by_cases hp : p c = true
    · rw [List.dropWhile_cons_of_pos hp, List.dropWhile_cons_of_pos (hpq c hp)]
      exact dropWhile_dropWhile_of_imp p q hpq l
    · rw [List.dropWhile_cons_of_neg hp]

theorem isalpha_not_isNumberChar (c : Char) (h : isalpha c = true) :
    (!isNumberChar c) = true := by
  by_contra hn
  simp only [Bool.not_eq_true', Bool.not_eq_false, isNumberChar, Bool.or_eq_true] at hn
  rcases hn with hd | hs
  · have := isdigit_cases c hd
    simp only [List.mem_cons, List.mem_singleton, List.not_mem_nil, or_false] at this
    rcases this with e | e | e | e | e | e | e | e | e | e <;> rw [e] at h <;>
      exact absurd h (by decide)
  · simp only [isSeparator, Bool.or_eq_true, decide_eq_true_eq] at hs
    rcases hs with e | e <;> rw [e] at h <;> exact absurd h (by decide)

theorem countSeparators_le (run : CStr) : countSeparators run ≤ run.length :=
  List.countP_le_length _

theorem priceFixup_text (text : CStr) (start0 : Nat) (hlen : text.length < 2 ^ 64)
    (hstart : start0 = 0 ∨ start0 = (text.takeWhile isalpha).length) :
    ((copyNumber
        (scanNumber text text.length
          (text.length - skipToNumber text text.length (text.length - start0) start0)
          (skipToNumber text text.length (text.length - start0) start0) 0).1
        ((scanNumber text text.length
          (text.length - skipToNumber text text.length (text.length - start0) start0)
          (skipToNumber text text.length (text.length - start0) start0) 0).1
          - skipToNumber text text.length (text.length - start0) start0)
        text (skipToNumber text text.length (text.length - start0) start0) 0
        (scanNumber text text.length
          (text.length - skipToNumber text text.length (text.length - start0) start0)
          (skipToNumber text text.length (text.length - start0) start0) 0).2).1.take
      (copyNumber
        (scanNumber text text.length
          (text.length - skipToNumber text text.length (text.length - start0) start0)
          (skipToNumber text text.length (text.length - start0) start0) 0).1
        ((scanNumber text text.length
          (text.length - skipToNumber text text.length (text.length - start0) start0)
          (skipToNumber text text.length (text.length - start0) start0) 0).1
          - skipToNumber text text.length (text.length - start0) start0)
        text (skipToNumber text text.length (text.length - start0) start0) 0
        (scanNumber text text.length
          (text.length - skipToNumber text text.length (text.length - start0) start0)
          (skipToNumber text text.length (text.length - start0) start0) 0).2).2)
      = keepLastSeparator (firstNumberRun text) := by
  have h0 : start0 ≤ text.length := by
    rcases hstart with h | h
    · omega
    · rw [h]; exact (List.takeWhile_sublist _).length_le
  have hdrop0 : (text.drop start0).dropWhile (fun c => !isNumberChar c)
      = text.dropWhile (fun c => !isNumberChar c) := by
    rcases hstart with h | h
    · rw [h, List.drop_zero]
    · rw [h, drop_length_takeWhile]
      exact dropWhile_dropWhile_of_imp _ _ isalpha_not_isNumberChar text
  have hskip := skipToNumber_eq text (text.length - start0) start0 (by omega)
  set start := skipToNumber text text.length (text.length - start0) start0 with hstartdef
  have hsl : start ≤ text.length := by
    rw [hskip]
    have := (List.takeWhile_sublist (fun c => !isNumberChar c) (l := text.drop start0)).length_le
    rw [List.length_drop] at this
    omega
  have hdrop : text.drop start = text.dropWhile (fun c => !isNumberChar c) := by
    rw [hskip, ← List.drop_drop, drop_length_takeWhile, hdrop0]
  have hscan := scanNumber_eq text (text.length - start) start 0 (by omega)
  rw [hscan, hdrop]
  have hrun : (text.dropWhile (fun c => !isNumberChar c)).takeWhile isNumberChar
      = firstNumberRun text := rfl
  rw [hrun]
  simp only [Nat.zero_add, Nat.add_sub_cancel_left]
  have hrl : start + (firstNumberRun text).length ≤ text.length := by
    have := (List.takeWhile_sublist isNumberChar
      (l := text.dropWhile (fun c => !isNumberChar c))).length_le
    rw [hrun, ← hdrop, List.length_drop] at this
    omega
  rw [copyNumber_take _ _ text start 0 _ (Nat.zero_le _) rfl hrl]
  rw [hdrop, ← hrun, take_length_takeWhile, hrun]
  simp only [List.take_zero, List.nil_append]
  exact copySpec_eq_keepLastSeparator _
    (lt_of_le_of_lt ((countSeparators_le _).trans (by omega)) hlen)

/-- C9: for every price text (shorter than 2^64 bytes) applied to a record with
no currency yet, `priceFixup` sets the record's currency to the maximal
leading alphabetic run of the text and rewrites the text to its first run of
digits, commas and dots, with every separator removed except the last one of
the run, which becomes a dot; `US $1,234.56` yields currency `US` and text
`1234.56`. -/
theorem priceFixup_unknown_currency (text : CStr) (aip : AuctionInfo)
    (hlen : text.length < 2 ^ 64) (hcur : aip.currency = none) :
    priceFixup (some text) (some aip)
        = (some (keepLastSeparator (firstNumberRun text)),
           some { aip with currency := some (leadingAlpha text) }) ∧
    (priceFixup (some "US $1,234.56".toList) (some (newAuctionInfoWith [] none 0))).1
        = some "1234.56".toList ∧
    ((priceFixup (some "US $1,234.56".toList) (some (newAuctionInfoWith [] none 0))).2.map
        (fun a => a.currency)) = some (some "US".toList) := by
  refine ⟨?_, by decide, by decide⟩
  have halpha := skipAlpha_eq text text.length 0 (by omega)
  simp only [List.drop_zero, Nat.zero_add] at halpha
  unfold priceFixup
  simp only [hcur, if_true, halpha]
  rw [priceFixup_text text _ hlen (Or.inr rfl), take_length_takeWhile]
  rfl

/-- C9 at the text `EUR 1.234,56`. -/
theorem priceFixup_unknown_currency_witness :
    "EUR 1.234,56".toList.length < 2 ^ 64 ∧ (newAuctionInfoWith [] none 0).currency = none ∧
    keepLastSeparator (firstNumberRun "EUR 1.234,56".toList) = "1234.56".toList ∧
    leadingAlpha "EUR 1.234,56".toList = "EUR".toList ∧
    priceFixup (some "EUR 1.234,56".toList) (some (newAuctionInfoWith [] none 0))
      = (some (keepLastSeparator (firstNumberRun "EUR 1.234,56".toList)),
         some { newAuctionInfoWith [] none 0 with
           currency := some (leadingAlpha "EUR 1.234,56".toList) }) :=
  ⟨by decide, rfl, by decide, by decide,
   (priceFixup_unknown_currency "EUR 1.234,56".toList (newAuctionInfoWith [] none 0)
      (by decide) rfl).1⟩

/-! ## The bid history page -/

theorem Parse.sat_andThen {α β : Type} (x : Parse α) (f : α → Parse β) (N : α → Prop)
    (N' : β → Prop) (R : Int → AuctionInfo → Prop) (hx : x.sat N R)
    (hf : ∀ a, N a → (f a).sat N' R) : (x.andThen f).sat N' R := by
  cases x with
  | next a => exact hf a hx
  | returned ret aip mp => exact hx
  | undefined => trivial

theorem Parse.sat_mono {α : Type} (x : Parse α) (N N' : α → Prop)
    (R R' : Int → AuctionInfo → Prop) (hx : x.sat N R) (hN : ∀ a, N a → N' a)
    (hR : ∀ ret aip, R ret aip → R' ret aip) : x.sat N' R' := by
  cases x with
  | next a => exact hN a hx
  | returned ret aip mp => exact hR ret aip hx
  | undefined => trivial

theorem parseError_sat {α : Type} (aip : AuctionInfo) (mp : MemBuf) (pe : AuctionErrorCode)
    (details : Option CStr) (N : α → Prop) :
    (parseError aip mp pe details : Parse α).sat N (fun ret _ => ret = 1) := by
  simp only [parseError, Parse.sat, auctionError]
  split <;> rfl

theorem findBidHistory_sat : ∀ (fuel : Nat) (mp : MemBuf) (aip : AuctionInfo),
    (findBidHistory fuel mp aip).sat (fun _ => True) (fun ret _ => ret = 1)
  | 0, mp, aip => by simp [findBidHistory, Parse.sat]
  | fuel + 1, mp, aip => by
    rw [findBidHistory]
    split
    · trivial
    · split_ifs
      · trivial
      · exact parseError_sat _ _ _ _ _
      · exact findBidHistory_sat fuel _ aip

theorem parsePageType_sat (pp : PageInfo) (mp : MemBuf) (aip : AuctionInfo) :
    (parsePageType pp mp aip).sat (fun _ => True) (fun ret _ => ret = 1) := by
  unfold parsePageType
  split_ifs
  · exact parseError_sat _ _ _ _ _
  · split
    · exact parseError_sat _ _ _ _ _
    · split_ifs
      · exact Parse.sat_andThen _ _ _ _ _ (findBidHistory_sat _ _ _) (fun _ _ => trivial)
      · trivial
      · exact parseError_sat _ _ _ _ _
      · exact parseError_sat _ _ _ _ _

theorem parseItemNumber_sat (mp : MemBuf) (aip : AuctionInfo) (debugMode : Bool) :
    (parseItemNumber mp aip debugMode).sat (fun _ => True) (fun ret _ => ret = 1) := by
  unfold parseItemNumber
  simp only []
  repeat' first
    | split
    | exact parseError_sat _ _ _ _ _
    | exact trivial

theorem parseTitle_sat (mp : MemBuf) (aip : AuctionInfo) :
    (parseTitle mp aip).sat (fun _ => True) (fun ret _ => ret = 1) := by
  unfold parseTitle
  simp only []
  repeat' first
    | split
    | exact parseError_sat _ _ _ _ _
    | exact trivial

theorem parsePriceLoop_sat : ∀ (fuel : Nat) (mp : MemBuf) (aip : AuctionInfo) (got : Nat),
    (parsePriceLoop fuel mp aip got).sat (fun _ => True) (fun ret _ => ret = 1)
  | 0, mp, aip, got => by simp [parsePriceLoop, Parse.sat]
  | fuel + 1, mp, aip, got => by
    have ih := parsePriceLoop_sat fuel
    rw [parsePriceLoop]
    simp only []
    repeat' first
      | split
      | exact ih _ _ _
      | exact parseError_sat _ _ _ _ _
      | exact trivial

theorem parsePrice_sat (mp : MemBuf) (aip : AuctionInfo) :
    (parsePrice mp aip).sat (fun _ => True) (fun ret _ => ret = 1) :=
  parsePriceLoop_sat _ _ _ _

theorem parseBeforeTime_sat (pp : PageInfo) (mp : MemBuf) (aip : AuctionInfo)
    (debugMode : Bool) :
    (parseBeforeTime pp mp aip debugMode).sat (fun _ => True) (fun ret _ => ret = 1) := by
  unfold parseBeforeTime
  refine Parse.sat_andThen _ _ _ _ _ (parsePageType_sat pp mp aip) fun page _ => ?_
  refine Parse.sat_andThen _ _ _ _ _ (parseItemNumber_sat _ _ _) fun r _ => ?_
  refine Parse.sat_andThen _ _ _ _ _ (parseTitle_sat _ _) fun r _ => ?_
  exact Parse.sat_andThen _ _ _ _ _ (parsePrice_sat _ _) fun r _ => trivial

theorem setEndTime_endTimeSet (env : ParseEnv) (mp : MemBuf) (aip : AuctionInfo) (start : Int) :
    (setEndTime env mp aip start).sat (fun r => EndTimeSet start r.2) (fun ret _ => ret = 1) := by
  unfold setEndTime
  split
  · rename_i h0
    split
    · split
      · simp only [Parse.sat, EndTimeSet, h0, ne_eq, not_false_eq_true, if_true]
      · trivial
    · trivial
  · rename_i h0
    simp only [Parse.sat, EndTimeSet, h0, if_false]
    exact not_not.mp h0

theorem parseTimeLeft_sat (env : ParseEnv) (mp : MemBuf) (aip : AuctionInfo) (start : Int) :
    (parseTimeLeft env mp aip start).sat (fun r => EndTimeSet start r.2)
      (fun ret _ => ret = 1) := by
  unfold parseTimeLeft
  split
  · exact setEndTime_endTimeSet _ _ _ _
  · split
    · exact parseError_sat _ _ _ _ _
    · exact setEndTime_endTimeSet _ _ _ _
  · trivial
  · exact parseError_sat _ _ _ _ _

theorem SameTime.refl (a : AuctionInfo) : SameTime a a := ⟨rfl, rfl⟩

theorem SameTime.trans {a b c : AuctionInfo} (h1 : SameTime a b) (h2 : SameTime b c) :
    SameTime a c := ⟨h2.1.trans h1.1, h2.2.trans h1.2⟩

theorem parseTotalBids_sat (env : ParseEnv) (mp : MemBuf) (aip : AuctionInfo) :
    (parseTotalBids env mp aip).sat (fun r => SameTime aip r.2) (fun _ a => SameTime aip a) := by
  unfold parseTotalBids
  simp only []
  repeat' first
    | split
    | exact ⟨rfl, rfl⟩

theorem checkPageType_sameTime (aip : AuctionInfo) (pageType auctionState auctionResult : Int) :
    SameTime aip (checkPageType aip pageType auctionState auctionResult).2 := by
  unfold checkPageType
  simp only []
  repeat' first
    | split
    | exact ⟨rfl, rfl⟩

theorem auctionError_sameTime (aip : AuctionInfo) (pe : AuctionErrorCode)
    (details : Option CStr) : SameTime aip (auctionError aip pe details).2 := by
  unfold auctionError resetAuctionError
  split <;> exact ⟨rfl, rfl⟩

theorem priceFixup_sameTime (price : Option CStr) (aip : AuctionInfo) :
    SameTime aip ((priceFixup price (some aip)).2.getD aip) := by
  unfold priceFixup
  split
  · exact ⟨rfl, rfl⟩
  · simp only []
    split <;> exact ⟨rfl, rfl⟩

theorem countPurchases_sat (env : ParseEnv) : ∀ (fuel : Nat) (row : Option (List CStr))
    (mp : MemBuf) (aip : AuctionInfo),
    (countPurchases env fuel row mp aip).sat (fun r => SameTime aip r.2) (fun ret _ => ret = 1)
  | 0, _, mp, aip => ⟨rfl, rfl⟩
  | _ + 1, none, mp, aip => ⟨rfl, rfl⟩
  | fuel + 1, some row, mp, aip => by
    rw [countPurchases]
    split
    · split
      · refine Parse.sat_mono _ _ _ _ _ (countPurchases_sat env fuel _ _ _) (fun r h => ?_)
          (fun _ _ h => h)
        refine SameTime.trans ?_ h
        split <;> exact ⟨rfl, rfl⟩
      · trivial
    · exact countPurchases_sat env fuel _ _ _

theorem checkPageType_remain (aip : AuctionInfo) (pageType auctionState auctionResult : Int) :
    (checkPageType aip pageType auctionState auctionResult).2.remain = aip.remain :=
  (checkPageType_sameTime aip pageType auctionState auctionResult).1

theorem checkPageType_endTime (aip : AuctionInfo) (pageType auctionState auctionResult : Int) :
    (checkPageType aip pageType auctionState auctionResult).2.endTime = aip.endTime :=
  (checkPageType_sameTime aip pageType auctionState auctionResult).2

theorem auctionError_remain (aip : AuctionInfo) (pe : AuctionErrorCode)
    (details : Option CStr) : (auctionError aip pe details).2.remain = aip.remain :=
  (auctionError_sameTime aip pe details).1

theorem auctionError_endTime (aip : AuctionInfo) (pe : AuctionErrorCode)
    (details : Option CStr) : (auctionError aip pe details).2.endTime = aip.endTime :=
  (auctionError_sameTime aip pe details).2

theorem priceFixup_remain (price : Option CStr) (aip : AuctionInfo) :
    ((priceFixup price (some aip)).2.getD aip).remain = aip.remain :=
  (priceFixup_sameTime price aip).1

theorem priceFixup_endTime (price : Option CStr) (aip : AuctionInfo) :
    ((priceFixup price (some aip)).2.getD aip).endTime = aip.endTime :=
  (priceFixup_sameTime price aip).2

theorem parseSingleAuction_sat (env : ParseEnv) (row : List CStr) (mp : MemBuf)
    (aip : AuctionInfo) (pageType auctionState auctionResult : Int) :
    (parseSingleAuction env row mp aip pageType auctionState auctionResult).sat
      (fun r => SameTime aip r.2.1) (fun ret _ => ret = 1) := by
  unfold parseSingleAuction
  simp only []
  repeat' first
    | split
    | exact parseError_sat _ _ _ _ _
    | exact trivial
    | simp only [Parse.sat, SameTime, checkPageType_remain, checkPageType_endTime,
        priceFixup_remain, priceFixup_endTime, and_self]

theorem parseBidTable_sat (env : ParseEnv) (mp : MemBuf) (aip : AuctionInfo)
    (pageType auctionState auctionResult : Int) :
    (parseBidTable env mp aip pageType auctionState auctionResult).sat
      (fun r => SameTime aip r.2.1) (fun ret _ => ret = 1) := by
  unfold parseBidTable
  simp only []
  repeat' first
    | split
    | exact parseError_sat _ _ _ _ _
    | exact parseSingleAuction_sat _ _ _ _ _ _ _
    | exact Parse.sat_andThen _ _ _ _ _ (countPurchases_sat env _ _ _ _) (fun r h => h)
    | exact trivial
    | simp only [Parse.sat, SameTime, checkPageType_remain, checkPageType_endTime,
        auctionError_remain, auctionError_endTime, and_self]

theorem EndTimeSet.of_sameTime {start : Int} {a b : AuctionInfo} (h : EndTimeSet start a)
    (hab : SameTime a b) : EndTimeSet start b := by
  unfold EndTimeSet at h ⊢
  rw [hab.1, hab.2]
  exact h

theorem parseFromTime_sat (env : ParseEnv) (start : Int)
    (x : (Int × Int × Int) × MemBuf × AuctionInfo) :
    (parseFromTime env start x).sat (fun r => EndTimeSet start r.2.1)
      (fun ret a => ret = 0 → EndTimeSet start a) := by
  unfold parseFromTime
  refine Parse.sat_andThen _ _ (fun r => EndTimeSet start r.2) _ _
    (Parse.sat_mono _ _ _ _ _ (parseTimeLeft_sat _ _ _ _) (fun _ h => h)
      (fun ret _ h h0 => absurd (h.symm.trans h0) (by decide))) fun r1 h1 => ?_
  refine Parse.sat_andThen _ _ (fun r => EndTimeSet start r.2) _ _
    (Parse.sat_mono _ _ _ _ _ (parseTotalBids_sat env _ _) (fun _ h => h1.of_sameTime h)
      (fun _ _ h _ => h1.of_sameTime h)) fun r2 h2 => ?_
  exact Parse.sat_mono _ _ _ _ _ (parseBidTable_sat env _ _ _ _ _)
    (fun _ h => h2.of_sameTime h) (fun ret _ h h0 => absurd (h.symm.trans h0) (by decide))

theorem parseBidHistoryInternal_sat (env : ParseEnv) (pp : PageInfo) (mp : MemBuf)
    (aip : AuctionInfo) (start : Int) (debugMode : Bool) :
    (parseBidHistoryInternal env pp mp aip start debugMode).sat
      (fun r => EndTimeSet start r.2.1) (fun ret a => ret = 0 → EndTimeSet start a) := by
  unfold parseBidHistoryInternal
  exact Parse.sat_andThen _ _ (fun _ => True) _ _
    (Parse.sat_mono _ _ _ _ _ (parseBeforeTime_sat pp mp aip debugMode) (fun _ h => h)
      (fun ret _ h h0 => absurd (h.symm.trans h0) (by decide)))
    (fun x _ => parseFromTime_sat env start x)

theorem parseBidHistory_endTimeSet (env : ParseEnv) (mp : MemBuf) (aip : AuctionInfo)
    (start : Int) (debugMode : Bool) (ret : Int) (aip' : AuctionInfo) (mp' : MemBuf)
    (h : parseBidHistory env mp aip start debugMode = .returned ret aip' mp') :
    ret = 0 → EndTimeSet start aip' := by
  unfold parseBidHistory at h
  simp only [] at h
  split at h
  · exact ParseResult.noConfusion h
  · rename_i pp mp1 _
    have hs := parseBidHistoryInternal_sat env pp mp1 (resetAuctionError aip) start debugMode
    split at h
    · rename_i mp2 aip2 ret2 heq
      rw [heq] at hs
      injection h with h1 h2 h3
      subst h2
      intro _
      exact hs
    · rename_i ret2 aip2 mp2 heq
      rw [heq] at hs
      injection h with h1 h2 h3
      subst h1 h2
      exact hs
    · exact ParseResult.noConfusion h
  · injection h with h1 h2 h3
    intro h0
    rw [← h1] at h0
    simp only [auctionError] at h0
    exact absurd h0 (by decide)

/-- On a page that gives 9223372036854775807 seconds, parsed with start time
5000, the sum of the start time and `remain` is not a value of `time_t`: the
call does not return. -/
theorem parseBidHistory_endTime_overflow :
    (parseBidHistory exampleEnv (timeLeftPage "9223372036854775807 sec") exampleRecord 5000
        false).ret = none ∧
    (parseBidHistory exampleEnv (timeLeftPage "9223372036854775807 sec") exampleRecord 5000
        false).record = none := by
  refine ⟨by decide, by decide⟩

/-- C5, counterexample: a successful parse of the page of an ended auction,
made with start time 5000, leaves `remain = 0` and `endTime = 0`, not 5000. -/
theorem parseBidHistory_endTime_counterexample :
    (parseBidHistory exampleEnv endedPage exampleRecord 5000 false).ret = some 0 ∧
    (parseBidHistory exampleEnv endedPage exampleRecord 5000 false).record.map
        (fun a => (a.remain, a.endTime)) = some (0, 0) := by
  refine ⟨by decide, by decide⟩

/-- C5, amended: after every successful `parseBidHistory` call made with fetch
start time `start`, the record has `endTime = start + remain` when `remain` is
not 0, and `endTime = 0` when `remain` is 0. -/
theorem parseBidHistory_endTime (env : ParseEnv) (mp : MemBuf) (aip : AuctionInfo)
    (start : Int) (debugMode : Bool)
    (h : (parseBidHistory env mp aip start debugMode).ret = some 0) :
    ∀ a ∈ (parseBidHistory env mp aip start debugMode).record,
      (a.remain = 0 → a.endTime = 0) ∧ (a.remain ≠ 0 → a.endTime = start + a.remain) := by
  intro a ha
  cases hr : parseBidHistory env mp aip start debugMode with
  | undefined => rw [hr] at ha; simp [ParseResult.record] at ha
  | returned ret aip' mp' =>
    rw [hr] at h ha
    simp only [ParseResult.ret, Option.some.injEq] at h
    simp only [ParseResult.record, Option.mem_def, Option.some.injEq] at ha
    subst ha
    have hset := parseBidHistory_endTimeSet env mp aip start debugMode ret aip' mp' hr h
    unfold EndTimeSet at hset
    constructor
    · intro h0
      rw [hset]
      simp [h0]
    · intro h0
      rw [hset]
      simp only [ne_eq, h0, not_false_eq_true, if_true]

/-- C5 at a page that gives `1 day 2 hours`, parsed with start time 5000. -/
theorem parseBidHistory_endTime_witness :
    (parseBidHistory exampleEnv (timeLeftPage "1 day 2 hours") exampleRecord 5000 false).ret
      = some 0 ∧
    (parseBidHistory exampleEnv (timeLeftPage "1 day 2 hours") exampleRecord 5000
        false).record.map (fun a => (a.remain, a.endTime)) = some (93600, 98600) ∧
    ∀ a ∈ (parseBidHistory exampleEnv (timeLeftPage "1 day 2 hours") exampleRecord 5000
        false).record,
      (a.remain = 0 → a.endTime = 0) ∧ (a.remain ≠ 0 → a.endTime = 5000 + a.remain) :=
  ⟨by decide, by decide,
   parseBidHistory_endTime exampleEnv (timeLeftPage "1 day 2 hours") exampleRecord 5000 false
     (by decide)⟩

/-! ## Unknown units of time in the bid history page -/

theorem tolower_digit (d : Char) (h : isdigit d = true) : tolower d = d := by
  have := isdigit_cases d h
  simp only [List.mem_cons, List.mem_singleton, List.not_mem_nil, or_false] at this
  rcases this with e | e | e | e | e | e | e | e | e | e <;> subst e <;> decide

theorem strcasecmpEq_of_digit (raw s : CStr) (d : Char) (hd : isdigit d = true)
    (hmem : d ∈ raw) (hs : ∀ c ∈ s.map tolower, isdigit c = false) :
    strcasecmpEq raw s = false := by
  rw [← Bool.not_eq_true]
  intro h
  simp only [strcasecmpEq, decide_eq_true_eq] at h
  have h1 : d ∈ raw.map tolower := by
    rw [List.mem_map]
    exact ⟨d, hmem, tolower_digit d hd⟩
  rw [h] at h1
  rw [hs d h1] at hd
  exact absurd hd (by decide)

theorem setRemain_badUnit (aip : AuctionInfo) (raw : CStr) (d : Char) (hd : isdigit d = true)
    (hmem : d ∈ raw) (hundef : ¬ strncasecmpEq raw "undefined".toList 9 = true)
    (hsec : getSeconds raw = some (-1)) :
    setRemain aip raw = { aip with remainRaw := some raw, remain := -1 } := by
  have h1 : strcasecmpEq raw "Duration:".toList = false :=
    strcasecmpEq_of_digit raw _ d hd hmem (by decide)
  have h2 : strcasecmpEq raw "Refresh".toList = false :=
    strcasecmpEq_of_digit raw _ d hd hmem (by decide)
  unfold setRemain
  simp only [h1, h2, hundef, hsec, Bool.false_eq_true, if_false, Option.getD_some]

/-- C8: for every duration text in which a number is followed (with no `sec`
before it) by a token that begins with none of `sec`, `min`, `hour`, `day`,
and which does not start with `--` and does not contain `ended`, `getSeconds`
returns -1; and when that text is the one that `parseBidHistoryInternal` reads
after the marker `timeLeft` and passes to `getSeconds` (it does not begin with
`undefined`), the function returns 1 with the error kind `ae_badtime` and the
text as detail, as on the page that says `5 apples`. -/
theorem getSeconds_unknown_unit (pre digits ws bad : CStr) (h : BadUnit digits ws bad)
    (hsec : ¬ "sec".toList <:+: pre)
    (hdash : ¬ "--".toList <+: (pre ++ (digits ++ (ws ++ bad))).dropWhile isspace)
    (hended : ¬ "ended".toList <:+: pre ++ (digits ++ (ws ++ bad))) :
    getSeconds (pre ++ (digits ++ (ws ++ bad))) = some (-1) ∧
    (∀ (env : ParseEnv) (pp : PageInfo) (mp : MemBuf) (aip : AuctionInfo) (start : Int)
        (debugMode : Bool) (x : (Int × Int × Int) × MemBuf × AuctionInfo) (mp' : MemBuf),
      parseBeforeTime pp mp aip debugMode = .next x →
      timeLeftText x.2.1 x.2.2 = .text (pre ++ (digits ++ (ws ++ bad))) mp' →
      ¬ strncasecmpEq (pre ++ (digits ++ (ws ++ bad))) "undefined".toList 9 = true →
      parseBidHistoryInternal env pp mp aip start debugMode
        = .returned 1
            { x.2.2 with
              remainRaw := some (pre ++ (digits ++ (ws ++ bad))), remain := -1,
              auctionError := ae_badtime,
              auctionErrorDetail := some (pre ++ (digits ++ (ws ++ bad))) } mp') ∧
    (parseBidHistory exampleEnv (timeLeftPage "5 apples") exampleRecord 5000 false).record.map
        (fun a => (a.auctionError, a.auctionErrorDetail))
      = some (ae_badtime, some "5 apples".toList) := by
  have hget := getSeconds_badUnit pre digits ws bad h hsec hdash hended
  refine ⟨hget, ?_, by decide⟩
  intro env pp mp aip start debugMode x mp' hbefore htext hundef
  obtain ⟨d, r, hD, hd⟩ := h.head
  have hmem : d ∈ pre ++ (digits ++ (ws ++ bad)) := by
    rw [hD]
    simp
  have hset := setRemain_badUnit x.2.2 _ d hd hmem hundef hget
  unfold parseBidHistoryInternal
  rw [hbefore]
  simp only [Parse.andThen, parseFromTime, parseTimeLeft, htext, hset]
  simp [parseError, auctionError, resetAuctionError]

/-- C8 at the text `1 day 5 apples`. -/
theorem getSeconds_unknown_unit_witness :
    BadUnit "5".toList " ".toList "apples".toList ∧
    getSeconds ("1 day ".toList ++ ("5".toList ++ (" ".toList ++ "apples".toList))) = some (-1) :=
  ⟨⟨⟨by decide, by decide⟩, by decide, by decide, by decide, by decide, by decide, by decide⟩,
   (getSeconds_unknown_unit "1 day ".toList "5".toList " ".toList "apples".toList
      ⟨⟨by decide, by decide⟩, by decide, by decide, by decide, by decide, by decide, by decide⟩
      (by decide) (by decide) (by decide)).1⟩

/-! ## The fallback inference from the page name -/

/-- C11: given a bid history page in the active state with result high
bidder, `checkPageType` succeeds and leaves `winning = 1` and
`quantityBid = 1`, but `won = 1` and `quantity = 1`: after the inner `switch`
of the case `STATE_ACTIVE` there is no `break`, so the assignments of the case
`STATE_CLOSED` follow and replace `won = 0` and `quantity = 0`. -/
theorem checkPageType_active_highBidder (aip : AuctionInfo) :
    checkPageType aip VIEWBIDS STATE_ACTIVE RESULT_HIGH_BIDDER
        = (0, { aip with quantityBid := 1, winning := 1, won := 1, quantity := 1 }) ∧
      (checkPageType aip VIEWBIDS STATE_ACTIVE RESULT_HIGH_BIDDER).2.won ≠ 0 ∧
      (checkPageType aip VIEWBIDS STATE_ACTIVE RESULT_HIGH_BIDDER).2.quantity ≠ 0 := by
  simp [checkPageType, VIEWBIDS, STATE_ACTIVE, RESULT_HIGH_BIDDER]

/-- C12: the page name `PageViewBids_Closed_HighBidder` is decoded with result
high bidder but with no state (0), because the test
`else if(strcmp(token, "Closed"))` holds for every token except `Closed`; the
fallback inference then fails for every record, and a page of that name whose
bid table cannot be dispatched is answered with return value 1 and
`ae_nohighbid`, `won` left as it was. A page name whose second token is
`Active` is decoded as active. -/
theorem decodePageName_closed_highBidder :
    decodePageName "PageViewBids_Closed_HighBidder".toList = (0, RESULT_HIGH_BIDDER) ∧
    (∀ aip : AuctionInfo, checkPageType aip VIEWBIDS 0 RESULT_HIGH_BIDDER = (-1, aip)) ∧
    (parseBidHistory exampleEnv (fallbackPage "PageViewBids_Closed_HighBidder") exampleRecord
        5000 false).ret = some 1 ∧
    (parseBidHistory exampleEnv (fallbackPage "PageViewBids_Closed_HighBidder") exampleRecord
        5000 false).record.map (fun a => (a.auctionError, a.won)) = some (ae_nohighbid, -1) ∧
    exampleRecord.won = -1 ∧
    (decodePageName "PageViewBids_Active_HighBidder".toList).1 = STATE_ACTIVE ∧
    (decodePageName "PageViewBids_Active_None".toList).1 = STATE_ACTIVE := by
  refine ⟨by decide, fun aip => by simp [checkPageType], by decide, by decide, by decide,
    by decide, by decide⟩

/-! ## Error state -/

theorem auctionError_eq (aip : AuctionInfo) (pe : AuctionErrorCode) (details : Option CStr) :
    auctionError aip pe details
      = (1, { aip with auctionError := pe, auctionErrorDetail := details }) := by
  cases details <;> rfl

/-- C17: `auctionError(aip, pe, details)` returns 1 and leaves the record with
error kind `pe` and detail `details` (none when `details` is absent), whatever
the kind and detail were before, and with every other field as it was. -/
theorem auctionError_sets (aip : AuctionInfo) (pe : AuctionErrorCode) (details : Option CStr) :
    auctionError aip pe details
      = (1, { aip with auctionError := pe, auctionErrorDetail := details }) := by
  cases details <;> rfl

/-! ## Bid results -/

theorem prefix_append_iff (a b s : CStr) : a ++ b <+: s ↔ a <+: s ∧ b <+: s.drop a.length := by
  constructor
  · rintro ⟨t, rfl⟩
    refine ⟨⟨b ++ t, by simp⟩, ⟨t, by simp⟩⟩
  · rintro ⟨⟨u, rfl⟩, ⟨t, ht⟩⟩
    simp only [List.drop_left] at ht
    exact ⟨t, by rw [← ht]; simp⟩

theorem acceptBid_eq (name : CStr) (aip : AuctionInfo) :
    acceptBid (some name) aip =
      if name = "Bid confirmation".toList ∨ "AcceptBid_HighBidder".toList <+: name then
        .value (0, { aip with bidResult := 0 })
      else if "AcceptBid_Outbid".toList <+: name then .value (bidError aip ae_outbid)
      else if "AcceptBid_ReserveNotMet".toList <+: name then
        .value (bidError aip ae_reservenotmet)
      else .value (-1, aip) := by
  have hH : "AcceptBid_HighBidder".toList <+: name ↔
      strncmpEq name "AcceptBid_".toList 10 = true ∧
        strncmpEq (name.drop 10) "HighBidder".toList 10 = true := by
    rw [show "AcceptBid_HighBidder".toList = "AcceptBid_".toList ++ "HighBidder".toList from rfl,
      prefix_append_iff]
    exact and_congr (strncmpEq_length_iff name "AcceptBid_".toList).symm
      (strncmpEq_length_iff (name.drop 10) "HighBidder".toList).symm
  have hO : "AcceptBid_Outbid".toList <+: name ↔
      strncmpEq name "AcceptBid_".toList 10 = true ∧
        strncmpEq (name.drop 10) "Outbid".toList 6 = true := by
    rw [show "AcceptBid_Outbid".toList = "AcceptBid_".toList ++ "Outbid".toList from rfl,
      prefix_append_iff]
    exact and_congr (strncmpEq_length_iff name "AcceptBid_".toList).symm
      (strncmpEq_length_iff (name.drop 10) "Outbid".toList).symm
  have hR : "AcceptBid_ReserveNotMet".toList <+: name ↔
      strncmpEq name "AcceptBid_".toList 10 = true ∧
        strncmpEq (name.drop 10) "ReserveNotMet".toList 13 = true := by
    rw [show "AcceptBid_ReserveNotMet".toList
        = "AcceptBid_".toList ++ "ReserveNotMet".toList from rfl, prefix_append_iff]
    exact and_congr (strncmpEq_length_iff name "AcceptBid_".toList).symm
      (strncmpEq_length_iff (name.drop 10) "ReserveNotMet".toList).symm
  simp only [hH, hO, hR, acceptBid]
  split_ifs <;> simp_all

theorem bidError_eq (aip : AuctionInfo) (pe : AuctionErrorCode) :
    bidError aip pe
      = (1, { aip with auctionError := pe, auctionErrorDetail := none, bidResult := 1 }) := rfl

/-- C15: for every page name, `acceptBid` returns 0 and sets `bidResult = 0`
when the name is `Bid confirmation` or starts with `AcceptBid_HighBidder`;
returns 1 with `bidResult = 1` and error kind `ae_outbid` when it starts with
`AcceptBid_Outbid`; returns 1 with `bidResult = 1` and error kind
`ae_reservenotmet` when it starts with `AcceptBid_ReserveNotMet`; and
otherwise returns -1 and leaves the record as it was. -/
theorem acceptBid_classification (name : CStr) (aip : AuctionInfo) :
    (name = "Bid confirmation".toList ∨ "AcceptBid_HighBidder".toList <+: name →
      acceptBid (some name) aip = .value (0, { aip with bidResult := 0 })) ∧
    ("AcceptBid_Outbid".toList <+: name →
      acceptBid (some name) aip = .value (1, { aip with
        auctionError := ae_outbid, auctionErrorDetail := none, bidResult := 1 })) ∧
    ("AcceptBid_ReserveNotMet".toList <+: name →
      acceptBid (some name) aip = .value (1, { aip with
        auctionError := ae_reservenotmet, auctionErrorDetail := none, bidResult := 1 })) ∧
    (¬ (name = "Bid confirmation".toList ∨ "AcceptBid_HighBidder".toList <+: name
        ∨ "AcceptBid_Outbid".toList <+: name ∨ "AcceptBid_ReserveNotMet".toList <+: name) →
      acceptBid (some name) aip = .value (-1, aip)) := by
  have hne : ∀ {a b : CStr} {x y : Char}, x ≠ y →
      "AcceptBid_".toList ++ x :: a <+: name → ¬ "AcceptBid_".toList ++ y :: b <+: name := by
    rintro a b x y hxy ⟨t, rfl⟩ ⟨u, hu⟩
    simp only [String.toList, List.cons_append, List.nil_append, List.cons.injEq, true_and]
      at hu
    exact hxy hu.1.symm
  have hbc : ∀ {a : CStr}, "AcceptBid_".toList ++ a <+: name →
      name ≠ "Bid confirmation".toList := by
    rintro a ⟨t, rfl⟩ h
    simp [String.toList] at h
  refine ⟨fun h => ?_, fun h => ?_, fun h => ?_, fun h => ?_⟩
  · rw [acceptBid_eq, if_pos h]
  · rw [acceptBid_eq, if_neg, if_pos h, bidError_eq]
    rintro (h0 | h1)
    · exact hbc (a := "Outbid".toList) h h0
    · exact hne (a := "utbid".toList) (b := "ighBidder".toList) (x := 'O') (y := 'H')
        (by decide) h h1
  · rw [acceptBid_eq, if_neg, if_neg, if_pos h, bidError_eq]
    · exact hne (a := "eserveNotMet".toList) (b := "utbid".toList) (x := 'R') (y := 'O')
        (by decide) h
    · rintro (h0 | h1)
      · exact hbc (a := "ReserveNotMet".toList) h h0
      · exact hne (a := "eserveNotMet".toList) (b := "ighBidder".toList) (x := 'R') (y := 'H')
          (by decide) h h1
  · rw [acceptBid_eq, if_neg (fun h' => h (by tauto)), if_neg (fun h' => h (by tauto)),
      if_neg (fun h' => h (by tauto))]

/-- C15, an instance: the page name `AcceptBid_Outbid_rebid`. -/
theorem acceptBid_classification_witness :
    "AcceptBid_Outbid".toList <+: "AcceptBid_Outbid_rebid".toList ∧
    acceptBid (some "AcceptBid_Outbid_rebid".toList) exampleRecord
      = .value (1, { exampleRecord with
          auctionError := ae_outbid, auctionErrorDetail := none, bidResult := 1 }) :=
  ⟨by decide,
   (acceptBid_classification "AcceptBid_Outbid_rebid".toList exampleRecord).2.1 (by decide)⟩

/-- C16: on a bid result page that has the source id `ViewItem` and no page
name, `parseBid` passes the null page name to `acceptBid`, whose first
statement `strcmp(pagename, "Bid confirmation")` reads it before the test
`!pagename`: no value is returned, although `makeBidError` would classify the
page as `ae_ended` with return value 1 and `bidResult = 1`. This holds for
every page without a page name, whatever its source id. -/
theorem parseBid_without_pageName :
    getPageInfo viewItemPage
        = .value (some { pageName := none, pageId := none, srcId := some "ViewItem".toList },
            memReset viewItemPage) ∧
    parseBid viewItemPage exampleRecord = .undefined ∧
    makeBidError { pageName := none, pageId := none, srcId := some "ViewItem".toList }
        { exampleRecord with bidResult := -1 }
      = (1, { exampleRecord with
          auctionError := ae_ended, auctionErrorDetail := none, bidResult := 1 }) ∧
    (∀ (mp mp1 : MemBuf) (aip : AuctionInfo) (pageInfo : PageInfo),
      getPageInfo mp = .value (some pageInfo, mp1) → pageInfo.pageName = none →
        parseBid mp aip = .undefined) := by
  refine ⟨rfl, rfl, rfl, ?_⟩
  intro mp mp1 aip pageInfo h hname
  simp only [parseBid, h, hname, acceptBid]

/-! ## Sign-in and pre-bid requests -/

/-- C13, counterexample: with a login recorded at time 999, `ebayLogin` called
with interval 0 at time 1000, one second later, returns 0 and makes no
request. -/
theorem ebayLogin_interval_zero_counterexample :
    (ebayLogin offlineNetwork defaultRequestOptions 999 exampleRecord 0 1000).requests
        = some [] ∧
      (ebayLogin offlineNetwork defaultRequestOptions 999 exampleRecord 0 1000).returnValue
        = some 0 := by
  decide

theorem signIn_requests {W : Type} (net : Network W) (opts : RequestOptions) (loginTime : Int)
    (aip : AuctionInfo) (w : W) (hinit : (net.initCurlStuff w).1 = 0) :
    ∀ r, signIn net opts loginTime aip w = .value r →
      r.requests.head? = some (LOGIN_1_URL opts.loginHost) := by
  intro r
  simp only [signIn, hinit, ne_eq, not_true_eq_false, if_false]
  repeat' first
    | split
    | (intro h; cases h; rfl)
    | (intro h; cases h)

/-- C13, amended: `ebayLogin` called with interval 0 applies the default
interval of 12 hours. When the stored last-login time is positive and at most
43200 seconds have passed since, it returns 0 without any request and leaves
the record and the stored time as they were; when the stored time is not
positive, or more than 43200 seconds have passed, it goes through the sign-in
sequence, which begins with the request of the sign-in page when the set-up of
the connection succeeds. -/
theorem ebayLogin_interval_zero {W : Type} (net : Network W) (opts : RequestOptions)
    (loginTime : Int) (aip : AuctionInfo) (w : W) :
    (0 < loginTime ∧ (net.time w).1 - loginTime ≤ 43200 →
      ebayLogin net opts loginTime aip 0 w
        = .value { ret := 0, aip := aip, loginTime := loginTime, requests := [],
                   world := (net.time w).2 }) ∧
    (loginTime ≤ 0 ∨ 43200 < (net.time w).1 - loginTime →
      ebayLogin net opts loginTime aip 0 w
          = signIn net opts loginTime aip (if 0 < loginTime then (net.time w).2 else w) ∧
        ((net.initCurlStuff (if 0 < loginTime then (net.time w).2 else w)).1 = 0 →
          ∀ r, ebayLogin net opts loginTime aip 0 w = .value r →
            r.requests.head? = some (LOGIN_1_URL opts.loginHost))) := by
  have h12 : defaultLoginInterval = 43200 := by norm_num [defaultLoginInterval]
  constructor
  · rintro ⟨hpos, hle⟩
    simp only [ebayLogin, gt_iff_lt, hpos, if_true, h12, hle]
  · intro h
    have heq : ebayLogin net opts loginTime aip 0 w
        = signIn net opts loginTime aip (if 0 < loginTime then (net.time w).2 else w) := by
      by_cases hpos : 0 < loginTime
      · have hgt : ¬ (net.time w).1 - loginTime ≤ 43200 := by
          rcases h with h | h
          · omega
          · omega
        simp only [ebayLogin, gt_iff_lt, hpos, if_true, h12, hgt, if_false]
      · simp only [ebayLogin, gt_iff_lt, hpos, if_false]
    refine ⟨heq, fun hinit r hr => ?_⟩
    rw [heq] at hr
    exact signIn_requests net opts loginTime aip _ hinit r hr

/-- C13, amended, instances: a login recorded 100 seconds ago is not repeated;
with no login recorded, the sign-in page is requested. -/
theorem ebayLogin_interval_zero_witness :
    ebayLogin offlineNetwork defaultRequestOptions 900 exampleRecord 0 1000
        = .value { ret := 0, aip := exampleRecord, loginTime := 900, requests := [],
                   world := 1000 } ∧
      (∀ r, ebayLogin offlineNetwork defaultRequestOptions 0 exampleRecord 0 1000 = .value r →
        r.requests.head? = some (LOGIN_1_URL "signin.ebay.com".toList)) :=
  ⟨(ebayLogin_interval_zero offlineNetwork defaultRequestOptions 900 exampleRecord 1000).1
      ⟨by decide, by decide⟩,
   ((ebayLogin_interval_zero offlineNetwork defaultRequestOptions 0 exampleRecord 1000).2
      (Or.inl (by decide))).2 rfl⟩

/-- C14: with 3 items wanted and 5 available, the URL that `preBid` requests
ends in `quant=3`, not `quant=1`; and whenever the login succeeds and the
record has a bid price, the one request that `preBid` adds carries the
quantity computed by `getQuantity` from the wanted and the available
quantity. -/
theorem preBid_url_quantity :
    (preBid offlineNetwork (fun _ a => (0, a)) { exampleEnv.options with quantity := 3 }
        defaultRequestOptions 999 { exampleRecord with quantity := 5 } 1000).requests
      = some [("http://offer.ebay.com/ws/eBayISAPI.dll?MfcISAPICommand=MakeBid&fb=2"
          ++ "&co_partner_id=&item=1&maxbid=20.00&quant=3").toList] ∧
    (∀ {W : Type} (net : Network W) (parsePreBid : MemBuf → AuctionInfo → Int × AuctionInfo)
        (options : Options) (opts : RequestOptions) (loginTime : Int) (aip : AuctionInfo) (w : W)
        (login : Requested W) (bidPriceStr : CStr),
      ebayLogin net opts loginTime aip 0 w = .value login → login.ret = 0 →
      login.aip.bidPriceStr = some bidPriceStr →
        (preBid net parsePreBid options opts loginTime aip w).requests
          = some (login.requests ++ [PRE_BID_URL opts.prebidHost login.aip.auction bidPriceStr
              (formatInt (getQuantity options.quantity aip.quantity))])) := by
  refine ⟨by decide, ?_⟩
  intro W net parsePreBid options opts loginTime aip w login bidPriceStr hlogin hret hprice
  simp only [preBid, hlogin, hret, hprice, ne_eq, not_true_eq_false, if_false]
  split <;> rfl

/-! ## The bid count -/

theorem rowsBeforeStartingPrice_cons (row : List CStr) (rows : List (List CStr)) :
    rowsBeforeStartingPrice (row :: rows)
      = if isStartingPriceRow row then 0
        else (if numColumns (some row) = 5 then 1 else 0) + rowsBeforeStartingPrice rows := by
  unfold rowsBeforeStartingPrice
  by_cases hsp : isStartingPriceRow row = true
  · simp [hsp]
  · by_cases h5 : numColumns (some row) = 5
    · simp [hsp, h5, List.takeWhile_cons, List.filter_cons, Nat.add_comm]
    · simp [hsp, h5, List.takeWhile_cons, List.filter_cons]

theorem countBids_eq : ∀ (fuel : Nat) (mp : MemBuf) (bids n : Int) (mp1 : MemBuf),
    countBids fuel mp bids = .value (n, mp1) →
      n = bids + rowsBeforeStartingPrice (tableRows fuel mp)
  | 0, mp, bids, n, mp1, h => by
    simp only [countBids, Defined.value.injEq, Prod.mk.injEq] at h
    simp [tableRows, rowsBeforeStartingPrice, h.1]
  | fuel + 1, mp, bids, n, mp1, h => by
    rw [countBids] at h
    rw [tableRows]
    split at h
    · next mp2 hrow =>
      simp only [Defined.value.injEq, Prod.mk.injEq] at h
      simp [hrow, rowsBeforeStartingPrice, h.1]
    · next row mp2 hrow =>
      simp only [hrow, rowsBeforeStartingPrice_cons]
      split at h
      · next h5 =>
        split at h
        · exact absurd h (by simp)
        · next bidder hb =>
          split at h
          · next hsp =>
            simp only [Defined.value.injEq, Prod.mk.injEq] at h
            have hrowsp : isStartingPriceRow row = true := by
              unfold isStartingPriceRow
              rw [hb, hsp]
              simp [h5]
            rw [if_pos hrowsp, ← h.1]
            simp
          · next hsp =>
            have := countBids_eq fuel mp2 (bids + 1) n mp1 h
            have hrowsp : isStartingPriceRow row = false := by
              unfold isStartingPriceRow
              rw [hb]
              have : ¬ (some bidder = some "Starting Price".toList) := fun h => hsp (Option.some.inj h)
              rw [decide_eq_false this, Bool.and_false]
            rw [hrowsp, if_pos h5, this]
            simp only [Bool.false_eq_true, if_false]
            push_cast
            ring
      · next h5 =>
        have := countBids_eq fuel mp2 bids n mp1 h
        have hrowsp : isStartingPriceRow row = false := by
          unfold isStartingPriceRow
          simp [h5]
        rw [hrowsp, if_neg h5, this]
        simp

theorem priceFixup_record (price : Option CStr) (aip : AuctionInfo) :
    ∃ c, (priceFixup price (some aip)).2.getD aip = { aip with currency := c } ∧
      (aip.currency ≠ none → c = aip.currency) := by
  unfold priceFixup
  cases price with
  | none => exact ⟨aip.currency, rfl, fun _ => rfl⟩
  | some p =>
    simp only []
    split
    · next h => exact ⟨_, rfl, fun hne => absurd h hne⟩
    · exact ⟨aip.currency, rfl, fun _ => rfl⟩

theorem checkPageType_record (aip : AuctionInfo) (pageType auctionState auctionResult : Int) :
    ∃ q w n k, (checkPageType aip pageType auctionState auctionResult).2
      = { aip with quantityBid := q, winning := w, won := n, quantity := k } := by
  unfold checkPageType
  simp only []
  repeat' first
    | split
    | exact ⟨aip.quantityBid, aip.winning, aip.won, aip.quantity, rfl⟩
    | exact ⟨_, _, _, _, rfl⟩

theorem priceFixup_bids (price : Option CStr) (aip : AuctionInfo) :
    ((priceFixup price (some aip)).2.getD aip).bids = aip.bids := by
  obtain ⟨c, hc, _⟩ := priceFixup_record price aip
  rw [hc]

theorem checkPageType_bids (aip : AuctionInfo) (pageType auctionState auctionResult : Int) :
    (checkPageType aip pageType auctionState auctionResult).2.bids = aip.bids := by
  obtain ⟨q, w, n, k, h⟩ := checkPageType_record aip pageType auctionState auctionResult
  rw [h]

theorem parseSingleAuction_bids_sat (env : ParseEnv) (row : List CStr) (mp : MemBuf)
    (aip : AuctionInfo) (pageType auctionState auctionResult : Int) (hbids : aip.bids < 0) :
    (parseSingleAuction env row mp aip pageType auctionState auctionResult).sat
      (fun r => 0 ≤ r.2.1.bids →
        r.2.1.bids = 1 + rowsBeforeStartingPrice (tableRows (mp.unread.length + 1) mp))
      (fun _ _ => True) := by
  unfold parseSingleAuction
  simp only []
  repeat' first
    | split
    | exact trivial
  all_goals simp only [Parse.sat, checkPageType_bids, priceFixup_bids]
  all_goals intro hset
  all_goals try omega
  all_goals
    have hcount := ‹(if _ then countBids _ _ _ else _) = Defined.value (_, _)›
    simp only [priceFixup_bids, hbids, if_true] at hcount
    exact countBids_eq _ _ _ _ _ hcount

/-- C20, amended: when no valid count was read from the label `Total Bids:`
(`bids` is negative) and the parser, in its case of a single auction with
bids, sets the bid count, the count is 1, for the first data row whatever its
bidder name, plus the number of later 5-column rows that precede the first
later 5-column row whose bidder name is `Starting Price`. When the first data
row has five columns and is not itself a `Starting Price` row, this is the
number of 5-column rows that precede the `Starting Price` row. -/
theorem parseSingleAuction_bids (env : ParseEnv) (row : List CStr) (mp : MemBuf)
    (aip : AuctionInfo) (pageType auctionState auctionResult : Int) (mp1 : MemBuf)
    (aip1 : AuctionInfo) (ret : Int) (hbids : aip.bids < 0)
    (h : parseSingleAuction env row mp aip pageType auctionState auctionResult
      = .next (mp1, aip1, ret))
    (hset : 0 ≤ aip1.bids) :
    aip1.bids = 1 + rowsBeforeStartingPrice (tableRows (mp.unread.length + 1) mp) ∧
      (numColumns (some row) = 5 → isStartingPriceRow row = false →
        aip1.bids = rowsBeforeStartingPrice (row :: tableRows (mp.unread.length + 1) mp)) := by
  have hsat := parseSingleAuction_bids_sat env row mp aip pageType auctionState auctionResult hbids
  rw [h] at hsat
  have h1 := hsat hset
  refine ⟨h1, fun h5 hsp => ?_⟩
  rw [rowsBeforeStartingPrice_cons, hsp, if_pos h5, h1]
  simp

theorem parseSingleAuction_counted (env : ParseEnv) (row : List CStr) (mp : MemBuf)
    (aip : AuctionInfo) (pageType auctionState auctionResult : Int) (winner currently : CStr)
    (n : Int) (mp1 : MemBuf)
    (hw : getNonTagFromString (row.getD 1 []) = some winner)
    (hm : strcasecmpEq winner "Member Id:".toList = false)
    (hc : getNonTagFromString (row.getD 2 []) = some currently)
    (hp : ¬ atof ((priceFixup (some currently) (some { aip with quantityBid := 1 })).1.getD [])
      < roundDouble 0.01)
    (hbids : aip.bids < 0)
    (hn : countBids (mp.unread.length + 1) mp 1 = .value (n, mp1)) :
    ∃ aip1, parseSingleAuction env row mp aip pageType auctionState auctionResult
      = .next (mp1, aip1, 0) ∧ aip1.bids = n := by
  have hb : ((priceFixup (some currently) (some { aip with quantityBid := 1 })).2.getD
      { aip with quantityBid := 1 }).bids < 0 := by
    rw [priceFixup_bids]; exact hbids
  unfold parseSingleAuction
  simp only [hw, hc, hm, Bool.false_eq_true, if_false, hp, hb, if_true, hn]
  split <;> exact ⟨_, rfl, rfl⟩

theorem atof_of_parts (s whole fraction : CStr) (w f : Nat)
    (hwhole : s.takeWhile isdigit = whole)
    (hfraction : (if (s.dropWhile isdigit).head? = some '.' then
        ((s.dropWhile isdigit).drop 1).takeWhile isdigit else []) = fraction)
    (hw : decimalValue whole = w) (hf : decimalValue fraction = f) :
    atof s = roundDouble ((w : ℚ) + (f : ℚ) / 10 ^ fraction.length) := by
  simp only [atof, hwhole, hfraction, hw, hf]

theorem atof_one : atof "1.00".toList = 1 := by
  rw [atof_of_parts "1.00".toList "1".toList "00".toList 1 0 (by decide) (by decide) (by decide)
    (by decide)]
  norm_num [roundDouble_one]

/-- C20, counterexample: a ledger whose only data row is a `Starting Price`
row of five columns. No 5-column row precedes the `Starting Price` row, yet
the parser, which counts the first data row without looking at its bidder
name, sets the bid count to 1. -/
theorem parseSingleAuction_bids_counterexample :
    numColumns (some startingPriceRow) = 5 ∧
    rowsBeforeStartingPrice (startingPriceRow :: tableRows 9 (strToMemBuf "</table>".toList))
      = 0 ∧
    ∃ mp1 aip1, parseSingleAuction exampleEnv startingPriceRow (strToMemBuf "</table>".toList)
        { exampleRecord with bids := -1 } VIEWBIDS 0 0 = .next (mp1, aip1, 0) ∧
      aip1.bids = 1 := by
  refine ⟨by decide, by decide, ?_⟩
  obtain ⟨aip1, h1, h2⟩ := parseSingleAuction_counted exampleEnv startingPriceRow
    (strToMemBuf "</table>".toList) { exampleRecord with bids := -1 } VIEWBIDS 0 0
    "Starting Price".toList "1.00".toList 1 _ (by decide) (by decide) (by decide)
    (by
      rw [show (priceFixup (some "1.00".toList)
          (some { ({ exampleRecord with bids := -1 } : AuctionInfo) with quantityBid := 1 })).1
        = some "1.00".toList from rfl]
      rw [Option.getD_some, atof_one]
      norm_num [roundDouble_cent])
    (by decide) rfl
  exact ⟨_, aip1, h1, h2⟩

theorem atof_three : atof "3.00".toList = 3 := by
  rw [atof_of_parts "3.00".toList "3".toList "00".toList 3 0 (by decide) (by decide) (by decide)
    (by decide)]
  norm_num
  exact roundDouble_numeral 3 (by norm_num)

/-- C20, amended, an instance: the first data row is a bid by `joe`, a bid by
`ann` and the `Starting Price` row follow; the bid count is 2. -/
theorem parseSingleAuction_bids_witness :
    ∃ mp1 aip1, parseSingleAuction exampleEnv bidRow ledgerRest
        { exampleRecord with bids := -1 } VIEWBIDS 0 0 = .next (mp1, aip1, 0) ∧
      aip1.bids = 2 ∧
      aip1.bids = rowsBeforeStartingPrice
        (bidRow :: tableRows (ledgerRest.unread.length + 1) ledgerRest) := by
  obtain ⟨aip1, h1, h2⟩ := parseSingleAuction_counted exampleEnv bidRow ledgerRest
    { exampleRecord with bids := -1 } VIEWBIDS 0 0 "joe".toList "3.00".toList 2 _
    (by decide) (by decide) (by decide)
    (by
      rw [show (priceFixup (some "3.00".toList)
          (some { ({ exampleRecord with bids := -1 } : AuctionInfo) with quantityBid := 1 })).1
        = some "3.00".toList from rfl]
      rw [Option.getD_some, atof_three]
      norm_num [roundDouble_cent])
    (by decide) rfl
  exact ⟨_, aip1, h1, h2,
    (parseSingleAuction_bids exampleEnv bidRow ledgerRest { exampleRecord with bids := -1 }
      VIEWBIDS 0 0 _ aip1 0 (by decide) h1 (by rw [h2]; decide)).2 (by decide) (by decide)⟩

/-! ## Quantities after a parse -/

theorem priceFixup_quantity (price : Option CStr) (aip : AuctionInfo) :
    ((priceFixup price (some aip)).2.getD aip).quantity = aip.quantity := by
  obtain ⟨c, hc, _⟩ := priceFixup_record price aip
  rw [hc]

theorem priceFixup_quantityBid (price : Option CStr) (aip : AuctionInfo) :
    ((priceFixup price (some aip)).2.getD aip).quantityBid = aip.quantityBid := by
  obtain ⟨c, hc, _⟩ := priceFixup_record price aip
  rw [hc]

theorem checkPageType_success (aip : AuctionInfo) (pageType auctionState auctionResult : Int)
    (h : (checkPageType aip pageType auctionState auctionResult).1 = 0) :
    (pageType ≠ 0 ∧ auctionState ≠ 0 ∧ auctionResult ≠ 0) ∧
      (((checkPageType aip pageType auctionState auctionResult).2.quantityBid = 1 ∧
          (checkPageType aip pageType auctionState auctionResult).2.quantity = 1) ∨
        ((checkPageType aip pageType auctionState auctionResult).2.quantityBid = 0 ∧
          (checkPageType aip pageType auctionState auctionResult).2.quantity = 0)) := by
  unfold checkPageType at h ⊢
  simp only [] at h ⊢
  split_ifs at h ⊢ <;> simp_all

theorem parsePriceLoop_quantity : ∀ (fuel : Nat) (mp : MemBuf) (aip : AuctionInfo) (got : Nat),
    0 ≤ aip.quantity →
    (parsePriceLoop fuel mp aip got).sat (fun r => 0 ≤ r.2.quantity) (fun ret _ => ret = 1)
  | 0, mp, aip, got, h => by simpa [parsePriceLoop, Parse.sat] using h
  | fuel + 1, mp, aip, got, h => by
    have ih := parsePriceLoop_quantity fuel
    rw [parsePriceLoop]
    simp only []
    repeat' first
      | split
      | exact parseError_sat _ _ _ _ _
      | exact trivial
      | exact h
      | (refine ih _ _ _ ?_
         first
           | exact h
           | (simp only [priceFixup_quantity]
              first
                | exact h
                | omega))

theorem parsePrice_quantity (mp : MemBuf) (aip : AuctionInfo) :
    (parsePrice mp aip).sat (fun r => 0 ≤ r.2.quantity) (fun ret _ => ret = 1) :=
  parsePriceLoop_quantity _ _ _ _ (by norm_num)

theorem parsePageType_viewBids (pp : PageInfo) (mp : MemBuf) (aip : AuctionInfo) (name : CStr)
    (hname : pp.pageName = some name) (hpre : strncmpEq name "PageViewBids".toList 12 = true) :
    (parsePageType pp mp aip).sat (fun page => page.1 = VIEWBIDS) (fun ret _ => ret = 1) := by
  unfold parsePageType
  rw [hname]
  simp only [hpre, if_true]
  split
  · exact parseError_sat _ _ _ _ _
  · exact Parse.sat_andThen _ _ _ _ _ (findBidHistory_sat _ _ _) (fun _ _ => rfl)

theorem parseBeforeTime_quantity (pp : PageInfo) (mp : MemBuf) (aip : AuctionInfo)
    (debugMode : Bool) (name : CStr) (hname : pp.pageName = some name)
    (hpre : strncmpEq name "PageViewBids".toList 12 = true) :
    (parseBeforeTime pp mp aip debugMode).sat
      (fun x => x.1.1 = VIEWBIDS ∧ 0 ≤ x.2.2.quantity) (fun ret _ => ret = 1) := by
  unfold parseBeforeTime
  refine Parse.sat_andThen _ _ _ _ _ (parsePageType_viewBids pp mp aip name hname hpre)
    fun page hpage => ?_
  refine Parse.sat_andThen _ _ _ _ _ (parseItemNumber_sat _ _ _) fun r _ => ?_
  refine Parse.sat_andThen _ _ _ _ _ (parseTitle_sat _ _) fun r _ => ?_
  exact Parse.sat_andThen _ _ _ _ _ (parsePrice_quantity _ _) fun r hr => ⟨hpage, hr⟩

theorem setEndTime_quantity (env : ParseEnv) (mp : MemBuf) (aip : AuctionInfo) (start : Int) :
    (setEndTime env mp aip start).sat (fun r => r.2.quantity = aip.quantity)
      (fun ret _ => ret = 1) := by
  unfold setEndTime
  repeat' first
    | split
    | exact trivial
    | exact rfl

theorem setRemain_quantity (aip : AuctionInfo) (raw : CStr) :
    (setRemain aip raw).quantity = aip.quantity := by
  unfold setRemain
  simp only []
  split_ifs <;> rfl

theorem parseTimeLeft_quantity (env : ParseEnv) (mp : MemBuf) (aip : AuctionInfo)
    (start : Int) :
    (parseTimeLeft env mp aip start).sat (fun r => r.2.quantity = aip.quantity)
      (fun ret _ => ret = 1) := by
  unfold parseTimeLeft
  split
  · exact setEndTime_quantity _ _ _ _
  · split
    · exact parseError_sat _ _ _ _ _
    · exact Parse.sat_mono _ _ _ _ _ (setEndTime_quantity _ _ _ _)
        (fun r h => h.trans (setRemain_quantity _ _)) (fun _ _ h => h)
  · trivial
  · exact parseError_sat _ _ _ _ _

theorem parseTotalBids_quantity (env : ParseEnv) (mp : MemBuf) (aip : AuctionInfo) :
    (parseTotalBids env mp aip).sat (fun r => r.2.quantity = aip.quantity)
      (fun _ a => a.quantity = aip.quantity ∧ a.quantityBid = 0) := by
  unfold parseTotalBids
  simp only []
  repeat' first
    | split
    | exact rfl
    | exact ⟨rfl, rfl⟩

theorem parseSingleAuction_quantity (env : ParseEnv) (row : List CStr) (mp : MemBuf)
    (aip : AuctionInfo) (pageType auctionState auctionResult : Int) :
    (parseSingleAuction env row mp aip pageType auctionState auctionResult).sat
      (fun r => (r.2.1.quantityBid = 1 ∧ r.2.1.quantity = aip.quantity) ∨
        ((pageType ≠ 0 ∧ auctionState ≠ 0 ∧ auctionResult ≠ 0) ∧
          ((r.2.1.quantityBid = 1 ∧ r.2.1.quantity = 1) ∨
            (r.2.1.quantityBid = 0 ∧ r.2.1.quantity = 0))))
      (fun ret _ => ret = 1) := by
  unfold parseSingleAuction
  simp only []
  repeat' first
    | split
    | exact parseError_sat _ _ _ _ _
    | exact trivial
  all_goals simp only [Parse.sat]
  all_goals first
    | (have hc := ‹(checkPageType _ _ _ _).1 = 0›
       exact Or.inr (checkPageType_success _ _ _ _ hc))
    | (left
       simp only [priceFixup_quantityBid, priceFixup_quantity, and_self])

theorem parseBidTable_quantity (env : ParseEnv) (mp : MemBuf) (aip : AuctionInfo)
    (auctionState auctionResult : Int) (hq : 0 ≤ aip.quantity) :
    (parseBidTable env mp aip VIEWBIDS auctionState auctionResult).sat
      (fun r => r.2.2 = 0 → QuantityBidSet r.2.1) (fun ret _ => ret = 1) := by
  have hsingle : ∀ row mp1, (parseSingleAuction env row mp1 aip VIEWBIDS auctionState
      auctionResult).sat (fun r => r.2.2 = 0 → QuantityBidSet r.2.1) (fun ret _ => ret = 1) := by
    intro row mp1
    refine Parse.sat_mono _ _ _ _ _ (parseSingleAuction_quantity env row mp1 aip VIEWBIDS
      auctionState auctionResult) (fun r h _ => ?_) (fun _ _ h => h)
    unfold QuantityBidSet
    rcases h with ⟨h1, h2⟩ | ⟨_, ⟨h1, h2⟩ | ⟨h1, h2⟩⟩
    · exact ⟨h2 ▸ hq, Or.inr h1⟩
    · exact ⟨by omega, Or.inr h1⟩
    · exact ⟨by omega, Or.inl h1⟩
  have hfb1 : ∀ (mp1 : MemBuf) (a : AuctionInfo),
      (.next (mp1, (auctionError a ae_nohighbid none).2, (auctionError a ae_nohighbid none).1) :
        Parse (MemBuf × AuctionInfo × Int)).sat
        (fun r => r.2.2 = 0 → QuantityBidSet r.2.1) (fun ret _ => ret = 1) := by
    intro mp1 a h0
    simp only [auctionError_eq] at h0
    exact absurd h0 (by decide)
  have hfb2 : ∀ (mp1 : MemBuf), ¬ (checkPageType aip VIEWBIDS auctionState auctionResult).1 ≠ 0 →
      (.next (mp1, (checkPageType aip VIEWBIDS auctionState auctionResult).2, 0) :
        Parse (MemBuf × AuctionInfo × Int)).sat
        (fun r => r.2.2 = 0 → QuantityBidSet r.2.1) (fun ret _ => ret = 1) := by
    intro mp1 hc _
    have := (checkPageType_success aip VIEWBIDS auctionState auctionResult
      (not_not.mp hc)).2
    show QuantityBidSet (checkPageType aip VIEWBIDS auctionState auctionResult).2
    unfold QuantityBidSet
    rcases this with ⟨h1, h2⟩ | ⟨h1, h2⟩
    · exact ⟨by omega, Or.inr h1⟩
    · exact ⟨by omega, Or.inl h1⟩
  unfold parseBidTable
  simp only []
  repeat' first
    | split
    | exact parseError_sat _ _ _ _ _
    | exact hsingle _ _
    | exact hfb1 _ _
    | exact hfb2 _ (by assumption)
    | exact trivial
    | exact fun _ => ⟨hq, Or.inl rfl⟩
    | (exfalso; simp_all)

theorem parseFromTime_quantity (env : ParseEnv) (start : Int)
    (x : (Int × Int × Int) × MemBuf × AuctionInfo) (hpage : x.1.1 = VIEWBIDS)
    (hq : 0 ≤ x.2.2.quantity) :
    (parseFromTime env start x).sat (fun r => r.2.2 = 0 → QuantityBidSet r.2.1)
      (fun ret a => ret = 0 → QuantityBidSet a) := by
  unfold parseFromTime
  refine Parse.sat_andThen _ _ (fun r => 0 ≤ r.2.quantity) _ _
    (Parse.sat_mono _ _ _ _ _ (parseTimeLeft_quantity _ _ _ _) (fun _ h => h ▸ hq)
      (fun ret _ h h0 => absurd (h.symm.trans h0) (by decide))) fun r1 h1 => ?_
  refine Parse.sat_andThen _ _ (fun r => 0 ≤ r.2.quantity) _ _
    (Parse.sat_mono _ _ _ _ _ (parseTotalBids_quantity env _ _) (fun _ h => h ▸ h1)
      (fun _ _ h _ => ⟨h.1 ▸ h1, Or.inl h.2⟩)) fun r2 h2 => ?_
  rw [hpage]
  exact Parse.sat_mono _ _ _ _ _ (parseBidTable_quantity env _ _ _ _ h2)
    (fun _ h => h) (fun ret _ h h0 => absurd (h.symm.trans h0) (by decide))

theorem parseBidHistoryInternal_quantity (env : ParseEnv) (pp : PageInfo) (mp : MemBuf)
    (aip : AuctionInfo) (start : Int) (debugMode : Bool) (name : CStr)
    (hname : pp.pageName = some name) (hpre : strncmpEq name "PageViewBids".toList 12 = true) :
    (parseBidHistoryInternal env pp mp aip start debugMode).sat
      (fun r => r.2.2 = 0 → QuantityBidSet r.2.1) (fun ret a => ret = 0 → QuantityBidSet a) := by
  unfold parseBidHistoryInternal
  exact Parse.sat_andThen _ _ (fun x => x.1.1 = VIEWBIDS ∧ 0 ≤ x.2.2.quantity) _ _
    (Parse.sat_mono _ _ _ _ _ (parseBeforeTime_quantity pp mp aip debugMode name hname hpre)
      (fun _ h => h) (fun ret _ h h0 => absurd (h.symm.trans h0) (by decide)))
    (fun x hx => parseFromTime_quantity env start x hx.1 hx.2)

theorem soldOutPage_dispatch :
    parseBidHistoryInternal exampleEnv
        { pageName := some "PageViewBids".toList, pageId := none, srcId := none }
        (memReset soldOutPage) (resetAuctionError exampleRecord) 5000 false
      = parseSingleAuction exampleEnv bidRow { soldOutPage with readptr := 337 }
          soldOutRecord
          VIEWBIDS 0 0 := rfl

theorem soldOutPage_parse :
    ∃ aip1 mp1, parseBidHistory exampleEnv soldOutPage exampleRecord 5000 false
        = .returned 0 aip1 mp1 ∧ aip1.quantityBid = 1 ∧ aip1.quantity = 0 := by
  obtain ⟨aip1, h1, _⟩ := parseSingleAuction_counted exampleEnv bidRow
    { soldOutPage with readptr := 337 }
    soldOutRecord
    VIEWBIDS 0 0 "joe".toList "3.00".toList 1 _ (by decide) (by decide) (by decide)
    (by
      rw [show (priceFixup (some "3.00".toList)
          (some { soldOutRecord with quantityBid := 1 })).1
        = some "3.00".toList from rfl]
      rw [Option.getD_some, atof_three]
      norm_num [roundDouble_cent])
    (by decide) rfl
  have hq := parseSingleAuction_quantity exampleEnv bidRow { soldOutPage with readptr := 337 }
    soldOutRecord
    VIEWBIDS 0 0
  rw [h1] at hq
  have hq2 : aip1.quantityBid = 1 ∧ aip1.quantity = 0 := by
    rcases hq with h | ⟨⟨_, h0, _⟩, _⟩
    · exact h
    · exact absurd rfl h0
  have hparse : ∃ mp1, parseBidHistory exampleEnv soldOutPage exampleRecord 5000 false
      = .returned 0 aip1 mp1 := by
    unfold parseBidHistory
    simp only [show getPageInfo soldOutPage
      = .value (some { pageName := some "PageViewBids".toList, pageId := none, srcId := none },
          memReset soldOutPage) from rfl, soldOutPage_dispatch, h1]
    exact ⟨_, rfl⟩
  obtain ⟨mp1, hparse⟩ := hparse
  exact ⟨aip1, mp1, hparse, hq2⟩

/-- C18, counterexamples: a successful parse of a transaction history page on
which one buyer has bought two items leaves `quantityBid = 2` and
`quantity = 1`; a successful parse of a bid history page that states the
quantity 0 and lists one bid leaves `quantityBid = 1` and `quantity = 0`. -/
theorem parseBidHistory_quantityBid_counterexample :
    (parseBidHistory exampleEnv purchasePage exampleRecord 5000 false).ret = some 0 ∧
    (parseBidHistory exampleEnv purchasePage exampleRecord 5000 false).record.map
        (fun a => (a.quantityBid, a.quantity)) = some (2, 1) ∧
    ∃ aip1 mp1, parseBidHistory exampleEnv soldOutPage exampleRecord 5000 false
        = .returned 0 aip1 mp1 ∧ aip1.quantityBid = 1 ∧ aip1.quantity = 0 := by
  refine ⟨by decide, by decide, soldOutPage_parse⟩

/-- C18, amended: after every successful `parseBidHistory` call on a bid
history page (a page whose name starts with `PageViewBids`) the record has a
quantity that is not negative and `quantityBid` 0 or 1, so that
`quantityBid <= quantity` unless the quantity is 0. -/
theorem parseBidHistory_quantityBid (env : ParseEnv) (mp : MemBuf) (aip : AuctionInfo)
    (start : Int) (debugMode : Bool) (pp : PageInfo) (mp1 : MemBuf) (name : CStr)
    (ret : Int) (aip1 : AuctionInfo) (mp2 : MemBuf)
    (hpage : getPageInfo mp = .value (some pp, mp1)) (hname : pp.pageName = some name)
    (hpre : "PageViewBids".toList <+: name)
    (h : parseBidHistory env mp aip start debugMode = .returned ret aip1 mp2)
    (hret : ret = 0) :
    0 ≤ aip1.quantity ∧ (aip1.quantityBid = 0 ∨ aip1.quantityBid = 1) ∧
      (aip1.quantity ≠ 0 → aip1.quantityBid ≤ aip1.quantity) := by
  have hsat := parseBidHistoryInternal_quantity env pp mp1 (resetAuctionError aip) start
    debugMode name hname ((strncmpEq_length_iff name "PageViewBids".toList).mpr hpre)
  have hq : QuantityBidSet aip1 := by
    unfold parseBidHistory at h
    simp only [hpage] at h
    split at h
    · next heq =>
      rw [heq] at hsat
      injection h with h1 h2 h3
      subst h1 h2
      exact hsat hret
    · next heq =>
      rw [heq] at hsat
      injection h with h1 h2 h3
      subst h1 h2
      exact hsat hret
    · exact ParseResult.noConfusion h
  obtain ⟨h1, h2⟩ := hq
  refine ⟨h1, h2, fun h0 => ?_⟩
  rcases h2 with h2 | h2 <;> omega

/-- C18, amended, an instance: the page of an ended auction without bids. -/
theorem parseBidHistory_quantityBid_witness :
    ∃ aip1 mp2, parseBidHistory exampleEnv endedPage exampleRecord 5000 false
        = .returned 0 aip1 mp2 ∧
      0 ≤ aip1.quantity ∧ (aip1.quantityBid = 0 ∨ aip1.quantityBid = 1) ∧
        (aip1.quantity ≠ 0 → aip1.quantityBid ≤ aip1.quantity) := by
  refine ⟨_, _, rfl, ?_⟩
  exact parseBidHistory_quantityBid exampleEnv endedPage exampleRecord 5000 false
    { pageName := some "PageViewBids".toList, pageId := none, srcId := none } _
    "PageViewBids".toList 0 _ _ rfl rfl (by decide) rfl rfl

/-! ## Two parses side by side -/

theorem InStep.again_field {α : Type} {f : AuctionInfo → α} {a a1 b1 : AuctionInfo}
    (h : InStep f a a1 a1 b1) : f b1 = f a1 := by
  rcases h with ⟨_, h2⟩ | h
  · exact h2
  · exact h.symm

/-- A second run that starts from the record the first run left, and treats
every field as the first run did, leaves the record as it found it. -/
theorem InStepAll.again {a a1 b1 : AuctionInfo} (h : InStepAll a a1 a1 b1) : b1 = a1 := by
  have hcur : b1.currency = a1.currency := by
    by_cases hc : a1.currency = none
    · have ha : a.currency = none := by
        by_contra hne
        rw [h.currencyKept hne] at hc
        exact hne hc
      exact (h.currency (ha.trans hc.symm)).symm
    · exact h.currencyKept2 hc

  have h_auction := h.auction.again_field
  have h_title := h.title.again_field
  have h_bidPriceStr := h.bidPriceStr.again_field
  have h_bidPrice := h.bidPrice.again_field
  have h_remain := h.remain.again_field
  have h_remainRaw := h.remainRaw.again_field
  have h_endTime := h.endTime.again_field
  have h_latency := h.latency.again_field
  have h_query := h.query.again_field
  have h_biduiid := h.biduiid.again_field
  have h_quantity := h.quantity.again_field
  have h_quantityBid := h.quantityBid.again_field
  have h_bids := h.bids.again_field
  have h_price := h.price.again_field
  have h_shipping := h.shipping.again_field
  have h_bidResult := h.bidResult.again_field
  have h_reserve := h.reserve.again_field
  have h_won := h.won.again_field
  have h_winning := h.winning.again_field
  have h_auctionError := h.auctionError.again_field
  have h_auctionErrorDetail := h.auctionErrorDetail.again_field
  cases a1
  cases b1
  simp only [AuctionInfo.mk.injEq]
  simp only [] at *
  exact ⟨h_auction, h_title, h_bidPriceStr, h_bidPrice, h_remain, h_remainRaw, h_endTime, h_latency, h_query, h_biduiid, h_quantity, h_quantityBid, h_bids, h_price, h_shipping, hcur, h_bidResult, h_reserve, h_won, h_winning, h_auctionError, h_auctionErrorDetail⟩

theorem takeWhile_length_of_imp (p q : Char → Bool) (hpq : ∀ c, p c = true → q c = true) :
    ∀ (l : CStr), (l.takeWhile q).length
      = (l.takeWhile p).length + ((l.dropWhile p).takeWhile q).length
  | [] => rfl
  | c :: l => by
    by_cases hp : p c = true
    · rw [List.takeWhile_cons_of_pos hp, List.takeWhile_cons_of_pos (hpq c hp),
        List.dropWhile_cons_of_pos hp, List.length_cons, List.length_cons,
        takeWhile_length_of_imp p q hpq l]
      omega
    · rw [List.takeWhile_cons_of_neg hp, List.dropWhile_cons_of_neg hp]
      simp

theorem skipToNumber_after_alpha (price : CStr) :
    skipToNumber price price.length
        (price.length - skipAlpha price price.length price.length 0)
        (skipAlpha price price.length price.length 0)
      = skipToNumber price price.length (price.length - 0) 0 := by
  have halpha := skipAlpha_eq price price.length 0 (by omega)
  simp only [List.drop_zero, Nat.zero_add] at halpha
  have hle : (price.takeWhile isalpha).length ≤ price.length :=
    (List.takeWhile_sublist _).length_le
  rw [halpha, skipToNumber_eq price _ _ (by omega), skipToNumber_eq price _ 0 (by omega),
    drop_length_takeWhile, List.drop_zero, Nat.zero_add]
  exact (takeWhile_length_of_imp isalpha (fun c => !isNumberChar c) isalpha_not_isNumberChar
    price).symm

theorem priceFixup_fst (price : CStr) (aip : AuctionInfo) :
    (priceFixup (some price) (some aip)).1 = fixedText price := by
  unfold fixedText priceFixup
  simp only []
  split
  · rw [skipToNumber_after_alpha]
  · rfl

theorem priceFixup_snd (price : CStr) (aip aip1 : AuctionInfo) :
    (priceFixup (some price) (some aip)).2.getD aip1
      = { aip with currency := fixedCurrency price aip.currency } := by
  unfold fixedCurrency priceFixup
  simp only []
  split
  · rfl
  · next h =>
    simp only [Option.getD_some, h, if_false]

/-! ## The document is never written -/

theorem SameDoc.readptr (mp : MemBuf) (n : Nat) : SameDoc mp { mp with readptr := n } :=
  ⟨rfl, rfl⟩

theorem sameDoc_seek (mp : MemBuf) (rest : CStr) : SameDoc mp (mp.seek rest) := ⟨rfl, rfl⟩

theorem sameDoc_memUngetc (mp : MemBuf) : SameDoc mp (memUngetc mp) := by
  unfold memUngetc
  split <;> exact ⟨rfl, rfl⟩

theorem sameDoc_getTag (mp : MemBuf) : SameDoc mp (getTag mp).2 := by
  unfold getTag
  repeat' first
    | split
    | exact ⟨rfl, rfl⟩

theorem Sim2.andThen {α β : Type} {N : α → α → Prop} {N1 : β → β → Prop}
    {R : AuctionInfo → AuctionInfo → Prop} {x y : Parse α} {f g : α → Parse β}
    (h : Sim2 N R x y) (hf : ∀ r1 r2, N r1 r2 → Sim2 N1 R (f r1) (g r2)) :
    Sim2 N1 R (x.andThen f) (y.andThen g) := by
  cases h with
  | next h => exact hf _ _ h
  | returned h => exact .returned h
  | undefined => exact .undefined

theorem fixedCurrency_kept (price : CStr) (currency : Option CStr) (h : currency ≠ none) :
    fixedCurrency price currency = currency := by
  simp [fixedCurrency, h]

/-- The price after a price label cannot be converted: the parse fails with
`ae_convprice`, and the detail is what `line` points to after `bugReport`. -/
theorem parsePriceLoop_convprice (fuel : Nat) (mp : MemBuf) (aip : AuctionInfo) (got : Nat)
    (label raw : CStr) (mpl mp2 : MemBuf) (detail : Option CStr)
    (hgot : got ≠ EVERYTHING) (hfound : (memStr mp "\"BHCtBid\"".toList).1 = true)
    (hlabel : getNonTag (memSkip (memChr (memStr mp "\"BHCtBid\"".toList).2 '>').2 1)
      = (some label, mpl))
    (hprice : strcasecmpEq label "Current bid:".toList = true
      ∨ strcasecmpEq label "Winning bid:".toList = true
      ∨ strcasecmpEq label "Your maximum bid:".toList = true
      ∨ strcasecmpEq label "price:".toList = true)
    (hraw : getNonTag mpl = (some raw, mp2))
    (hconv : atof ((fixedText raw).getD []) < roundDouble 0.01)
    (hreport : bugReportLine mp2 (fixedText raw) = .value detail) :
    parsePriceLoop (fuel + 1) mp aip got
      = .returned 1
          { aip with
            currency := fixedCurrency raw aip.currency
            price := atof ((fixedText raw).getD [])
            auctionError := ae_convprice
            auctionErrorDetail := detail } mp2 := by
  rw [parsePriceLoop]
  simp only [if_neg hgot, hfound, not_true_eq_false, if_false, hlabel, if_pos hprice, hraw,
    priceFixup_fst, priceFixup_snd, if_pos hconv, hreport, parseError, auctionError_eq]

/-- The price in the first row of the bid table cannot be converted: the parse
goes on when `checkPageType` accepts the page; otherwise `auctionError` is
given the text `currently`, which has been freed. -/
theorem parseSingleAuction_convprice (env : ParseEnv) (row : List CStr) (mp : MemBuf)
    (aip : AuctionInfo) (pageType auctionState auctionResult : Int) (winner currently : CStr)
    (hwinner : getNonTagFromString (row.getD 1 []) = some winner)
    (hcurrently : getNonTagFromString (row.getD 2 []) = some currently)
    (hconv : atof ((fixedText currently).getD []) < roundDouble 0.01) :
    parseSingleAuction env row mp aip pageType auctionState auctionResult
      = if (checkPageType { aip with
              quantityBid := 1
              currency := fixedCurrency currently aip.currency
              price := atof ((fixedText currently).getD []) }
            pageType auctionState auctionResult).1 = 0 then
          .next (mp, (checkPageType { aip with
              quantityBid := 1
              currency := fixedCurrency currently aip.currency
              price := atof ((fixedText currently).getD []) }
            pageType auctionState auctionResult).2, 0)
        else .undefined := by
  unfold parseSingleAuction
  simp only [hwinner, hcurrently, priceFixup_fst, priceFixup_snd, if_pos hconv]

theorem parseBidHistoryInternal_of_price (env : ParseEnv) (pp : PageInfo) (mp : MemBuf)
    (aip : AuctionInfo) (start : Int) (debugMode : Bool) (page : Int × Int × Int × MemBuf)
    (r t : MemBuf × AuctionInfo) (ret : Int) (a : AuctionInfo) (m : MemBuf)
    (h1 : parsePageType pp mp aip = .next page)
    (h2 : parseItemNumber page.2.2.2 aip debugMode = .next r)
    (h3 : parseTitle r.1 r.2 = .next t)
    (h4 : parsePrice t.1 t.2 = .returned ret a m) :
    parseBidHistoryInternal env pp mp aip start debugMode = .returned ret a m := by
  simp only [parseBidHistoryInternal, parseBeforeTime, h1, Parse.andThen, h2, h3, h4]

theorem atof_zero : atof "0.00".toList = 0 := by
  rw [atof_of_parts "0.00".toList "0".toList "00".toList 0 0 (by decide) (by decide) (by decide)
    (by decide)]
  norm_num [roundDouble_zero]

theorem zeroPricePage_parse :
    parseBidHistory exampleEnv (zeroPricePage "") exampleRecord 5000 false
      = .returned 1
          { exampleRecord with
            title := some "T".toList
            quantity := 1
            currency := some "US".toList
            price := atof "0.00".toList
            auctionError := ae_convprice
            auctionErrorDetail := some "0.00".toList }
          { zeroPricePage "" with readptr := 185 } := by
  have hprice : parsePrice { zeroPricePage "" with readptr := 138 }
      { resetAuctionError exampleRecord with title := some "T".toList }
      = .returned 1
          { exampleRecord with
            title := some "T".toList
            quantity := 1
            currency := some "US".toList
            price := atof "0.00".toList
            auctionError := ae_convprice
            auctionErrorDetail := some "0.00".toList }
          { zeroPricePage "" with readptr := 185 } := by
    unfold parsePrice
    exact (parsePriceLoop_convprice _ _ _ _ "Current bid:".toList "US $0.00".toList
      { zeroPricePage "" with readptr := 170 } { zeroPricePage "" with readptr := 185 }
      (some "0.00".toList) (by decide) (by decide) (by decide) (by decide) (by decide)
      (by
        rw [show fixedText "US $0.00".toList = some "0.00".toList from by decide,
          Option.getD_some, atof_zero]
        norm_num [roundDouble_cent])
      rfl).trans rfl
  have hinternal := parseBidHistoryInternal_of_price exampleEnv
    { pageName := some "PageViewBids".toList, pageId := none, srcId := none }
    (memReset (zeroPricePage "")) (resetAuctionError exampleRecord) 5000 false
    (1, 0, 0, { zeroPricePage "" with readptr := 53 })
    ({ zeroPricePage "" with readptr := 99 }, resetAuctionError exampleRecord)
    ({ zeroPricePage "" with readptr := 138 },
      { resetAuctionError exampleRecord with title := some "T".toList })
    1 _ _ rfl rfl rfl hprice
  unfold parseBidHistory
  simp only [show getPageInfo (zeroPricePage "")
    = .value (some { pageName := some "PageViewBids".toList, pageId := none, srcId := none },
        memReset (zeroPricePage "")) from rfl, hinternal]

theorem zeroPricePage_title_parse :
    parseBidHistory exampleEnv (zeroPricePage "<title>eBay</title>") exampleRecord 5000 false
      = .returned 1
          { exampleRecord with
            title := some "T".toList
            quantity := 1
            currency := some "US".toList
            price := atof "0.00".toList
            auctionError := ae_convprice
            auctionErrorDetail := some "eBay".toList }
          { zeroPricePage "<title>eBay</title>" with readptr := 204 } := by
  have hprice : parsePrice { zeroPricePage "<title>eBay</title>" with readptr := 157 }
      { resetAuctionError exampleRecord with title := some "T".toList }
      = .returned 1
          { exampleRecord with
            title := some "T".toList
            quantity := 1
            currency := some "US".toList
            price := atof "0.00".toList
            auctionError := ae_convprice
            auctionErrorDetail := some "eBay".toList }
          { zeroPricePage "<title>eBay</title>" with readptr := 204 } := by
    unfold parsePrice
    exact (parsePriceLoop_convprice _ _ _ _ "Current bid:".toList "US $0.00".toList
      { zeroPricePage "<title>eBay</title>" with readptr := 189 } { zeroPricePage "<title>eBay</title>" with readptr := 204 }
      (some "eBay".toList) (by decide) (by decide) (by decide) (by decide) (by decide)
      (by
        rw [show fixedText "US $0.00".toList = some "0.00".toList from by decide,
          Option.getD_some, atof_zero]
        norm_num [roundDouble_cent])
      rfl).trans rfl
  have hinternal := parseBidHistoryInternal_of_price exampleEnv
    { pageName := some "PageViewBids".toList, pageId := none, srcId := none }
    (memReset (zeroPricePage "<title>eBay</title>")) (resetAuctionError exampleRecord) 5000 false
    (1, 0, 0, { zeroPricePage "<title>eBay</title>" with readptr := 72 })
    ({ zeroPricePage "<title>eBay</title>" with readptr := 118 }, resetAuctionError exampleRecord)
    ({ zeroPricePage "<title>eBay</title>" with readptr := 157 },
      { resetAuctionError exampleRecord with title := some "T".toList })
    1 _ _ rfl rfl rfl hprice
  unfold parseBidHistory
  simp only [show getPageInfo (zeroPricePage "<title>eBay</title>")
    = .value (some { pageName := some "PageViewBids".toList, pageId := none, srcId := none },
        memReset (zeroPricePage "<title>eBay</title>")) from rfl, hinternal]

theorem atof_nil : atof [] = 0 := by
  rw [atof_of_parts [] [] [] 0 0 (by decide) (by decide) (by decide) (by decide)]
  norm_num [roundDouble_zero]

/-- C21: on a page that states the current bid as `US $0.00` the parse fails
with `ae_convprice`, but the detail is `0.00`, the text as `priceFixup`
rewrote it in the buffer of `getNonTag`, and not the text `US $0.00` of the
page; when the page starts with the tag `<title>` and the text `eBay`, the
detail is `eBay`, the text that `getNonTag` read last for the bug report. And
when the first row of the bid table of an active auction states the price as
`free`, `auctionError` is given the price text after it was freed. -/
theorem parseBidHistory_convprice_detail :
    (∃ aip1 mp1, parseBidHistory exampleEnv (zeroPricePage "") exampleRecord 5000 false
        = .returned 1 aip1 mp1 ∧ aip1.auctionError = ae_convprice ∧
      aip1.auctionErrorDetail = some "0.00".toList ∧
      aip1.auctionErrorDetail ≠ some "US $0.00".toList) ∧
    (∃ aip1 mp1, parseBidHistory exampleEnv (zeroPricePage "<title>eBay</title>") exampleRecord
        5000 false = .returned 1 aip1 mp1 ∧ aip1.auctionError = ae_convprice ∧
      aip1.auctionErrorDetail = some "eBay".toList ∧
      aip1.auctionErrorDetail ≠ some "US $0.00".toList) ∧
    parseSingleAuction exampleEnv freeRow ledgerRest exampleRecord VIEWBIDS STATE_ACTIVE
      RESULT_NONE = .undefined := by
  refine ⟨⟨_, _, zeroPricePage_parse, rfl, rfl, by decide⟩,
    ⟨_, _, zeroPricePage_title_parse, rfl, rfl, by decide⟩, ?_⟩
  exact (parseSingleAuction_convprice exampleEnv freeRow ledgerRest exampleRecord VIEWBIDS
    STATE_ACTIVE RESULT_NONE "joe".toList "free".toList (by decide) (by decide)
    (by
      rw [show fixedText "free".toList = some [] from by decide, Option.getD_some, atof_nil]
      norm_num [roundDouble_cent])).trans (if_neg (by decide))

theorem toInt_id (x : Int) (h1 : -2 ^ 31 ≤ x) (h2 : x < 2 ^ 31) : toInt x = x := by
  unfold toInt
  omega

/-- One pass of the loop, in one formula. -/
theorem purgeLoop_cons (clock : Nat → Int) (a : AuctionInfo) (rest : List AuctionInfo) (i : Nat)
    (q : Int) :
    purgeLoop clock i (a :: rest) q
      = ((if purgeVerdict a rest.head? (clock i) = .keep then some a else none)
            :: (purgeLoop clock (i + 1) rest
                (if purgeVerdict a rest.head? (clock i) = .won then toInt (q - a.won) else q)).1,
          (purgeLoop clock (i + 1) rest
                (if purgeVerdict a rest.head? (clock i) = .won then toInt (q - a.won) else q)).2.1,
          (purgeLoop clock (i + 1) rest
                (if purgeVerdict a rest.head? (clock i) = .won then toInt (q - a.won) else q)).2.2
            + (if purgeVerdict a rest.head? (clock i) = .keep then 0 else 1)) := by
  simp only [purgeLoop]
  cases purgeVerdict a rest.head? (clock i) <;> simp

theorem purgeLoop_sawError_nonneg (clock : Nat → Int) : ∀ (auctions : List AuctionInfo)
    (i : Nat) (quantity : Int), 0 ≤ (purgeLoop clock i auctions quantity).2.2
  | [], _, _ => le_refl _
  | a :: rest, i, q => by
    rw [purgeLoop_cons]
    generalize (if purgeVerdict a rest.head? (clock i) = .won then toInt (q - a.won) else q) = q1
    have := purgeLoop_sawError_nonneg clock rest (i + 1) q1
    show 0 ≤ _ + _
    split <;> omega

theorem purgeLoop_length (clock : Nat → Int) : ∀ (auctions : List AuctionInfo) (i : Nat)
    (quantity : Int), (purgeLoop clock i auctions quantity).1.length = auctions.length
  | [], _, _ => rfl
  | a :: rest, i, q => by
    rw [purgeLoop_cons]
    simp [purgeLoop_length clock rest]

/-- The entry that the loop leaves at index `j`: the entry itself when the
verdict is `keep`, `NULL` otherwise. -/
theorem purgeLoop_slot (clock : Nat → Int) : ∀ (auctions : List AuctionInfo) (i : Nat)
    (quantity : Int) (j : Nat) (a : AuctionInfo), auctions[j]? = some a →
    (purgeLoop clock i auctions quantity).1[j]?
      = some (if purgeVerdict a auctions[j + 1]? (clock (i + j)) = .keep then some a else none)
  | [], _, _, _, _, h => by simp at h
  | b :: rest, i, q, 0, a, h => by
    simp only [List.getElem?_cons_zero, Option.some.injEq] at h
    subst h
    have hhead : (b :: rest)[0 + 1]? = rest.head? := by
      cases rest <;> simp
    rw [hhead, purgeLoop_cons]
    simp
  | b :: rest, i, q, j + 1, a, h => by
    simp only [List.getElem?_cons_succ] at h
    have hnext : (b :: rest)[j + 1 + 1]? = rest[j + 1]? := by simp
    have e : i + (j + 1) = i + 1 + j := by omega
    rw [hnext, e, purgeLoop_cons]
    simp only [List.getElem?_cons_succ]
    exact purgeLoop_slot clock rest _ _ j a h

theorem purgeVerdict_duplicate (a b : AuctionInfo) (now : Int) (h : a.auction = b.auction) :
    purgeVerdict a (some b) now = .duplicate := by
  simp [purgeVerdict, sameAuction, h]

theorem sameAuction_eq_false (a : AuctionInfo) (next : Option AuctionInfo)
    (h : ∀ b, next = some b → a.auction ≠ b.auction) : sameAuction a next = false := by
  cases next with
  | none => rfl
  | some b => simp [sameAuction, h b rfl]

theorem wonTotal_nonneg : ∀ auctions : List AuctionInfo, 0 ≤ wonTotal auctions
  | [] => le_refl _
  | a :: rest => by
    have := wonTotal_nonneg rest
    simp only [wonTotal]
    split <;> omega

/-- When no entry was removed, the array is as it was. -/
theorem purgeLoop_kept_all (clock : Nat → Int) : ∀ (auctions : List AuctionInfo) (i : Nat)
    (quantity : Int), (purgeLoop clock i auctions quantity).2.2 = 0 →
    (purgeLoop clock i auctions quantity).1.filterMap id = auctions
  | [], _, _, _ => rfl
  | a :: rest, i, q, h => by
    rw [purgeLoop_cons] at h ⊢
    generalize (if purgeVerdict a rest.head? (clock i) = .won then toInt (q - a.won) else q) = q1
      at h ⊢
    have hn := purgeLoop_sawError_nonneg clock rest (i + 1) q1
    have ih := purgeLoop_kept_all clock rest (i + 1) q1
    replace h : (purgeLoop clock (i + 1) rest q1).2.2
        + (if purgeVerdict a rest.head? (clock i) = .keep then 0 else 1) = (0 : Int) := h
    by_cases hk : purgeVerdict a rest.head? (clock i) = .keep
    · rw [if_pos hk, add_zero] at h
      show List.filterMap id ((if purgeVerdict a rest.head? (clock i) = .keep then some a else none)
        :: (purgeLoop clock (i + 1) rest q1).1) = a :: rest
      rw [if_pos hk, List.filterMap_cons_some (by rfl), ih h]
    · rw [if_neg hk] at h
      omega

theorem purgeLoop_quantity (clock : Nat → Int) : ∀ (auctions : List AuctionInfo) (i : Nat)
    (quantity : Int), quantity < 2 ^ 31 → -2 ^ 31 ≤ quantity - wonTotal auctions →
    (purgeLoop clock i auctions quantity).2.1 = quantity - wonTotal auctions
  | [], _, _, _, _ => by simp [purgeLoop, wonTotal]
  | a :: rest, i, q, hq, hleft => by
    have hrest := wonTotal_nonneg rest
    rw [purgeLoop_cons]
    simp only [wonTotal] at hleft ⊢
    by_cases hw : purgeVerdict a rest.head? (clock i) = .won
    · have hcond : sameAuction a rest.head? = false ∧ a.won > 0 := by
        simp only [purgeVerdict] at hw
        split at hw
        · exact PurgeVerdict.noConfusion hw
        · next h1 =>
          split at hw
          · next h2 => exact ⟨by simpa using h1, h2⟩
          · split at hw
            · exact PurgeVerdict.noConfusion hw
            · split at hw <;> exact PurgeVerdict.noConfusion hw
      simp only [hw, if_true, hcond, and_self] at hleft ⊢
      have hwon := hcond.2
      have hid : toInt (q - a.won) = q - a.won := toInt_id _ (by omega) (by omega)
      rw [hid, purgeLoop_quantity clock rest (i + 1) (q - a.won) (by omega) (by omega)]
      omega
    · have hcond : ¬ (sameAuction a rest.head? = false ∧ a.won > 0) := by
        intro hc
        apply hw
        simp [purgeVerdict, hc.1, hc.2]
      simp only [hw, if_false, hcond] at hleft ⊢
      rw [purgeLoop_quantity clock rest (i + 1) q hq (by omega)]
      omega

/-- C22, counterexample: of two entries for the same auction, which differ in
the bid, the purge phase removes the first and keeps the second. -/
theorem purgeAuctions_duplicate_counterexample :
    twinFirst.auction = twinSecond.auction ∧ twinFirst ≠ twinSecond ∧
    purgeAuctions (fun _ => 1000) [twinFirst, twinSecond] 1 = (1, [twinSecond], 1) := by
  have h1 : purgeVerdict twinFirst (some twinSecond) 1000 = .duplicate :=
    purgeVerdict_duplicate _ _ _ rfl
  have hv : isValidBidPrice twinSecond = true :=
    isValidBidPrice_twenty _ (by norm_num [twinSecond, newAuctionInfoWith])
      (by norm_num [twinSecond, newAuctionInfoWith])
      (by simp [getIncrements, twinSecond, newAuctionInfoWith])
  have h2 : purgeVerdict twinSecond none 1000 = .keep := by
    simp only [purgeVerdict, hv]
    norm_num [sameAuction, twinSecond, newAuctionInfoWith]
  refine ⟨rfl, by decide, ?_⟩
  simp [purgeAuctions, purgeLoop, h1, h2]

/-- C22, amended: an entry that is directly followed by an entry with the same
auction number is removed, whatever its state; an entry that is not (the last
of a run of entries with the same number) stays when it has won nothing, has no
error, has not ended and has a valid bid price. The batch that
`sortAuctions` leaves holds the entries that stay, in their order. -/
theorem purgeAuctions_duplicate (clock : Nat → Int) (auctions : List AuctionInfo)
    (quantity : Int) (i : Nat) (a b : AuctionInfo) (ha : auctions[i]? = some a)
    (hb : auctions[i + 1]? = some b) (hsame : a.auction = b.auction) :
    (purgeLoop clock 0 auctions quantity).1[i]? = some none ∧
    (∀ (j : Nat) (c : AuctionInfo), auctions[j]? = some c →
      (∀ d, auctions[j + 1]? = some d → c.auction ≠ d.auction) →
      c.won ≤ 0 → c.auctionError = ae_none → clock j < c.endTime → isValidBidPrice c = true →
      (purgeLoop clock 0 auctions quantity).1[j]? = some (some c)) ∧
    (purgeAuctions clock auctions quantity).2.1
      = (purgeLoop clock 0 auctions quantity).1.filterMap id := by
  refine ⟨?_, ?_, ?_⟩
  · rw [purgeLoop_slot clock auctions 0 quantity i a ha, hb, purgeVerdict_duplicate a b _ hsame]
    rfl
  · intro j c hc hnext hwon herr hend hvalid
    rw [purgeLoop_slot clock auctions 0 quantity j c hc]
    have hv : purgeVerdict c auctions[j + 1]? (clock (0 + j)) = .keep := by
      simp only [purgeVerdict, sameAuction_eq_false c _ hnext, Nat.zero_add]
      simp [not_lt.mpr hwon, herr, not_le.mpr hend, hvalid]
    rw [hv]
    rfl
  · simp only [purgeAuctions]
    split
    · rfl
    · next h =>
      exact (purgeLoop_kept_all clock auctions 0 quantity (not_not.mp h)).symm

/-- C22, amended, an instance: two entries for the same auction. -/
theorem purgeAuctions_duplicate_witness :
    [twinFirst, twinSecond][0]? = some twinFirst ∧
    [twinFirst, twinSecond][0 + 1]? = some twinSecond ∧
    twinFirst.auction = twinSecond.auction ∧
    (purgeLoop (fun _ => 1000) 0 [twinFirst, twinSecond] 1).1[0]? = some none ∧
    (purgeAuctions (fun _ => 1000) [twinFirst, twinSecond] 1).2.1
      = (purgeLoop (fun _ => 1000) 0 [twinFirst, twinSecond] 1).1.filterMap id :=
  ⟨rfl, rfl, rfl,
    (purgeAuctions_duplicate (fun _ => 1000) [twinFirst, twinSecond] 1 0 twinFirst twinSecond
      rfl rfl rfl).1,
    (purgeAuctions_duplicate (fun _ => 1000) [twinFirst, twinSecond] 1 0 twinFirst twinSecond
      rfl rfl rfl).2.2⟩

/-- C23: in the purge phase an entry that has won something and is not directly
followed by an entry with the same auction number is removed; when the
quantity asked for and what is left of it fit an `int`, the quantity is
reduced by exactly the `won` amounts of these entries; and a batch of one entry
that has won something (whether it has ended or not) gives the return value
0, an empty batch and the quantity reduced by its `won` amount. -/
theorem purgeAuctions_won (clock : Nat → Int) (auctions : List AuctionInfo) (quantity : Int)
    (hq : quantity < 2 ^ 31) (hleft : -2 ^ 31 ≤ quantity - wonTotal auctions) :
    (∀ (i : Nat) (a : AuctionInfo), auctions[i]? = some a →
      (∀ b, auctions[i + 1]? = some b → a.auction ≠ b.auction) → a.won > 0 →
      (purgeLoop clock 0 auctions quantity).1[i]? = some none) ∧
    (purgeAuctions clock auctions quantity).2.2 = quantity - wonTotal auctions ∧
    (purgeAuctions clock auctions quantity).2.1
      = (purgeLoop clock 0 auctions quantity).1.filterMap id ∧
    (∀ a : AuctionInfo, auctions = [a] → a.won > 0 →
      purgeAuctions clock auctions quantity = (0, [], quantity - a.won)) := by
  have hbatch : (purgeAuctions clock auctions quantity).2.1
      = (purgeLoop clock 0 auctions quantity).1.filterMap id := by
    simp only [purgeAuctions]
    split
    · rfl
    · next h =>
      exact (purgeLoop_kept_all clock auctions 0 quantity (not_not.mp h)).symm
  refine ⟨?_, ?_, hbatch, ?_⟩
  · intro i a ha hnext hwon
    rw [purgeLoop_slot clock auctions 0 quantity i a ha]
    have hv : purgeVerdict a auctions[i + 1]? (clock (0 + i)) = .won := by
      simp only [purgeVerdict, sameAuction_eq_false a _ hnext]
      simp [hwon]
    rw [hv]
    rfl
  · have := purgeLoop_quantity clock auctions 0 quantity hq hleft
    simp only [purgeAuctions]
    split <;> exact this
  · intro a hone hwon
    subst hone
    have hv : purgeVerdict a none (clock 0) = .won := by
      simp [purgeVerdict, sameAuction, hwon]
    have ht : wonTotal [a] = a.won := by
      simp [wonTotal, sameAuction, hwon]
    rw [ht] at hleft
    simp [purgeAuctions, purgeLoop, hv, toInt_id (quantity - a.won) hleft (by omega)]

/-- C23, an instance: one entry that has ended and of which 2 items were won,
with 3 items asked for. -/
theorem purgeAuctions_won_witness :
    (3 : Int) < 2 ^ 31 ∧ -2 ^ 31 ≤ (3 : Int) - wonTotal [wonEntry] ∧
    purgeAuctions (fun _ => 1000) [wonEntry] 3 = (0, [], 3 - wonEntry.won) :=
  ⟨by decide, by decide,
    (purgeAuctions_won (fun _ => 1000) [wonEntry] 3 (by decide) (by decide)).2.2.2 wonEntry rfl
      (by decide)⟩

/-! ## The order of the batch -/

/-- The buffer and the pending entity at the moment its `;` is read. -/
theorem decodeEntity_append (pre name : CStr) :
    decodeEntity (pre ++ '&' :: name) (pre.length + 1)
      = (if (cstring name).head? = some '#' then pre ++ [atoiChar ((cstring name).drop 1)]
         else if cstring name = "amp".toList then pre ++ ['&']
         else if cstring name = "gt".toList then pre ++ ['>']
         else if cstring name = "lt".toList then pre ++ ['<']
         else if cstring name = "nbsp".toList then pre
         else if cstring name = "quot".toList then pre ++ ['&']
         else pre ++ '&' :: name ++ [';']) := by
  have hdrop : (pre ++ '&' :: name).drop (pre.length + 1) = name := by
    rw [show pre ++ '&' :: name = (pre ++ ['&']) ++ name by simp]
    exact List.drop_left' (by simp)
  have htake : (pre ++ '&' :: name).take (pre.length + 1) = pre ++ ['&'] := by
    rw [show pre ++ '&' :: name = (pre ++ ['&']) ++ name by simp]
    exact List.take_left' (by simp)
  have hset : ∀ c : Char, (pre ++ ['&']).set (pre.length + 1 - 1) c = pre ++ [c] := by
    intro c
    simp
  simp only [decodeEntity, hdrop, htake, hset]
  have hlast : (pre ++ [' ']).dropLast = pre := by simp
  rw [hlast]

theorem cstring_of_no_nul (s : CStr) (h : ∀ c ∈ s, c ≠ '\x00') : cstring s = s := by
  unfold cstring
  rw [List.takeWhile_eq_self_iff]
  intro c hc
  simpa using h c hc

theorem isdigit_ne_nul (c : Char) (h : isdigit c = true) : c ≠ '\x00' := by
  rintro rfl
  exact absurd h (by decide)

theorem atoiChar_numeral (ds : CStr) (hds : isNumeral ds) (h : decimalValue ds < 256) :
    atoiChar ds = Char.ofNat (decimalValue ds) := by
  have hs := strtol_numeral ds [] hds (by simp) (by unfold LONG_MAX; omega)
  rw [List.append_nil] at hs
  unfold atoiChar
  rw [hs]
  congr 1
  omega

/-- C25: when the `;` that ends an entity is read, with `pre` the text before
the entity, `getNonTag` replaces `&amp` by `&`, `&lt` by `<`, `&gt` by `>` and
`&#NN`, for a decimal numeral NN below 256, by the character with code NN; but
it replaces `&quot` by `&` and not by the double quote: the text `&quot;`
yields `&`, and `say &quot;hi&quot;` yields `say &hi&`. -/
theorem getNonTag_entities (pre : CStr) :
    decodeEntity (pre ++ "&amp".toList) (pre.length + 1) = pre ++ ['&'] ∧
    decodeEntity (pre ++ "&lt".toList) (pre.length + 1) = pre ++ ['<'] ∧
    decodeEntity (pre ++ "&gt".toList) (pre.length + 1) = pre ++ ['>'] ∧
    (∀ ds : CStr, isNumeral ds → decimalValue ds < 256 →
      decodeEntity (pre ++ '&' :: '#' :: ds) (pre.length + 1)
        = pre ++ [Char.ofNat (decimalValue ds)]) ∧
    decodeEntity (pre ++ "&quot".toList) (pre.length + 1) = pre ++ ['&'] ∧
    getNonTagFromString "&quot;".toList = some "&".toList ∧
    getNonTagFromString "&quot;".toList ≠ some "\"".toList ∧
    getNonTagFromString "say &quot;hi&quot;".toList = some "say &hi&".toList ∧
    getNonTagFromString "&amp;&lt;&gt;&#65;".toList = some "&<>A".toList := by
  refine ⟨?_, ?_, ?_, ?_, ?_, by decide, by decide, by decide, by decide⟩
  · rw [show pre ++ "&amp".toList = pre ++ '&' :: "amp".toList from rfl, decodeEntity_append]
    rw [show cstring "amp".toList = "amp".toList from by decide]
    simp
  · rw [show pre ++ "&lt".toList = pre ++ '&' :: "lt".toList from rfl, decodeEntity_append]
    rw [show cstring "lt".toList = "lt".toList from by decide]
    simp
  · rw [show pre ++ "&gt".toList = pre ++ '&' :: "gt".toList from rfl, decodeEntity_append]
    rw [show cstring "gt".toList = "gt".toList from by decide]
    simp
  · intro ds hds hlt
    rw [decodeEntity_append]
    have hc : cstring ('#' :: ds) = '#' :: ds :=
      cstring_of_no_nul _ (by
        intro c hc
        rcases List.mem_cons.mp hc with rfl | hc
        · decide
        · exact isdigit_ne_nul c (hds.2 c hc))
    rw [hc]
    simp [atoiChar_numeral ds hds hlt]
  · rw [show pre ++ "&quot".toList = pre ++ '&' :: "quot".toList from rfl, decodeEntity_append]
    rw [show cstring "quot".toList = "quot".toList from by decide]
    simp

/-! ## Tags -/

theorem getTagBody_cons (c : Char) (rest buf : CStr) ( inStr : Bool) :
    getTagBody (c :: rest) buf inStr =
      if c = '\\' then
        match rest with
        | [] => (some (cstring (buf ++ [c])), [])
        | c2 :: rest2 => getTagBody rest2 (buf ++ [c, c2]) inStr
      else if c = '>' then
        if inStr then getTagBody rest (buf ++ [c]) inStr else (some (cstring buf), rest)
      else if c = ' ' ∨ c = '\n' ∨ c = '\r' ∨ c = '\t' ∨ c = '\x0b' then
        if inStr then getTagBody rest (buf ++ [c]) inStr
        else if buf.length > 0 ∧ buf.getLast? ≠ some ' ' then getTagBody rest (buf ++ [' ']) inStr
        else getTagBody rest buf inStr
      else if c = '"' then getTagBody rest (buf ++ [c]) (!inStr)
      else getTagBody rest (buf ++ [c]) inStr := by
  cases rest <;> (conv_lhs => rw [getTagBody])

theorem getTagBody_quoted : ∀ (q rest buf : CStr), (∀ x ∈ q, x ≠ '"' ∧ x ≠ '\\') →
    getTagBody (q ++ rest) buf true = getTagBody rest (buf ++ q) true
  | [], rest, buf, _ => by simp
  | c :: q, rest, buf, h => by
    have hc := h c (by simp)
    have ih := getTagBody_quoted q rest (buf ++ [c]) (fun x hx => h x (by simp [hx]))
    simp only [List.cons_append, getTagBody_cons, if_neg hc.2, if_neg hc.1, if_true]
    split_ifs <;> simpa using ih

theorem getTagBody_string (q rest buf : CStr) (hq : ∀ x ∈ q, x ≠ '"' ∧ x ≠ '\\') :
    getTagBody ('"' :: q ++ '"' :: rest) buf false
      = getTagBody rest (buf ++ '"' :: q ++ ['"']) false := by
  have h1 : getTagBody ('"' :: q ++ '"' :: rest) buf false
      = getTagBody (q ++ '"' :: rest) (buf ++ ['"']) true := by
    simp [getTagBody_cons]
  rw [h1, getTagBody_quoted q _ _ hq]
  simp [getTagBody_cons]

theorem getTagBody_escape (c : Char) (rest buf : CStr) ( inStr : Bool) :
    getTagBody ('\\' :: c :: rest) buf inStr = getTagBody rest (buf ++ ['\\', c]) inStr := by
  simp [getTagBody_cons]

theorem memEof_of_unread {mp : MemBuf} {c : Char} {rest : CStr} (h : mp.unread = c :: rest) :
    memEof mp = false := by
  have hlen : mp.readptr < mp.memory.length := by
    by_contra hge
    have : mp.unread = [] := List.drop_eq_nil_of_le (by omega)
    rw [this] at h
    exact List.noConfusion h
  simp only [memEof, Bool.or_eq_false_iff, decide_eq_false_iff_not]
  omega

theorem getTag_first_byte (mp : MemBuf) (first : Char) (tail : CStr)
    (h : mp.unread = '<' :: first :: tail) (h1 : first ≠ '>') (h2 : first ≠ '!') :
    getTag mp = ((getTagBody tail [first] false).1, mp.seek (getTagBody tail [first] false).2) := by
  simp [getTag, memEof_of_unread h, h, getTagOpen, getTagAfterOpen, h1, h2]

theorem getTag_second_byte (mp : MemBuf) (second : Char) (tail : CStr)
    (h : mp.unread = '<' :: '!' :: second :: tail) (h1 : second ≠ '>') (h2 : second ≠ '-') :
    getTag mp = ((getTagBody tail ['!', second] false).1,
      mp.seek (getTagBody tail ['!', second] false).2) := by
  simp [getTag, memEof_of_unread h, h, getTagOpen, getTagAfterOpen, h1, h2]

/-- C27, counterexample: a `>` between two double quotes ends the tag when the
opening quote is the first byte of the tag, and a `>` after a backslash ends
the tag when the backslash is the first byte; the same holds of the byte after
a `!` at the start of the tag. -/
theorem getTag_first_byte_counterexample :
    (getTag (strToMemBuf "<\"a>b\">".toList)).1 = some "\"a".toList ∧
    (getTag (strToMemBuf "<\\>x>".toList)).1 = some "\\".toList ∧
    (getTag (strToMemBuf "<!\"a>b\">".toList)).1 = some "!\"a".toList ∧
    (getTag (strToMemBuf "<!\\>x>".toList)).1 = some "!\\".toList := by
  decide

/-- C27, amended: the loop that reads a tag that is not a comment takes up
after the first byte of the tag, and after the first two bytes when the tag
starts with `!`; from there on, a text between two double quotes is copied as
it is, so that a `>` in it does not end the tag, and a backslash makes the
byte after it be copied as it is, with the quoting as it was; the tag
`<a title="x>y">` is returned as `a title="x>y"`. -/
theorem getTag_quoted_escaped (q rest buf : CStr) (c : Char) ( inStr : Bool)
    (hq : ∀ x ∈ q, x ≠ '"' ∧ x ≠ '\\') :
    (∀ (mp : MemBuf) (first : Char) (tail : CStr), mp.unread = '<' :: first :: tail →
      first ≠ '>' → first ≠ '!' →
      getTag mp
        = ((getTagBody tail [first] false).1, mp.seek (getTagBody tail [first] false).2)) ∧
    (∀ (mp : MemBuf) (second : Char) (tail : CStr),
      mp.unread = '<' :: '!' :: second :: tail → second ≠ '>' → second ≠ '-' →
      getTag mp = ((getTagBody tail ['!', second] false).1,
        mp.seek (getTagBody tail ['!', second] false).2)) ∧
    getTagBody ('"' :: q ++ '"' :: rest) buf false
      = getTagBody rest (buf ++ '"' :: q ++ ['"']) false ∧
    getTagBody ('\\' :: c :: rest) buf inStr = getTagBody rest (buf ++ ['\\', c]) inStr ∧
    (getTag (strToMemBuf "<a title=\"x>y\">".toList)).1 = some "a title=\"x>y\"".toList :=
  ⟨fun mp first tail hunread h1 h2 => getTag_first_byte mp first tail hunread h1 h2,
    fun mp second tail hunread h1 h2 => getTag_second_byte mp second tail hunread h1 h2,
    getTagBody_string q rest buf hq, getTagBody_escape c rest buf inStr, by decide⟩

/-- C27, amended, an instance: the tag `<a title="x>y">`, the tag
`<!DOCTYPE "x>y">`, and an escaped `>`. -/
theorem getTag_quoted_escaped_witness :
    (∀ x ∈ "x>y".toList, x ≠ '"' ∧ x ≠ '\\') ∧
    getTag (strToMemBuf "<!DOCTYPE \"x>y\">".toList)
      = ((getTagBody "OCTYPE \"x>y\">".toList ['!', 'D'] false).1,
        (strToMemBuf "<!DOCTYPE \"x>y\">".toList).seek
          (getTagBody "OCTYPE \"x>y\">".toList ['!', 'D'] false).2) ∧
    getTagBody ('"' :: "x>y".toList ++ '"' :: ">".toList) "a title=".toList false
      = getTagBody ">".toList ("a title=".toList ++ '"' :: "x>y".toList ++ ['"']) false ∧
    getTagBody ('\\' :: '>' :: ">".toList) "a".toList false
      = getTagBody ">".toList ("a".toList ++ ['\\', '>']) false :=
  ⟨by decide,
    (getTag_quoted_escaped "x>y".toList ">".toList "a title=".toList '>' false
      (by decide)).2.1 (strToMemBuf "<!DOCTYPE \"x>y\">".toList) 'D' "OCTYPE \"x>y\">".toList rfl
      (by decide) (by decide),
    (getTag_quoted_escaped "x>y".toList ">".toList "a title=".toList '>' false
      (by decide)).2.2.1,
    (getTag_quoted_escaped "x>y".toList ">".toList "a".toList '>' false
      (by decide)).2.2.2.1⟩

/-- C28: `getTag` keeps a blank before the closing `>` (`<a >` gives `a `, and
so does `<a` followed by a line feed and `>`), keeps a blank or a line feed
after the opening `<` (`< a>` gives ` a`), and in a comment keeps line feeds
as they are; inside a tag that is not a comment a run of white space becomes
one blank. For every buffer that ends in a byte other than a blank, a blank
right before the `>` stays at the end of the tag. -/
theorem getTag_keeps_blanks (buf rest : CStr) (hne : buf ≠ [])
    (hlast : buf.getLast? ≠ some ' ') :
    getTagBody (' ' :: '>' :: rest) buf false = (some (cstring (buf ++ [' '])), rest) ∧
    (getTag (strToMemBuf "<a >".toList)).1 = some "a ".toList ∧
    (getTag (strToMemBuf "<a\n>".toList)).1 = some "a ".toList ∧
    (getTag (strToMemBuf "< a>".toList)).1 = some " a".toList ∧
    (getTag (strToMemBuf "<\na>".toList)).1 = some "\na".toList ∧
    (getTag (strToMemBuf "<!--a\n\nb-->".toList)).1 = some "!--a\n\nb--".toList ∧
    (getTag (strToMemBuf "<a\t\tb>".toList)).1 = some "a b".toList := by
  refine ⟨?_, by decide, by decide, by decide, by decide, by decide, by decide⟩
  have hlen : buf.length > 0 := List.length_pos.mpr hne
  simp [getTagBody_cons, hlen, hlast]

/-- C28, an instance: the tag `<a >`. -/
theorem getTag_keeps_blanks_witness :
    getTagBody (' ' :: '>' :: []) "a".toList false = (some (cstring ("a".toList ++ [' '])), []) :=
  (getTag_keeps_blanks "a".toList [] (by decide) (by decide)).1

/-! ## Table rows -/

/-- C29: whenever the first call of `getTableCell` returns `NULL`, be it at the
end of a row without cells or at the end of the table, `getTableRow` returns
`NULL`. At a row without cells that is followed by a row with the cell `x`
it returns `NULL`, the same as at the end of the table after that row. -/
theorem getTableRow_empty_row (mp : MemBuf) (h : (getTableCell mp).1 = none) :
    (getTableRow mp).1 = none ∧
    (getTableRow emptyRowTable).1 = none ∧
    (getTableRow (getTableRow emptyRowTable).2).1 = some ["x".toList] ∧
    (getTableRow (getTableRow (getTableRow emptyRowTable).2).2).1 = none := by
  refine ⟨?_, by decide, by decide, by decide⟩
  unfold getTableRow
  split
  · rfl
  · next cp mp1 heq =>
    rw [heq] at h
    exact Option.noConfusion h

/-- C29, an instance: the row without cells. -/
theorem getTableRow_empty_row_witness :
    (getTableCell emptyRowTable).1 = none ∧ (getTableRow emptyRowTable).1 = none :=
  ⟨by decide, (getTableRow_empty_row emptyRowTable (by decide)).1⟩

/-! ## What a call of getTag reads -/

theorem getTagOpen_length : ∀ (s rest : CStr), getTagOpen s = some rest → rest.length < s.length
  | [], _, h => by simp [getTagOpen] at h
  | c :: s, rest, h => by
    simp only [getTagOpen] at h
    split at h
    · simp only [Option.some.injEq] at h
      subst h
      simp
    · have := getTagOpen_length s rest h
      simp only [List.length_cons]
      omega

theorem getTagComment_length : ∀ (s buf : CStr), (getTagComment s buf).2.length ≤ s.length
  | [], buf => by simp [getTagComment]
  | c :: s, buf => by
    simp only [getTagComment]
    split_ifs
    · simp
    · have := getTagComment_length s buf
      simp only [List.length_cons]
      omega
    · have := getTagComment_length s (buf ++ [c])
      simp only [List.length_cons]
      omega

theorem getTagBody_length : ∀ (n : Nat) (s buf : CStr) ( inStr : Bool), s.length ≤ n →
    (getTagBody s buf inStr).2.length ≤ s.length
  | _, [], buf, _, _ => by simp [getTagBody]
  | 0, c :: s, _, _, h => by simp at h
  | n + 1, c :: s, buf, inStr, h => by
    simp only [List.length_cons] at h ⊢
    have ih : ∀ (buf1 : CStr) ( inStr1 : Bool), (getTagBody s buf1 inStr1).2.length ≤ s.length :=
      fun buf1 inStr1 => getTagBody_length n s buf1 inStr1 (by omega)
    rw [getTagBody_cons]
    split_ifs
    · cases s with
      | nil => simp
      | cons c2 s2 =>
        have := getTagBody_length n s2 (buf ++ [c, c2]) inStr (by simp at h; omega)
        simp only [List.length_cons]
        omega
    all_goals first
      | (simp only []; omega)
      | (have hlen := ih (buf ++ [c]) inStr; omega)
      | (have hlen := ih (buf ++ [' ']) inStr; omega)
      | (have hlen := ih buf inStr; omega)
      | (have hlen := ih (buf ++ [c]) (!inStr); omega)

theorem getTagAfterOpen_length : ∀ s : CStr, (getTagAfterOpen s).2.length ≤ s.length
  | [] => by simp [getTagAfterOpen]
  | c :: rest => by
    have hb := fun (s buf : CStr) (i : Bool) => getTagBody_length s.length s buf i le_rfl
    simp only [getTagAfterOpen, List.length_cons]
    split_ifs
    · simp
    · cases rest with
      | nil => simp
      | cons c2 rest2 =>
        simp only [List.length_cons]
        split_ifs
        · simp only []; omega
        · cases rest2 with
          | nil => simp
          | cons c3 rest3 =>
            simp only [List.length_cons]
            split_ifs
            · simp only []; omega
            · have := getTagComment_length rest3 [c, c2, c3]
              omega
        · have := hb rest2 [c, c2] false
          omega
    · have := hb rest [c] false
      omega

theorem unread_length_le (mp : MemBuf) : mp.unread.length ≤ mp.memory.length := by
  simp [MemBuf.unread]

theorem seek_unread_length (mp : MemBuf) (rest : CStr) (h : rest.length ≤ mp.memory.length) :
    (mp.seek rest).unread.length = rest.length := by
  simp only [MemBuf.seek, MemBuf.unread, List.length_drop]
  omega

/-- A call of `getTag` that returns a tag leaves the document as it is and
reads at least one byte. -/
theorem getTag_some {mp mp1 : MemBuf} {cp : CStr} (h : getTag mp = (some cp, mp1)) :
    mp1.memory = mp.memory ∧ mp1.unread.length < mp.unread.length := by
  unfold getTag at h
  split at h
  · simp at h
  · split at h
    · simp at h
    · next rest hopen =>
      simp only [Prod.mk.injEq] at h
      have h1 := getTagOpen_length _ _ hopen
      have h2 := getTagAfterOpen_length rest
      have h3 := unread_length_le mp
      rw [← h.2]
      refine ⟨rfl, ?_⟩
      rw [seek_unread_length mp _ (by omega)]
      omega

/-! ## Nested tables -/

/-- With enough fuel for the bytes left, the loop of `getTableCell` does not
depend on the fuel. -/
theorem getTableCellLoop_fuel : ∀ (n fuel1 fuel2 : Nat) (mp : MemBuf) (nesting : Int)
    (start : Nat), mp.unread.length ≤ n → mp.unread.length < fuel1 → mp.unread.length < fuel2 →
    getTableCellLoop fuel1 mp nesting start = getTableCellLoop fuel2 mp nesting start
  | _, 0, _, _, _, _, _, h1, _ => by omega
  | _, _ + 1, 0, _, _, _, _, _, h2 => by omega
  | 0, f1 + 1, f2 + 1, mp, nesting, start, hn, h1, h2 => by
    simp only [getTableCellLoop]
    split
    · rfl
    · next cp mp1 heq =>
      have := (getTag_some heq).2
      omega
  | n + 1, f1 + 1, f2 + 1, mp, nesting, start, hn, h1, h2 => by
    simp only [getTableCellLoop]
    split
    · rfl
    · next cp mp1 heq =>
      have hlt := (getTag_some heq).2
      have ih := fun (k : Int) (st : Nat) =>
        getTableCellLoop_fuel n f1 f2 mp1 k st (by omega) (by omega) (by omega)
      split_ifs <;> first | rfl | exact ih _ _

theorem tidyBuf_nil : TidyBuf [] := ⟨by simp, List.chain'_nil, by simp⟩

theorem tidyBuf_append {buf : CStr} (h : TidyBuf buf) (c : Char) (hc0 : c ≠ '\x00')
    (hc : c = ' ' → buf ≠ [] ∧ buf.getLast? ≠ some ' ') : TidyBuf (buf ++ [c]) := by
  obtain ⟨h1, h2, h3⟩ := h
  refine ⟨?_, ?_, ?_⟩
  · cases buf with
    | nil =>
      simp only [List.nil_append, List.head?_cons, ne_eq, Option.some.injEq]
      intro e
      exact (hc e).1 rfl
    | cons a buf => simpa using h1
  · rw [Collapsed, List.chain'_append]
    refine ⟨h2, List.chain'_singleton c, ?_⟩
    intro x hx y hy h
    simp only [List.head?_cons, Option.mem_def, Option.some.injEq] at hy
    subst hy
    exact (hc h.2).2 (by rw [Option.mem_def.mp hx, h.1])
  · simp only [List.mem_append, List.mem_singleton, not_or]
    exact ⟨h3, fun e => hc0 e.symm⟩

theorem tidyBuf_prefix {buf pre : CStr} (h : TidyBuf buf) (hp : pre <+: buf) : TidyBuf pre := by
  obtain ⟨h1, h2, h3⟩ := h
  obtain ⟨t, rfl⟩ := hp
  refine ⟨?_, h2.prefix (List.prefix_append _ _), fun hm => h3 (List.mem_append_left _ hm)⟩
  cases pre with
  | nil => simp
  | cons a pre => simpa using h1

/-- The text that is returned: the buffer without the blank at its end. -/
theorem tidyBuf_trim {buf : CStr} (h : TidyBuf buf) (hne : buf ≠ []) :
    Trimmed (cstring (if buf.getLast? = some ' ' then buf.dropLast else buf)) ∧
    cstring (if buf.getLast? = some ' ' then buf.dropLast else buf) ≠ [] := by
  by_cases hlast : buf.getLast? = some ' '
  · rw [if_pos hlast]
    have ht := tidyBuf_prefix h (List.dropLast_prefix buf)
    rw [cstring_of_no_nul _ (fun c hc e => ht.2.2 (e ▸ hc))]
    obtain ⟨h1, h2, h3⟩ := h
    have hb : buf.dropLast ++ [' '] = buf := List.dropLast_append_getLast? _ hlast
    refine ⟨⟨ht.1, ?_, ht.2.1⟩, ?_⟩
    · intro hl
      have hc : Collapsed (buf.dropLast ++ [' ']) := by rw [hb]; exact h2
      rw [Collapsed, List.chain'_append] at hc
      exact hc.2.2 ' ' hl ' ' rfl ⟨rfl, rfl⟩
    · intro he
      rw [he] at hb
      rw [← hb] at h1
      exact h1 rfl
  · rw [if_neg hlast, cstring_of_no_nul _ (fun c hc e => h.2.2 (e ▸ hc))]
    exact ⟨⟨h.1, hlast, h.2.1⟩, hne⟩

theorem memGetc_some {mp mp1 : MemBuf} {c : Char} (h : memGetc mp = (some c, mp1)) :
    c = byteAt mp.memory mp.readptr ∧ mp1 = { mp with readptr := mp.readptr + 1 } ∧
    mp.readptr ≠ mp.memory.length := by
  unfold memGetc at h
  split at h
  · simp at h
  · next hn =>
    simp only [Prod.mk.injEq, Option.some.injEq] at h
    simp only [memEof, Bool.or_eq_true, decide_eq_true_eq, not_or] at hn
    exact ⟨h.1.symm, h.2.symm, hn.2⟩

theorem byteAt_mem {s : CStr} {i : Nat} (h : i < s.length) : byteAt s i ∈ s := by
  simp only [byteAt, List.getD_eq_getElem?_getD, List.getElem?_eq_getElem h, Option.getD_some]
  exact List.getElem_mem h

theorem ampInv_append {mp mp1 : MemBuf} {buf : CStr} {amp : Nat} (c : Char)
    (ha : AmpInv mp buf amp)
    (hc : (0 < mp.readptr ∧ byteAt mp.memory (mp.readptr - 1) = '&') → c ≠ '#') :
    AmpInv mp1 (buf ++ [c]) amp := by
  rcases ha with h0 | ⟨pre, name, hb, hamp, hname, hpend⟩
  · exact Or.inl h0
  · refine Or.inr ⟨pre, name ++ [c], by rw [hb]; simp, hamp, ?_, fun e => by simp at e⟩
    cases name with
    | nil =>
      simp only [List.nil_append, List.head?_cons, ne_eq, Option.some.injEq]
      exact hc (hpend rfl)
    | cons a name => simpa using hname

theorem ampInv_skip {mp mp1 : MemBuf} {buf : CStr} {amp : Nat} (ha : AmpInv mp buf amp)
    (hb : buf = [] ∨ buf.getLast? = some ' ') : AmpInv mp1 buf amp := by
  rcases ha with h0 | ⟨pre, name, hbuf, hamp, hname, hpend⟩
  · exact Or.inl h0
  · refine Or.inr ⟨pre, name, hbuf, hamp, hname, fun e => ?_⟩
    subst e
    rcases hb with hb | hb
    · rw [hb] at hbuf
      simp at hbuf
    · rw [hbuf] at hb
      simp at hb

theorem ampInv_amp {mp mp1 : MemBuf} (buf : CStr) (hm : mp1.memory = mp.memory)
    (hp : mp1.readptr = mp.readptr + 1) (hc : byteAt mp.memory mp.readptr = '&') :
    AmpInv mp1 (buf ++ ['&']) (buf.length + 1) :=
  Or.inr ⟨buf, [], rfl, rfl, by simp, fun _ => ⟨by omega, by rw [hm, hp]; simpa using hc⟩⟩

theorem cstring_head_sharp {name : CStr} (h : (cstring name).head? = some '#') :
    name.head? = some '#' := by
  cases name with
  | nil => simp [cstring] at h
  | cons a name =>
    simp only [cstring, List.takeWhile_cons] at h
    split at h
    · simpa using h
    · simp at h

theorem tidyBuf_decodeEntity {mp : MemBuf} {buf : CStr} {amp : Nat} (ht : TidyBuf buf)
    (ha : AmpInv mp buf amp) (hpos : amp > 0) : TidyBuf (decodeEntity buf amp) := by
  rcases ha with h0 | ⟨pre, name, hbuf, hamp, hname, _⟩
  · omega
  · subst hbuf hamp
    have hpre : TidyBuf pre := tidyBuf_prefix ht (List.prefix_append _ _)
    rw [decodeEntity_append]
    rw [if_neg (fun h => hname (cstring_head_sharp h))]
    split_ifs
    · exact tidyBuf_append hpre _ (by decide) (fun e => absurd e (by decide))
    · exact tidyBuf_append hpre _ (by decide) (fun e => absurd e (by decide))
    · exact tidyBuf_append hpre _ (by decide) (fun e => absurd e (by decide))
    · exact hpre
    · exact tidyBuf_append hpre _ (by decide) (fun e => absurd e (by decide))
    · have := tidyBuf_append ht ';' (by decide) (fun e => absurd e (by decide))
      simpa using this

theorem trimmedOrNull_trimmed {buf s : CStr} (ht : TidyBuf buf) (h : trimmedOrNull buf = some s) :
    Trimmed s ∧ s ≠ [] := by
  have hne : buf ≠ [] := by
    rintro rfl
    simp [trimmedOrNull, bufOrNull] at h
  have ht2 := tidyBuf_trim ht hne
  unfold trimmedOrNull bufOrNull at h
  by_cases hlen : (if buf.getLast? = some ' ' then buf.dropLast else buf).length ≠ 0
  · rw [if_pos hlen] at h
    simp only [Option.some.injEq] at h
    rw [← h]
    exact ht2
  · rw [if_neg hlen] at h
    exact Option.noConfusion h

theorem getTag_readptr_le (mp : MemBuf) (h : mp.readptr ≤ mp.memory.length) :
    (getTag mp).2.readptr ≤ (getTag mp).2.memory.length := by
  unfold getTag
  split
  · exact h
  · split
    · simp [MemBuf.seek]
    · simp [MemBuf.seek]

/-- What the loop of `getNonTag` returns is trimmed. -/
theorem getNonTagLoop_trimmed (memory : CStr) (hnul : '\x00' ∉ memory)
    (hent : NoNumericEntity memory) : ∀ (fuel : Nat) (mp : MemBuf) (buf : CStr) (amp : Nat),
    mp.memory = memory → mp.readptr ≤ mp.memory.length → TidyBuf buf → AmpInv mp buf amp →
    ∀ s : CStr, (getNonTagLoop fuel mp buf amp).1 = some s → Trimmed s ∧ s ≠ []
  | 0, mp, buf, amp, _, _, ht, _, s, hs => trimmedOrNull_trimmed ht hs
  | fuel + 1, mp, buf, amp, hm, hp, ht, ha, s, hs => by
    have ih := getNonTagLoop_trimmed memory hnul hent fuel
    rw [getNonTagLoop] at hs
    split at hs
    · exact trimmedOrNull_trimmed ht hs
    · next c mp1 hget =>
      obtain ⟨hc, hmp1, hne⟩ := memGetc_some hget
      have hlt : mp.readptr < mp.memory.length := by omega
      have hc0 : c ≠ '\x00' := by
        intro e
        apply hnul
        rw [← hm, ← e, hc]
        exact byteAt_mem hlt
      have hm1 : mp1.memory = memory := by rw [hmp1]; exact hm
      have hp1 : mp1.readptr ≤ mp1.memory.length := by
        rw [hmp1]
        show mp.readptr + 1 ≤ mp.memory.length
        omega
      have hsharp : (0 < mp.readptr ∧ byteAt mp.memory (mp.readptr - 1) = '&') → c ≠ '#' := by
        intro h
        have := hent (mp.readptr - 1) (by rw [← hm]; exact h.2)
        rw [show mp.readptr - 1 + 1 = mp.readptr by omega, ← hm, ← hc] at this
        exact this
      simp only [] at hs
      split at hs
      · -- a tag starts
        split at hs
        · next hlen =>
          simp only [Option.some.injEq] at hs
          have hne : buf ≠ [] := by
            rintro rfl
            simp at hlen
          rw [← hs]
          exact tidyBuf_trim ht hne
        · next hlen =>
          have hnil : buf = [] := by
            cases buf with
            | nil => rfl
            | cons a b => simp at hlen
          have hu : (memUngetc mp1).memory = memory := by
            rw [← hm1]
            exact (sameDoc_memUngetc mp1).1
          have hpu : (memUngetc mp1).readptr ≤ (memUngetc mp1).memory.length := by
            unfold memUngetc
            split
            · show mp1.readptr - 1 ≤ mp1.memory.length
              omega
            · exact hp1
          refine ih _ buf amp ((sameDoc_getTag _).1.trans hu) (getTag_readptr_le _ hpu) ht
            (ampInv_skip ha (Or.inl hnil)) s hs
      · split at hs
        · -- white space
          split at hs
          · next hcond =>
            refine ih mp1 _ amp hm1 hp1
              (tidyBuf_append ht ' ' (by decide) (fun _ => ⟨?_, hcond.2⟩))
              (ampInv_append ' ' ha (fun _ => by decide)) s hs
            rintro rfl
            exact hcond.1 rfl
          · next hcond =>
            refine ih mp1 buf amp hm1 hp1 ht (ampInv_skip ha ?_) s hs
            by_cases hb : buf = []
            · exact Or.inl hb
            · right
              by_contra hl
              exact hcond ⟨by simpa using hb, hl⟩
        · next hblank =>
          have hsp : c ≠ ' ' := fun e => hblank (Or.inl e)
          split at hs
          · -- the end of an entity, or a semicolon
            next hsemi =>
            split at hs
            · next hpos =>
              exact ih mp1 _ 0 hm1 hp1 (tidyBuf_decodeEntity ht ha hpos) (Or.inl rfl) s hs
            · exact ih mp1 _ amp hm1 hp1
                (tidyBuf_append ht c hc0 (fun e => absurd e hsp))
                (ampInv_append c ha hsharp) s hs
          · split at hs
            · next hamp =>
              subst hamp
              exact ih mp1 _ _ hm1 hp1
                (tidyBuf_append ht '&' hc0 (fun e => absurd e hsp))
                (ampInv_amp buf (hm1.trans hm.symm) (by rw [hmp1]) hc.symm) s hs
            · exact ih mp1 _ amp hm1 hp1
                (tidyBuf_append ht c hc0 (fun e => absurd e hsp))
                (ampInv_append c ha hsharp) s hs

theorem memGetc_cons {mp : MemBuf} {c : Char} {rest : CStr} (h : mp.unread = c :: rest) :
    memGetc mp = (some c, { mp with readptr := mp.readptr + 1 }) ∧
    ({ mp with readptr := mp.readptr + 1 } : MemBuf).unread = rest := by
  have heof := memEof_of_unread h
  have hb : byteAt mp.memory mp.readptr = c := by
    have h0 : (mp.memory.drop mp.readptr)[0]? = some c := by
      rw [show mp.memory.drop mp.readptr = c :: rest from h]
      simp
    rw [List.getElem?_drop] at h0
    simp only [byteAt, List.getD_eq_getElem?_getD]
    rw [Nat.add_zero] at h0
    rw [h0]
    rfl
  refine ⟨by simp [memGetc, heof, hb], ?_⟩
  show mp.memory.drop (mp.readptr + 1) = rest
  rw [← List.drop_drop]
  rw [show mp.memory.drop mp.readptr = c :: rest from h]
  rfl

theorem isBlankByte_iff (c : Char) : isBlankByte c = true ↔
    (c = ' ' ∨ c = '\n' ∨ c = '\r' ∨ c = '\t' ∨ c = '\x0b' ∨ c = Char.ofNat 0x82
      ∨ c = Char.ofNat 0xC2 ∨ c = Char.ofNat 0xC3 ∨ c = Char.ofNat 0xA0) := by
  simp [isBlankByte, or_assoc]

theorem isWordByte_iff (c : Char) : isWordByte c = true ↔
    (isBlankByte c = false ∧ c ≠ '<' ∧ c ≠ '&' ∧ c ≠ '\x00') := by
  simp [isWordByte, and_assoc]

/-- The loop of `getNonTag` reads a word into the buffer as it is. -/
theorem getNonTagLoop_word : ∀ (w : CStr) (fuel : Nat) (mp : MemBuf) (buf rest : CStr),
    (∀ c ∈ w, isWordByte c = true) → mp.unread = w ++ rest →
    getNonTagLoop (fuel + w.length) mp buf 0
      = getNonTagLoop fuel { mp with readptr := mp.readptr + w.length } (buf ++ w) 0
  | [], fuel, mp, buf, rest, _, _ => by simp
  | c :: w, fuel, mp, buf, rest, hw, hu => by
    obtain ⟨hget, hrest⟩ := memGetc_cons (show mp.unread = c :: (w ++ rest) from hu)
    obtain ⟨hb, h1, h2, h3⟩ := (isWordByte_iff c).mp (hw c (by simp))
    have hb2 := (isBlankByte_iff c).not.mp (by simp [hb])
    have ih := getNonTagLoop_word w fuel { mp with readptr := mp.readptr + 1 } (buf ++ [c]) rest
      (fun x hx => hw x (by simp [hx])) hrest
    rw [show fuel + (c :: w).length = fuel + w.length + 1 from rfl, getNonTagLoop, hget]
    simp only [if_neg h1, if_neg hb2, if_neg h2, Nat.lt_irrefl, if_false, ite_self]
    rw [ih]
    simp [Nat.add_assoc, Nat.add_comm 1]

/-- White space after a blank in the buffer leaves the buffer as it is. -/
theorem getNonTagLoop_blanks_after : ∀ (ws : CStr) (fuel : Nat) (mp : MemBuf) (buf rest : CStr)
    (amp : Nat), (∀ c ∈ ws, isBlankByte c = true) → mp.unread = ws ++ rest →
    buf.getLast? = some ' ' →
    getNonTagLoop (fuel + ws.length) mp buf amp
      = getNonTagLoop fuel { mp with readptr := mp.readptr + ws.length } buf amp
  | [], fuel, mp, buf, rest, amp, _, _, _ => by simp
  | c :: ws, fuel, mp, buf, rest, amp, hw, hu, hl => by
    obtain ⟨hget, hrest⟩ := memGetc_cons (show mp.unread = c :: (ws ++ rest) from hu)
    have hb := (isBlankByte_iff c).mp (hw c (by simp))
    have h1 : c ≠ '<' := by
      rintro rfl
      exact absurd (hw '<' (by simp)) (by decide)
    have ih := getNonTagLoop_blanks_after ws fuel { mp with readptr := mp.readptr + 1 } buf rest
      amp (fun x hx => hw x (by simp [hx])) hrest hl
    rw [show fuel + (c :: ws).length = fuel + ws.length + 1 from rfl, getNonTagLoop, hget]
    simp only [if_neg h1, if_pos hb, hl, ne_eq, not_true_eq_false, and_false, if_false]
    rw [ih]
    simp [Nat.add_assoc, Nat.add_comm 1]

/-- White space after a word puts one blank into the buffer. -/
theorem getNonTagLoop_blanks (c : Char) (ws : CStr) (fuel : Nat) (mp : MemBuf) (buf rest : CStr)
    (amp : Nat) (hw : ∀ x ∈ c :: ws, isBlankByte x = true) (hu : mp.unread = c :: ws ++ rest)
    (hne : buf ≠ []) (hl : buf.getLast? ≠ some ' ') :
    getNonTagLoop (fuel + (c :: ws).length) mp buf amp
      = getNonTagLoop fuel { mp with readptr := mp.readptr + (c :: ws).length }
          (buf ++ [' ']) amp := by
  obtain ⟨hget, hrest⟩ := memGetc_cons (show mp.unread = c :: (ws ++ rest) from hu)
  have hb := (isBlankByte_iff c).mp (hw c (by simp))
  have h1 : c ≠ '<' := by
    rintro rfl
    exact absurd (hw '<' (by simp)) (by decide)
  have hlen : buf.length ≠ 0 := by
    intro e
    exact hne (List.length_eq_zero.mp e)
  have ih := getNonTagLoop_blanks_after ws fuel { mp with readptr := mp.readptr + 1 }
    (buf ++ [' ']) rest amp (fun x hx => hw x (by simp [hx])) hrest (by simp)
  rw [show fuel + (c :: ws).length = fuel + ws.length + 1 from rfl, getNonTagLoop, hget]
  simp only [if_neg h1, if_pos hb]
  rw [if_pos ⟨hlen, hl⟩, ih]
  simp [Nat.add_assoc, Nat.add_comm 1]

theorem isWordByte_ne_blank {c : Char} (h : isWordByte c = true) : c ≠ ' ' := by
  rintro rfl
  exact absurd h (by decide)

theorem isWordByte_ne_nul {c : Char} (h : isWordByte c = true) : c ≠ '\x00' :=
  ((isWordByte_iff c).mp h).2.2.2

/-- Two words with white space between them give the words with one blank
between them. -/
theorem getNonTag_two_words (w1 ws w2 : CStr) (h1 : w1 ≠ []) (hs : ws ≠ []) (h2 : w2 ≠ [])
    (hw1 : ∀ c ∈ w1, isWordByte c = true) (hws : ∀ c ∈ ws, isBlankByte c = true)
    (hw2 : ∀ c ∈ w2, isWordByte c = true) :
    getNonTagFromString (w1 ++ ws ++ w2) = some (w1 ++ ' ' :: w2) := by
  obtain ⟨c, ws, rfl⟩ : ∃ c t, ws = c :: t := List.exists_cons_of_ne_nil hs
  have hne : ∃ a t, w1 ++ c :: ws ++ w2 = a :: t := by
    cases w1 with
    | nil => exact absurd rfl h1
    | cons a t => exact ⟨_, _, rfl⟩
  obtain ⟨a, t, hat⟩ := hne
  have heof : memEof (strToMemBuf (w1 ++ c :: ws ++ w2)) = false :=
    @memEof_of_unread (strToMemBuf (w1 ++ c :: ws ++ w2)) a t
      (by simp [MemBuf.unread, strToMemBuf, hat])
  have hlast1 : w1.getLast? ≠ some ' ' := by
    intro h
    exact isWordByte_ne_blank (hw1 ' ' (List.mem_of_getLast?_eq_some h)) rfl
  have hlast2 : (w1 ++ ' ' :: w2).getLast? ≠ some ' ' := by
    intro h
    have hm : (' ' : Char) ∈ w2 := by
      rw [show w1 ++ ' ' :: w2 = (w1 ++ [' ']) ++ w2 by simp,
        List.getLast?_append_of_ne_nil _ h2] at h
      exact List.mem_of_getLast?_eq_some h
    exact isWordByte_ne_blank (hw2 ' ' hm) rfl
  have hnul : ∀ x ∈ w1 ++ ' ' :: w2, x ≠ '\x00' := by
    intro x hx
    rcases List.mem_append.mp hx with h | h
    · exact isWordByte_ne_nul (hw1 x h)
    · rcases List.mem_cons.mp h with rfl | h
      · decide
      · exact isWordByte_ne_nul (hw2 x h)
  have hfuel : (w1 ++ c :: ws ++ w2).length + 1
      = 1 + w2.length + (c :: ws).length + w1.length := by
    simp only [List.length_append, List.length_cons]
    omega
  have hend : memGetc { strToMemBuf (w1 ++ c :: ws ++ w2) with
      readptr := 0 + w1.length + (c :: ws).length + w2.length }
      = (none, { strToMemBuf (w1 ++ c :: ws ++ w2) with
          readptr := 0 + w1.length + (c :: ws).length + w2.length }) := by
    have : memEof { strToMemBuf (w1 ++ c :: ws ++ w2) with
        readptr := 0 + w1.length + (c :: ws).length + w2.length } = true := by
      simp only [memEof, strToMemBuf, List.length_append, List.length_cons, Bool.or_eq_true,
        decide_eq_true_eq]
      right
      omega
    unfold memGetc
    rw [if_pos this]
  have hu1 : (strToMemBuf (w1 ++ c :: ws ++ w2)).unread = w1 ++ (c :: ws ++ w2) := by
    simp [MemBuf.unread, strToMemBuf]
  have hu2 : ({ strToMemBuf (w1 ++ c :: ws ++ w2) with readptr := 0 + w1.length } : MemBuf).unread
      = c :: ws ++ w2 := by
    simp [MemBuf.unread, strToMemBuf]
  have hu3 : ({ strToMemBuf (w1 ++ c :: ws ++ w2) with
      readptr := 0 + w1.length + (c :: ws).length } : MemBuf).unread = w2 ++ [] := by
    simp only [MemBuf.unread, strToMemBuf, List.append_nil]
    rw [show w1 ++ c :: ws ++ w2 = (w1 ++ c :: ws) ++ w2 by simp]
    exact List.drop_left' (by simp)
  unfold getNonTagFromString getNonTag
  rw [if_neg (by rw [heof]; exact Bool.false_ne_true), hu1, ← List.append_assoc, hfuel]
  rw [getNonTagLoop_word w1 _ _ [] (c :: ws ++ w2) hw1 hu1]
  rw [show (strToMemBuf (w1 ++ c :: ws ++ w2)).readptr = 0 from rfl, List.nil_append]
  rw [getNonTagLoop_blanks c ws _ _ w1 w2 0 hws hu2 h1 hlast1]
  rw [getNonTagLoop_word w2 1 _ (w1 ++ [' ']) [] hw2 hu3]
  rw [getNonTagLoop, hend]
  simp only [trimmedOrNull, bufOrNull]
  rw [show w1 ++ [' '] ++ w2 = w1 ++ ' ' :: w2 by simp, if_neg hlast2,
    cstring_of_no_nul _ hnul, if_pos (by simp)]

theorem getNonTag_trimmed_of (mp : MemBuf) (s : CStr) (hptr : mp.readptr ≤ mp.memory.length)
    (hnul : '\x00' ∉ mp.memory) (hent : NoNumericEntity mp.memory)
    (h : (getNonTag mp).1 = some s) : Trimmed s ∧ s ≠ [] := by
  unfold getNonTag at h
  split at h
  · exact Option.noConfusion h
  · exact getNonTagLoop_trimmed mp.memory hnul hent _ mp [] 0 rfl hptr tidyBuf_nil (Or.inl rfl) s h

/-- C26: `a&nbsp;b` yields `ab` and not `a b`: the blank that `&nbsp;` stands
for is dropped, where white space between two words yields one blank; and a
numeric entity for the blank is decoded after the white space has been dealt
with, so that `&#32;a` yields a text with a leading blank, `a &#32;b` a text
with two adjacent blanks and `a &#32;` a text with a trailing blank. -/
theorem getNonTag_nbsp_dropped :
    getNonTagFromString "a&nbsp;b".toList = some "ab".toList ∧
    getNonTagFromString "a&nbsp;b".toList ≠ some "a b".toList ∧
    getNonTagFromString "a \t\n b".toList = some "a b".toList ∧
    getNonTagFromString "&#32;a".toList = some " a".toList ∧
    getNonTagFromString "a &#32;b".toList = some "a  b".toList ∧
    getNonTagFromString "a &#32;".toList = some "a ".toList := by
  decide

/-! ## Every token takes at least one byte -/

theorem getTag_unread_le (mp : MemBuf) :
    (getTag mp).2.unread.length ≤ mp.unread.length := by
  unfold getTag
  split
  · exact le_rfl
  · split
    · rw [seek_unread_length mp [] (Nat.zero_le _)]
      exact Nat.zero_le _
    · next rest hopen =>
      have h1 := getTagOpen_length _ _ hopen
      have h2 := getTagAfterOpen_length rest
      have h3 := unread_length_le mp
      simp only []
      rw [seek_unread_length mp _ (by omega)]
      omega

theorem memGetc_unread {mp mp1 : MemBuf} {c : Char} (hptr : mp.readptr ≤ mp.memory.length)
    (h : memGetc mp = (some c, mp1)) :
    mp1.unread.length + 1 = mp.unread.length ∧ mp1.readptr ≤ mp1.memory.length ∧
    memUngetc mp1 = mp := by
  obtain ⟨_, h2, h3⟩ := memGetc_some h
  subst h2
  simp only [MemBuf.unread, List.length_drop, memUngetc]
  refine ⟨by omega, by omega, ?_⟩
  rw [if_pos (by omega)]
  simp

theorem memGetc_none {mp mp1 : MemBuf} (h : memGetc mp = (none, mp1)) : mp1 = mp := by
  unfold memGetc at h
  split at h
  · exact (Prod.mk.inj h).2.symm
  · simp at h

/-- The loop of `getNonTag` does not move the read pointer back, and when it
returns a text that it started with an empty buffer, it has read at least one
byte. -/
theorem getNonTagLoop_progress : ∀ (fuel : Nat) (mp : MemBuf) (buf : CStr) (amp : Nat),
    mp.readptr ≤ mp.memory.length →
    (getNonTagLoop fuel mp buf amp).2.unread.length ≤ mp.unread.length ∧
    (getNonTagLoop fuel mp buf amp).2.readptr ≤ (getNonTagLoop fuel mp buf amp).2.memory.length ∧
    (buf = [] → (getNonTagLoop fuel mp buf amp).1 ≠ none →
      (getNonTagLoop fuel mp buf amp).2.unread.length < mp.unread.length)
  | 0, mp, buf, amp, hptr => by
    refine ⟨le_rfl, hptr, ?_⟩
    intro hb hne
    subst hb
    exact absurd rfl hne
  | fuel + 1, mp, buf, amp, hptr => by
    have ih := getNonTagLoop_progress fuel
    rw [getNonTagLoop]
    split
    · next mp1 h =>
      have e := memGetc_none h
      subst e
      refine ⟨le_rfl, hptr, ?_⟩
      intro hb hne
      subst hb
      exact absurd rfl hne
    · next c mp1 h =>
      obtain ⟨h1, h2, h3⟩ := memGetc_unread hptr h
      have step : ∀ (buf1 : CStr) (amp1 : Nat),
          (getNonTagLoop fuel mp1 buf1 amp1).2.unread.length ≤ mp.unread.length ∧
          (getNonTagLoop fuel mp1 buf1 amp1).2.readptr
            ≤ (getNonTagLoop fuel mp1 buf1 amp1).2.memory.length ∧
          (buf = [] → (getNonTagLoop fuel mp1 buf1 amp1).1 ≠ none →
            (getNonTagLoop fuel mp1 buf1 amp1).2.unread.length < mp.unread.length) := by
        intro buf1 amp1
        obtain ⟨k1, k2, _⟩ := ih mp1 buf1 amp1 h2
        exact ⟨by omega, k2, fun _ _ => by omega⟩
      split
      · simp only []
        rw [h3]
        split
        · next hb =>
          refine ⟨le_rfl, hptr, ?_⟩
          intro hb0
          rw [hb0] at hb
          exact absurd rfl hb
        · have g1 := getTag_unread_le mp
          have g2 := getTag_readptr_le mp hptr
          obtain ⟨k1, k2, k3⟩ := ih (getTag mp).2 buf amp g2
          exact ⟨by omega, k2, fun hb hne => by have := k3 hb hne; omega⟩
      · split
        · split
          · exact step _ _
          · exact step _ _
        · split
          · split
            · exact step _ _
            · exact step _ _
          · split
            · exact step _ _
            · exact step _ _

theorem getNonTag_readptr_le (mp : MemBuf) (hptr : mp.readptr ≤ mp.memory.length) :
    (getNonTag mp).2.readptr ≤ (getNonTag mp).2.memory.length := by
  unfold getNonTag
  split
  · exact hptr
  · exact (getNonTagLoop_progress _ mp [] 0 hptr).2.1

theorem fixedText_eq (text : CStr) (hlen : text.length < 2 ^ 64) :
    fixedText text = some (keepLastSeparator (firstNumberRun text)) := by
  unfold fixedText priceFixup
  simp only []
  rw [priceFixup_text text 0 hlen (Or.inl rfl)]

theorem priceFixup_second (price : CStr) (aip : AuctionInfo) :
    (priceFixup (some price) (some aip)).2
      = some { aip with currency := fixedCurrency price aip.currency } := by
  unfold fixedCurrency priceFixup
  simp only []
  split
  · rfl
  · next h => simp only [h, if_false]

theorem priceFixup_no_record (price : CStr) :
    priceFixup (some price) none = (fixedText price, none) := rfl

theorem isSeparator_iff (c : Char) : isSeparator c = true ↔ c = ',' ∨ c = '.' := by
  simp [isSeparator]

theorem isdigit_not_isSeparator (c : Char) (h : isdigit c = true) : isSeparator c = false := by
  have hmem := isdigit_cases c h
  simp only [List.mem_cons, List.mem_singleton, List.not_mem_nil, or_false] at hmem
  rcases hmem with h | h | h | h | h | h | h | h | h | h <;> rw [h] <;> decide

theorem keepLastSeparator_of_none : ∀ (run : CStr), run.any isSeparator = false →
    keepLastSeparator run = run
  | [], _ => rfl
  | c :: cs, h => by
    rw [List.any_cons, Bool.or_eq_false_iff] at h
    rw [keepLastSeparator, if_neg (by rw [h.1]; exact Bool.false_ne_true),
      keepLastSeparator_of_none cs h.2]

theorem keepLastSeparator_length_le : ∀ (run : CStr),
    (keepLastSeparator run).length ≤ run.length
  | [] => Nat.le_refl _
  | c :: cs => by
    have ih := keepLastSeparator_length_le cs
    rw [keepLastSeparator]
    split_ifs <;> simp only [List.length_cons] <;> omega

theorem keepLastSeparator_chars : ∀ (run : CStr), (∀ c ∈ run, isNumberChar c = true) →
    ∀ c ∈ keepLastSeparator run, isdigit c = true ∨ c = '.'
  | [], _ => by intro c hc; simp [keepLastSeparator] at hc
  | a :: cs, h => by
    have ih := keepLastSeparator_chars cs (fun c hc => h c (List.mem_cons_of_mem _ hc))
    intro c hc
    rw [keepLastSeparator] at hc
    split_ifs at hc with hs hany
    · exact ih c hc
    · rcases List.mem_cons.mp hc with e | e
      · exact Or.inr e
      · exact ih c e
    · rcases List.mem_cons.mp hc with e | e
      · have ha := h a (List.mem_cons_self _ _)
        simp only [isNumberChar, Bool.or_eq_true] at ha
        rcases ha with ha | ha
        · exact Or.inl (e ▸ ha)
        · exact absurd ha hs
      · exact ih c e

theorem count_dot_of_none (run : CStr) (h : run.any isSeparator = false) :
    run.count '.' = 0 := by
  rw [List.count_eq_zero]
  intro hmem
  have : run.any isSeparator = true := List.any_eq_true.mpr ⟨'.', hmem, by decide⟩
  rw [h] at this
  exact Bool.false_ne_true this

theorem keepLastSeparator_count : ∀ (run : CStr), (keepLastSeparator run).count '.' ≤ 1
  | [] => by simp [keepLastSeparator]
  | a :: cs => by
    have ih := keepLastSeparator_count cs
    rw [keepLastSeparator]
    split_ifs with hs hany
    · exact ih
    · have hnone : cs.any isSeparator = false := by simpa using hany
      rw [keepLastSeparator_of_none cs hnone, List.count_cons_self, count_dot_of_none cs hnone]
    · have hne : a ≠ '.' := by
        intro e
        rw [e] at hs
        exact hs (by decide)
      rw [List.count_cons_of_ne (Ne.symm hne)]
      exact ih

theorem firstNumberRun_of_numberChars (r : CStr) (h : ∀ c ∈ r, isNumberChar c = true) :
    firstNumberRun r = r := by
  unfold firstNumberRun
  have h1 : r.dropWhile (fun c => !isNumberChar c) = r := by
    cases r with
    | nil => rfl
    | cons a t =>
      rw [List.dropWhile_cons_of_neg]
      simp [h a (List.mem_cons_self _ _)]
  rw [h1, List.takeWhile_eq_self_iff]
  exact h

theorem keepLastSeparator_fixed : ∀ (r : CStr), (∀ c ∈ r, isdigit c = true ∨ c = '.') →
    r.count '.' ≤ 1 → keepLastSeparator r = r
  | [], _, _ => rfl
  | a :: cs, h, hcount => by
    have hcs : ∀ c ∈ cs, isdigit c = true ∨ c = '.' :=
      fun c hc => h c (List.mem_cons_of_mem _ hc)
    rw [keepLastSeparator]
    rcases h a (List.mem_cons_self _ _) with ha | ha
    · rw [if_neg (by rw [isdigit_not_isSeparator a ha]; exact Bool.false_ne_true)]
      have hne : a ≠ '.' := by
        intro e
        rw [e] at ha
        exact absurd ha (by decide)
      rw [List.count_cons_of_ne (Ne.symm hne)] at hcount
      rw [keepLastSeparator_fixed cs hcs hcount]
    · rw [ha, List.count_cons_self] at hcount
      have hzero : cs.count '.' = 0 := by omega
      have hnone : cs.any isSeparator = false := by
        rw [Bool.eq_false_iff]
        intro hany
        obtain ⟨c, hc, hsep⟩ := List.any_eq_true.mp hany
        rcases hcs c hc with hd | hd
        · rw [isdigit_not_isSeparator c hd] at hsep
          exact Bool.false_ne_true hsep
        · rw [hd] at hc
          exact (List.count_eq_zero.mp hzero) hc
      rw [ha, if_pos (by decide), if_neg (by rw [hnone]; exact Bool.false_ne_true),
        keepLastSeparator_of_none cs hnone]

theorem firstNumberRun_numberChars (text : CStr) :
    ∀ c ∈ firstNumberRun text, isNumberChar c = true := by
  intro c hc
  unfold firstNumberRun at hc
  exact (List.mem_takeWhile_imp hc)

theorem firstNumberRun_length_le (text : CStr) : (firstNumberRun text).length ≤ text.length := by
  unfold firstNumberRun
  exact ((List.takeWhile_sublist _).length_le).trans (List.dropWhile_sublist _).length_le

theorem fixedText_chars (text r : CStr) (hlen : text.length < 2 ^ 64)
    (h : fixedText text = some r) :
    (∀ c ∈ r, isdigit c = true ∨ c = '.') ∧ r.count '.' ≤ 1 ∧ r.length ≤ text.length := by
  rw [fixedText_eq text hlen] at h
  have e : r = keepLastSeparator (firstNumberRun text) := (Option.some.inj h).symm
  rw [e]
  exact ⟨keepLastSeparator_chars _ (firstNumberRun_numberChars text), keepLastSeparator_count _,
    (keepLastSeparator_length_le _).trans (firstNumberRun_length_le text)⟩

theorem fixedText_fixed (r : CStr) (hlen : r.length < 2 ^ 64)
    (hchars : ∀ c ∈ r, isdigit c = true ∨ c = '.') (hcount : r.count '.' ≤ 1) :
    fixedText r = some r := by
  rw [fixedText_eq r hlen, firstNumberRun_of_numberChars r, keepLastSeparator_fixed r hchars hcount]
  intro c hc
  rcases hchars c hc with h | h
  · simp [isNumberChar, h]
  · rw [h]; decide

theorem fixedText_idempotent (text r : CStr) (hlen : text.length < 2 ^ 64)
    (h : fixedText text = some r) : fixedText r = some r := by
  obtain ⟨h1, h2, h3⟩ := fixedText_chars text r hlen h
  exact fixedText_fixed r (by omega) h1 h2

theorem fixedText_isSome (text : CStr) : ∃ r, fixedText text = some r := ⟨_, rfl⟩

theorem fixedCurrency_of_set (price : CStr) (currency : Option CStr) (h : currency ≠ none) :
    fixedCurrency price currency = currency := by
  unfold fixedCurrency
  rw [if_neg h]

theorem priceFixup_twice (price : Option CStr) (aip : Option AuctionInfo)
    (hlen : ∀ t, price = some t → t.length < 2 ^ 64) :
    priceFixup (priceFixup price aip).1 (priceFixup price aip).2 = priceFixup price aip := by
  cases price with
  | none => rfl
  | some t =>
    obtain ⟨r, hr⟩ := fixedText_isSome t
    have hrr := fixedText_idempotent t r (hlen t rfl) hr
    cases aip with
    | none =>
      rw [priceFixup_no_record, hr]
      simp only []
      rw [priceFixup_no_record, hrr]
    | some a =>
      have h1 := priceFixup_fst t a
      have h2 := priceFixup_second t a
      have e : priceFixup (some t) (some a)
          = (some r, some { a with currency := fixedCurrency t a.currency }) := by
        rw [← hr, ← h1, ← h2]
      rw [e]
      simp only []
      have h3 := priceFixup_fst r { a with currency := fixedCurrency t a.currency }
      have h4 := priceFixup_second r { a with currency := fixedCurrency t a.currency }
      have hcur : fixedCurrency t a.currency ≠ none := by
        unfold fixedCurrency
        split
        · exact Option.some_ne_none _
        · assumption
      rw [fixedCurrency_of_set r _ hcur] at h4
      rw [hrr] at h3
      exact Prod.ext h3 h4

/-- C38: `priceFixup` is idempotent: for every price text (shorter than 2^64
bytes, or `NULL`) and every record, or none, a second call on what the first
left changes nothing, and the text that is left consists of digits and at
most one `.`; with no record, or a record whose currency is set, the record
is left as it was. -/
theorem priceFixup_idempotent (price : Option CStr) (aip : Option AuctionInfo)
    (hlen : ∀ t, price = some t → t.length < 2 ^ 64) :
    priceFixup (priceFixup price aip).1 (priceFixup price aip).2 = priceFixup price aip ∧
    (∀ r, (priceFixup price aip).1 = some r →
      (∀ c ∈ r, isdigit c = true ∨ c = '.') ∧ r.count '.' ≤ 1) ∧
    ((aip = none ∨ ∃ a, aip = some a ∧ a.currency ≠ none) →
      (priceFixup price aip).2 = aip) := by
  refine ⟨priceFixup_twice price aip hlen, ?_, ?_⟩
  · intro r hr
    cases price with
    | none => exact Option.noConfusion hr
    | some t =>
      have ht : fixedText t = some r := by
        cases aip with
        | none => exact hr
        | some a => rw [← priceFixup_fst t a]; exact hr
      have h := fixedText_chars t r (hlen t rfl) ht
      exact ⟨h.1, h.2.1⟩
  · intro h
    cases price with
    | none => rfl
    | some t =>
      rcases h with h | ⟨a, h, hcur⟩
      · rw [h]; rfl
      · rw [h, priceFixup_second, fixedCurrency_of_set t _ hcur]

/-- C38, an instance: the text `EUR 1.234,56` with no record. -/
theorem priceFixup_idempotent_witness :
    (priceFixup (some "EUR 1.234,56".toList) none).1 = some "1234.56".toList ∧
    priceFixup (priceFixup (some "EUR 1.234,56".toList) none).1
        (priceFixup (some "EUR 1.234,56".toList) none).2
      = priceFixup (some "EUR 1.234,56".toList) none :=
  ⟨by decide,
    (priceFixup_idempotent (some "EUR 1.234,56".toList) none
      (fun t ht => by rw [← Option.some.inj ht]; decide)).1⟩

theorem dropWhile_append_head (f : Char → Bool) (sfx : CStr)
    (h : ∀ d ∈ sfx.head?, f d = false) : ∀ (p : CStr),
    (p ++ sfx).dropWhile f = p.dropWhile f ++ sfx
  | [] => by
    cases sfx with
    | nil => rfl
    | cons d r =>
      have := h d rfl
      simp [List.dropWhile, this]
  | c :: p => by
    by_cases hc : f c = true
    · simp only [List.cons_append, List.dropWhile_cons_of_pos hc]
      exact dropWhile_append_head f sfx h p
    · simp only [List.cons_append, List.dropWhile_cons_of_neg hc]

theorem takeWhile_append_head (f : Char → Bool) (sfx : CStr)
    (h : ∀ d ∈ sfx.head?, f d = false) : ∀ (p : CStr),
    (p ++ sfx).takeWhile f = p.takeWhile f
  | [] => by
    cases sfx with
    | nil => rfl
    | cons d r =>
      have := h d rfl
      simp [List.takeWhile, this]
  | c :: p => by
    by_cases hc : f c = true
    · simp only [List.cons_append, List.takeWhile_cons_of_pos hc]
      rw [takeWhile_append_head f sfx h p]
    · simp only [List.cons_append, List.takeWhile_cons_of_neg hc]

theorem NoLineEnd.tail_part {c : Char} {x : CStr} (h : NoLineEnd (c :: x)) : NoLineEnd x :=
  fun a ha => h a (List.mem_cons_of_mem _ ha)

theorem NoLineEnd.dropWhile_part {x : CStr} (h : NoLineEnd x) (f : Char → Bool) :
    NoLineEnd (x.dropWhile f) :=
  fun a ha => h a ((List.dropWhile_sublist f).subset ha)

theorem EndsLine.of_pred {sfx : CStr} (h : EndsLine sfx) (f : Char → Bool)
    (h1 : f '\n' = false) (h2 : f '\r' = false) : ∀ d ∈ sfx.head?, f d = false := by
  intro d hd
  rcases h d hd with e | e <;> rw [e] <;> assumption

theorem skipline_noLineEnd : ∀ (x : CStr), NoLineEnd x → skipline x = []
  | [], _ => rfl
  | c :: x, h => by
    have hc := h c (List.mem_cons_self _ _)
    unfold skipline
    rw [List.dropWhile_cons_of_pos (by simp [hc.1, hc.2])]
    exact skipline_noLineEnd x h.tail_part

theorem skipline_atLineEnd (sfx : CStr) (h : EndsLine sfx) : skipline sfx = sfx := by
  cases sfx with
  | nil => rfl
  | cons d r =>
    unfold skipline
    rw [List.dropWhile_cons_of_neg]
    rcases h d rfl with e | e <;> simp [e]

theorem skipline_append (x sfx : CStr) (hx : NoLineEnd x) (hs : EndsLine sfx) :
    skipline (x ++ sfx) = sfx := by
  unfold skipline
  rw [dropWhile_append_head _ sfx (hs.of_pred _ (by decide) (by decide))]
  have := skipline_noLineEnd x hx
  unfold skipline at this
  rw [this, List.nil_append]

theorem atLineEnd_noLineEnd (x : CStr) (hx : NoLineEnd x) : atLineEnd x = decide (x = []) := by
  cases x with
  | nil => rfl
  | cons c t =>
    have hc := hx c (List.mem_cons_self _ _)
    simp [atLineEnd, hc.1, hc.2]

theorem atLineEnd_append (x sfx : CStr) (hx : NoLineEnd x) (hs : EndsLine sfx) :
    atLineEnd (x ++ sfx) = atLineEnd x := by
  cases x with
  | nil =>
    cases sfx with
    | nil => rfl
    | cons d r =>
      rcases hs d rfl with e | e <;> simp [atLineEnd, e]
  | cons c t => rfl

theorem skipBlanksAndComment_noLineEnd (x : CStr) (hx : NoLineEnd x) :
    NoLineEnd (skipBlanksAndComment x) := by
  unfold skipBlanksAndComment
  have hd := hx.dropWhile_part isLineBlank
  split
  · intro a ha
    exact absurd ha (List.not_mem_nil _)
  · next c fp heq =>
    rw [heq] at hd
    split
    · rw [skipline_noLineEnd fp hd.tail_part]
      intro a ha
      exact absurd ha (List.not_mem_nil _)
    · exact hd

theorem skipBlanksAndComment_append (x sfx : CStr) (hx : NoLineEnd x) (hs : EndsLine sfx) :
    skipBlanksAndComment (x ++ sfx) = skipBlanksAndComment x ++ sfx := by
  unfold skipBlanksAndComment
  rw [dropWhile_append_head _ sfx (hs.of_pred _ (by decide) (by decide))]
  have hd := hx.dropWhile_part isLineBlank
  cases hdrop : x.dropWhile isLineBlank with
  | nil =>
    simp only [List.nil_append]
    cases sfx with
    | nil => rfl
    | cons d r =>
      simp only []
      rw [if_neg]
      rcases hs d rfl with e | e <;> rw [e] <;> decide
  | cons c fp =>
    rw [hdrop] at hd
    simp only [List.cons_append]
    split
    · rw [skipline_append fp sfx hd.tail_part hs, skipline_noLineEnd fp hd.tail_part,
        List.nil_append]
    · rfl

/-- The branch for an auction line reads no further than the end of the
line. -/
theorem readAuctionLine_append (c : Char) (x sfx buf : CStr) (n : Int) (hx : NoLineEnd x)
    (hs : EndsLine sfx) :
    readAuctionLine c (x ++ sfx) buf n
      = ((readAuctionLine c x buf n).1 ++ sfx, (readAuctionLine c x buf n).2.1,
          (readAuctionLine c x buf n).2.2) := by
  unfold readAuctionLine
  simp only []
  rw [takeWhile_append_head _ sfx (hs.of_pred _ (by decide) (by decide)),
    dropWhile_append_head _ sfx (hs.of_pred _ (by decide) (by decide)),
    skipBlanksAndComment_append _ sfx (hx.dropWhile_part _) hs]
  have h1 := skipBlanksAndComment_noLineEnd _ (hx.dropWhile_part isdigit)
  rw [atLineEnd_append _ sfx h1 hs]
  split
  · rfl
  · rw [takeWhile_append_head _ sfx (hs.of_pred _ (by decide) (by decide)),
      dropWhile_append_head _ sfx (hs.of_pred _ (by decide) (by decide)),
      skipBlanksAndComment_append _ sfx (h1.dropWhile_part _) hs,
      atLineEnd_append _ sfx (skipBlanksAndComment_noLineEnd _ (h1.dropWhile_part _)) hs]

theorem dropWhile_isspace_noLineEnd : ∀ (x : CStr), NoLineEnd x →
    x.dropWhile isspace = x.dropWhile isLineBlank
  | [], _ => rfl
  | c :: x, h => by
    have hc := h c (List.mem_cons_self _ _)
    have e : isLineBlank c = isspace c := by
      rw [isLineBlank, bne_iff_ne.mpr hc.1, bne_iff_ne.mpr hc.2, Bool.and_true, Bool.and_true]
    by_cases hs : isspace c = true
    · rw [List.dropWhile_cons_of_pos hs, List.dropWhile_cons_of_pos (by rw [e]; exact hs)]
      exact dropWhile_isspace_noLineEnd x h.tail_part
    · rw [List.dropWhile_cons_of_neg hs, List.dropWhile_cons_of_neg (by rw [e]; exact hs)]

theorem encodeLines_append : ∀ (acc : List (CStr × Option CStr)) (id : CStr)
    (price : Option CStr),
    encodeLines (acc ++ [(id, price)])
      = encodeLines acc ++ (match price with
          | none => id ++ ['\n']
          | some p => id ++ ' ' :: p ++ ['\n'])
  | [], id, none => by simp [encodeLines]
  | [], id, some p => by simp [encodeLines]
  | (a, none) :: acc, id, price => by
    rw [List.cons_append, encodeLines, encodeLines, encodeLines_append acc id price]
    simp
  | (a, some q) :: acc, id, price => by
    rw [List.cons_append, encodeLines, encodeLines, encodeLines_append acc id price]
    simp

/-- On a line without line ends, the branch for an auction line does what the
kind of the line says. -/
theorem readAuctionLine_classify (c : Char) (x buf : CStr) (n : Int) (hc : isdigit c = true)
    (hx : NoLineEnd (c :: x)) :
    (∀ id, classifyLine (c :: x) = .auction id none →
      readAuctionLine c x buf n
        = ([], buf ++ id ++ ['\n'], if n + 1 = 1 then -1 else n + 1)) ∧
    (∀ id p, classifyLine (c :: x) = .auction id (some p) →
      readAuctionLine c x buf n = ([], buf ++ id ++ ' ' :: p ++ ['\n'], n + 1)) ∧
    (classifyLine (c :: x) = .invalid → (readAuctionLine c x buf n).2.2 = -1) ∧
    classifyLine (c :: x) ≠ .skipped := by
  have hsp : isspace c = false := isdigit_not_isspace c hc
  have hnh : c ≠ '#' := by
    intro e
    rw [e] at hc
    exact absurd hc (by decide)
  have hna : isalpha c = false := by
    have := isdigit_cases c hc
    simp only [List.mem_cons, List.mem_singleton, List.not_mem_nil, or_false] at this
    rcases this with h | h | h | h | h | h | h | h | h | h <;> subst h <;> decide
  have hxt : NoLineEnd x := hx.tail_part
  have hd1 : NoLineEnd (x.dropWhile isdigit) := hxt.dropWhile_part _
  unfold classifyLine readAuctionLine skipBlanksAndComment
  rw [List.dropWhile_cons_of_neg (by rw [hsp]; exact Bool.false_ne_true)]
  simp only [hnh, hna, hc, false_or, Bool.false_eq_true, if_false, if_true,
    List.dropWhile_cons_of_pos hc, List.takeWhile_cons_of_pos hc]
  rw [dropWhile_isspace_noLineEnd _ hd1]
  have hd2 : NoLineEnd ((x.dropWhile isdigit).dropWhile isLineBlank) := hd1.dropWhile_part _
  cases h2 : (x.dropWhile isdigit).dropWhile isLineBlank with
  | nil =>
    simp only [atLineEnd, if_true]
    refine ⟨?_, ?_, ?_, ?_⟩
    · intro id h
      simp only [LineKind.auction.injEq, and_true] at h
      rw [← h]
    · intro id p h
      simp at h
    · intro h
      simp at h
    · simp
  | cons d rest1 =>
    rw [h2] at hd2
    have hdl := hd2 d (List.mem_cons_self _ _)
    by_cases hdh : d = '#'
    · simp only [hdh, if_true, skipline_noLineEnd rest1 hd2.tail_part, atLineEnd]
      refine ⟨?_, ?_, ?_, ?_⟩
      · intro id h
        simp only [LineKind.auction.injEq, and_true] at h
        rw [← h]
      · intro id p h
        simp at h
      · intro h
        simp at h
      · simp
    · have hal : atLineEnd (d :: rest1) = false := by
        simp [atLineEnd, hdl.1, hdl.2]
      simp only [hdh, if_false, hal, Bool.false_eq_true]
      have hd3 : NoLineEnd ((d :: rest1).dropWhile isPriceChar) := hd2.dropWhile_part _
      rw [dropWhile_isspace_noLineEnd _ hd3]
      have hd4 : NoLineEnd (((d :: rest1).dropWhile isPriceChar).dropWhile isLineBlank) :=
        hd3.dropWhile_part _
      cases h4 : ((d :: rest1).dropWhile isPriceChar).dropWhile isLineBlank with
      | nil =>
        simp only [atLineEnd, if_true]
        refine ⟨?_, ?_, ?_, ?_⟩
        · intro id h
          simp at h
        · intro id p h
          simp only [LineKind.auction.injEq, Option.some.injEq] at h
          rw [← h.1, ← h.2]
        · intro h
          simp at h
        · simp
      | cons e rest2 =>
        rw [h4] at hd4
        have hel := hd4 e (List.mem_cons_self _ _)
        by_cases heh : e = '#'
        · simp only [heh, if_true, skipline_noLineEnd rest2 hd4.tail_part, atLineEnd]
          refine ⟨?_, ?_, ?_, ?_⟩
          · intro id h
            simp at h
          · intro id p h
            simp only [LineKind.auction.injEq, Option.some.injEq] at h
            rw [← h.1, ← h.2]
          · intro h
            simp at h
          · simp
        · have hal2 : atLineEnd (e :: rest2) = false := by
            simp [atLineEnd, hel.1, hel.2]
          simp only [heh, if_false, hal2, Bool.false_eq_true]
          refine ⟨?_, ?_, ?_, ?_⟩
          · intro id h
            simp at h
          · intro id p h
            simp at h
          · intro _
            trivial
          · simp

theorem fileLines_ne_nil : ∀ (fp : CStr), fileLines fp ≠ []
  | [] => by simp [fileLines]
  | c :: rest => by
    rw [fileLines]
    split
    · simp
    · split <;> simp

/-- A file is its first line, followed by nothing or by a line end and the
rest of the file. -/
theorem fileLines_split : ∀ (fp : CStr), ∃ x sfx, fp = x ++ sfx ∧ NoLineEnd x ∧
    ((sfx = [] ∧ fileLines fp = [x]) ∨
      ∃ e y, sfx = e :: y ∧ (e = '\n' ∨ e = '\r') ∧ fileLines fp = x :: fileLines y)
  | [] => ⟨[], [], rfl, fun _ h => absurd h (List.not_mem_nil _), Or.inl ⟨rfl, rfl⟩⟩
  | c :: rest => by
    obtain ⟨x, sfx, h1, h2, h3⟩ := fileLines_split rest
    by_cases hc : c = '\n' ∨ c = '\r'
    · refine ⟨[], c :: rest, rfl, fun _ h => absurd h (List.not_mem_nil _), Or.inr ?_⟩
      exact ⟨c, rest, rfl, hc, by rw [fileLines, if_pos hc]⟩
    · have hcn : c ≠ '\n' ∧ c ≠ '\r' := by
        push_neg at hc
        exact hc
      refine ⟨c :: x, sfx, by rw [h1]; rfl, ?_, ?_⟩
      · intro a ha
        rcases List.mem_cons.mp ha with e | e
        · rw [e]; exact hcn
        · exact h2 a e
      · rcases h3 with ⟨h3, h4⟩ | ⟨e, y, h3, h4, h5⟩
        · exact Or.inl ⟨h3, by rw [fileLines, if_neg hc, h4]⟩
        · exact Or.inr ⟨e, y, h3, h4, by rw [fileLines, if_neg hc, h5]⟩

theorem classifyLine_cons_space (c : Char) (x : CStr) (h : isspace c = true) :
    classifyLine (c :: x) = classifyLine x := by
  unfold classifyLine
  rw [List.dropWhile_cons_of_pos h]

theorem readAuctionLines_rejected : ∀ (fuel : Nat) (fp buf : CStr),
    readAuctionLines fuel fp buf (-1) = (buf, -1)
  | 0, _, _ => rfl
  | fuel + 1, _, _ => by
    unfold readAuctionLines
    rw [if_pos rfl]

theorem isspace_of_lineEnd (c : Char) (h : c = '\n' ∨ c = '\r') : isspace c = true := by
  rcases h with e | e <;> rw [e] <;> decide

theorem readAuctionLines_nil (fuel : Nat) (buf : CStr) (n : Int) :
    readAuctionLines fuel [] buf n = (buf, n) := by
  cases fuel with
  | zero => rfl
  | succ fuel =>
    conv_lhs => unfold readAuctionLines
    split <;> rfl

theorem readAuctionLines_space (fuel : Nat) (c : Char) (fp buf : CStr) (n : Int) (hn : n ≠ -1)
    (hc : isspace c = true) :
    readAuctionLines (fuel + 1) (c :: fp) buf n = readAuctionLines fuel fp buf n := by
  conv_lhs => unfold readAuctionLines
  rw [if_neg hn]
  simp only [hc, if_true]

theorem readAuctionLines_skip (fuel : Nat) (c : Char) (fp buf : CStr) (n : Int) (hn : n ≠ -1)
    (hc : isspace c = false) (hskip : c = '#' ∨ isalpha c = true) :
    (skipline fp = [] → readAuctionLines (fuel + 1) (c :: fp) buf n = (buf, n)) ∧
    (∀ e y, skipline fp = e :: y →
      readAuctionLines (fuel + 1) (c :: fp) buf n = readAuctionLines fuel y buf n) := by
  constructor
  · intro h
    conv_lhs => unfold readAuctionLines
    rw [if_neg hn]
    simp only [hc, Bool.false_eq_true, if_false, hskip, if_true, h]
  · intro e y h
    conv_lhs => unfold readAuctionLines
    rw [if_neg hn]
    simp only [hc, Bool.false_eq_true, if_false, hskip, if_true, h]

theorem readAuctionLines_digit (fuel : Nat) (c : Char) (fp buf : CStr) (n : Int) (hn : n ≠ -1)
    (hc : isdigit c = true) :
    ((readAuctionLine c fp buf n).1 = [] →
      readAuctionLines (fuel + 1) (c :: fp) buf n
        = ((readAuctionLine c fp buf n).2.1, (readAuctionLine c fp buf n).2.2)) ∧
    (∀ e y, (readAuctionLine c fp buf n).1 = e :: y →
      readAuctionLines (fuel + 1) (c :: fp) buf n
        = readAuctionLines fuel y (readAuctionLine c fp buf n).2.1
            (readAuctionLine c fp buf n).2.2) := by
  have hsp : isspace c = false := isdigit_not_isspace c hc
  have hnh : ¬ (c = '#' ∨ isalpha c = true) := by
    have := isdigit_cases c hc
    simp only [List.mem_cons, List.mem_singleton, List.not_mem_nil, or_false] at this
    rcases this with h | h | h | h | h | h | h | h | h | h <;> subst h <;> decide
  constructor
  · intro h
    conv_lhs => unfold readAuctionLines
    rw [if_neg hn]
    simp only [hsp, Bool.false_eq_true, if_false, hnh, hc, if_true]
    generalize readAuctionLine c fp buf n = r at h ⊢
    obtain ⟨r1, r2, r3⟩ := r
    simp only at h
    subst h
    rfl
  · intro e y h
    conv_lhs => unfold readAuctionLines
    rw [if_neg hn]
    simp only [hsp, Bool.false_eq_true, if_false, hnh, hc, if_true]
    generalize readAuctionLine c fp buf n = r at h ⊢
    obtain ⟨r1, r2, r3⟩ := r
    simp only at h
    subst h
    rfl

theorem readAuctionLines_invalid (fuel : Nat) (c : Char) (fp buf : CStr) (n : Int)
    (hn : n ≠ -1) (hc : isspace c = false) (hskip : ¬ (c = '#' ∨ isalpha c = true))
    (hd : isdigit c = false) :
    readAuctionLines (fuel + 1) (c :: fp) buf n = (buf, -1) := by
  conv_lhs => unfold readAuctionLines
  rw [if_neg hn]
  simp only [hc, Bool.false_eq_true, if_false, hskip, hd]

theorem parseLines_space (acc : List (CStr × Option CStr)) (c : Char) (rest : CStr)
    (hc : isspace c = true) :
    parseLines acc (fileLines (c :: rest)) = parseLines acc (fileLines rest) := by
  rw [fileLines]
  split
  · rw [parseLines]
    rfl
  · split
    · next line lines heq =>
      rw [heq, parseLines, classifyLine_cons_space c line hc]
      conv_rhs => rw [parseLines]
    · next heq => exact absurd heq (fileLines_ne_nil rest)

theorem fileLines_cons_other (c : Char) (rest x : CStr) (tail : List CStr)
    (hc : ¬ (c = '\n' ∨ c = '\r')) (h : fileLines rest = x :: tail) :
    fileLines (c :: rest) = (c :: x) :: tail := by
  rw [fileLines, if_neg hc, h]

/-- The loop of `readAuctionFile` reads the file line by line: it ends with
`numAuctions = -1` when the lines do not parse, and otherwise with the text of
the auction lines in the buffer and their number in `numAuctions`. -/
theorem readAuctionLines_parse : ∀ (fuel : Nat) (fp : CStr) (acc : List (CStr × Option CStr)),
    fp.length < fuel →
    (parseLines acc (fileLines fp) = none →
      (readAuctionLines fuel fp (encodeLines acc) acc.length).2 = -1) ∧
    (∀ ls, parseLines acc (fileLines fp) = some ls →
      readAuctionLines fuel fp (encodeLines acc) acc.length = (encodeLines ls, (ls.length : Int)))
  | 0, _, _, h => by omega
  | fuel + 1, [], acc, _ => by
    rw [readAuctionLines_nil]
    have hp : parseLines acc (fileLines []) = some acc := rfl
    rw [hp]
    constructor
    · intro h
      exact Option.noConfusion h
    · intro ls h
      rw [Option.some.inj h]
  | fuel + 1, c :: rest, acc, hlen => by
    have ih := readAuctionLines_parse fuel
    have hn : (acc.length : Int) ≠ -1 := by omega
    have hrl : rest.length < fuel := by
      simp only [List.length_cons] at hlen
      omega
    by_cases hsp : isspace c = true
    · rw [readAuctionLines_space fuel c rest _ _ hn hsp, parseLines_space acc c rest hsp]
      exact ih rest acc hrl
    · have hsp0 : isspace c = false := by simpa using hsp
      have hcl : ¬ (c = '\n' ∨ c = '\r') := fun h => hsp (isspace_of_lineEnd c h)
      obtain ⟨x, sfx, h1, h2, h3⟩ := fileLines_split rest
      have hx : NoLineEnd (c :: x) := by
        intro a ha
        rcases List.mem_cons.mp ha with e | e
        · rw [e]
          push_neg at hcl
          exact hcl
        · exact h2 a e
      have hs : EndsLine sfx := by
        rcases h3 with ⟨h3, _⟩ | ⟨e, y, h3, h4, _⟩
        · rw [h3]
          intro d hd
          simp at hd
        · rw [h3]
          intro d hd
          simp only [List.head?_cons, Option.mem_def, Option.some.injEq] at hd
          rw [← hd]
          exact h4
      -- what is left after the line, and the lines after it
      have hafter : ∀ (buf1 : CStr) (acc1 : List (CStr × Option CStr)),
          buf1 = encodeLines acc1 →
          ∃ tail, fileLines (c :: rest) = (c :: x) :: tail ∧
            (parseLines acc1 tail = none →
              ((sfx = [] → False) ∧
                ∀ e y, sfx = e :: y →
                  (readAuctionLines fuel y buf1 acc1.length).2 = -1)) ∧
            (∀ ls, parseLines acc1 tail = some ls →
              ((sfx = [] → (buf1, (acc1.length : Int)) = (encodeLines ls, (ls.length : Int))) ∧
                ∀ e y, sfx = e :: y →
                  readAuctionLines fuel y buf1 acc1.length
                    = (encodeLines ls, (ls.length : Int)))) := by
        intro buf1 acc1 hb
        rcases h3 with ⟨h3, h4⟩ | ⟨e, y, h3, h4, h5⟩
        · refine ⟨[], fileLines_cons_other c rest x [] hcl h4, ?_, ?_⟩
          · intro h
            exact Option.noConfusion h
          · intro ls h
            have : acc1 = ls := Option.some.inj h
            subst this
            refine ⟨fun _ => by rw [hb], ?_⟩
            intro e y he
            rw [h3] at he
            exact List.noConfusion he
        · refine ⟨fileLines y, fileLines_cons_other c rest x _ hcl h5, ?_, ?_⟩
          · intro h
            refine ⟨fun he => by rw [h3] at he; exact List.noConfusion he, ?_⟩
            intro e1 y1 he
            rw [h3] at he
            obtain ⟨_, hy⟩ := List.cons.inj he
            subst hy
            rw [hb]
            have hyl : y.length < fuel := by
              rw [h1, h3] at hrl
              simp only [List.length_append, List.length_cons] at hrl
              omega
            exact (ih y acc1 hyl).1 h
          · intro ls h
            refine ⟨fun he => by rw [h3] at he; exact List.noConfusion he, ?_⟩
            intro e1 y1 he
            rw [h3] at he
            obtain ⟨_, hy⟩ := List.cons.inj he
            subst hy
            rw [hb]
            have hyl : y.length < fuel := by
              rw [h1, h3] at hrl
              simp only [List.length_append, List.length_cons] at hrl
              omega
            exact (ih y acc1 hyl).2 ls h
      have hdrop : (c :: x).dropWhile isspace = c :: x :=
        List.dropWhile_cons_of_neg hsp
      by_cases hskip : c = '#' ∨ isalpha c = true
      · -- a comment or an option
        obtain ⟨tail, ht1, ht2, ht3⟩ := hafter (encodeLines acc) acc rfl
        have hkind : classifyLine (c :: x) = .skipped := by
          unfold classifyLine
          rw [hdrop]
          simp only [hskip, if_true]
        have hp : parseLines acc (fileLines (c :: rest)) = parseLines acc tail := by
          rw [ht1, parseLines, hkind]
        rw [hp]
        have hsk : skipline rest = sfx := by
          rw [h1]
          exact skipline_append x sfx h2 hs
        obtain ⟨k1, k2⟩ := readAuctionLines_skip fuel c rest (encodeLines acc) acc.length hn
          hsp0 hskip
        constructor
        · intro h
          obtain ⟨g1, g2⟩ := ht2 h
          cases hsfx : sfx with
          | nil => exact absurd hsfx g1
          | cons e y =>
            rw [k2 e y (by rw [hsk, hsfx])]
            exact g2 e y hsfx
        · intro ls h
          obtain ⟨g1, g2⟩ := ht3 ls h
          cases hsfx : sfx with
          | nil =>
            rw [k1 (by rw [hsk, hsfx])]
            exact g1 hsfx
          | cons e y =>
            rw [k2 e y (by rw [hsk, hsfx])]
            exact g2 e y hsfx
      · by_cases hd : isdigit c = true
        · -- an auction line
          obtain ⟨c1, c2, c3, c4⟩ := readAuctionLine_classify c x (encodeLines acc) acc.length
            hd hx
          obtain ⟨k1, k2⟩ := readAuctionLines_digit fuel c rest (encodeLines acc) acc.length hn
            hd
          have hra := readAuctionLine_append c x sfx (encodeLines acc) acc.length h2 hs
          rw [← h1] at hra
          cases hkind : classifyLine (c :: x) with
          | skipped => exact absurd hkind c4
          | invalid =>
            have hr := c3 hkind
            have hp : parseLines acc (fileLines (c :: rest)) = none := by
              obtain ⟨tail, ht1, _, _⟩ := hafter (encodeLines acc) acc rfl
              rw [ht1, parseLines, hkind]
            rw [hp]
            refine ⟨fun _ => ?_, fun ls h => Option.noConfusion h⟩
            cases hcur : (readAuctionLine c rest (encodeLines acc) acc.length).1 with
            | nil =>
              rw [k1 hcur, hra]
              exact hr
            | cons e y =>
              rw [k2 e y hcur, hra]
              simp only []
              rw [hr, readAuctionLines_rejected]
          | auction id price =>
            cases price with
            | none =>
              have hr := c1 id hkind
              by_cases hacc : acc = []
              · have hp : parseLines acc (fileLines (c :: rest)) = none := by
                  obtain ⟨tail, ht1, _, _⟩ := hafter (encodeLines acc) acc rfl
                  rw [ht1, parseLines, hkind]
                  simp only [hacc, and_self, if_true]
                rw [hp]
                refine ⟨fun _ => ?_, fun ls h => Option.noConfusion h⟩
                have hr2 : (readAuctionLine c rest (encodeLines acc) acc.length).2.2 = -1 := by
                  rw [hra, hr]
                  simp [hacc]
                cases hcur : (readAuctionLine c rest (encodeLines acc) acc.length).1 with
                | nil =>
                  rw [k1 hcur]
                  exact hr2
                | cons e y =>
                  rw [k2 e y hcur, hr2, readAuctionLines_rejected]
              · have hbuf : encodeLines acc ++ id ++ ['\n']
                    = encodeLines (acc ++ [(id, none)]) := by
                  rw [encodeLines_append]
                  simp
                have hnum : (if (acc.length : Int) + 1 = 1 then (-1 : Int)
                    else (acc.length : Int) + 1) = ((acc ++ [(id, (none : Option CStr))]).length : Int) := by
                  have : acc.length ≠ 0 := fun h => hacc (List.length_eq_zero.mp h)
                  rw [if_neg (by omega)]
                  simp
                obtain ⟨tail, ht1, ht2, ht3⟩ := hafter (encodeLines (acc ++ [(id, none)]))
                  (acc ++ [(id, none)]) rfl
                have hp : parseLines acc (fileLines (c :: rest))
                    = parseLines (acc ++ [(id, none)]) tail := by
                  rw [ht1, parseLines, hkind]
                  simp only [hacc, and_false, if_false]
                rw [hp]
                have hcur : (readAuctionLine c rest (encodeLines acc) acc.length).1 = sfx := by
                  rw [hra, hr]
                  rfl
                have hb2 : (readAuctionLine c rest (encodeLines acc) acc.length).2.1
                    = encodeLines (acc ++ [(id, none)]) := by
                  rw [hra, hr, ← hbuf]
                have hn2 : (readAuctionLine c rest (encodeLines acc) acc.length).2.2
                    = ((acc ++ [(id, (none : Option CStr))]).length : Int) := by
                  rw [hra, hr, ← hnum]
                constructor
                · intro h
                  obtain ⟨g1, g2⟩ := ht2 h
                  cases hsfx : sfx with
                  | nil => exact absurd hsfx g1
                  | cons e y =>
                    rw [k2 e y (by rw [hcur, hsfx]), hb2, hn2]
                    exact g2 e y hsfx
                · intro ls h
                  obtain ⟨g1, g2⟩ := ht3 ls h
                  cases hsfx : sfx with
                  | nil =>
                    rw [k1 (by rw [hcur, hsfx]), hb2, hn2]
                    exact g1 hsfx
                  | cons e y =>
                    rw [k2 e y (by rw [hcur, hsfx]), hb2, hn2]
                    exact g2 e y hsfx
            | some p =>
              have hr := c2 id p hkind
              have hbuf : encodeLines acc ++ id ++ ' ' :: p ++ ['\n']
                  = encodeLines (acc ++ [(id, some p)]) := by
                rw [encodeLines_append]
                simp
              have hnum : (acc.length : Int) + 1 = ((acc ++ [(id, some p)]).length : Int) := by
                simp
              obtain ⟨tail, ht1, ht2, ht3⟩ := hafter (encodeLines (acc ++ [(id, some p)]))
                (acc ++ [(id, some p)]) rfl
              have hp : parseLines acc (fileLines (c :: rest))
                  = parseLines (acc ++ [(id, some p)]) tail := by
                rw [ht1, parseLines, hkind]
                simp
              rw [hp]
              have hcur : (readAuctionLine c rest (encodeLines acc) acc.length).1 = sfx := by
                rw [hra, hr]
                rfl
              have hb2 : (readAuctionLine c rest (encodeLines acc) acc.length).2.1
                  = encodeLines (acc ++ [(id, some p)]) := by
                rw [hra, hr, ← hbuf]
              have hn2 : (readAuctionLine c rest (encodeLines acc) acc.length).2.2
                  = ((acc ++ [(id, some p)]).length : Int) := by
                rw [hra, hr, ← hnum]
              constructor
              · intro h
                obtain ⟨g1, g2⟩ := ht2 h
                cases hsfx : sfx with
                | nil => exact absurd hsfx g1
                | cons e y =>
                  rw [k2 e y (by rw [hcur, hsfx]), hb2, hn2]
                  exact g2 e y hsfx
              · intro ls h
                obtain ⟨g1, g2⟩ := ht3 ls h
                cases hsfx : sfx with
                | nil =>
                  rw [k1 (by rw [hcur, hsfx]), hb2, hn2]
                  exact g1 hsfx
                | cons e y =>
                  rw [k2 e y (by rw [hcur, hsfx]), hb2, hn2]
                  exact g2 e y hsfx
        · -- a malformed line
          have hd0 : isdigit c = false := by simpa using hd
          rw [readAuctionLines_invalid fuel c rest _ _ hn hsp0 hskip hd0]
          have hkind : classifyLine (c :: x) = .invalid := by
            unfold classifyLine
            rw [hdrop]
            simp only [hskip, if_false, hd0, Bool.false_eq_true]
          have hp : parseLines acc (fileLines (c :: rest)) = none := by
            obtain ⟨tail, ht1, _, _⟩ := hafter (encodeLines acc) acc rfl
            rw [ht1, parseLines, hkind]
          rw [hp]
          exact ⟨fun _ => rfl, fun ls h => Option.noConfusion h⟩

theorem classifyLine_auction (line id : CStr) (price : Option CStr)
    (h : classifyLine line = .auction id price) : WellFormedLine (id, price) := by
  unfold classifyLine at h
  split at h
  · exact LineKind.noConfusion h
  · next c rest hdrop =>
    split at h
    · exact LineKind.noConfusion h
    · split at h
      · next hc =>
        have hid : (c :: rest).takeWhile isdigit ≠ [] ∧
            ∀ a ∈ (c :: rest).takeWhile isdigit, isdigit a = true := by
          refine ⟨?_, fun a ha => List.mem_takeWhile_imp ha⟩
          rw [List.takeWhile_cons_of_pos hc]
          exact List.cons_ne_nil _ _
        split at h
        · simp only [LineKind.auction.injEq] at h
          rw [← h.1, ← h.2]
          exact ⟨hid.1, hid.2, fun p hp => Option.noConfusion hp⟩
        · next d rest1 hd =>
          split at h
          · simp only [LineKind.auction.injEq] at h
            rw [← h.1, ← h.2]
            exact ⟨hid.1, hid.2, fun p hp => Option.noConfusion hp⟩
          · next hdh =>
            have hdsp : isspace d = false := by
              have := List.head_dropWhile_not isspace ((c :: rest).dropWhile isdigit)
                (by rw [hd]; exact List.cons_ne_nil _ _)
              simpa [hd] using this
            have hprice : isPriceChar d = true →
                (d :: rest1).takeWhile isPriceChar ≠ [] ∧
                ∀ a ∈ (d :: rest1).takeWhile isPriceChar, isPriceChar a = true := by
              intro hp
              refine ⟨?_, fun a ha => List.mem_takeWhile_imp ha⟩
              rw [List.takeWhile_cons_of_pos hp]
              exact List.cons_ne_nil _ _
            have hnot : isPriceChar d = false →
                ((d :: rest1).dropWhile isPriceChar).dropWhile isspace = d :: rest1 := by
              intro hp
              rw [List.dropWhile_cons_of_neg (by rw [hp]; exact Bool.false_ne_true),
                List.dropWhile_cons_of_neg (by rw [hdsp]; exact Bool.false_ne_true)]
            by_cases hp : isPriceChar d = true
            · split at h
              · simp only [LineKind.auction.injEq] at h
                rw [← h.1, ← h.2]
                refine ⟨hid.1, hid.2, fun p hpe => ?_⟩
                rw [← Option.some.inj hpe]
                exact hprice hp
              · split at h
                · simp only [LineKind.auction.injEq] at h
                  rw [← h.1, ← h.2]
                  refine ⟨hid.1, hid.2, fun p hpe => ?_⟩
                  rw [← Option.some.inj hpe]
                  exact hprice hp
                · exact LineKind.noConfusion h
            · rw [hnot (by simpa using hp)] at h
              simp only [hdh, if_false] at h
              exact LineKind.noConfusion h
      · exact LineKind.noConfusion h

theorem parseLines_wellFormed : ∀ (lines : List CStr) (acc ls : List (CStr × Option CStr)),
    (∀ l ∈ acc, WellFormedLine l) → (∀ l, acc.head? = some l → l.2 ≠ none) →
    parseLines acc lines = some ls →
    (∀ l ∈ ls, WellFormedLine l) ∧ (∀ l, ls.head? = some l → l.2 ≠ none)
  | [], acc, ls, h1, h2, h => by
    rw [parseLines] at h
    rw [← Option.some.inj h]
    exact ⟨h1, h2⟩
  | line :: lines, acc, ls, h1, h2, h => by
    rw [parseLines] at h
    split at h
    · exact parseLines_wellFormed lines acc ls h1 h2 h
    · exact Option.noConfusion h
    · next id price hkind =>
      split at h
      · exact Option.noConfusion h
      · next hcond =>
        apply parseLines_wellFormed lines (acc ++ [(id, price)]) ls _ _ h
        · intro l hl
          rcases List.mem_append.mp hl with hl | hl
          · exact h1 l hl
          · rw [List.mem_singleton] at hl
            rw [hl]
            exact classifyLine_auction line id price hkind
        · intro l hl
          cases acc with
          | nil =>
            simp only [List.nil_append, List.head?_cons, Option.some.injEq] at hl
            rw [← hl]
            intro hp
            exact hcond ⟨hp, rfl⟩
          | cons a t =>
            simp only [List.cons_append, List.head?_cons, Option.some.injEq] at hl
            exact h2 l (by simp [hl])

theorem parseLines_invalid : ∀ (lines : List CStr) (acc : List (CStr × Option CStr))
    (line : CStr), line ∈ lines → classifyLine line = .invalid → parseLines acc lines = none
  | [], _, _, h, _ => absurd h (List.not_mem_nil _)
  | first :: lines, acc, line, h, hbad => by
    rw [parseLines]
    rcases List.mem_cons.mp h with e | e
    · rw [← e, hbad]
    · split
      · exact parseLines_invalid lines acc line e hbad
      · rfl
      · split
        · rfl
        · exact parseLines_invalid lines _ line e hbad

/-! ## The records of the auction lines -/

theorem newAuctionInfo_fixed (id id0 p : CStr) (hlen : p.length < 2 ^ 64) :
    newAuctionInfo id (newAuctionInfo id0 (some p)).bidPriceStr = newAuctionInfo id (some p) := by
  obtain ⟨r, hr⟩ := fixedText_isSome p
  have hrr := fixedText_idempotent p r hlen hr
  have h1 : (newAuctionInfo id0 (some p)).bidPriceStr = some r := by
    rw [← hr]
    rfl
  have h2 : (priceFixup (some r) none).1 = some r := hrr
  have h3 : (priceFixup (some p) none).1 = some r := hr
  rw [h1]
  unfold newAuctionInfo
  rw [h2, h3]

theorem takeWhile_append_all (f : Char → Bool) : ∀ (p sfx : CStr), (∀ c ∈ p, f c = true) →
    (p ++ sfx).takeWhile f = p ++ sfx.takeWhile f
  | [], _, _ => rfl
  | c :: p, sfx, h => by
    rw [List.cons_append, List.takeWhile_cons_of_pos (h c (List.mem_cons_self _ _)),
      takeWhile_append_all f p sfx (fun a ha => h a (List.mem_cons_of_mem _ ha))]
    rfl

theorem dropWhile_append_all (f : Char → Bool) : ∀ (p sfx : CStr), (∀ c ∈ p, f c = true) →
    (p ++ sfx).dropWhile f = sfx.dropWhile f
  | [], _, _ => rfl
  | c :: p, sfx, h => by
    rw [List.cons_append, List.dropWhile_cons_of_pos (h c (List.mem_cons_self _ _)),
      dropWhile_append_all f p sfx (fun a ha => h a (List.mem_cons_of_mem _ ha))]

theorem buildAuctions_inherit (n : Nat) (id rest : CStr) (built : List AuctionInfo)
    (b : AuctionInfo) (hid : ∀ c ∈ id, isspace c = false) (hb : built.getLast? = some b) :
    buildAuctions (n + 1) (id ++ '\n' :: rest) built
      = buildAuctions n rest (built ++ [newAuctionInfo id b.bidPriceStr]) := by
  have hf : ∀ c ∈ id, (fun c => !isspace c) c = true := fun c hc => by simp [hid c hc]
  conv_lhs => unfold buildAuctions
  simp only []
  rw [takeWhile_append_all _ id _ hf, dropWhile_append_all _ id _ hf,
    List.takeWhile_cons_of_neg (by decide), List.dropWhile_cons_of_neg (by decide)]
  simp only [if_true, hb, List.append_nil]

theorem buildAuctions_stated (n : Nat) (id q rest : CStr) (built : List AuctionInfo)
    (hid : ∀ c ∈ id, isspace c = false) (hq : ∀ c ∈ q, c ≠ '\n') :
    buildAuctions (n + 1) (id ++ ' ' :: q ++ '\n' :: rest) built
      = buildAuctions n rest (built ++ [newAuctionInfo id (some q)]) := by
  have hf : ∀ c ∈ id, (fun c => !isspace c) c = true := fun c hc => by simp [hid c hc]
  have hg : ∀ c ∈ q, (fun c => c != '\n') c = true := fun c hc => by simp [hq c hc]
  conv_lhs => unfold buildAuctions
  simp only [List.append_assoc, List.cons_append]
  rw [takeWhile_append_all _ id _ hf, dropWhile_append_all _ id _ hf,
    List.takeWhile_cons_of_neg (by decide), List.dropWhile_cons_of_neg (by decide)]
  simp only [if_neg (by decide : ¬ ' ' = '\n'), List.append_nil]
  rw [takeWhile_append_all _ q _ hg, dropWhile_append_all _ q _ hg,
    List.takeWhile_cons_of_neg (by decide), List.dropWhile_cons_of_neg (by decide)]
  simp only [List.append_nil]

theorem isspace_of_wellFormed {l : CStr × Option CStr} (h : WellFormedLine l) :
    (∀ c ∈ l.1, isspace c = false) ∧ ∀ p, l.2 = some p → ∀ c ∈ p, c ≠ '\n' := by
  refine ⟨fun c hc => isdigit_not_isspace c (h.2.1 c hc), ?_⟩
  intro p hp c hc e
  have := (h.2.2 p hp).2 c hc
  rw [e] at this
  exact absurd this (by decide)

/-- The second loop of `readAuctionFile` builds, from the text of the auction
lines, the records with the prices that the lines use. -/
theorem buildAuctions_encodeLines : ∀ (lines : List (CStr × Option CStr))
    (built : List AuctionInfo) (last : Option CStr),
    (∀ l ∈ lines, WellFormedLine l) →
    (∀ l ∈ lines, ∀ p, l.2 = some p → p.length < 2 ^ 64) →
    ((∃ b p, built.getLast? = some b ∧ last = some p ∧
        b.bidPriceStr = (newAuctionInfo [] (some p)).bidPriceStr ∧ p.length < 2 ^ 64) ∨
      (built = [] ∧ last = none ∧ ∀ l, lines.head? = some l → l.2 ≠ none)) →
    buildAuctions lines.length (encodeLines lines) built
      = .value (built ++ (inheritPrices last lines).map (fun l => newAuctionInfo l.1 l.2))
  | [], built, last, _, _, _ => by
    simp [buildAuctions, inheritPrices]
  | (id, none) :: rest, built, last, hwf, hlen, hlink => by
    have hid := (isspace_of_wellFormed (hwf _ (List.mem_cons_self _ _))).1
    rcases hlink with ⟨b, p, h1, h2, h3, h4⟩ | ⟨_, _, h⟩
    · subst h2
      rw [List.length_cons, encodeLines, buildAuctions_inherit _ id _ built b hid h1, h3,
        newAuctionInfo_fixed id [] p h4, inheritPrices]
      rw [buildAuctions_encodeLines rest (built ++ [newAuctionInfo id (some p)]) (some p)
        (fun l hl => hwf l (List.mem_cons_of_mem _ hl))
        (fun l hl => hlen l (List.mem_cons_of_mem _ hl))
        (Or.inl ⟨newAuctionInfo id (some p), p, by simp, rfl, rfl, h4⟩)]
      simp
    · exact absurd rfl (h (id, none) rfl)
  | (id, some q) :: rest, built, last, hwf, hlen, hlink => by
    have hw := isspace_of_wellFormed (hwf _ (List.mem_cons_self _ _))
    have hq := hlen _ (List.mem_cons_self _ _) q rfl
    rw [List.length_cons, encodeLines]
    have e : id ++ ' ' :: q ++ '\n' :: encodeLines rest
        = id ++ ' ' :: q ++ '\n' :: encodeLines rest := rfl
    rw [buildAuctions_stated _ id q _ built hw.1 (hw.2 q rfl), inheritPrices]
    rw [buildAuctions_encodeLines rest (built ++ [newAuctionInfo id (some q)]) (some q)
      (fun l hl => hwf l (List.mem_cons_of_mem _ hl))
      (fun l hl => hlen l (List.mem_cons_of_mem _ hl))
      (Or.inl ⟨newAuctionInfo id (some q), q, by simp, rfl, rfl, hq⟩)]
    simp

theorem readAuctionFile_rejected (file : CStr) (h : parseLines [] (fileLines file) = none) :
    readAuctionFile (some file) = .value (-1, []) := by
  have h1 := (readAuctionLines_parse (file.length + 1) file [] (by omega)).1 h
  simp only [encodeLines, List.length_nil, Nat.cast_zero] at h1
  unfold readAuctionFile
  simp only []
  rw [h1]
  rfl

theorem readAuctionFile_accepted (file : CStr) (lines : List (CStr × Option CStr))
    (h : parseLines [] (fileLines file) = some lines)
    (hlen : ∀ l ∈ lines, ∀ p, l.2 = some p → p.length < 2 ^ 64) :
    readAuctionFile (some file)
      = .value ((lines.length : Int),
          (inheritPrices none lines).map (fun l => newAuctionInfo l.1 l.2)) := by
  have h1 := (readAuctionLines_parse (file.length + 1) file [] (by omega)).2 lines h
  simp only [encodeLines, List.length_nil, Nat.cast_zero] at h1
  obtain ⟨hwf, hhead⟩ := parseLines_wellFormed (fileLines file) [] lines
    (fun l hl => absurd hl (List.not_mem_nil _)) (fun l hl => by simp at hl) h
  unfold readAuctionFile
  simp only []
  rw [h1]
  simp only []
  by_cases hpos : (lines.length : Int) > 0
  · rw [if_pos hpos, Int.toNat_ofNat,
      buildAuctions_encodeLines lines [] none hwf hlen (Or.inr ⟨rfl, rfl, hhead⟩)]
    simp
  · rw [if_neg hpos]
    have : lines = [] := by
      cases lines with
      | nil => rfl
      | cons a t =>
        simp only [List.length_cons] at hpos
        push_cast at hpos
        omega
    rw [this]
    rfl

theorem inheritPrices_none_run : ∀ (lines : List (CStr × Option CStr)) (last : Option CStr)
    (m : Nat) (id : CStr), lines[m]? = some (id, none) →
    (∀ k, k < m → ∃ idk, lines[k]? = some (idk, none)) →
    (inheritPrices last lines)[m]? = some (id, last)
  | [], _, _, _, h, _ => by simp at h
  | (a, none) :: rest, last, 0, id, h, _ => by
    simp only [List.getElem?_cons_zero, Option.some.injEq, Prod.mk.injEq, and_true] at h
    simp [inheritPrices, h]
  | (a, some q) :: rest, last, 0, id, h, _ => by simp at h
  | (a, none) :: rest, last, m + 1, id, h, hk => by
    simp only [List.getElem?_cons_succ] at h
    simp only [inheritPrices, List.getElem?_cons_succ]
    apply inheritPrices_none_run rest last m id h
    intro k hkm
    have := hk (k + 1) (by omega)
    simpa using this
  | (a, some q) :: rest, last, m + 1, id, h, hk => by
    obtain ⟨idk, h0⟩ := hk 0 (by omega)
    simp at h0

theorem inheritPrices_nearest : ∀ (lines : List (CStr × Option CStr)) (last : Option CStr)
    (j i : Nat) (idj id p : CStr), lines[j]? = some (idj, some p) → j < i →
    lines[i]? = some (id, none) →
    (∀ k, j < k → k < i → ∃ idk, lines[k]? = some (idk, none)) →
    (inheritPrices last lines)[j]? = some (idj, some p) ∧
    (inheritPrices last lines)[i]? = some (id, some p)
  | [], _, _, _, _, _, _, h, _, _, _ => by simp at h
  | l :: rest, last, 0, i + 1, idj, id, p, hj, _, hi, hk => by
    simp only [List.getElem?_cons_zero, Option.some.injEq] at hj
    subst hj
    simp only [List.getElem?_cons_succ] at hi
    simp only [inheritPrices, List.getElem?_cons_zero, List.getElem?_cons_succ, true_and]
    apply inheritPrices_none_run rest (some p) i id hi
    intro k hki
    have := hk (k + 1) (by omega) (by omega)
    simpa using this
  | l :: rest, last, j + 1, 0, _, _, _, _, hji, _, _ => by omega
  | (a, none) :: rest, last, j + 1, i + 1, idj, id, p, hj, hji, hi, hk => by
    simp only [List.getElem?_cons_succ] at hj hi
    simp only [inheritPrices, List.getElem?_cons_succ]
    apply inheritPrices_nearest rest last j i idj id p hj (by omega) hi
    intro k h1 h2
    have := hk (k + 1) (by omega) (by omega)
    simpa using this
  | (a, some q) :: rest, last, j + 1, i + 1, idj, id, p, hj, hji, hi, hk => by
    simp only [List.getElem?_cons_succ] at hj hi
    simp only [inheritPrices, List.getElem?_cons_succ]
    apply inheritPrices_nearest rest (some q) j i idj id p hj (by omega) hi
    intro k h1 h2
    have := hk (k + 1) (by omega) (by omega)
    simpa using this

/-! ## Malformed lines -/

theorem isspace_cases (c : Char) (h : isspace c = true) :
    c = ' ' ∨ c = '\t' ∨ c = '\n' ∨ c = '\x0b' ∨ c = '\x0c' ∨ c = '\r' := by
  simpa [isspace, or_assoc] using h

theorem isspace_not_isdigit (c : Char) (h : isspace c = true) : isdigit c = false := by
  rcases isspace_cases c h with e | e | e | e | e | e <;> rw [e] <;> decide

theorem isspace_not_isPriceChar (c : Char) (h : isspace c = true) : isPriceChar c = false := by
  rcases isspace_cases c h with e | e | e | e | e | e <;> rw [e] <;> decide

theorem isPriceChar_cases (c : Char) (h : isPriceChar c = true) :
    isdigit c = true ∨ c = '.' ∨ c = ',' := by
  simpa [isPriceChar, or_assoc] using h

theorem isPriceChar_not_isspace (c : Char) (h : isPriceChar c = true) : isspace c = false := by
  rcases isPriceChar_cases c h with e | e | e
  · exact isdigit_not_isspace c e
  · rw [e]; decide
  · rw [e]; decide

theorem isPriceChar_ne_hash (c : Char) (h : isPriceChar c = true) : c ≠ '#' := by
  intro e
  rw [e] at h
  exact absurd h (by decide)

theorem isdigit_isPriceChar (c : Char) (h : isdigit c = true) : isPriceChar c = true := by
  simp [isPriceChar, h]

theorem dropWhile_of_head (f : Char → Bool) (l : CStr) (h : ∀ c ∈ l.head?, f c = false) :
    l.dropWhile f = l := by
  cases l with
  | nil => rfl
  | cons a t =>
    rw [List.dropWhile_cons_of_neg]
    rw [h a rfl]
    exact Bool.false_ne_true

theorem takeWhile_of_head (f : Char → Bool) (l : CStr) (h : ∀ c ∈ l.head?, f c = false) :
    l.takeWhile f = [] := by
  cases l with
  | nil => rfl
  | cons a t =>
    rw [List.takeWhile_cons_of_neg]
    rw [h a rfl]
    exact Bool.false_ne_true

/-- A line whose first byte after white space is neither `#`, a letter nor a
digit is malformed. -/
theorem classifyLine_bad_start (blanks : CStr) (c : Char) (tail : CStr)
    (hb : ∀ b ∈ blanks, isspace b = true) (hc : isspace c = false) (hh : c ≠ '#')
    (ha : isalpha c = false) (hd : isdigit c = false) :
    classifyLine (blanks ++ c :: tail) = .invalid := by
  unfold classifyLine
  rw [dropWhile_append_all isspace blanks _ hb,
    List.dropWhile_cons_of_neg (by rw [hc]; exact Bool.false_ne_true)]
  simp only [hh, ha, hd, Bool.false_eq_true, or_self, if_false]

/-- An auction line on which the number is followed, after white space or
directly, by a byte that does not start a price or a comment is malformed. -/
theorem classifyLine_bad_price (blanks : CStr) (d0 : Char) (ds lb : CStr) (x : Char)
    (tail : CStr) (hb : ∀ b ∈ blanks, isspace b = true) (hd0 : isdigit d0 = true)
    (hds : ∀ d ∈ ds, isdigit d = true) (hlb : ∀ b ∈ lb, isspace b = true)
    (hx : isspace x = false) (hh : x ≠ '#') (hp : isPriceChar x = false) :
    classifyLine (blanks ++ d0 :: ds ++ lb ++ x :: tail) = .invalid := by
  have hxd : isdigit x = false := by
    cases hxd : isdigit x with
    | false => rfl
    | true => rw [isdigit_isPriceChar x hxd] at hp; exact absurd hp (by decide)
  have hd0s : isspace d0 = false := isdigit_not_isspace d0 hd0
  have hd0h : d0 ≠ '#' := isPriceChar_ne_hash d0 (isdigit_isPriceChar d0 hd0)
  have hd0a : isalpha d0 = false := by
    have := isdigit_cases d0 hd0
    simp only [List.mem_cons, List.mem_singleton, List.not_mem_nil, or_false] at this
    rcases this with h | h | h | h | h | h | h | h | h | h <;> subst h <;> decide
  have hhead : ∀ c ∈ (lb ++ x :: tail).head?, isdigit c = false := by
    intro c hc
    cases lb with
    | nil =>
      simp only [List.nil_append, List.head?_cons, Option.mem_def, Option.some.injEq] at hc
      rw [← hc]
      exact hxd
    | cons b t =>
      simp only [List.cons_append, List.head?_cons, Option.mem_def, Option.some.injEq] at hc
      rw [← hc]
      exact isspace_not_isdigit b (hlb b (List.mem_cons_self _ _))
  unfold classifyLine
  have e1 : blanks ++ d0 :: ds ++ lb ++ x :: tail = blanks ++ (d0 :: (ds ++ (lb ++ x :: tail))) := by
    simp
  rw [e1, dropWhile_append_all isspace blanks _ hb,
    List.dropWhile_cons_of_neg (by rw [hd0s]; exact Bool.false_ne_true)]
  simp only [hd0h, hd0a, hd0, Bool.false_eq_true, or_self, if_false, if_true]
  rw [List.dropWhile_cons_of_pos hd0, dropWhile_append_all isdigit ds _ hds,
    dropWhile_of_head isdigit _ hhead, dropWhile_append_all isspace lb _ hlb,
    List.dropWhile_cons_of_neg (by rw [hx]; exact Bool.false_ne_true)]
  simp only [hh, if_false]
  rw [List.dropWhile_cons_of_neg (by rw [hp]; exact Bool.false_ne_true),
    List.dropWhile_cons_of_neg (by rw [hx]; exact Bool.false_ne_true)]
  simp only [hh, if_false]

/-- An auction line on which the price is followed, after white space or
directly, by a byte that does not start a comment is malformed. -/
theorem classifyLine_bad_rest (blanks : CStr) (d0 : Char) (ds lb : CStr) (p0 : Char)
    (ps lb2 : CStr) (x : Char) (tail : CStr) (hb : ∀ b ∈ blanks, isspace b = true)
    (hd0 : isdigit d0 = true) (hds : ∀ d ∈ ds, isdigit d = true)
    (hlb : ∀ b ∈ lb, isspace b = true) (hp0 : isPriceChar p0 = true)
    (hps : ∀ p ∈ ps, isPriceChar p = true) (hsep : lb ≠ [] ∨ isdigit p0 = false)
    (hlb2 : ∀ b ∈ lb2, isspace b = true) (hx : isspace x = false) (hh : x ≠ '#')
    (hend : lb2 ≠ [] ∨ isPriceChar x = false) :
    classifyLine (blanks ++ d0 :: ds ++ lb ++ p0 :: ps ++ lb2 ++ x :: tail) = .invalid := by
  have hd0s : isspace d0 = false := isdigit_not_isspace d0 hd0
  have hd0h : d0 ≠ '#' := isPriceChar_ne_hash d0 (isdigit_isPriceChar d0 hd0)
  have hd0a : isalpha d0 = false := by
    have := isdigit_cases d0 hd0
    simp only [List.mem_cons, List.mem_singleton, List.not_mem_nil, or_false] at this
    rcases this with h | h | h | h | h | h | h | h | h | h <;> subst h <;> decide
  have hp0s : isspace p0 = false := isPriceChar_not_isspace p0 hp0
  have hp0h : p0 ≠ '#' := isPriceChar_ne_hash p0 hp0
  have hhead : ∀ c ∈ (lb ++ (p0 :: (ps ++ (lb2 ++ x :: tail)))).head?, isdigit c = false := by
    intro c hc
    cases lb with
    | nil =>
      simp only [List.nil_append, List.head?_cons, Option.mem_def, Option.some.injEq] at hc
      rw [← hc]
      rcases hsep with h | h
      · exact absurd rfl h
      · exact h
    | cons b t =>
      simp only [List.cons_append, List.head?_cons, Option.mem_def, Option.some.injEq] at hc
      rw [← hc]
      exact isspace_not_isdigit b (hlb b (List.mem_cons_self _ _))
  have hhead2 : ∀ c ∈ (lb2 ++ x :: tail).head?, isPriceChar c = false := by
    intro c hc
    cases lb2 with
    | nil =>
      simp only [List.nil_append, List.head?_cons, Option.mem_def, Option.some.injEq] at hc
      rw [← hc]
      rcases hend with h | h
      · exact absurd rfl h
      · exact h
    | cons b t =>
      simp only [List.cons_append, List.head?_cons, Option.mem_def, Option.some.injEq] at hc
      rw [← hc]
      exact isspace_not_isPriceChar b (hlb2 b (List.mem_cons_self _ _))
  unfold classifyLine
  have e1 : blanks ++ d0 :: ds ++ lb ++ p0 :: ps ++ lb2 ++ x :: tail
      = blanks ++ (d0 :: (ds ++ (lb ++ (p0 :: (ps ++ (lb2 ++ x :: tail)))))) := by
    simp
  rw [e1, dropWhile_append_all isspace blanks _ hb,
    List.dropWhile_cons_of_neg (by rw [hd0s]; exact Bool.false_ne_true)]
  simp only [hd0h, hd0a, hd0, Bool.false_eq_true, or_self, if_false, if_true]
  rw [List.dropWhile_cons_of_pos hd0, dropWhile_append_all isdigit ds _ hds,
    dropWhile_of_head isdigit _ hhead, dropWhile_append_all isspace lb _ hlb,
    List.dropWhile_cons_of_neg (by rw [hp0s]; exact Bool.false_ne_true)]
  simp only [hp0h, if_false]
  rw [List.dropWhile_cons_of_pos hp0, dropWhile_append_all isPriceChar ps _ hps,
    dropWhile_of_head isPriceChar _ hhead2, dropWhile_append_all isspace lb2 _ hlb2,
    List.dropWhile_cons_of_neg (by rw [hx]; exact Bool.false_ne_true)]
  simp only [hh, if_false]

theorem atof_dot : atof ".".toList = 0 := by
  rw [atof_of_parts ".".toList [] [] 0 0 (by decide) (by decide) (by decide) (by decide)]
  norm_num [roundDouble_zero]

/-! ## Prices taken from the line before -/

/-- C32: for every auction file that `readAuctionFile` accepts (every line is
a blank line, a comment, an option or an auction line with nothing after its
price but a comment, and the first auction line states a price; price texts
are shorter than 2^64 bytes), the function returns the number of auction
lines and one record for each in their order, and the record of a line that
states no price has the bid price text and value of the record of the nearest
preceding auction line that states a price: both are what `newAuctionInfo`
makes of that price. -/
theorem readAuctionFile_inherits (file : CStr) (lines : List (CStr × Option CStr))
    (hparse : parseLines [] (fileLines file) = some lines)
    (hlen : ∀ l ∈ lines, (l.2.getD []).length < 2 ^ 64) :
    readAuctionFile (some file)
      = .value ((lines.length : Int),
          (inheritPrices none lines).map (fun l => newAuctionInfo l.1 l.2)) ∧
    (∀ l ∈ lines, WellFormedLine l) ∧
    ∀ (j i : Nat) (idj id p : CStr), lines[j]? = some (idj, some p) → j < i →
      lines[i]? = some (id, none) →
      (∀ k, j < k → k < i → ∃ idk, lines[k]? = some (idk, none)) →
      ((inheritPrices none lines).map (fun l => newAuctionInfo l.1 l.2))[j]?
        = some (newAuctionInfo idj (some p)) ∧
      ((inheritPrices none lines).map (fun l => newAuctionInfo l.1 l.2))[i]?
        = some (newAuctionInfo id (some p)) ∧
      (newAuctionInfo id (some p)).bidPriceStr = (newAuctionInfo idj (some p)).bidPriceStr ∧
      (newAuctionInfo id (some p)).bidPrice = (newAuctionInfo idj (some p)).bidPrice := by
  refine ⟨?_, ?_, ?_⟩
  · apply readAuctionFile_accepted file lines hparse
    intro l hl p hp
    have := hlen l hl
    rw [hp] at this
    exact this
  · exact (parseLines_wellFormed (fileLines file) [] lines
      (fun l hl => absurd hl (List.not_mem_nil _)) (fun l hl => by simp at hl) hparse).1
  · intro j i idj id p hj hji hi hk
    obtain ⟨h1, h2⟩ := inheritPrices_nearest lines none j i idj id p hj hji hi hk
    refine ⟨?_, ?_, rfl, rfl⟩
    · rw [List.getElem?_map, h1]
      rfl
    · rw [List.getElem?_map, h2]
      rfl

/-- C32, an instance: a file with comments, an option and five auction lines,
of which the second, the third and the fifth state no price. -/
theorem readAuctionFile_inherits_witness :
    readAuctionFile (some exampleAuctionFile)
      = .value (5,
          [newAuctionInfo "1234".toList (some "5.50".toList),
           newAuctionInfo "1235".toList (some "5.50".toList),
           newAuctionInfo "1236".toList (some "5.50".toList),
           newAuctionInfo "1237".toList (some "1,000.50".toList),
           newAuctionInfo "1238".toList (some "1,000.50".toList)]) ∧
    (newAuctionInfo "1238".toList (some "1,000.50".toList)).bidPriceStr
      = some "1000.50".toList :=
  ⟨(readAuctionFile_inherits exampleAuctionFile
      [("1234".toList, some "5.50".toList), ("1235".toList, none), ("1236".toList, none),
       ("1237".toList, some "1,000.50".toList), ("1238".toList, none)]
      (by decide) (by decide)).1,
    by decide⟩

/-! ## Files that are rejected -/

/-- C33, counterexample: a price that consists of `.` or of `,` only is
accepted, with the bid price text `.` and the bid price 0 for the line `1 .`;
a line that starts with a letter is skipped as an option, whatever follows;
and digits directly followed by `.5` are read as the number 12 with the price
`.5`. -/
theorem readAuctionFile_punctuation_counterexample :
    readAuctionFile (some "1 .\n".toList)
      = .value (1, [newAuctionInfo "1".toList (some ".".toList)]) ∧
    (newAuctionInfo "1".toList (some ".".toList)).bidPriceStr = some ".".toList ∧
    (newAuctionInfo "1".toList (some ".".toList)).bidPrice = 0 ∧
    readAuctionFile (some "7 ,,\n".toList)
      = .value (1, [newAuctionInfo "7".toList (some ",,".toList)]) ∧
    readAuctionFile (some "x1 5\n1 5\n".toList)
      = .value (1, [newAuctionInfo "1".toList (some "5".toList)]) ∧
    readAuctionFile (some "12.5\n".toList)
      = .value (1, [newAuctionInfo "12".toList (some ".5".toList)]) := by
  refine ⟨rfl, by decide, ?_, rfl, rfl, rfl⟩
  show atof ".".toList = 0
  exact atof_dot

/-- C33, amended: `readAuctionFile` rejects the whole file (returns -1 and
builds no records) whenever some line of it is malformed. Malformed are: a
line whose first byte after white space is neither a digit, a letter nor `#`;
an auction line (one that starts with a digit) on which the digits are
followed, directly or after white space, by a byte that is neither a digit,
`.`, `,` nor `#`; and an auction line on which the price, a run of digits, `.`
and `,`, is followed, directly or after white space, by a byte other than
`#`. -/
theorem readAuctionFile_rejects (file line : CStr) (hline : line ∈ fileLines file)
    (hbad : classifyLine line = .invalid) :
    readAuctionFile (some file) = .value (-1, []) ∧
    (∀ (blanks : CStr) (c : Char) (tail : CStr), (∀ b ∈ blanks, isspace b = true) →
      isspace c = false → c ≠ '#' → isalpha c = false → isdigit c = false →
      classifyLine (blanks ++ c :: tail) = .invalid) ∧
    (∀ (blanks : CStr) (d0 : Char) (ds lb : CStr) (x : Char) (tail : CStr),
      (∀ b ∈ blanks, isspace b = true) → isdigit d0 = true → (∀ d ∈ ds, isdigit d = true) →
      (∀ b ∈ lb, isspace b = true) → isspace x = false → x ≠ '#' → isPriceChar x = false →
      classifyLine (blanks ++ d0 :: ds ++ lb ++ x :: tail) = .invalid) ∧
    (∀ (blanks : CStr) (d0 : Char) (ds lb : CStr) (p0 : Char) (ps lb2 : CStr) (x : Char)
      (tail : CStr), (∀ b ∈ blanks, isspace b = true) → isdigit d0 = true →
      (∀ d ∈ ds, isdigit d = true) → (∀ b ∈ lb, isspace b = true) → isPriceChar p0 = true →
      (∀ p ∈ ps, isPriceChar p = true) → (lb ≠ [] ∨ isdigit p0 = false) →
      (∀ b ∈ lb2, isspace b = true) → isspace x = false → x ≠ '#' →
      (lb2 ≠ [] ∨ isPriceChar x = false) →
      classifyLine (blanks ++ d0 :: ds ++ lb ++ p0 :: ps ++ lb2 ++ x :: tail) = .invalid) :=
  ⟨readAuctionFile_rejected file (parseLines_invalid (fileLines file) [] line hline hbad),
    classifyLine_bad_start, classifyLine_bad_price, classifyLine_bad_rest⟩

/-- C33, amended, an instance: the second auction line has text after its
price. -/
theorem readAuctionFile_rejects_witness :
    "3 4 5".toList ∈ fileLines "# c\n1 2\n3 4 5\n".toList ∧
    classifyLine "3 4 5".toList = .invalid ∧
    readAuctionFile (some "# c\n1 2\n3 4 5\n".toList) = .value (-1, []) ∧
    classifyLine "12ab 5".toList = .invalid ∧ classifyLine "$5".toList = .invalid :=
  ⟨by decide, by decide,
    (readAuctionFile_rejects "# c\n1 2\n3 4 5\n".toList "3 4 5".toList (by decide)
      (by decide)).1,
    by decide, by decide⟩

/-! ## Matching input -/

theorem foldInput_append (a b : CStr) : foldInput (a ++ b) = foldInput a ++ foldInput b := by
  simp [foldInput]

theorem tolower_upper_ne (c : Char) (hr : 'A' ≤ c ∧ c ≤ 'Z') :
    Char.ofNat (c.toNat + 32) ≠ '\n' ∧ Char.ofNat (c.toNat + 32) ≠ '\r' := by
  have h1 : (65 : Nat) ≤ c.toNat := hr.1
  have h2 : c.toNat ≤ 90 := hr.2
  generalize c.toNat = n at h1 h2
  interval_cases n <;> decide

theorem tolower_eq_lf (c : Char) : tolower c = '\n' ↔ c = '\n' := by
  unfold tolower
  constructor
  · intro h
    split at h
    · next hr => exact absurd h (tolower_upper_ne c hr).1
    · exact h
  · intro h
    rw [h]
    rfl

theorem tolower_eq_cr (c : Char) : tolower c = '\r' ↔ c = '\r' := by
  unfold tolower
  constructor
  · intro h
    split at h
    · next hr => exact absurd h (tolower_upper_ne c hr).2
    · exact h
  · intro h
    rw [h]
    rfl

theorem foldInput_cons_line (c : Char) (t : CStr) (h : c = '\n' ∨ c = '\r') :
    foldInput (c :: t) = foldInput t := by
  unfold foldInput
  rw [List.filter_cons_of_neg]
  rcases h with h | h <;> simp [h]

theorem foldInput_cons_other (c : Char) (t : CStr) (h : c ≠ '\n' ∧ c ≠ '\r') :
    foldInput (c :: t) = tolower c :: foldInput t := by
  unfold foldInput
  rw [List.filter_cons_of_pos (by simpa using h), List.map_cons]

theorem getLast_cons_of_ne (c : Char) {tl : CStr} (h : tl ≠ []) :
    (c :: tl).getLast? = tl.getLast? := by
  cases tl with
  | nil => exact absurd rfl h
  | cons a t => exact List.getLast?_cons_cons

theorem byteAt_drop (s : CStr) (i : Nat) (h : i < s.length) :
    s.drop i = byteAt s i :: s.drop (i + 1) :=
  drop_eq_byteAt_cons s i h

theorem byteAt_mem_of_lt (s : CStr) (i : Nat) (h : i < s.length) : byteAt s i ∈ s :=
  byteAt_mem h

/-- What `match` has read when it returns 0 ends in an occurrence of `str`. -/
theorem matchLoop_sound (s : CStr) (hline : ∀ c ∈ s, c ≠ '\n' ∧ c ≠ '\r') :
    ∀ (input : CStr) (cursor : Nat) (rest : CStr), cursor < s.length →
    matchLoop s input cursor = .value (some rest) →
    ∃ pre occ, input = pre ++ occ ++ rest ∧
      (foldInput occ = s ∨ (pre = [] ∧ foldInput occ = s.drop cursor))
  | [], _, _, _, h => by simp [matchLoop] at h
  | c :: tl, cursor, rest, hc, h => by
    have ih := matchLoop_sound s hline tl
    rw [matchLoop] at h
    split at h
    · next hm =>
      have hnl : c ≠ '\n' ∧ c ≠ '\r' := by
        have hmem := hline _ (byteAt_mem_of_lt s cursor hc)
        rw [← hm] at hmem
        exact ⟨fun e => hmem.1 ((tolower_eq_lf c).mpr e), fun e => hmem.2 ((tolower_eq_cr c).mpr e)⟩
      split at h
      · next hlast =>
        simp only [Defined.value.injEq, Option.some.injEq] at h
        subst h
        refine ⟨[], [c], by simp, Or.inr ⟨rfl, ?_⟩⟩
        rw [foldInput_cons_other c [] hnl, byteAt_drop s cursor hc, hm,
          List.drop_eq_nil_of_le (by omega)]
        rfl
      · split at h
        · next hlt =>
          obtain ⟨pre, occ, h1, h2⟩ := ih (cursor + 1) rest hlt h
          rcases h2 with h2 | ⟨h2, h3⟩
          · exact ⟨c :: pre, occ, by rw [h1]; simp, Or.inl h2⟩
          · subst h2
            refine ⟨[], c :: occ, by rw [h1]; simp, Or.inr ⟨rfl, ?_⟩⟩
            rw [foldInput_cons_other c occ hnl, h3, byteAt_drop s cursor hc, hm]
        · exact Defined.noConfusion h
    · split at h
      · obtain ⟨pre, occ, h1, h2⟩ := ih 0 rest (by omega) h
        refine ⟨c :: pre, occ, by rw [h1]; simp, Or.inl ?_⟩
        rcases h2 with h2 | ⟨_, h3⟩
        · exact h2
        · rw [h3]; rfl
      · next hnot =>
        have hcl : c = '\n' ∨ c = '\r' := by
          by_contra hcon
          push_neg at hcon
          exact hnot hcon
        obtain ⟨pre, occ, h1, h2⟩ := ih cursor rest hc h
        rcases h2 with h2 | ⟨h2, h3⟩
        · exact ⟨c :: pre, occ, by rw [h1]; simp, Or.inl h2⟩
        · subst h2
          refine ⟨[], c :: occ, by rw [h1]; simp, Or.inr ⟨rfl, ?_⟩⟩
          rw [foldInput_cons_line c occ hcl, h3]

/-- With a pattern that is not empty `match` returns 0 or -1. -/
theorem matchLoop_defined (s : CStr) : ∀ (input : CStr) (cursor : Nat), cursor < s.length →
    ∃ r, matchLoop s input cursor = .value r
  | [], _, _ => ⟨none, rfl⟩
  | c :: tl, cursor, hc => by
    have ih := matchLoop_defined s tl
    rw [matchLoop]
    split
    · split
      · exact ⟨_, rfl⟩
      · split
        · next hlt => exact ih _ hlt
        · omega
    · split
      · exact ih 0 (by omega)
      · exact ih cursor hc

/-- Bytes that differ from the first byte of the pattern leave the cursor at
the start of the pattern. -/
theorem matchLoop_skip (s : CStr) : ∀ (pre input : CStr),
    (∀ c ∈ pre, tolower c ≠ byteAt s 0) →
    matchLoop s (pre ++ input) 0 = matchLoop s input 0
  | [], _, _ => rfl
  | c :: pre, input, h => by
    rw [List.cons_append, matchLoop, if_neg (h c (List.mem_cons_self _ _))]
    have ih := matchLoop_skip s pre input (fun x hx => h x (List.mem_cons_of_mem _ hx))
    split <;> exact ih

/-- From the start of an occurrence on, the pattern is matched. -/
theorem matchLoop_occurrence (s : CStr) (hline : ∀ c ∈ s, c ≠ '\n' ∧ c ≠ '\r') :
    ∀ (occ rest : CStr) (cursor : Nat), cursor < s.length → foldInput occ = s.drop cursor →
    (∀ c, occ.getLast? = some c → c ≠ '\n' ∧ c ≠ '\r') →
    matchLoop s (occ ++ rest) cursor = .value (some rest)
  | [], rest, cursor, hc, h, _ => by
    exfalso
    have := congrArg List.length h
    simp [foldInput] at this
    omega
  | c :: tl, rest, cursor, hc, h, hlast => by
    have ih := matchLoop_occurrence s hline tl rest
    have hdrop := byteAt_drop s cursor hc
    have hmem := hline _ (byteAt_mem_of_lt s cursor hc)
    rw [List.cons_append, matchLoop]
    by_cases hcl : c = '\n' ∨ c = '\r'
    · have hne : tolower c ≠ byteAt s cursor := by
        intro e
        rcases hcl with e1 | e1
        · exact hmem.1 (by rw [← e, (tolower_eq_lf c).mpr e1])
        · exact hmem.2 (by rw [← e, (tolower_eq_cr c).mpr e1])
      rw [if_neg hne, if_neg (by push_neg; intro h1; by_contra h2; exact hcl.elim h1 h2)]
      rw [foldInput_cons_line c tl hcl] at h
      have htl : tl ≠ [] := by
        intro e
        rw [e] at hlast
        have := hlast c rfl
        exact hcl.elim this.1 this.2
      apply ih cursor hc h
      intro x hx
      exact hlast x (by rw [getLast_cons_of_ne c htl]; exact hx)
    · push_neg at hcl
      rw [foldInput_cons_other c tl hcl, hdrop] at h
      have h1 := (List.cons.inj h).1
      have h2 := (List.cons.inj h).2
      rw [if_pos h1]
      by_cases hl : cursor + 1 = s.length
      · rw [if_pos hl]
        rw [List.drop_eq_nil_of_le (by omega)] at h2
        have htl : tl = [] := by
          by_contra hne
          obtain ⟨x, hx⟩ : ∃ x, tl.getLast? = some x := by
            cases hg : tl.getLast? with
            | none => exact absurd (List.getLast?_eq_none_iff.mp hg) hne
            | some x => exact ⟨x, rfl⟩
          have hxl := hlast x (by rw [getLast_cons_of_ne c hne]; exact hx)
          have hxm : x ∈ tl := List.mem_of_getLast?_eq_some hx
          have : tolower x ∈ foldInput tl := by
            unfold foldInput
            exact List.mem_map_of_mem _ (List.mem_filter.mpr ⟨hxm, by simpa using hxl⟩)
          rw [h2] at this
          exact List.not_mem_nil _ this
        rw [htl]
        rfl
      · rw [if_neg hl, if_pos (by omega)]
        apply ih (cursor + 1) (by omega) h2
        intro x hx
        by_cases htl : tl = []
        · rw [htl] at hx
          exact absurd hx (by simp)
        · exact hlast x (by rw [getLast_cons_of_ne c htl]; exact hx)

theorem matchLoop_occurrence_found (s : CStr) (hline : ∀ c ∈ s, c ≠ '\n' ∧ c ≠ '\r') :
    ∀ (occ rest : CStr) (cursor : Nat), cursor < s.length → foldInput occ = s.drop cursor →
    ∃ r, matchLoop s (occ ++ rest) cursor = .value (some r)
  | [], rest, cursor, hc, h => by
    exfalso
    have := congrArg List.length h
    simp [foldInput] at this
    omega
  | c :: tl, rest, cursor, hc, h => by
    have ih := matchLoop_occurrence_found s hline tl rest
    have hdrop := byteAt_drop s cursor hc
    have hmem := hline _ (byteAt_mem_of_lt s cursor hc)
    rw [List.cons_append, matchLoop]
    by_cases hcl : c = '\n' ∨ c = '\r'
    · have hne : tolower c ≠ byteAt s cursor := by
        intro e
        rcases hcl with e1 | e1
        · exact hmem.1 (by rw [← e, (tolower_eq_lf c).mpr e1])
        · exact hmem.2 (by rw [← e, (tolower_eq_cr c).mpr e1])
      rw [if_neg hne, if_neg (by push_neg; intro h1; by_contra h2; exact hcl.elim h1 h2)]
      rw [foldInput_cons_line c tl hcl] at h
      exact ih cursor hc h
    · push_neg at hcl
      rw [foldInput_cons_other c tl hcl, hdrop] at h
      have h1 := (List.cons.inj h).1
      have h2 := (List.cons.inj h).2
      rw [if_pos h1]
      by_cases hl : cursor + 1 = s.length
      · rw [if_pos hl]
        exact ⟨_, rfl⟩
      · rw [if_neg hl, if_pos (by omega)]
        exact ih (cursor + 1) (by omega) h2

/-- Reading a part of the input either completes a match or leaves the cursor
somewhere in the pattern. -/
theorem matchLoop_initial (s : CStr) : ∀ (pre : CStr) (cursor : Nat), cursor < s.length →
    (∃ r, ∀ y, matchLoop s (pre ++ y) cursor = .value (some (r ++ y))) ∨
    (∃ cursor1, cursor1 < s.length ∧ ∀ y, matchLoop s (pre ++ y) cursor = matchLoop s y cursor1)
  | [], cursor, hc => Or.inr ⟨cursor, hc, fun _ => rfl⟩
  | c :: tl, cursor, hc => by
    have ih := matchLoop_initial s tl
    by_cases hm : tolower c = byteAt s cursor
    · by_cases hl : cursor + 1 = s.length
      · refine Or.inl ⟨tl, fun y => ?_⟩
        rw [List.cons_append, matchLoop, if_pos hm, if_pos hl]
      · rcases ih (cursor + 1) (by omega) with ⟨r, hr⟩ | ⟨k, hk, hr⟩
        · refine Or.inl ⟨r, fun y => ?_⟩
          rw [List.cons_append, matchLoop, if_pos hm, if_neg hl, if_pos (by omega)]
          exact hr y
        · refine Or.inr ⟨k, hk, fun y => ?_⟩
          rw [List.cons_append, matchLoop, if_pos hm, if_neg hl, if_pos (by omega)]
          exact hr y
    · by_cases hcl : c ≠ '\n' ∧ c ≠ '\r'
      · rcases ih 0 (by omega) with ⟨r, hr⟩ | ⟨k, hk, hr⟩
        · refine Or.inl ⟨r, fun y => ?_⟩
          rw [List.cons_append, matchLoop, if_neg hm, if_pos hcl]
          exact hr y
        · refine Or.inr ⟨k, hk, fun y => ?_⟩
          rw [List.cons_append, matchLoop, if_neg hm, if_pos hcl]
          exact hr y
      · rcases ih cursor hc with ⟨r, hr⟩ | ⟨k, hk, hr⟩
        · refine Or.inl ⟨r, fun y => ?_⟩
          rw [List.cons_append, matchLoop, if_neg hm, if_neg hcl]
          exact hr y
        · refine Or.inr ⟨k, hk, fun y => ?_⟩
          rw [List.cons_append, matchLoop, if_neg hm, if_neg hcl]
          exact hr y

theorem foldInput_of_line : ∀ (gap : CStr), (∀ c ∈ gap, c = '\n' ∨ c = '\r') → foldInput gap = []
  | [], _ => rfl
  | c :: t, h => by
    rw [foldInput_cons_line c t (h c (List.mem_cons_self _ _))]
    exact foldInput_of_line t (fun x hx => h x (List.mem_cons_of_mem _ hx))

/-- An occurrence that directly follows a byte that is not in the pattern (CR
and LF aside) is found, unless the pattern was found before. -/
theorem matchLoop_after_other (s : CStr) (hs : s ≠ []) (hline : ∀ c ∈ s, c ≠ '\n' ∧ c ≠ '\r')
    (pre : CStr) (x : Char) (gap occ rest : CStr) (hx : tolower x ∉ s)
    (hxl : x ≠ '\n' ∧ x ≠ '\r') (hgap : ∀ c ∈ gap, c = '\n' ∨ c = '\r')
    (hocc : foldInput occ = s) :
    ∃ r, matchLoop s (pre ++ x :: gap ++ occ ++ rest) 0 = .value (some r) := by
  have hpos : 0 < s.length := List.length_pos.mpr hs
  have hshape : pre ++ x :: gap ++ occ ++ rest = pre ++ (x :: ((gap ++ occ) ++ rest)) := by simp
  rw [hshape]
  rcases matchLoop_initial s pre 0 hpos with ⟨r, hr⟩ | ⟨k, hk, hr⟩
  · exact ⟨_, hr _⟩
  · rw [hr, matchLoop,
      if_neg (fun e => hx (by rw [e]; exact byteAt_mem_of_lt s k hk)), if_pos hxl]
    apply matchLoop_occurrence_found s hline (gap ++ occ) rest 0 hpos
    rw [foldInput_append, foldInput_of_line gap hgap, List.nil_append, hocc, List.drop_zero]

theorem matchStr_of_loop (mp : MemBuf) (s rest : CStr)
    (h : matchLoop s mp.unread 0 = .value (some rest)) : matchStr mp s = .value (0, mp.seek rest) := by
  unfold matchStr
  rw [h]

/-- C34, counterexample: `aab` occurs in `aaab`, and `name="uiid"` in
`<input nname="uiid">`, but `match` returns -1: the byte at which a partial
match fails is not looked at again as the start of a match. The pattern `a`,
LF, `b` is matched in the same input, in which it does not occur once LF is
ignored. And the empty pattern, which occurs in every input, is not
matched. -/
theorem matchStr_counterexample :
    matchStr (strToMemBuf "aaab".toList) "aab".toList
      = .value (-1, { strToMemBuf "aaab".toList with readptr := 4 }) ∧
    occursFolded "aab".toList (strToMemBuf "aaab".toList).unread = true ∧
    matchStr (strToMemBuf "<input nname=\"uiid\">".toList) "name=\"uiid\"".toList
      = .value (-1, { strToMemBuf "<input nname=\"uiid\">".toList with readptr := 20 }) ∧
    occursFolded "name=\"uiid\"".toList
      (strToMemBuf "<input nname=\"uiid\">".toList).unread = true ∧
    matchStr (strToMemBuf "a\nb".toList) "a\nb".toList
      = .value (0, { strToMemBuf "a\nb".toList with readptr := 3 }) ∧
    occursFolded "a\nb".toList (strToMemBuf "a\nb".toList).unread = false ∧
    matchStr (strToMemBuf "abc".toList) []
      = .value (-1, { strToMemBuf "abc".toList with readptr := 3 }) ∧
    occursFolded [] (strToMemBuf "abc".toList).unread = true := by
  refine ⟨rfl, by decide, rfl, by decide, rfl, by decide, rfl, by decide⟩

/-- C34, amended: for every buffer and every pattern `s` that is not empty
and holds neither CR nor LF, `match` returns 0 or -1, and it returns 0 only
when `s` occurs in the unread input as a substring under case-insensitive
comparison with CR and LF ignored. It returns 0, with the read pointer after
the occurrence, when `s` so occurs after bytes that all differ, in either
case, from the first byte of `s`; and it returns 0 when `s` so occurs right
after a byte, CR and LF aside, of which neither case occurs in `s`. -/
theorem matchStr_occurs (mp : MemBuf) (s : CStr) (hs : s ≠ [])
    (hline : ∀ c ∈ s, c ≠ '\n' ∧ c ≠ '\r') :
    (∃ mp1, matchStr mp s = .value (0, mp1) ∨ matchStr mp s = .value (-1, mp1)) ∧
    (∀ mp1, matchStr mp s = .value (0, mp1) → occursFolded s mp.unread = true) ∧
    (∀ pre occ rest : CStr, mp.unread = pre ++ occ ++ rest →
      (∀ c ∈ pre, tolower c ≠ byteAt s 0) → foldInput occ = s →
      (∀ c, occ.getLast? = some c → c ≠ '\n' ∧ c ≠ '\r') →
      matchStr mp s = .value (0, mp.seek rest)) ∧
    (∀ (pre : CStr) (x : Char) (gap occ rest : CStr),
      mp.unread = pre ++ x :: gap ++ occ ++ rest → tolower x ∉ s → x ≠ '\n' ∧ x ≠ '\r' →
      (∀ c ∈ gap, c = '\n' ∨ c = '\r') → foldInput occ = s →
      ∃ mp1, matchStr mp s = .value (0, mp1)) := by
  have hpos : 0 < s.length := List.length_pos.mpr hs
  refine ⟨?_, ?_, ?_, ?_⟩
  · obtain ⟨r, hr⟩ := matchLoop_defined s mp.unread 0 hpos
    unfold matchStr
    rw [hr]
    cases r with
    | none => exact ⟨_, Or.inr rfl⟩
    | some rest => exact ⟨_, Or.inl rfl⟩
  · intro mp1 h
    obtain ⟨r, hr⟩ := matchLoop_defined s mp.unread 0 hpos
    cases r with
    | none =>
      unfold matchStr at h
      rw [hr] at h
      simp at h
    | some rest =>
      obtain ⟨pre, occ, h1, h2⟩ := matchLoop_sound s hline mp.unread 0 rest hpos hr
      have hocc : foldInput occ = s := by
        rcases h2 with h2 | ⟨_, h2⟩
        · exact h2
        · rw [h2]; rfl
      unfold occursFolded
      rw [decide_eq_true_eq, h1, foldInput_append, foldInput_append, hocc]
      exact ⟨_, _, rfl⟩
  · intro pre occ rest hun hpre hocc hlast
    apply matchStr_of_loop
    rw [hun, List.append_assoc, matchLoop_skip s pre _ hpre]
    exact matchLoop_occurrence s hline occ rest 0 hpos (by rw [hocc]; rfl) hlast
  · intro pre x gap occ rest hun hx hxl hgap hocc
    obtain ⟨r, hr⟩ := matchLoop_after_other s hs hline pre x gap occ rest hx hxl hgap hocc
    rw [← hun] at hr
    exact ⟨_, matchStr_of_loop mp s r hr⟩

/-- C34, amended, an instance: a form field whose name is written in upper
case and broken by a line end. -/
theorem matchStr_occurs_witness :
    matchStr (strToMemBuf "<input type=\"hidden\" NAME=\r\n\"uiid\" value=\"x\">".toList)
        "name=\"uiid\"".toList
      = .value (0,
          { strToMemBuf "<input type=\"hidden\" NAME=\r\n\"uiid\" value=\"x\">".toList with
            readptr := 34 }) ∧
    ∃ mp1, matchStr (strToMemBuf
        "<input type=\"hidden\" NAME=\r\n\"uiid\" value=\"x\">".toList)
        "name=\"uiid\"".toList = .value (0, mp1) :=
  ⟨rfl,
    (matchStr_occurs
      (strToMemBuf "<input type=\"hidden\" NAME=\r\n\"uiid\" value=\"x\">".toList)
      "name=\"uiid\"".toList (by decide) (by decide)).2.2.2
      "<input type=\"hidden\"".toList ' ' [] "NAME=\r\n\"uiid\"".toList
      " value=\"x\">".toList (by decide) (by decide) (by decide) (by decide) (by decide)⟩

/-! ## The increment and the minimum price -/

theorem pricedRecord_winning (price bidPrice : ℚ) :
    bidIncrement (pricedRecord price bidPrice 1) = 0 := by
  norm_num [bidIncrement, pricedRecord, newAuctionInfoWith]

/-- C35, counterexample: on records on which the user is the high bidder, so
that no increment is added, (a) with the price 0.13 and the bid 0.1299 the
decimal numbers satisfy `bid >= price - 0.0001`, yet `isValidBidPrice` returns
false: the difference formed in `double` is 0.12990000000000002, the bid
0.1299 in `double` is less; (b) with the price 0.04 and the bid 0.0399,
`isValidBidPrice` returns true, although the bid price that the record holds
is less than the price that it holds, less 0.0001. -/
theorem isValidBidPrice_increment_counterexample :
    (isValidBidPrice (pricedRecord 0.13 0.1299 1) = false ∧
      (0.1299 : ℚ) ≥ 0.13 - 0.0001) ∧
    (isValidBidPrice (pricedRecord 0.04 0.0399 1) = true ∧
      ¬ ((pricedRecord 0.04 0.0399 1).bidPrice
          ≥ (pricedRecord 0.04 0.0399 1).price - 0.0001)) := by
  refine ⟨⟨?_, by norm_num⟩, ⟨?_, ?_⟩⟩
  · have hv : ¬ isValidBidPrice (pricedRecord 0.13 0.1299 1) = true := by
      rw [isValidBidPrice_eq, pricedRecord_winning, doubleSub, EPSILON_eq]
      norm_num [pricedRecord, newAuctionInfoWith, roundDouble_p13, roundDouble_again13,
        roundDouble_b1299, roundDouble_t1299]
    simpa using hv
  · rw [isValidBidPrice_eq, pricedRecord_winning, doubleSub, EPSILON_eq]
    norm_num [pricedRecord, newAuctionInfoWith, roundDouble_p04, roundDouble_again04,
      roundDouble_b0399, roundDouble_t04]
  · norm_num [pricedRecord, newAuctionInfoWith, roundDouble_p04, roundDouble_b0399]

/-- C35, amended: `isValidBidPrice` adds the increment of the table only when
`quantityBid = quantity` and `winning = 0`; in every other case the increment
is 0 and the function returns true exactly when `bidPrice` is at least the
value that the arithmetic of `double` gives for `price + 0.0 - 0.0001`. For a
price from 0 to 10^11 that value lies between `price - 0.0002` and `price`: a
bid of at least the price is valid, and a valid bid is at least
`price - 0.0002`. -/
theorem isValidBidPrice_increment (aip : AuctionInfo) :
    (aip.quantityBid = aip.quantity ∧ aip.winning = 0 →
      bidIncrement aip = lookupIncrement (getIncrements aip) aip.price ∧
      (isValidBidPrice aip = true ↔
        aip.bidPrice ≥ doubleSub (doubleAdd aip.price
          (lookupIncrement (getIncrements aip) aip.price)) (roundDouble 0.0001))) ∧
    (¬ (aip.quantityBid = aip.quantity ∧ aip.winning = 0) →
      bidIncrement aip = 0 ∧
      (isValidBidPrice aip = true ↔
        aip.bidPrice ≥ doubleSub (doubleAdd aip.price 0.0) (roundDouble 0.0001)) ∧
      (0 ≤ aip.price → aip.price ≤ 100000000000 →
        (aip.bidPrice ≥ aip.price → isValidBidPrice aip = true) ∧
        (isValidBidPrice aip = true → aip.bidPrice ≥ aip.price - 0.0002))) := by
  constructor
  · intro h
    have hinc : bidIncrement aip = lookupIncrement (getIncrements aip) aip.price := by
      unfold bidIncrement
      rw [if_pos h]
    refine ⟨hinc, ?_⟩
    simp only [isValidBidPrice, hinc, decide_eq_true_eq, EPSILON]
  · intro h
    have hinc : bidIncrement aip = 0 := by
      unfold bidIncrement
      rw [if_neg h]
      norm_num
    refine ⟨hinc, ?_, ?_⟩
    · simp only [isValidBidPrice, hinc, decide_eq_true_eq, EPSILON]
      norm_num
    · intro h0 h1
      have hb := isValidBidPrice_bounds aip (by rw [hinc, add_zero]; exact h0)
        (by rw [hinc, add_zero]; exact h1)
      rw [hinc, add_zero] at hb
      exact hb

/-! ## The quantity to bid on -/

/-- C36: for every desired quantity `want >= 1` and available quantity
`available >= 1`, `getQuantity` returns `q` with `1 <= q <= want`, and
`q <= available - 1` whenever `available > 1`. -/
theorem getQuantity_bounds (want available : Int) (hw : 1 ≤ want) (ha : 1 ≤ available) :
    1 ≤ getQuantity want available ∧ getQuantity want available ≤ want ∧
    (1 < available → getQuantity want available ≤ available - 1) := by
  unfold getQuantity
  split_ifs <;> omega

/-- C36, an instance: 5 items wanted, 3 available. -/
theorem getQuantity_bounds_witness :
    (1 : Int) ≤ 5 ∧ (1 : Int) ≤ 3 ∧ getQuantity 5 3 = 2 ∧ getQuantity 5 3 ≤ 3 - 1 :=
  ⟨by decide, by decide, by decide,
    (getQuantity_bounds 5 3 (by decide) (by decide)).2.2 (by decide)⟩

/-! ## The sleep never passes the bid time -/

/-- C37: for every remaining time `R > 0` the sleep time `s` of the watch loop
satisfies `0 < s <= R`; it is `R` itself when `R <= 150`, and whenever
`R > 150` it leaves `R - s >= 120` seconds. This `s` is the time that the end
of the loop body of `watch` sleeps when the remaining time it computes is
`R`. -/
theorem sleepSchedule_bounds (R : Int) (hR : 0 < R) :
    0 < sleepSchedule R ∧ sleepSchedule R ≤ R ∧ (R ≤ 150 → sleepSchedule R = R) ∧
    (150 < R → 120 ≤ R - sleepSchedule R) ∧
    ∀ (W : Type) (env : Collaborators W) (opts : Options) (st : WatchState)
      (aip : AuctionInfo) (w : W), (newRemain env opts aip w).1 = R →
      watchSleep env opts st aip w
        = if (newRemain env opts aip
                (env.sleep (sleepSchedule R) (newRemain env opts aip w).2)).1 ≤ 0 then
            .returned 0 aip (newRemain env opts aip
                (env.sleep (sleepSchedule R) (newRemain env opts aip w).2)).2
          else
            .again
              { st with
                remain := (newRemain env opts aip
                  (env.sleep (sleepSchedule R) (newRemain env opts aip w).2)).1
                sleepTime := sleepSchedule R } aip
              (newRemain env opts aip
                (env.sleep (sleepSchedule R) (newRemain env opts aip w).2)).2 := by
  refine ⟨?_, ?_, ?_, ?_, ?_⟩
  · unfold sleepSchedule toUnsignedInt
    split_ifs <;> omega
  · unfold sleepSchedule toUnsignedInt
    split_ifs <;> omega
  · intro h
    unfold sleepSchedule toUnsignedInt
    rw [if_pos h]
    omega
  · intro h
    unfold sleepSchedule toUnsignedInt
    split_ifs <;> omega
  · intro W env opts st aip w h
    unfold watchSleep
    simp only [h]
    rw [if_neg (by omega)]

/-- C37, an instance: 200 seconds are left. -/
theorem sleepSchedule_bounds_witness :
    (0 : Int) < 200 ∧ sleepSchedule 200 = 80 ∧ (120 : Int) ≤ 200 - sleepSchedule 200 :=
  ⟨by decide, by decide, (sleepSchedule_bounds 200 (by decide)).2.2.2.1 (by decide)⟩

/-! ## What the purge leaves -/

theorem purgeVerdict_keep_iff (a : AuctionInfo) (next : Option AuctionInfo) (now : Int) :
    purgeVerdict a next now = .keep ↔
      sameAuction a next = false ∧ a.won ≤ 0 ∧ a.auctionError = ae_none ∧ now < a.endTime
        ∧ isValidBidPrice a = true := by
  unfold purgeVerdict
  constructor
  · intro h
    split at h
    · exact PurgeVerdict.noConfusion h
    · next h1 =>
      split at h
      · exact PurgeVerdict.noConfusion h
      · next h2 =>
        split at h
        · exact PurgeVerdict.noConfusion h
        · next h3 =>
          split at h
          · exact PurgeVerdict.noConfusion h
          · next h4 =>
            push_neg at h3
            exact ⟨by simpa using h1, by omega, h3.1, h3.2, by simpa using h4⟩
  · rintro ⟨h1, h2, h3, h4, h5⟩
    rw [if_neg (by rw [h1]; exact Bool.false_ne_true), if_neg (by omega),
      if_neg (by push_neg; exact ⟨h3, h4⟩), if_neg (by simp [h5])]

theorem purgeLoop_count (clock : Nat → Int) : ∀ (auctions : List AuctionInfo) (i : Nat)
    (quantity : Int),
    (((purgeLoop clock i auctions quantity).1.filterMap id).length : Int)
      = (auctions.length : Int) - (purgeLoop clock i auctions quantity).2.2
  | [], _, _ => by simp [purgeLoop]
  | a :: rest, i, q => by
    rw [purgeLoop_cons]
    generalize (if purgeVerdict a rest.head? (clock i) = .won then toInt (q - a.won) else q) = q1
    have ih := purgeLoop_count clock rest (i + 1) q1
    by_cases hk : purgeVerdict a rest.head? (clock i) = .keep
    · simp only [if_pos hk, List.filterMap_cons_some (by rfl : id (some a) = some a),
        List.length_cons, add_zero]
      push_cast
      omega
    · simp only [if_neg hk, List.filterMap_cons_none (by rfl : id (none : Option AuctionInfo) = none),
        List.length_cons]
      push_cast
      omega

theorem purgeLoop_sublist (clock : Nat → Int) : ∀ (auctions : List AuctionInfo) (i : Nat)
    (quantity : Int), ((purgeLoop clock i auctions quantity).1.filterMap id).Sublist auctions
  | [], _, _ => by simp [purgeLoop]
  | a :: rest, i, q => by
    rw [purgeLoop_cons]
    generalize (if purgeVerdict a rest.head? (clock i) = .won then toInt (q - a.won) else q) = q1
    have ih := purgeLoop_sublist clock rest (i + 1) q1
    by_cases hk : purgeVerdict a rest.head? (clock i) = .keep
    · simp only [if_pos hk, List.filterMap_cons_some (by rfl : id (some a) = some a)]
      exact ih.cons₂ a
    · simp only [if_neg hk, List.filterMap_cons_none (by rfl : id (none : Option AuctionInfo) = none)]
      exact ih.cons a

theorem purgeLoop_survivor (clock : Nat → Int) : ∀ (auctions : List AuctionInfo) (i : Nat)
    (quantity : Int) (a : AuctionInfo),
    a ∈ (purgeLoop clock i auctions quantity).1.filterMap id →
    ∃ j, auctions[j]? = some a ∧ purgeVerdict a auctions[j + 1]? (clock (i + j)) = .keep
  | [], _, _, a, h => by simp [purgeLoop] at h
  | b :: rest, i, q, a, h => by
    rw [purgeLoop_cons] at h
    generalize (if purgeVerdict b rest.head? (clock i) = .won then toInt (q - b.won) else q) = q1
      at h
    have hhead : (b :: rest)[0 + 1]? = rest.head? := by
      cases rest <;> simp
    have ih := purgeLoop_survivor clock rest (i + 1) q1 a
    by_cases hk : purgeVerdict b rest.head? (clock i) = .keep
    · simp only [if_pos hk, List.filterMap_cons_some (by rfl : id (some b) = some b),
        List.mem_cons] at h
      rcases h with h | h
      · subst h
        exact ⟨0, by simp, by rw [hhead]; exact hk⟩
      · obtain ⟨j, h1, h2⟩ := ih h
        refine ⟨j + 1, by simpa using h1, ?_⟩
        have e : i + (j + 1) = i + 1 + j := by omega
        rw [e]
        simpa using h2
    · simp only [if_neg hk,
        List.filterMap_cons_none (by rfl : id (none : Option AuctionInfo) = none)] at h
      obtain ⟨j, h1, h2⟩ := ih h
      refine ⟨j + 1, by simpa using h1, ?_⟩
      have e : i + (j + 1) = i + 1 + j := by omega
      rw [e]
      simpa using h2

theorem purgeAuctions_entries (clock : Nat → Int) (auctions : List AuctionInfo) (quantity : Int) :
    (purgeAuctions clock auctions quantity).2.1
      = (purgeLoop clock 0 auctions quantity).1.filterMap id := by
  unfold purgeAuctions
  simp only []
  split
  · rfl
  · next h =>
    exact (purgeLoop_kept_all clock auctions 0 quantity (by simpa using h)).symm

theorem purgeAuctions_return (clock : Nat → Int) (auctions : List AuctionInfo) (quantity : Int) :
    (purgeAuctions clock auctions quantity).1
      = (((purgeLoop clock 0 auctions quantity).1.filterMap id).length : Int) := by
  rw [purgeLoop_count]
  unfold purgeAuctions
  simp only []
  split
  · rfl
  · next h =>
    have h0 : (purgeLoop clock 0 auctions quantity).2.2 = 0 := by simpa using h
    rw [h0, sub_zero]

/-- C39: the purge and compaction phase of `sortAuctions` returns the number
of entries that it leaves; these are the entries that the purge loop did not
set to `NULL`, in the order that they had in the array, and the loop keeps the
entry at index `j` exactly when its verdict on it is `keep`. Every entry left
has the error kind `ae_none`, `won <= 0`, an end time later than the time
read in its pass of the loop, a bid price that `isValidBidPrice` accepts, and
is not directly followed by an entry for the same auction. -/
theorem purgeAuctions_survivors (clock : Nat → Int) (auctions : List AuctionInfo)
    (quantity : Int) :
    (purgeAuctions clock auctions quantity).1
      = ((purgeAuctions clock auctions quantity).2.1.length : Int) ∧
    (purgeAuctions clock auctions quantity).2.1
      = (purgeLoop clock 0 auctions quantity).1.filterMap id ∧
    ((purgeAuctions clock auctions quantity).2.1).Sublist auctions ∧
    (∀ (j : Nat) (a : AuctionInfo), auctions[j]? = some a →
      (purgeLoop clock 0 auctions quantity).1[j]?
        = some (if purgeVerdict a auctions[j + 1]? (clock j) = .keep then some a else none)) ∧
    ∀ a ∈ (purgeAuctions clock auctions quantity).2.1, ∃ j, auctions[j]? = some a ∧
      a.auctionError = ae_none ∧ a.won ≤ 0 ∧ clock j < a.endTime ∧ isValidBidPrice a = true ∧
      ∀ b, auctions[j + 1]? = some b → a.auction ≠ b.auction := by
  refine ⟨?_, purgeAuctions_entries clock auctions quantity, ?_, ?_, ?_⟩
  · rw [purgeAuctions_return, purgeAuctions_entries]
  · rw [purgeAuctions_entries]
    exact purgeLoop_sublist clock auctions 0 quantity
  · intro j a h
    have := purgeLoop_slot clock auctions 0 quantity j a h
    rwa [Nat.zero_add] at this
  · intro a ha
    rw [purgeAuctions_entries] at ha
    obtain ⟨j, h1, h2⟩ := purgeLoop_survivor clock auctions 0 quantity a ha
    rw [Nat.zero_add] at h2
    obtain ⟨k1, k2, k3, k4, k5⟩ := (purgeVerdict_keep_iff a _ _).mp h2
    refine ⟨j, h1, k3, k2, k4, k5, ?_⟩
    intro b hb hsame
    rw [hb] at k1
    simp [sameAuction, hsame] at k1

/-! ## Ids without a trailing dash -/

theorem strchr_of_not_mem : ∀ (s : CStr) (c : Char), c ∉ s → strchr s c = none
  | [], _, _ => rfl
  | a :: s, c, h => by
    rw [strchr, if_neg (fun (e : a = c) => h (by rw [e]; exact List.mem_cons_self _ _))]
    exact strchr_of_not_mem s c (fun hm => h (List.mem_cons_of_mem _ hm))

theorem strchr_append_of_not_mem : ∀ (pre post : CStr) (c : Char), c ∉ pre →
    strchr (pre ++ c :: post) c = some (c :: post)
  | [], post, c, _ => by simp [strchr]
  | a :: pre, post, c, h => by
    rw [List.cons_append, strchr, if_neg (fun (e : a = c) => h (by rw [e]; exact List.mem_cons_self _ _))]
    exact strchr_append_of_not_mem pre post c (fun hm => h (List.mem_cons_of_mem _ hm))

/-- C40: when no `-` follows the marker, `getIdInternal` does not report the
id as not found: `strchr` returns `NULL` and the test `!*dash` dereferences
it. When a `-` follows, the text between the marker and the first `-` is
returned. A page that ends inside the comment `<!--srcId: ViewItem` brings
`getPageInfo` there, since `getTag` returns the text of a comment that the
end of the document cuts short; with the comment closed, the source id is
`ViewItem`. -/
theorem getIdInternal_without_dash :
    (∀ marker id : CStr, '-' ∉ id → getIdInternal (marker ++ id) marker.length = .undefined) ∧
    (∀ marker pre post : CStr, '-' ∉ pre →
      getIdInternal (marker ++ pre ++ '-' :: post) marker.length = .value (some pre)) ∧
    (getTag { openCommentPage with readptr := 8 }).1 = some "!--srcId: ViewItem".toList ∧
    getPageInfo openCommentPage = .undefined ∧
    getPageInfo closedCommentPage
      = .value (some { pageName := none, pageId := none, srcId := some "ViewItem".toList },
          closedCommentPage) := by
  refine ⟨?_, ?_, by decide, rfl, rfl⟩
  · intro marker id h
    unfold getIdInternal
    simp only [List.drop_left]
    rw [strchr_of_not_mem id '-' h]
  · intro marker pre post h
    unfold getIdInternal
    simp only [List.append_assoc, List.drop_left]
    rw [strchr_append_of_not_mem pre post '-' h]
    simp

end Esniper
